import Mathlib

/-!
# Search_tree (src/Search Tree/Search_tree.h)

A shallow embedding of the threaded AVL tree.  The C++ object graph is a
pointer structure with two kinds of links per node (owning `left_tree` /
`right_tree`, non-owning `previous_node` / `next_node`), so the embedding keeps
an explicit heap: a pointer is `Option Nat` (`none` is `nullptr`), the heap is a
list of cells indexed by address, `new` appends a cell and `delete` empties it.

The template parameter `Type` is instantiated at the integers.  Keys are only
compared, never computed with; `tree_height` and `tree_size` change by one per
call, so the width of `int` plays no role and both are modelled in `Int`.

Every function that can fail to return a value returns `Except Fault _`.
Recursive member functions take a fuel argument; the public operations supply
`heap.length` of it, which exceeds the length of every simple path of nodes.
-/

/-- Ways in which a call fails to produce a value. -/
inductive Fault where
  /-- a member other than `height()` was accessed through `nullptr` -/
  | null_dereference
  /-- a deleted (or never allocated) node was accessed -/
  | dangling
  /-- the exception `underflow` thrown by `front()` and `back()` -/
  | underflow
  /-- the recursion went deeper than the supplied fuel -/
  | out_of_fuel
  deriving DecidableEq, Repr

deriving instance DecidableEq for Except

/-- The class `Search_tree<int>::Node`: the six member variables. -/
structure Search_tree.Node where
  node_value : Int
  tree_height : Int
  left_tree : Option Nat
  right_tree : Option Nat
  previous_node : Option Nat
  next_node : Option Nat
  deriving DecidableEq, Repr

/-- The class `Search_tree<int>` together with the heap its pointers refer to. -/
structure Search_tree where
  heap : List (Option Search_tree.Node)
  root_node : Option Nat
  tree_size : Int
  front_sentinel : Option Nat
  back_sentinel : Option Nat
  deriving DecidableEq, Repr

namespace Search_tree

/-- A variable of type `Node *` that a `Node *&` parameter can be bound to:
the tree's `root_node`, or the `left_tree` / `right_tree` member of a node. -/
inductive Slot where
  | root_node
  | left_tree (owner : Nat)
  | right_tree (owner : Nat)
  deriving DecidableEq, Repr

/-- An object a `Type const &` parameter can be bound to: a value of the caller,
or the `node_value` member of a node. -/
inductive KeyRef where
  | value (k : Int)
  | node_value (owner : Nat)
  deriving DecidableEq, Repr

/-- The address held by a pointer that is about to be dereferenced. -/
def address (p : Option Nat) : Except Fault Nat :=
  match p with
  | none => .error .null_dereference
  | some a => .ok a

/-- Read the node stored at address `a`. -/
def load (t : Search_tree) (a : Nat) : Except Fault Node :=
  match t.heap.get? a with
  | some (some n) => .ok n
  | _ => .error .dangling

/-- Apply `f` to the node stored at address `a` (an assignment to its members). -/
def modify (t : Search_tree) (a : Nat) (f : Node → Node) : Except Fault Search_tree :=
  match t.load a with
  | .ok n => .ok { t with heap := t.heap.set a (some (f n)) }
  | .error e => .error e

/-- The expression `new Node( obj )`: the constructor leaves every link null
and the height 0. -/
def alloc (t : Search_tree) (obj : Int) : Nat × Search_tree :=
  (t.heap.length,
   { t with heap := t.heap ++ [some
      { node_value := obj, tree_height := 0, left_tree := none, right_tree := none,
        previous_node := none, next_node := none }] })

/-- The statement `delete this`. -/
def free (t : Search_tree) (a : Nat) : Except Fault Search_tree :=
  match t.load a with
  | .ok _ => .ok { t with heap := t.heap.set a none }
  | .error e => .error e

/-- Assignment through a `Node *&`. -/
def assign (t : Search_tree) (to_this : Slot) (p : Option Nat) : Except Fault Search_tree :=
  match to_this with
  | .root_node => .ok { t with root_node := p }
  | .left_tree a => t.modify a (fun n => { n with left_tree := p })
  | .right_tree a => t.modify a (fun n => { n with right_tree := p })

/-- Read through a `Type const &`. -/
def key (t : Search_tree) (obj : KeyRef) : Except Fault Int :=
  match obj with
  | .value k => .ok k
  | .node_value a => do
    let n ← t.load a
    pure n.node_value

/-- The constructor `Search_tree()`: two sentinels `Node( Type() )`, the front
one allocated first, pointing at each other. -/
def new : Search_tree :=
  { heap :=
      [some { node_value := 0, tree_height := 0, left_tree := none, right_tree := none,
              previous_node := none, next_node := some 1 },
       some { node_value := 0, tree_height := 0, left_tree := none, right_tree := none,
              previous_node := some 0, next_node := none }],
    root_node := none,
    tree_size := 0,
    front_sentinel := some 0,
    back_sentinel := some 1 }

/-- The fuel the public operations hand to the recursive member functions. -/
def fuel (t : Search_tree) : Nat := t.heap.length

/-- `Node::height`: `( this == nullptr ) ? -1 : tree_height`. -/
def Node.height (t : Search_tree) (this : Option Nat) : Except Fault Int :=
  match this with
  | none => .ok (-1)
  | some a => do
    let n ← t.load a
    pure n.tree_height

/-- `Node::update_height`. -/
def Node.update_height (t : Search_tree) (this : Nat) : Except Fault Search_tree := do
  let n ← t.load this
  let hl ← Node.height t n.left_tree
  let hr ← Node.height t n.right_tree
  t.modify this (fun m => { m with tree_height := max hl hr + 1 })

/-- `Node::is_leaf`. -/
def Node.is_leaf (t : Search_tree) (this : Nat) : Except Fault Bool := do
  let n ← t.load this
  pure (n.left_tree == none && n.right_tree == none)

/-- `Node::front`: leftmost descent. -/
def Node.front : Nat → Search_tree → Nat → Except Fault Nat
  | 0, _, _ => .error .out_of_fuel
  | fuel + 1, t, this => do
    let n ← t.load this
    match n.left_tree with
    | none => pure this
    | some l => Node.front fuel t l

/-- `Node::back`: rightmost descent. -/
def Node.back : Nat → Search_tree → Nat → Except Fault Nat
  | 0, _, _ => .error .out_of_fuel
  | fuel + 1, t, this => do
    let n ← t.load this
    match n.right_tree with
    | none => pure this
    | some r => Node.back fuel t r

/-- `Node::find`: the result is a `Node *`, null when the descent falls off. -/
def Node.find : Nat → Search_tree → Nat → Int → Except Fault (Option Nat)
  | 0, _, _, _ => .error .out_of_fuel
  | fuel + 1, t, this, obj => do
    let n ← t.load this
    if obj = n.node_value then
      pure (some this)
    else if obj < n.node_value then
      match n.left_tree with
      | none => pure none
      | some l => Node.find fuel t l obj
    else
      match n.right_tree with
      | none => pure none
      | some r => Node.find fuel t r obj

/-- `Node::balanceLeft`.  The locals `b`, `BR`, `d`, `DL`, `DR` are read before
the assignments, as in the source; each assignment is one step on the heap. -/
def Node.balanceLeft (t : Search_tree) (this : Nat) (to_this : Slot) :
    Except Fault Search_tree := do
  let n ← t.load this
  if n.left_tree = none then
    pure t
  else
    -- right_tree == nullptr || (left_tree->height() - right_tree->height() == 2)
    let enter ← (if n.right_tree = none then pure true else do
      let hl ← Node.height t n.left_tree
      let hr ← Node.height t n.right_tree
      pure (decide (hl - hr = 2)) : Except Fault Bool)
    if enter then
      let l ← address n.left_tree
      let ln ← t.load l
      let hll ← Node.height t ln.left_tree
      let hlr ← Node.height t ln.right_tree
      if hll > hlr then
        -- Case 1: b = left_tree, BR = b->right_tree
        let b := l
        let BR := ln.right_tree
        let t ← t.modify b (fun m => { m with right_tree := some this })
        let t ← t.assign to_this (some b)
        t.modify this (fun m => { m with left_tree := BR })
      else if hll < hlr then
        -- Case 2: b = left_tree, d = b->right_tree, DL = d->left_tree, DR = d->right_tree
        let b := l
        let d ← address ln.right_tree
        let dn ← t.load d
        let DL := dn.left_tree
        let DR := dn.right_tree
        let t ← t.modify d (fun m => { m with left_tree := some b })
        let t ← t.modify d (fun m => { m with right_tree := some this })
        let t ← t.assign to_this (some d)
        let t ← t.modify b (fun m => { m with right_tree := DL })
        t.modify this (fun m => { m with left_tree := DR })
      else
        pure t
    else
      pure t

/-- `Node::balanceRight`.  In case 2 the source reads `d = b->right_tree`. -/
def Node.balanceRight (t : Search_tree) (this : Nat) (to_this : Slot) :
    Except Fault Search_tree := do
  let n ← t.load this
  if n.right_tree = none then
    pure t
  else
    -- left_tree == nullptr || (right_tree->height() - left_tree->height() == 2)
    let enter ← (if n.left_tree = none then pure true else do
      let hr ← Node.height t n.right_tree
      let hl ← Node.height t n.left_tree
      pure (decide (hr - hl = 2)) : Except Fault Bool)
    if enter then
      let r ← address n.right_tree
      let rn ← t.load r
      let hrr ← Node.height t rn.right_tree
      let hrl ← Node.height t rn.left_tree
      if hrr > hrl then
        -- Case 1: b = right_tree, BL = b->left_tree
        let b := r
        let BL := rn.left_tree
        let t ← t.modify b (fun m => { m with left_tree := some this })
        let t ← t.assign to_this (some b)
        t.modify this (fun m => { m with right_tree := BL })
      else if hrr < hrl then
        -- Case 2: b = right_tree, d = b->right_tree, DL = d->left_tree, DR = d->right_tree
        let b := r
        let d ← address rn.right_tree
        let dn ← t.load d
        let DL := dn.left_tree
        let DR := dn.right_tree
        let t ← t.modify d (fun m => { m with right_tree := some b })
        let t ← t.modify d (fun m => { m with left_tree := some this })
        let t ← t.assign to_this (some d)
        let t ← t.modify b (fun m => { m with left_tree := DR })
        t.modify this (fun m => { m with right_tree := DL })
      else
        pure t
    else
      pure t

/-- The four chain assignments of `Node::insert` after `left_tree = new Node( obj )`. -/
def Node.splice_before (t : Search_tree) (this : Nat) : Except Fault Search_tree := do
  -- this->previous_node->next_node = left_tree
  let n ← t.load this
  let p ← address n.previous_node
  let t ← t.modify p (fun m => { m with next_node := n.left_tree })
  -- left_tree->previous_node = this->previous_node
  let n ← t.load this
  let l ← address n.left_tree
  let t ← t.modify l (fun m => { m with previous_node := n.previous_node })
  -- this->previous_node = left_tree
  let n ← t.load this
  let t ← t.modify this (fun m => { m with previous_node := n.left_tree })
  -- left_tree->next_node = this
  let n ← t.load this
  let l ← address n.left_tree
  t.modify l (fun m => { m with next_node := some this })

/-- The four chain assignments of `Node::insert` after `right_tree = new Node( obj )`. -/
def Node.splice_after (t : Search_tree) (this : Nat) : Except Fault Search_tree := do
  -- this->next_node->previous_node = right_tree
  let n ← t.load this
  let x ← address n.next_node
  let t ← t.modify x (fun m => { m with previous_node := n.right_tree })
  -- right_tree->next_node = this->next_node
  let n ← t.load this
  let r ← address n.right_tree
  let t ← t.modify r (fun m => { m with next_node := n.next_node })
  -- this->next_node = right_tree
  let n ← t.load this
  let t ← t.modify this (fun m => { m with next_node := n.right_tree })
  -- right_tree->previous_node = this
  let n ← t.load this
  let r ← address n.right_tree
  t.modify r (fun m => { m with previous_node := some this })

/-- `Node::insert`. -/
def Node.insert : Nat → Search_tree → Nat → Int → Slot → Except Fault (Bool × Search_tree)
  | 0, _, _, _, _ => .error .out_of_fuel
  | fuel + 1, t, this, obj, to_this => do
    let n ← t.load this
    if obj < n.node_value then
      match n.left_tree with
      | none =>
        let (a, t) := t.alloc obj
        let t ← t.modify this (fun m => { m with left_tree := some a })
        let t ← Node.splice_before t this
        let t ← Node.update_height t this
        pure (true, t)
      | some l =>
        let (inserted, t) ← Node.insert fuel t l obj (.left_tree this)
        if inserted then
          let t ← Node.balanceLeft t this to_this
          let t ← Node.update_height t this
          pure (true, t)
        else
          pure (false, t)
    else if obj > n.node_value then
      match n.right_tree with
      | none =>
        let (a, t) := t.alloc obj
        let t ← t.modify this (fun m => { m with right_tree := some a })
        let t ← Node.splice_after t this
        let t ← Node.update_height t this
        pure (true, t)
      | some r =>
        let (inserted, t) ← Node.insert fuel t r obj (.right_tree this)
        if inserted then
          let t ← Node.balanceRight t this to_this
          let t ← Node.update_height t this
          pure (true, t)
        else
          pure (false, t)
    else
      pure (false, t)

/-- The three statements shared by the leaf and one-child cases of
`Node::erase`: `to_this = child`, the two chain assignments, `delete this`. -/
def Node.unlink (t : Search_tree) (this : Nat) (to_this : Slot) (child : Option Nat) :
    Except Fault Search_tree := do
  let t ← t.assign to_this child
  -- this->previous_node->next_node = this->next_node
  let n ← t.load this
  let p ← address n.previous_node
  let t ← t.modify p (fun m => { m with next_node := n.next_node })
  -- this->next_node->previous_node = this->previous_node
  let n ← t.load this
  let x ← address n.next_node
  let t ← t.modify x (fun m => { m with previous_node := n.previous_node })
  t.free this

/-- `Node::erase`.  The key is a reference: the both-children case passes
`node_value` itself to the recursive call.  The `assert` in the last branch
holds for integers whenever that branch is reached. -/
def Node.erase : Nat → Search_tree → Nat → KeyRef → Slot → Except Fault (Bool × Search_tree)
  | 0, _, _, _, _ => .error .out_of_fuel
  | fuel + 1, t, this, obj, to_this => do
    let n ← t.load this
    let k ← t.key obj
    if k < n.node_value then
      match n.left_tree with
      | none => pure (false, t)
      | some l =>
        let (erased, t) ← Node.erase fuel t l obj (.left_tree this)
        if erased then
          let t ← Node.balanceRight t this to_this
          let t ← Node.update_height t this
          pure (true, t)
        else
          pure (false, t)
    else if k > n.node_value then
      match n.right_tree with
      | none => pure (false, t)
      | some r =>
        let (erased, t) ← Node.erase fuel t r obj (.right_tree this)
        if erased then
          let t ← Node.balanceLeft t this to_this
          let t ← Node.update_height t this
          pure (true, t)
        else
          pure (false, t)
    else
      match n.left_tree, n.right_tree with
      | none, none => do
        let t ← Node.unlink t this to_this none
        pure (true, t)
      | none, some r => do
        let t ← Node.unlink t this to_this (some r)
        pure (true, t)
      | some l, none => do
        let t ← Node.unlink t this to_this (some l)
        pure (true, t)
      | some _, some r => do
        -- node_value = right_tree->front()->node_value
        let f ← Node.front fuel t r
        let fn ← t.load f
        let t ← t.modify this (fun m => { m with node_value := fn.node_value })
        -- right_tree->erase( node_value, right_tree ), result discarded
        let n ← t.load this
        let r ← address n.right_tree
        let (_, t) ← Node.erase fuel t r (.node_value this) (.right_tree this)
        let t ← Node.update_height t this
        pure (true, t)

/-- `Node::clear`: children first, then `delete this`. -/
def Node.clear : Nat → Search_tree → Nat → Except Fault Search_tree
  | 0, _, _ => .error .out_of_fuel
  | fuel + 1, t, this => do
    let n ← t.load this
    let t ← (match n.left_tree with
      | none => pure t
      | some l => Node.clear fuel t l : Except Fault Search_tree)
    let n ← t.load this
    let t ← (match n.right_tree with
      | none => pure t
      | some r => Node.clear fuel t r : Except Fault Search_tree)
    t.free this

/-- `Search_tree::empty`. -/
def empty (t : Search_tree) : Bool := t.root_node == none

/-- `Search_tree::size`. -/
def size (t : Search_tree) : Int := t.tree_size

/-- `Search_tree::height`: `root_node->height()`. -/
def height (t : Search_tree) : Except Fault Int := Node.height t t.root_node

/-- `Search_tree::front`. -/
def front (t : Search_tree) : Except Fault Int :=
  if t.empty then .error .underflow else do
    let r ← address t.root_node
    let f ← Node.front t.fuel t r
    let n ← t.load f
    pure n.node_value

/-- `Search_tree::back`. -/
def back (t : Search_tree) : Except Fault Int :=
  if t.empty then .error .underflow else do
    let r ← address t.root_node
    let b ← Node.back t.fuel t r
    let n ← t.load b
    pure n.node_value

/-- The class `Search_tree::Iterator`; the containing tree is the tree the
operations are applied to, and the member `is_end` is never read or written. -/
structure Iterator where
  current_node : Option Nat
  deriving DecidableEq, Repr

/-- `Search_tree::begin`. -/
def begin (t : Search_tree) : Except Fault Iterator :=
  if t.empty then .ok ⟨t.back_sentinel⟩ else do
    let r ← address t.root_node
    let f ← Node.front t.fuel t r
    pure ⟨some f⟩

/-- `Search_tree::end`. -/
def end_ (t : Search_tree) : Iterator := ⟨t.back_sentinel⟩

/-- `Search_tree::rbegin`. -/
def rbegin (t : Search_tree) : Except Fault Iterator :=
  if t.empty then .ok ⟨t.front_sentinel⟩ else do
    let r ← address t.root_node
    let b ← Node.back t.fuel t r
    pure ⟨some b⟩

/-- `Search_tree::rend`. -/
def rend (t : Search_tree) : Iterator := ⟨t.front_sentinel⟩

/-- `Search_tree::find`. -/
def find (t : Search_tree) (obj : Int) : Except Fault Iterator :=
  if t.empty then .ok ⟨t.back_sentinel⟩ else do
    let r ← address t.root_node
    let search_result ← Node.find t.fuel t r obj
    match search_result with
    | none => pure ⟨t.back_sentinel⟩
    | some a => pure ⟨some a⟩

/-- `Search_tree::clear`. -/
def clear (t : Search_tree) : Except Fault Search_tree := do
  let t ← (if t.empty then pure t else do
    let r ← address t.root_node
    let t ← Node.clear t.fuel t r
    pure { t with root_node := none, tree_size := 0 } : Except Fault Search_tree)
  let f ← address t.front_sentinel
  let t ← t.modify f (fun m => { m with next_node := t.back_sentinel })
  let b ← address t.back_sentinel
  t.modify b (fun m => { m with previous_node := t.front_sentinel })

/-- `Search_tree::insert`. -/
def insert (t : Search_tree) (obj : Int) : Except Fault (Bool × Search_tree) :=
  if t.empty then do
    let (a, t) := t.alloc obj
    let t := { t with root_node := some a }
    let t := { t with tree_size := 1 }
    let f ← address t.front_sentinel
    let t ← t.modify f (fun m => { m with next_node := t.root_node })
    let r ← address t.root_node
    let t ← t.modify r (fun m => { m with previous_node := t.front_sentinel })
    let b ← address t.back_sentinel
    let t ← t.modify b (fun m => { m with previous_node := t.root_node })
    let r ← address t.root_node
    let t ← t.modify r (fun m => { m with next_node := t.back_sentinel })
    pure (true, t)
  else do
    let r ← address t.root_node
    let (inserted, t) ← Node.insert t.fuel t r obj .root_node
    if inserted then
      pure (true, { t with tree_size := t.tree_size + 1 })
    else
      pure (false, t)

/-- `Search_tree::erase`. -/
def erase (t : Search_tree) (obj : Int) : Except Fault (Bool × Search_tree) :=
  if t.empty then .ok (false, t) else do
    let r ← address t.root_node
    let (erased, t) ← Node.erase t.fuel t r (.value obj) .root_node
    if erased then
      pure (true, { t with tree_size := t.tree_size - 1 })
    else
      pure (false, t)

/-- `Iterator::operator*`. -/
def Iterator.value (t : Search_tree) (it : Iterator) : Except Fault Int := do
  let a ← address it.current_node
  let n ← t.load a
  pure n.node_value

/-- `Iterator::operator++`. -/
def Iterator.increment (t : Search_tree) (it : Iterator) : Except Fault Iterator :=
  if it.current_node ≠ t.end_.current_node then do
    let a ← address it.current_node
    let n ← t.load a
    pure ⟨n.next_node⟩
  else
    pure it

/-- `Iterator::operator--`. -/
def Iterator.decrement (t : Search_tree) (it : Iterator) : Except Fault Iterator := do
  let a ← address it.current_node
  let n ← t.load a
  if n.left_tree ≠ t.rend.current_node then
    pure ⟨n.previous_node⟩
  else
    pure it

/-! ### Client-side harness: call sequences and cursor loops -/

/-- One public mutating call. -/
inductive Op where
  | insert (k : Int)
  | erase (k : Int)
  deriving DecidableEq, Repr

/-- Perform the calls in order; the results of the calls are collected. -/
def run (t : Search_tree) : List Op → Except Fault (List Bool × Search_tree)
  | [] => .ok ([], t)
  | .insert k :: ops => do
    let (r, t) ← t.insert k
    let (rs, t) ← run t ops
    pure (r :: rs, t)
  | .erase k :: ops => do
    let (r, t) ← t.erase k
    let (rs, t) ← run t ops
    pure (r :: rs, t)

/-- The loop `while ( it != end() ) { out.push_back( *it ); ++it; }`. -/
def Iterator.collect : Nat → Search_tree → Iterator → Except Fault (List Int)
  | 0, _, _ => .error .out_of_fuel
  | fuel + 1, t, it =>
    if it = t.end_ then .ok [] else do
      let v ← it.value t
      let it ← it.increment t
      let vs ← Iterator.collect fuel t it
      pure (v :: vs)

/-- The keys met by a cursor stepped from `begin()` until it equals `end()`. -/
def traversal (t : Search_tree) : Except Fault (List Int) := do
  let it ← t.begin
  Iterator.collect (t.fuel + 1) t it

/-- The height of the subtree a pointer refers to, computed from the shape of
the tree: -1 for `nullptr`, otherwise one more than the larger child height. -/
def subtree_height : Nat → Search_tree → Option Nat → Except Fault Int
  | 0, _, _ => .error .out_of_fuel
  | _ + 1, _, none => .ok (-1)
  | fuel + 1, t, some a => do
    let n ← t.load a
    let hl ← subtree_height fuel t n.left_tree
    let hr ← subtree_height fuel t n.right_tree
    pure (max hl hr + 1)

/-- The chain neighbour `next_node` of the node a pointer refers to. -/
def next_of (t : Search_tree) (p : Option Nat) : Except Fault (Option Nat) := do
  let a ← address p
  let n ← t.load a
  pure n.next_node

/-- The chain neighbour `previous_node` of the node a pointer refers to. -/
def previous_of (t : Search_tree) (p : Option Nat) : Except Fault (Option Nat) := do
  let a ← address p
  let n ← t.load a
  pure n.previous_node

/-- The in-order key sequence (left subtree, node, right subtree) of the subtree
a pointer refers to, following `left_tree` / `right_tree` only. -/
def inorder : Nat → Search_tree → Option Nat → Except Fault (List Int)
  | 0, _, _ => .error .out_of_fuel
  | _ + 1, _, none => .ok []
  | fuel + 1, t, some a => do
    let n ← t.load a
    let l ← inorder fuel t n.left_tree
    let r ← inorder fuel t n.right_tree
    pure (l ++ n.node_value :: r)

/-- The binary-search-tree ordering of the subtree a pointer refers to: at every
node, every key of the left subtree is less than the node's key and every key of
the right subtree is greater. -/
def search_ordered : Nat → Search_tree → Option Nat → Except Fault Bool
  | 0, _, _ => .error .out_of_fuel
  | _ + 1, _, none => .ok true
  | fuel + 1, t, some a => do
    let n ← t.load a
    let l ← inorder fuel t n.left_tree
    let r ← inorder fuel t n.right_tree
    let ordered_left ← search_ordered fuel t n.left_tree
    let ordered_right ← search_ordered fuel t n.right_tree
    pure (l.all (fun k => decide (k < n.node_value))
      && r.all (fun k => decide (n.node_value < k))
      && ordered_left && ordered_right)

/-- The keys met by following `next_node` from a pointer up to the back sentinel. -/
def chain_from : Nat → Search_tree → Option Nat → Except Fault (List Int)
  | 0, _, _ => .error .out_of_fuel
  | fuel + 1, t, p =>
    if p = t.back_sentinel then .ok [] else do
      let a ← address p
      let n ← t.load a
      let rest ← chain_from fuel t n.next_node
      pure (n.node_value :: rest)

/-- The key sequence read along the order chain from the front sentinel to the
back sentinel. -/
def chain (t : Search_tree) : Except Fault (List Int) := do
  let first ← next_of t t.front_sentinel
  chain_from t.fuel t first

/-- The operator `++` applied `n` times in a row. -/
def Iterator.increment_times (t : Search_tree) : Nat → Iterator → Except Fault Iterator
  | 0, it => .ok it
  | n + 1, it => do
    let it ← it.increment t
    Iterator.increment_times t n it

/-- The members of a node that `Node::balanceLeft`, `Node::balanceRight` and
`Node::update_height` never assign: the key and the two order-chain links. -/
def Node.chain_part (n : Node) : Int × Option Nat × Option Nat :=
  (n.node_value, n.previous_node, n.next_node)

/-- The heap seen through `Node.chain_part`: per address, the key and the chain
links of the node stored there. -/
def chain_view (t : Search_tree) : List (Option (Int × Option Nat × Option Nat)) :=
  t.heap.map (Option.map Node.chain_part)

/-- The state `t'` differs from `t` at most in child links, cached heights and
the pointer variable `to_this`. -/
def Same_chain (to_this : Slot) (t t' : Search_tree) : Prop :=
  chain_view t' = chain_view t ∧ t'.tree_size = t.tree_size
    ∧ t'.front_sentinel = t.front_sentinel ∧ t'.back_sentinel = t.back_sentinel
    ∧ (to_this ≠ .root_node → t'.root_node = t.root_node)

/-- The members of a node that `Node::balanceLeft` and `Node::balanceRight` never
assign: the key, the cached height and the two order-chain links. -/
def Node.frame_part (n : Node) : Int × Int × Option Nat × Option Nat :=
  (n.node_value, n.tree_height, n.previous_node, n.next_node)

/-- The heap seen through `Node.frame_part`: per address, every member of the
node stored there other than `left_tree` and `right_tree`. -/
def frame_view (t : Search_tree) : List (Option (Int × Int × Option Nat × Option Nat)) :=
  t.heap.map (Option.map Node.frame_part)

/-- Reading through a `Node *&`: the pointer the variable currently holds. -/
def slot_value (t : Search_tree) : Slot → Except Fault (Option Nat)
  | .root_node => .ok t.root_node
  | .left_tree a => do
    let n ← t.load a
    pure n.left_tree
  | .right_tree a => do
    let n ← t.load a
    pure n.right_tree

/-- The node whose member a `Node *&` is bound to, if it is bound to a member. -/
def Slot.owner : Slot → Option Nat
  | .root_node => none
  | .left_tree a => some a
  | .right_tree a => some a

/-- The key stored at an address (0 where no node is stored). -/
def key_at (t : Search_tree) (a : Nat) : Int :=
  match t.load a with
  | .ok n => n.node_value
  | .error _ => 0

/-- `Shape t p nodes`: following `left_tree` / `right_tree` from the pointer `p`
one finds stored nodes only, and `nodes` is their in-order address sequence (left
subtree, node, right subtree).  With `nodes.Nodup` the pointer structure below
`p` is a tree. -/
inductive Shape (t : Search_tree) : Option Nat → List Nat → Prop
  | null : Shape t none []
  | node (a : Nat) (n : Node) (l r : List Nat) :
      t.load a = .ok n → Shape t n.left_tree l → Shape t n.right_tree r →
      Shape t (some a) (l ++ a :: r)

/-- `Linked t x y`: in the order chain of `t`, the node `y` comes right after the
node `x` (`x->next_node == y` and `y->previous_node == x`). -/
def Linked (t : Search_tree) (x y : Nat) : Prop :=
  (∃ n, t.load x = .ok n ∧ n.next_node = some y)
    ∧ (∃ m, t.load y = .ok m ∧ m.previous_node = some x)

/-- `Well_formed t nodes`: the tree below `root_node` is tree-shaped with in-order
node sequence `nodes`, its keys are strictly ascending in that order (the
binary-search-tree ordering), and the order chain runs from the front sentinel
through exactly these nodes, in this order, to the back sentinel. -/
def Well_formed (t : Search_tree) (nodes : List Nat) : Prop :=
  ∃ f b, t.front_sentinel = some f ∧ t.back_sentinel = some b
    ∧ Shape t t.root_node nodes
    ∧ (f :: nodes ++ [b]).Nodup
    ∧ List.Chain' (Linked t) (f :: nodes ++ [b])
    ∧ (nodes.map (key_at t)).Pairwise (· < ·)

/-- `Unlinked t t' u v`: what a returning `Node::erase` has done to the keys and
the order chain.  The node `v` is deleted; among the other nodes, the one linked
before `v` has `v`'s successor as `next_node`, the one linked after `v` has `v`'s
predecessor as `previous_node`, the node `u` holds the key `v` held, and nothing
else of keys and chain links has changed. -/
def Unlinked (t t' : Search_tree) (u v : Nat) : Prop :=
  t'.heap.length = t.heap.length
    ∧ t'.front_sentinel = t.front_sentinel ∧ t'.back_sentinel = t.back_sentinel
    ∧ t'.load v = .error .dangling
    ∧ ∃ vn, t.load v = .ok vn
      ∧ ∀ c m, c ≠ v → t.load c = .ok m → ∃ m', t'.load c = .ok m'
          ∧ m'.node_value = (if c = u then vn.node_value else m.node_value)
          ∧ m'.next_node = (if vn.previous_node = some c then vn.next_node else m.next_node)
          ∧ m'.previous_node
              = (if vn.next_node = some c then vn.previous_node else m.previous_node)

end Search_tree

/-!
# Resizable_deque (src/Resizable Deque/Resizable_deque.h)

The circular array is a list of cells; a cell that was allocated by `new Type[n]`
and never assigned holds `none`.  The template parameter is instantiated at the
integers.  The `int` members are modelled by unbounded integers: `capacity()*2`
leaves the range of `int` only for an array of 2^30 cells.
-/

/-- Ways in which a call on one of the array-based containers fails to return a
value. -/
inductive Array_fault where
  /-- the exception `underflow` -/
  | underflow
  /-- the exception `overflow` -/
  | overflow
  /-- the exception `illegal_argument` -/
  | illegal_argument
  /-- an array was indexed outside its allocated cells -/
  | out_of_bounds
  /-- a cell that was never assigned was read as a value -/
  | indeterminate
  /-- a loop ran longer than the supplied fuel -/
  | out_of_fuel
  deriving DecidableEq, Repr

/-- The expression `a[i]` read as a cell. -/
def Array_fault.fetch {α : Type} (a : List α) (i : Int) : Except Array_fault α :=
  if 0 ≤ i then
    match a.get? i.toNat with
    | some v => .ok v
    | none => .error .out_of_bounds
  else .error .out_of_bounds

/-- The assignment `a[i] = v`. -/
def Array_fault.store {α : Type} (a : List α) (i : Int) (v : α) :
    Except Array_fault (List α) :=
  if 0 ≤ i ∧ i.toNat < a.length then .ok (a.set i.toNat v) else .error .out_of_bounds

/-- The class `Resizable_deque<int>`. -/
structure Resizable_deque where
  ifront : Int
  iback : Int
  deque_size : Int
  initial_array_capacity : Int
  array_capacity : Int
  array : List (Option Int)
  deriving DecidableEq, Repr

namespace Resizable_deque

open Array_fault (fetch store)

/-- The constructor `Resizable_deque( int n )`. -/
def new (n : Int) : Resizable_deque :=
  { ifront := 0,
    iback := -1,
    deque_size := 0,
    initial_array_capacity := max n 16,
    array_capacity := max n 16,
    array := List.replicate (max n 16).toNat none }

/-- `Resizable_deque::size`. -/
def size (d : Resizable_deque) : Int := d.deque_size

/-- `Resizable_deque::capacity`. -/
def capacity (d : Resizable_deque) : Int := d.array_capacity

/-- `Resizable_deque::empty`. -/
def empty (d : Resizable_deque) : Bool := decide (d.deque_size = 0)

/-- The value held by a cell; a cell never assigned has no determinate value. -/
def value_of (c : Option Int) : Except Array_fault Int :=
  match c with
  | some v => .ok v
  | none => .error .indeterminate

/-- `Resizable_deque::front`. -/
def front (d : Resizable_deque) : Except Array_fault Int :=
  if d.empty then .error .underflow else do
    let c ← fetch d.array d.ifront
    value_of c

/-- `Resizable_deque::back`. -/
def back (d : Resizable_deque) : Except Array_fault Int :=
  if d.empty then .error .underflow else do
    let c ← fetch d.array d.iback
    value_of c

/-- The loop `for(int i = 0; i < size(); i++){ tempArray[i+offset] = array[ifront];
++ifront; if(ifront == capacity()) ifront = 0; }` shared by the four resizing
branches; the first argument is the number of iterations still to run. -/
def copy_loop (offset : Int) : Nat → Int → Resizable_deque → List (Option Int) →
    Except Array_fault (Resizable_deque × List (Option Int))
  | 0, _, d, tempArray => .ok (d, tempArray)
  | n + 1, i, d, tempArray => do
    let c ← fetch d.array d.ifront
    let tempArray ← store tempArray (i + offset) c
    let d := { d with ifront := d.ifront + 1 }
    let d := if d.ifront = d.capacity then { d with ifront := 0 } else d
    copy_loop offset n (i + 1) d tempArray

/-- `Resizable_deque::push_front`. -/
def push_front (d : Resizable_deque) (obj : Int) : Except Array_fault Resizable_deque :=
  if d.size = d.capacity then do
    let tempArray := List.replicate (d.capacity * 2).toNat none
    let tempArray ← store tempArray 0 (some obj)
    let (d, tempArray) ← copy_loop 1 d.size.toNat 0 d tempArray
    let d := { d with deque_size := d.deque_size + 1 }
    let d := { d with iback := d.size - 1 }
    let d := { d with ifront := 0 }
    let d := { d with array_capacity := d.capacity * 2 }
    pure { d with array := tempArray }
  else do
    let d ← (if d.iback < 0 then do
        let d := { d with iback := 0 }
        let a ← store d.array d.ifront (some obj)
        pure { d with array := a }
      else do
        let d := { d with ifront := d.ifront - 1 }
        let d := if d.ifront < 0 then { d with ifront := d.capacity - 1 } else d
        let a ← store d.array d.ifront (some obj)
        pure { d with array := a } : Except Array_fault Resizable_deque)
    pure { d with deque_size := d.deque_size + 1 }

/-- `Resizable_deque::push_back`. -/
def push_back (d : Resizable_deque) (obj : Int) : Except Array_fault Resizable_deque :=
  if d.size = d.capacity then do
    let tempArray := List.replicate (d.capacity * 2).toNat none
    let tempArray ← store tempArray d.size (some obj)
    let (d, tempArray) ← copy_loop 0 d.size.toNat 0 d tempArray
    let d := { d with deque_size := d.deque_size + 1 }
    let d := { d with iback := d.size - 1 }
    let d := { d with ifront := 0 }
    let d := { d with array_capacity := d.capacity * 2 }
    pure { d with array := tempArray }
  else do
    let d ← (if d.iback < 0 then do
        let d := { d with iback := 0 }
        let a ← store d.array d.ifront (some obj)
        pure { d with array := a }
      else do
        let d := { d with iback := d.iback + 1 }
        let d := if d.iback = d.capacity then { d with iback := 0 } else d
        let a ← store d.array d.iback (some obj)
        pure { d with array := a } : Except Array_fault Resizable_deque)
    pure { d with deque_size := d.deque_size + 1 }

/-- The halving branch shared by `pop_front` and `pop_back`. -/
def shrink (d : Resizable_deque) : Except Array_fault Resizable_deque :=
  if d.size = d.capacity / 4 ∧ d.capacity > d.initial_array_capacity then do
    let tempArray := List.replicate (d.capacity / 2).toNat none
    let (d, tempArray) ← copy_loop 0 d.size.toNat 0 d tempArray
    let d := { d with array_capacity := d.capacity / 2 }
    let d := { d with ifront := 0 }
    let d := { d with iback := d.size - 1 }
    pure { d with array := tempArray }
  else pure d

/-- `Resizable_deque::pop_front`. -/
def pop_front (d : Resizable_deque) : Except Array_fault Resizable_deque :=
  if d.empty then .error .underflow else
    let d := { d with ifront := d.ifront + 1 }
    let d := { d with deque_size := d.deque_size - 1 }
    let d := if d.ifront = d.capacity then { d with ifront := 0 } else d
    shrink d

/-- `Resizable_deque::pop_back`. -/
def pop_back (d : Resizable_deque) : Except Array_fault Resizable_deque :=
  if d.empty then .error .underflow else
    let d := { d with iback := d.iback - 1 }
    let d := { d with deque_size := d.deque_size - 1 }
    let d := if d.iback < 0 then { d with iback := d.capacity - 1 } else d
    shrink d

/-- The `do ... while(i != iback + 1)` loop of the copy constructor; `d` is the
deque under construction, `deque` the argument. -/
def copy_cells : Nat → Int → Resizable_deque → Resizable_deque →
    Except Array_fault Resizable_deque
  | 0, _, _, _ => .error .out_of_fuel
  | fuel + 1, i, deque, d => do
    let c ← fetch deque.array i
    let a ← store d.array i c
    let d := { d with array := a }
    let i := i + 1
    let i := if i = d.capacity then 0 else i
    if i ≠ d.iback + 1 then copy_cells fuel i deque d else pure d

/-- The copy constructor `Resizable_deque( Resizable_deque const &deque )`. -/
def copy (fuel : Nat) (deque : Resizable_deque) : Except Array_fault Resizable_deque :=
  let d : Resizable_deque :=
    { ifront := deque.ifront,
      iback := deque.iback,
      deque_size := deque.size,
      initial_array_capacity := deque.initial_array_capacity,
      array_capacity := deque.capacity,
      array := List.replicate deque.capacity.toNat none }
  copy_cells fuel d.ifront deque d

/-- One call of the double-ended interface. -/
inductive Op where
  | push_front (x : Int)
  | push_back (x : Int)
  | pop_front
  | pop_back
  deriving DecidableEq, Repr

/-- Perform one call; a call that throws `underflow` leaves the deque as it was
(the exception is raised before any member is written) and the caller carries on. -/
def step (d : Resizable_deque) : Op → Except Array_fault Resizable_deque
  | .push_front x => d.push_front x
  | .push_back x => d.push_back x
  | .pop_front => if d.empty then .ok d else d.pop_front
  | .pop_back => if d.empty then .ok d else d.pop_back

/-- Perform the calls in order. -/
def run (d : Resizable_deque) : List Op → Except Array_fault Resizable_deque
  | [] => .ok d
  | op :: ops => do
    let d ← d.step op
    run d ops

/-- The double-ended sequence the claims compare with: one call on the model. -/
def model_step (l : List Int) : Op → List Int
  | .push_front x => x :: l
  | .push_back x => l ++ [x]
  | .pop_front => l.tail
  | .pop_back => l.dropLast

/-- The model sequence after the calls. -/
def model (l : List Int) : List Op → List Int
  | [] => l
  | op :: ops => model (model_step l op) ops

/-- Position `x` of a circular array of `C` cells, for `x < 2 * C`. -/
def wrap (C x : Nat) : Nat := if x < C then x else x - C

/-- The deque `d` holds the sequence `l`: the array has `C` cells, the front
index is `f`, the cells `f`, `f + 1`, ... (wrapping) hold the elements of `l`, and
the back index is the cell of the last element (or -1 on a deque that never held
one). -/
def Represents (d : Resizable_deque) (l : List Int) : Prop :=
  ∃ C f : Nat,
    d.array.length = C ∧ d.array_capacity = (C : Int) ∧ 0 < C ∧
    d.ifront = (f : Int) ∧ f < C ∧
    d.deque_size = (l.length : Int) ∧ l.length ≤ C ∧
    0 < d.initial_array_capacity ∧
    ((d.iback = -1 ∧ f = 0 ∧ l = []) ∨
      ∃ b : Nat, d.iback = (b : Int) ∧ b < C ∧ wrap C (b + 1) = wrap C (f + l.length)) ∧
    ∀ j x, l[j]? = some x → d.array[wrap C (f + j)]? = some (some x)

end Resizable_deque

/-!
# Double_sentinel_list (src/Double Sentinel List/Double_sentinel_list.h)

The same heap discipline as for the search tree: a pointer is `Option Nat`, the
heap is a list of cells, `new` appends a cell and `delete` empties it.  The
template parameter is instantiated at the integers, and `list_size` is an
unbounded integer (it changes by one per node).
-/

/-- The class `Double_sentinel_list<int>::Double_node`. -/
structure Double_sentinel_list.Double_node where
  node_value : Int
  previous_node : Option Nat
  next_node : Option Nat
  deriving DecidableEq, Repr

/-- The class `Double_sentinel_list<int>` together with the heap its pointers
refer to. -/
structure Double_sentinel_list where
  heap : List (Option Double_sentinel_list.Double_node)
  list_head : Option Nat
  list_tail : Option Nat
  list_size : Int
  deriving DecidableEq, Repr

namespace Double_sentinel_list

/-- The address held by a pointer that is about to be dereferenced. -/
def address (p : Option Nat) : Except Fault Nat :=
  match p with
  | none => .error .null_dereference
  | some a => .ok a

/-- Read the node stored at address `a`. -/
def load (t : Double_sentinel_list) (a : Nat) : Except Fault Double_node :=
  match t.heap.get? a with
  | some (some n) => .ok n
  | _ => .error .dangling

/-- Read the node a pointer refers to. -/
def deref (t : Double_sentinel_list) (p : Option Nat) : Except Fault Double_node := do
  let a ← address p
  t.load a

/-- Apply `f` to the node a pointer refers to (an assignment to a member). -/
def modify (t : Double_sentinel_list) (p : Option Nat) (f : Double_node → Double_node) :
    Except Fault Double_sentinel_list := do
  let a ← address p
  let n ← t.load a
  pure { t with heap := t.heap.set a (some (f n)) }

/-- The expression `new Double_node( nv, pn, nn )`. -/
def alloc (t : Double_sentinel_list) (nv : Int) (pn nn : Option Nat) :
    Option Nat × Double_sentinel_list :=
  (some t.heap.length,
   { t with heap := t.heap ++ [some { node_value := nv, previous_node := pn, next_node := nn }] })

/-- The statement `delete p`. -/
def free (t : Double_sentinel_list) (p : Option Nat) : Except Fault Double_sentinel_list := do
  let a ← address p
  let _ ← t.load a
  pure { t with heap := t.heap.set a none }

/-- The constructor `Double_sentinel_list()`: two sentinels `Double_node()`, the
head allocated first, linked to each other. -/
def new : Double_sentinel_list :=
  { heap :=
      [some { node_value := 0, previous_node := none, next_node := some 1 },
       some { node_value := 0, previous_node := some 0, next_node := none }],
    list_head := some 0,
    list_tail := some 1,
    list_size := 0 }

/-- The fuel the member functions hand to their loops. -/
def fuel (t : Double_sentinel_list) : Nat := t.heap.length

/-- `Double_sentinel_list::size`. -/
def size (t : Double_sentinel_list) : Int := t.list_size

/-- `Double_sentinel_list::empty`. -/
def empty (t : Double_sentinel_list) : Bool := decide (t.list_size = 0)

/-- `Double_sentinel_list::begin`: `list_head->next()`. -/
def begin (t : Double_sentinel_list) : Except Fault (Option Nat) := do
  let n ← t.deref t.list_head
  pure n.next_node

/-- `Double_sentinel_list::end`. -/
def end_ (t : Double_sentinel_list) : Option Nat := t.list_tail

/-- `Double_sentinel_list::rbegin`: `list_tail->previous()`. -/
def rbegin (t : Double_sentinel_list) : Except Fault (Option Nat) := do
  let n ← t.deref t.list_tail
  pure n.previous_node

/-- `Double_sentinel_list::rend`. -/
def rend (t : Double_sentinel_list) : Option Nat := t.list_head

/-- `Double_sentinel_list::front`. -/
def front (t : Double_sentinel_list) : Except Fault Int :=
  if t.empty then .error .underflow else do
    let b ← t.begin
    let n ← t.deref b
    pure n.node_value

/-- `Double_sentinel_list::back`. -/
def back (t : Double_sentinel_list) : Except Fault Int :=
  if t.empty then .error .underflow else do
    let b ← t.rbegin
    let n ← t.deref b
    pure n.node_value

/-- The loop of `Double_sentinel_list::count`, entered with the pointer `ptr` and
the counter `count`. -/
def count_loop : Nat → Double_sentinel_list → Option Nat → Int → Int → Except Fault Int
  | 0, _, _, _, _ => .error .out_of_fuel
  | fuel + 1, t, ptr, obj, count =>
    if ptr ≠ t.end_ then do
      let n ← t.deref ptr
      let count := if n.node_value = obj then count + 1 else count
      count_loop fuel t n.next_node obj count
    else pure count

/-- `Double_sentinel_list::count`. -/
def count (t : Double_sentinel_list) (obj : Int) : Except Fault Int := do
  let b ← t.begin
  count_loop t.fuel t b obj 0

/-- The loop of `Double_sentinel_list::find`. -/
def find_loop : Nat → Double_sentinel_list → Option Nat → Int → Except Fault (Option Nat)
  | 0, _, _, _ => .error .out_of_fuel
  | fuel + 1, t, ptr, obj =>
    if ptr ≠ t.end_ then do
      let n ← t.deref ptr
      if n.node_value = obj then pure ptr else find_loop fuel t n.next_node obj
    else pure t.end_

/-- `Double_sentinel_list::find`. -/
def find (t : Double_sentinel_list) (obj : Int) : Except Fault (Option Nat) := do
  let b ← t.begin
  find_loop t.fuel t b obj

/-- `Double_sentinel_list::push_front`. -/
def push_front (t : Double_sentinel_list) (obj : Int) : Except Fault Double_sentinel_list := do
  let b ← t.begin
  let (newFrontNode, t) := t.alloc obj t.rend b
  let b ← t.begin
  let t ← t.modify b (fun n => { n with previous_node := newFrontNode })
  let t ← t.modify t.rend (fun n => { n with next_node := newFrontNode })
  pure { t with list_size := t.list_size + 1 }

/-- `Double_sentinel_list::push_back`. -/
def push_back (t : Double_sentinel_list) (obj : Int) : Except Fault Double_sentinel_list := do
  let b ← t.rbegin
  let (newBackNode, t) := t.alloc obj b t.end_
  let b ← t.rbegin
  let t ← t.modify b (fun n => { n with next_node := newBackNode })
  let t ← t.modify t.end_ (fun n => { n with previous_node := newBackNode })
  pure { t with list_size := t.list_size + 1 }

/-- `Double_sentinel_list::pop_front`. -/
def pop_front (t : Double_sentinel_list) : Except Fault Double_sentinel_list :=
  if t.empty then .error .underflow else do
    let toPop ← t.begin
    -- begin()->next()->previous_node = rend()
    let b ← t.begin
    let n ← t.deref b
    let t ← t.modify n.next_node (fun m => { m with previous_node := t.rend })
    -- rend()->next_node = begin()->next()
    let b ← t.begin
    let n ← t.deref b
    let t ← t.modify t.rend (fun m => { m with next_node := n.next_node })
    let t ← t.free toPop
    pure { t with list_size := t.list_size - 1 }

/-- `Double_sentinel_list::pop_back`. -/
def pop_back (t : Double_sentinel_list) : Except Fault Double_sentinel_list :=
  if t.empty then .error .underflow else do
    let toPop ← t.rbegin
    -- rbegin()->previous()->next_node = end()
    let b ← t.rbegin
    let n ← t.deref b
    let t ← t.modify n.previous_node (fun m => { m with next_node := t.end_ })
    -- end()->previous_node = rbegin()->previous()
    let b ← t.rbegin
    let n ← t.deref b
    let t ← t.modify t.end_ (fun m => { m with previous_node := n.previous_node })
    let t ← t.free toPop
    pure { t with list_size := t.list_size - 1 }

/-- The loop of `Double_sentinel_list::erase`, entered with the pointer `ptr` and
the counter `countDeleted`. -/
def erase_loop : Nat → Double_sentinel_list → Option Nat → Int → Int →
    Except Fault (Int × Double_sentinel_list)
  | 0, _, _, _, _ => .error .out_of_fuel
  | fuel + 1, t, ptr, obj, countDeleted =>
    if ptr ≠ t.end_ then do
      let n ← t.deref ptr
      if n.node_value = obj then
        let toPop := ptr
        -- ptr->previous()->next_node = ptr->next()
        let t ← t.modify n.previous_node (fun m => { m with next_node := n.next_node })
        -- ptr->next()->previous_node = ptr->previous()
        let n ← t.deref ptr
        let t ← t.modify n.next_node (fun m => { m with previous_node := n.previous_node })
        -- ptr = ptr->next()
        let n ← t.deref ptr
        let ptr := n.next_node
        let countDeleted := countDeleted + 1
        let t := { t with list_size := t.list_size - 1 }
        let t ← t.free toPop
        erase_loop fuel t ptr obj countDeleted
      else
        erase_loop fuel t n.next_node obj countDeleted
    else pure (countDeleted, t)

/-- `Double_sentinel_list::erase`. -/
def erase (t : Double_sentinel_list) (obj : Int) : Except Fault (Int × Double_sentinel_list) := do
  let b ← t.begin
  erase_loop t.fuel t b obj 0

/-- The values met by the loop
`for(ptr = begin(); ptr != end(); ptr = ptr->next())`. -/
def forward_loop : Nat → Double_sentinel_list → Option Nat → Except Fault (List Int)
  | 0, _, _ => .error .out_of_fuel
  | fuel + 1, t, ptr =>
    if ptr ≠ t.end_ then do
      let n ← t.deref ptr
      let rest ← forward_loop fuel t n.next_node
      pure (n.node_value :: rest)
    else pure []

/-- The values read from `begin()` forward to `end()`. -/
def forward (t : Double_sentinel_list) : Except Fault (List Int) := do
  let b ← t.begin
  forward_loop t.fuel t b

/-- The values met by the loop
`for(ptr = rbegin(); ptr != rend(); ptr = ptr->previous())`. -/
def backward_loop : Nat → Double_sentinel_list → Option Nat → Except Fault (List Int)
  | 0, _, _ => .error .out_of_fuel
  | fuel + 1, t, ptr =>
    if ptr ≠ t.rend then do
      let n ← t.deref ptr
      let rest ← backward_loop fuel t n.previous_node
      pure (n.node_value :: rest)
    else pure []

/-- The values read from `rbegin()` backward to `rend()`. -/
def backward (t : Double_sentinel_list) : Except Fault (List Int) := do
  let b ← t.rbegin
  backward_loop t.fuel t b

/-- One call of the double-ended interface. -/
inductive Op where
  | push_front (x : Int)
  | push_back (x : Int)
  | pop_front
  | pop_back
  deriving DecidableEq, Repr

/-- Perform one call; a pop that throws `underflow` is caught by the caller, who
carries on with the list as the call left it. -/
def step (t : Double_sentinel_list) : Op → Except Fault Double_sentinel_list
  | .push_front x => t.push_front x
  | .push_back x => t.push_back x
  | .pop_front =>
    match t.pop_front with
    | .error .underflow => .ok t
    | r => r
  | .pop_back =>
    match t.pop_back with
    | .error .underflow => .ok t
    | r => r

/-- Perform the calls in order. -/
def run (t : Double_sentinel_list) : List Op → Except Fault Double_sentinel_list
  | [] => .ok t
  | op :: ops => do
    let t ← t.step op
    run t ops

/-- The sequence the claims compare with: one call on the model. -/
def model_step (l : List Int) : Op → List Int
  | .push_front x => x :: l
  | .push_back x => l ++ [x]
  | .pop_front => l.tail
  | .pop_back => l.dropLast

/-- The model sequence after the calls. -/
def model (l : List Int) : List Op → List Int
  | [] => l
  | op :: ops => model (model_step l op) ops

/-- The member `next_node` of the node at address `a`, if there is a node. -/
def next_at (t : Double_sentinel_list) (a : Nat) : Option (Option Nat) :=
  match t.load a with
  | .ok n => some n.next_node
  | .error _ => none

/-- The member `previous_node` of the node at address `a`, if there is a node. -/
def previous_at (t : Double_sentinel_list) (a : Nat) : Option (Option Nat) :=
  match t.load a with
  | .ok n => some n.previous_node
  | .error _ => none

/-- The member `node_value` of the node at address `a`, if there is a node. -/
def value_at (t : Double_sentinel_list) (a : Nat) : Option Int :=
  match t.load a with
  | .ok n => some n.node_value
  | .error _ => none

/-- Node `a` is followed by node `b`: `a->next_node == b` and
`b->previous_node == a`. -/
def linked (t : Double_sentinel_list) (a b : Nat) : Prop :=
  next_at t a = some (some b) ∧ previous_at t b = some (some a)

/-- Node `a` holds the value `v`. -/
def holds (t : Double_sentinel_list) (a : Nat) (v : Int) : Prop :=
  value_at t a = some v

/-- The list `t` is well formed and holds the sequence `l` in the nodes at the
addresses `nodes`: head sentinel, nodes and tail sentinel are pairwise distinct,
each is linked to the next, the nodes hold the values, and `list_size` is the
number of nodes. -/
def Represents (t : Double_sentinel_list) (nodes : List Nat) (l : List Int) : Prop :=
  ∃ h tl, t.list_head = some h ∧ t.list_tail = some tl
    ∧ (h :: nodes ++ [tl]).Nodup
    ∧ List.Chain' (linked t) (h :: nodes ++ [tl])
    ∧ List.Forall₂ (holds t) nodes l
    ∧ t.list_size = (l.length : Int)

end Double_sentinel_list

/-!
# Quadratic_hash_table (src/Quadratic Hash Table/Quadratic_hash_table.h)

The two arrays are lists of `array_size` cells; a cell of `array` that was
allocated by `new Type[array_size]` and never assigned holds `none`.  The
template parameter is instantiated at the integers.  The `int` members are
modelled by unbounded integers: `1 << power` is `2 ^ power`, which is in the
range of `int` for `power` up to 30, and `bin + k` stays below twice the array
size.
-/

/-- The enumeration `bin_state_t`. -/
inductive bin_state_t where
  | UNOCCUPIED
  | OCCUPIED
  | ERASED
  deriving DecidableEq, Repr

/-- The class `Quadratic_hash_table<int>`. -/
structure Quadratic_hash_table where
  count : Int
  countErased : Int
  power : Int
  array_size : Int
  mask : Int
  array : List (Option Int)
  occupied : List bin_state_t
  deriving DecidableEq, Repr

namespace Quadratic_hash_table

open Array_fault (fetch store)

/-- The constructor `Quadratic_hash_table( int m )`; its loop assigns
`UNOCCUPIED` to each of the `array_size` cells of `occupied`. -/
def new (m : Int) : Quadratic_hash_table :=
  let power : Int := if m ≥ 0 then m else 5
  let array_size : Int := 2 ^ power.toNat
  { count := 0,
    countErased := 0,
    power := power,
    array_size := array_size,
    mask := array_size - 1,
    array := List.replicate array_size.toNat none,
    occupied := List.replicate array_size.toNat .UNOCCUPIED }

/-- `Quadratic_hash_table::size`. -/
def size (t : Quadratic_hash_table) : Int := t.count

/-- `Quadratic_hash_table::capacity`. -/
def capacity (t : Quadratic_hash_table) : Int := t.array_size

/-- `Quadratic_hash_table::empty`. -/
def empty (t : Quadratic_hash_table) : Bool := decide (t.size = 0)

/-- The value held by a cell; a cell never assigned has no determinate value. -/
def value_of (c : Option Int) : Except Array_fault Int :=
  match c with
  | some v => .ok v
  | none => .error .indeterminate

/-- `Quadratic_hash_table::bin`. -/
def bin (t : Quadratic_hash_table) (n : Int) : Except Array_fault Int := do
  let c ← fetch t.array n
  value_of c

/-- `Quadratic_hash_table::hash`; the operator `%` of C++ truncates towards
zero. -/
def hash (t : Quadratic_hash_table) (obj : Int) : Int :=
  let hash_value := Int.tmod obj t.array_size
  if hash_value ≥ 0 then hash_value else hash_value + t.array_size

/-- The loop of `Quadratic_hash_table::member`, entered with the values of `bin`
and `k`. -/
def member_loop : Nat → Quadratic_hash_table → Int → Int → Int → Except Array_fault Bool
  | 0, _, _, _, _ => .error .out_of_fuel
  | fuel + 1, t, obj, bin, k =>
    if k < t.array_size then do
      let bin := Int.tmod (bin + k) t.array_size
      let s ← fetch t.occupied bin
      if s = .UNOCCUPIED then pure false
      else if s = .OCCUPIED then do
        let c ← fetch t.array bin
        let v ← value_of c
        if v = obj then pure true else member_loop fuel t obj bin (k + 1)
      else member_loop fuel t obj bin (k + 1)
    else pure false

/-- The fuel the member functions hand to their loops: one round more than
the loops can make. -/
def fuel (t : Quadratic_hash_table) : Nat := t.array_size.toNat + 1

/-- `Quadratic_hash_table::member`. -/
def member (t : Quadratic_hash_table) (obj : Int) : Except Array_fault Bool :=
  member_loop t.fuel t obj (t.hash obj) 0

/-- The loop of `Quadratic_hash_table::insert`. -/
def insert_loop : Nat → Quadratic_hash_table → Int → Int → Int →
    Except Array_fault Quadratic_hash_table
  | 0, _, _, _, _ => .error .out_of_fuel
  | fuel + 1, t, obj, bin, k =>
    if k < t.array_size then do
      let bin := Int.tmod (bin + k) t.array_size
      let s ← fetch t.occupied bin
      if s ≠ .OCCUPIED then do
        let array ← store t.array bin (some obj)
        let t := { t with array := array, count := t.count + 1 }
        let s ← fetch t.occupied bin
        let t := if s = .ERASED then { t with countErased := t.countErased - 1 } else t
        let occupied ← store t.occupied bin .OCCUPIED
        pure { t with occupied := occupied }
      else insert_loop fuel t obj bin (k + 1)
    else pure t

/-- `Quadratic_hash_table::insert`. -/
def insert (t : Quadratic_hash_table) (obj : Int) : Except Array_fault Quadratic_hash_table :=
  if t.size = t.capacity then .error .overflow
  else do
    let present ← (if t.count < t.array_size then t.member obj else pure false)
    if present then pure t
    else insert_loop t.fuel t obj (t.hash obj) 0

/-- The loop of `Quadratic_hash_table::erase`. -/
def erase_loop : Nat → Quadratic_hash_table → Int → Int → Int →
    Except Array_fault (Bool × Quadratic_hash_table)
  | 0, _, _, _, _ => .error .out_of_fuel
  | fuel + 1, t, obj, bin, k =>
    if k < t.array_size then do
      let bin := Int.tmod (bin + k) t.array_size
      let s ← fetch t.occupied bin
      if s = .UNOCCUPIED then pure (false, t)
      else if s = .OCCUPIED then do
        let c ← fetch t.array bin
        let v ← value_of c
        if v = obj then do
          let occupied ← store t.occupied bin .ERASED
          pure (true, { t with occupied := occupied, count := t.count - 1,
                               countErased := t.countErased + 1 })
        else erase_loop fuel t obj bin (k + 1)
      else erase_loop fuel t obj bin (k + 1)
    else pure (false, t)

/-- `Quadratic_hash_table::erase`. -/
def erase (t : Quadratic_hash_table) (obj : Int) :
    Except Array_fault (Bool × Quadratic_hash_table) :=
  erase_loop t.fuel t obj (t.hash obj) 0

/-- The loop of `Quadratic_hash_table::clear`. -/
def clear_loop : Nat → Quadratic_hash_table → Int → Except Array_fault Quadratic_hash_table
  | 0, _, _ => .error .out_of_fuel
  | fuel + 1, t, i =>
    if i < t.array_size then do
      let occupied ← store t.occupied i .UNOCCUPIED
      clear_loop fuel { t with occupied := occupied } (i + 1)
    else pure t

/-- `Quadratic_hash_table::clear`. -/
def clear (t : Quadratic_hash_table) : Except Array_fault Quadratic_hash_table := do
  let t ← clear_loop t.fuel t 0
  pure { t with count := 0, countErased := 0 }

/-- One call of a mutator. -/
inductive Op where
  | insert (x : Int)
  | erase (x : Int)
  | clear
  deriving DecidableEq, Repr

/-- Perform one call; an `insert` that throws `overflow` is caught by the
caller, who carries on with the table as the call left it. -/
def step (t : Quadratic_hash_table) : Op → Except Array_fault Quadratic_hash_table
  | .insert x =>
    match t.insert x with
    | .error .overflow => .ok t
    | r => r
  | .erase x => do
    let (_, t) ← t.erase x
    pure t
  | .clear => t.clear

/-- Perform the calls in order. -/
def run (t : Quadratic_hash_table) : List Op → Except Array_fault Quadratic_hash_table
  | [] => .ok t
  | op :: ops => do
    let t ← t.step op
    run t ops

/-- The value of the variable `bin` after `k` rounds of a probing loop that was
entered with `bin == h`, in a table of `M` bins. -/
def bin_after (M h : Nat) : Nat → Nat
  | 0 => h
  | k + 1 => (bin_after M h k + k) % M

/-- The bin examined in round `k` of the probing for `x` in a table of `M`
bins. -/
def probe (M : Nat) (x : Int) (k : Nat) : Nat := bin_after M (x % (M : Int)).toNat (k + 1)

/-- Bin `b` is `OCCUPIED` and holds `x`. -/
def stored_at (t : Quadratic_hash_table) (b : Nat) (x : Int) : Prop :=
  t.occupied[b]? = some .OCCUPIED ∧ t.array[b]? = some (some x)

/-- The probing for `x` meets a bin that is `OCCUPIED` and holds `x` before it
meets a bin that is `UNOCCUPIED`. -/
def Found (t : Quadratic_hash_table) (x : Int) : Prop :=
  ∃ j, j < t.occupied.length ∧ stored_at t (probe t.occupied.length x j) x
    ∧ ∀ i : Nat, i < j → t.occupied[probe t.occupied.length x i]? ≠ some .UNOCCUPIED

/-- The table is well formed: both arrays have `array_size` cells, a power of
two; `count` is the number of `OCCUPIED` bins; every `OCCUPIED` bin holds a
value, which the probing for that value finds, and no two of them hold the same
value. -/
def Well_formed (t : Quadratic_hash_table) : Prop :=
  ∃ p : Nat, t.array_size = ((2 ^ p : Nat) : Int)
    ∧ t.array.length = 2 ^ p ∧ t.occupied.length = 2 ^ p
    ∧ t.count = ((t.occupied.count bin_state_t.OCCUPIED : Nat) : Int)
    ∧ (∀ b : Nat, t.occupied[b]? = some .OCCUPIED → ∃ y, t.array[b]? = some (some y))
    ∧ (∀ (b : Nat) (y : Int), stored_at t b y → Found t y)
    ∧ (∀ (b c : Nat) (y : Int), stored_at t b y → stored_at t c y → b = c)

end Quadratic_hash_table

/-!
# Weighted_graph (src/Weighted Graph/Weighted_graph.h)

A `double` is read as an exact number: the weights range over an arbitrary
linearly ordered additive monoid `W` with a greatest element `⊤`, the value
`INF`, that absorbs addition (the rationals with infinity, for instance).
`matrix[i]` points at row `i` of the lower triangle, which has `i` cells; row 0
is the null pointer.  The `int` members are unbounded integers.  The arrays
`vertex_distances`, `vertex_visited` and `previous_vertex` are allocated by the
constructor and assigned by `distance` before it reads them; until then their
cells are given the values 0, `false` and 0.
-/

/-- The class `Weighted_graph::Pair`. -/
structure Weighted_graph.Pair (W : Type) where
  edge_weight : W
  adjacent_vertex : Int

/-- The class `Weighted_graph`. -/
structure Weighted_graph (W : Type) where
  graph_size : Int
  matrix : List (List W)
  edges : Int
  vertex_distances : List W
  vertex_visited : List Bool
  previous_vertex : List Int
  vertex_degree : List Int

namespace Weighted_graph

open Array_fault (fetch store)

variable {W : Type} [LinearOrderedAddCommMonoidWithTop W]

/-- `Pair::weight`. -/
def Pair.weight (p : Pair W) : W := p.edge_weight

/-- `Pair::vertex`. -/
def Pair.vertex (p : Pair W) : Int := p.adjacent_vertex

/-- The member `top` of `std::priority_queue<Pair, std::vector<Pair>, comparator>`
on the pairs pushed and not yet popped, in the order pushed: a pair of least
weight.  Which of several pairs of least weight is on top is left open by the
library; here it is the earliest pushed of them. -/
def top : List (Pair W) → Option (Pair W)
  | [] => none
  | p :: rest =>
    match top rest with
    | none => some p
    | some q => if q.weight < p.weight then some q else some p

/-- The member `pop` of the priority queue: the pairs without the one on top. -/
def pop : List (Pair W) → List (Pair W)
  | [] => []
  | p :: rest =>
    match top rest with
    | none => rest
    | some q => if q.weight < p.weight then p :: pop rest else rest

/-- The member `push` of the priority queue. -/
def push (heap : List (Pair W)) (p : Pair W) : List (Pair W) := heap ++ [p]

/-- The constructor `Weighted_graph( int n )`.  The array `matrix` has
`graph_size` cells, so the assignment to `matrix[1]` needs two vertices. -/
def new (n : Int) : Except Array_fault (Weighted_graph W) :=
  let graph_size : Int := if n > 0 then n else 1
  if 1 < graph_size then
    .ok { graph_size := graph_size,
          matrix := (List.range graph_size.toNat).map (fun i => List.replicate i ⊤),
          edges := 0,
          vertex_distances := List.replicate graph_size.toNat 0,
          vertex_visited := List.replicate graph_size.toNat false,
          previous_vertex := List.replicate graph_size.toNat 0,
          vertex_degree := List.replicate graph_size.toNat 0 }
  else .error .out_of_bounds

/-- `Weighted_graph::degree`. -/
def degree (g : Weighted_graph W) (n : Int) : Except Array_fault Int :=
  fetch g.vertex_degree n

/-- `Weighted_graph::edge_count`. -/
def edge_count (g : Weighted_graph W) : Int := g.edges

/-- The expression `matrix[i][j]` read as a value. -/
def cell (g : Weighted_graph W) (i j : Int) : Except Array_fault W := do
  let row ← fetch g.matrix i
  fetch row j

/-- The assignment `matrix[i][j] = w`. -/
def set_cell (g : Weighted_graph W) (i j : Int) (w : W) :
    Except Array_fault (Weighted_graph W) := do
  let row ← fetch g.matrix i
  let row ← store row j w
  let matrix ← store g.matrix i row
  pure { g with matrix := matrix }

/-- `Weighted_graph::adjacent`. -/
def adjacent (g : Weighted_graph W) (m n : Int) : Except Array_fault W :=
  if m < 0 ∨ n < 0 ∨ m ≥ g.graph_size ∨ n ≥ g.graph_size then .error .illegal_argument
  else if m = n then pure 0
  else if m > n then g.cell m n
  else g.cell n m

/-- `Weighted_graph::insert`. -/
def insert (g : Weighted_graph W) (m n : Int) (w : W) :
    Except Array_fault (Weighted_graph W) :=
  if w ≤ 0 ∨ w = ⊤ then .error .illegal_argument
  else if m < 0 ∨ n < 0 ∨ m > g.graph_size ∨ n > g.graph_size ∨ m = n then
    .error .illegal_argument
  else do
    let (newEdge, g) ←
      (if n < m then do
        let c ← g.cell m n
        let newEdge := if c ≠ ⊤ then false else true
        let g ← g.set_cell m n w
        pure (newEdge, g)
      else do
        let c ← g.cell n m
        let newEdge := if c ≠ ⊤ then false else true
        let g ← g.set_cell n m w
        pure (newEdge, g))
    if newEdge then do
      let d : Int ← fetch g.vertex_degree m
      let vertex_degree ← store g.vertex_degree m (d + 1)
      let g := { g with vertex_degree := vertex_degree }
      let d : Int ← fetch g.vertex_degree n
      let vertex_degree ← store g.vertex_degree n (d + 1)
      pure { g with vertex_degree := vertex_degree, edges := g.edges + 1 }
    else pure g

/-- The fuel `distance` hands to its `for` loops: one round more than they can
make. -/
def fuel (g : Weighted_graph W) : Nat := g.graph_size.toNat + 1

/-- The first loop of `Weighted_graph::distance`, entered with the value of
`i`. -/
def init_loop : Nat → Weighted_graph W → Int → Except Array_fault (Weighted_graph W)
  | 0, _, _ => .error .out_of_fuel
  | fuel + 1, g, i =>
    if i < g.graph_size then do
      let vertex_visited ← store g.vertex_visited i false
      let vertex_distances ← store g.vertex_distances i ⊤
      let previous_vertex ← store g.previous_vertex i (-1)
      init_loop fuel { g with vertex_visited := vertex_visited,
                              vertex_distances := vertex_distances,
                              previous_vertex := previous_vertex } (i + 1)
    else pure g

/-- The body of the branches `i < current_vertex` and `i > current_vertex` of
the inner loop of `distance`, where `e` is the cell of the matrix for the two
vertices: the test against `INF`, the comparison, the two assignments and the
push. -/
def relax (g : Weighted_graph W) (min_heap : List (Pair W)) (current_vertex i : Int) (e : W) :
    Except Array_fault (Weighted_graph W × List (Pair W)) :=
  if e ≠ ⊤ then do
    let dc : W ← fetch g.vertex_distances current_vertex
    let di : W ← fetch g.vertex_distances i
    if dc + e < di then do
      let vertex_distances ← store g.vertex_distances i (dc + e)
      let previous_vertex ← store g.previous_vertex i current_vertex
      let g := { g with vertex_distances := vertex_distances,
                        previous_vertex := previous_vertex }
      let di : W ← fetch g.vertex_distances i
      pure (g, push min_heap { edge_weight := di, adjacent_vertex := i })
    else pure (g, min_heap)
  else pure (g, min_heap)

/-- The inner loop of `Weighted_graph::distance`, entered with the value of
`i`. -/
def relax_loop : Nat → Weighted_graph W → List (Pair W) → Int → Int →
    Except Array_fault (Weighted_graph W × List (Pair W))
  | 0, _, _, _, _ => .error .out_of_fuel
  | fuel + 1, g, min_heap, current_vertex, i =>
    if i < g.graph_size then do
      let visited ← fetch g.vertex_visited i
      if !visited then
        if i < current_vertex then do
          let e ← g.cell current_vertex i
          let (g, min_heap) ← relax g min_heap current_vertex i e
          relax_loop fuel g min_heap current_vertex (i + 1)
        else if i > current_vertex then do
          let e ← g.cell i current_vertex
          let (g, min_heap) ← relax g min_heap current_vertex i e
          relax_loop fuel g min_heap current_vertex (i + 1)
        else relax_loop fuel g min_heap current_vertex (i + 1)
      else relax_loop fuel g min_heap current_vertex (i + 1)
    else pure (g, min_heap)

/-- The loop `while(!min_heap.empty())` of `Weighted_graph::distance`; it
returns the value `distance` returns and the graph as the call leaves it. -/
def visit_loop : Nat → Weighted_graph W → List (Pair W) → Int →
    Except Array_fault (W × Weighted_graph W)
  | 0, _, _, _ => .error .out_of_fuel
  | fuel + 1, g, min_heap, n =>
    match top min_heap with
    | none => pure (⊤, g)
    | some visiting =>
      let min_heap := pop min_heap
      do
        let visited ← fetch g.vertex_visited visiting.vertex
        if visited then visit_loop fuel g min_heap n
        else if visiting.vertex = n then do
          let d ← fetch g.vertex_distances n
          pure (d, g)
        else do
          let vertex_visited ← store g.vertex_visited visiting.vertex true
          let g := { g with vertex_visited := vertex_visited }
          let current_vertex := visiting.vertex
          let (g, min_heap) ← relax_loop g.fuel g min_heap current_vertex 0
          visit_loop fuel g min_heap n

/-- The fuel `distance` hands to its `while` loop: every round pops a pair, and
at most `graph_size` pairs are pushed for each vertex that is visited. -/
def visit_fuel (g : Weighted_graph W) : Nat :=
  g.graph_size.toNat * (g.graph_size.toNat + 1) + 2

/-- `Weighted_graph::distance`. -/
def distance (g : Weighted_graph W) (m n : Int) : Except Array_fault (W × Weighted_graph W) :=
  if m < 0 ∨ n < 0 ∨ m > g.graph_size ∨ n > g.graph_size then .error .illegal_argument
  else if m = n then pure (0, g)
  else do
    let g ← init_loop g.fuel g 0
    let vertex_distances ← store g.vertex_distances m 0
    let g := { g with vertex_distances := vertex_distances }
    let min_heap : List (Pair W) := push [] { edge_weight := 0, adjacent_vertex := m }
    visit_loop g.visit_fuel g min_heap n

/-- One call on a graph: `insert(m, n, w)` or `distance(m, n)`. -/
inductive Op (W : Type) where
  | insert (m n : Int) (w : W)
  | distance (m n : Int)

/-- Perform one call; a call that throws `illegal_argument` is caught by the
caller, who carries on with the graph as the call left it. -/
def step (g : Weighted_graph W) : Op W → Except Array_fault (Weighted_graph W)
  | .insert m n w =>
    match g.insert m n w with
    | .error .illegal_argument => .ok g
    | r => r
  | .distance m n =>
    match g.distance m n with
    | .error .illegal_argument => .ok g
    | .error e => .error e
    | .ok (_, g) => .ok g

/-- Perform the calls in order. -/
def run (g : Weighted_graph W) : List (Op W) → Except Array_fault (Weighted_graph W)
  | [] => .ok g
  | op :: ops => do
    let g ← g.step op
    run g ops

/-- The weight of the edge between two vertices, `INF` when there is none: the
cell of the lower triangle for the two vertices. -/
def edge (g : Weighted_graph W) (a b : Nat) : W :=
  if b < a then ((g.matrix.getD a []).getD b ⊤)
  else if a < b then ((g.matrix.getD b []).getD a ⊤)
  else ⊤

/-- The total weight of the edges along a sequence of vertices; it is `INF`
when two neighbours in the sequence are not joined by an edge. -/
def walk_weight (g : Weighted_graph W) : List Nat → W
  | [] => 0
  | [_] => 0
  | a :: b :: rest => g.edge a b + walk_weight g (b :: rest)

/-- A sequence of vertices of a graph of `N` vertices that starts at `a` and
ends at `b`. -/
def Walk (N a b : Nat) (p : List Nat) : Prop :=
  p.head? = some a ∧ p.getLast? = some b ∧ ∀ v ∈ p, v < N

/-- The cell `vertex_distances[x]`. -/
def dist_at (g : Weighted_graph W) (x : Nat) : W := (g.vertex_distances[x]?).getD ⊤

/-- The cell `vertex_visited[x]`. -/
def visited_at (g : Weighted_graph W) (x : Nat) : Bool := (g.vertex_visited[x]?).getD false

/-- The graph has `N` vertices: the arrays have `N` cells, row `i` of the
matrix has `i` cells, and no cell of the matrix is negative. -/
def Shaped (g : Weighted_graph W) (N : Nat) : Prop :=
  g.graph_size = (N : Int) ∧ g.matrix.length = N
    ∧ (∀ (i : Nat) (row : List W), g.matrix[i]? = some row → row.length = i)
    ∧ g.vertex_distances.length = N ∧ g.vertex_visited.length = N
    ∧ g.previous_vertex.length = N ∧ g.vertex_degree.length = N
    ∧ (∀ row ∈ g.matrix, ∀ v ∈ row, 0 ≤ v)

/-- What holds of the arrays and the priority queue at the head of the loop
`while(!min_heap.empty())` of `distance(m, n)`. -/
structure Searching (g : Weighted_graph W) (heap : List (Pair W)) (N m n : Nat) : Prop where
  shaped : Shaped g N
  source_lt : m < N
  source : dist_at g m = 0
  nonneg : ∀ x, x < N → 0 ≤ dist_at g x
  realised : ∀ x, x < N → dist_at g x ≠ ⊤ →
    ∃ p, Walk N x m p ∧ walk_weight g p = dist_at g x
  relaxed : ∀ u x, u < N → x < N → visited_at g u = true →
    dist_at g x ≤ dist_at g u + edge g u x
  queued : ∀ x, x < N → visited_at g x = false → dist_at g x ≠ ⊤ →
    (⟨dist_at g x, (x : Int)⟩ : Pair W) ∈ heap
  heap_ok : ∀ q ∈ heap, ∃ x, x < N ∧ q.adjacent_vertex = (x : Int)
    ∧ dist_at g x ≤ q.edge_weight
  order : ∀ u, u < N → visited_at g u = true → ∀ q ∈ heap, dist_at g u ≤ q.edge_weight
  optimal : ∀ u, u < N → visited_at g u = true →
    ∀ p, Walk N u m p → dist_at g u ≤ walk_weight g p
  target : visited_at g n = false

/-- The cell `vertex_degree[v]`. -/
def degree_at (g : Weighted_graph W) (v : Nat) : Int := (g.vertex_degree[v]?).getD 0

/-- The calls `insert(m, n, w)` of a list, made in order. -/
def insert_all (g : Weighted_graph W) :
    List (Int × Int × W) → Except Array_fault (Weighted_graph W)
  | [] => .ok g
  | (m, n, w) :: calls => do
    let g ← g.insert m n w
    insert_all g calls

/-- A call `insert(m, n, w)` with two distinct vertices of a graph of `N`
vertices and a weight that is positive and not `INF`. -/
def Valid_call (N : Nat) (c : Int × Int × W) : Prop :=
  0 ≤ c.1 ∧ c.1 < N ∧ 0 ≤ c.2.1 ∧ c.2.1 < N ∧ c.1 ≠ c.2.1 ∧ 0 < c.2.2 ∧ c.2.2 ≠ ⊤

/-- The weight most recently inserted for the pair of vertices `a`, `b` by a list
of calls made in order; `INF` when no call was for this pair. -/
def last_weight (calls : List (Int × Int × W)) (a b : Int) : W :=
  calls.foldl
    (fun acc c => if (c.1 = a ∧ c.2.1 = b) ∨ (c.1 = b ∧ c.2.1 = a) then c.2.2 else acc) ⊤

/-- The pairs of vertices `(a, b)` with `b < a < N` whose adjacency entry is not
`INF`. -/
def edge_pairs (g : Weighted_graph W) (N : Nat) : Finset (Nat × Nat) :=
  (Finset.range N ×ˢ Finset.range N).filter (fun p => p.2 < p.1 ∧ edge g p.1 p.2 ≠ ⊤)

/-- The sum of `vertex_degree[v]` over the vertices of a graph of `N` vertices. -/
def degree_sum (g : Weighted_graph W) (N : Nat) : Int :=
  Finset.sum (Finset.range N) (fun v => degree_at g v)

end Weighted_graph

/-! ## Search_tree: the claims -/

namespace Search_tree

/-- A sequenced computation that returns a value ran its first step to a value. -/
theorem ok_of_bind_ok {α β : Type} (x : Except Fault α) (f : α → Except Fault β) (b : β)
    (h : (x >>= f) = .ok b) : ∃ a, x = .ok a ∧ f a = .ok b := by
  cases x with
  | error e => cases h
  | ok a => exact ⟨a, rfl, h⟩

/-- `Node::insert` returning false has not written to the heap or to the tree
object, whatever the fuel and whatever the shape of the heap. -/
theorem Node.insert_false_writes_nothing (fuel : Nat) :
    ∀ (t : Search_tree) (this : Nat) (obj : Int) (to_this : Slot) (t' : Search_tree),
      Node.insert fuel t this obj to_this = .ok (false, t') → t' = t := by
  induction fuel with
  | zero => intro t this obj to_this t' h; simp [Node.insert] at h
  | succ fuel ih =>
    intro t this obj to_this t' h
    unfold Node.insert at h
    obtain ⟨n, -, h⟩ := ok_of_bind_ok _ _ _ h
    dsimp only at h
    split at h
    · split at h
      · obtain ⟨_, -, h⟩ := ok_of_bind_ok _ _ _ h
        obtain ⟨_, -, h⟩ := ok_of_bind_ok _ _ _ h
        obtain ⟨_, -, h⟩ := ok_of_bind_ok _ _ _ h
        simp [pure, Except.pure] at h
      · obtain ⟨⟨inserted, t1⟩, hrec, h⟩ := ok_of_bind_ok _ _ _ h
        dsimp only at h
        split at h
        · obtain ⟨_, -, h⟩ := ok_of_bind_ok _ _ _ h
          obtain ⟨_, -, h⟩ := ok_of_bind_ok _ _ _ h
          simp [pure, Except.pure] at h
        · simp only [pure, Except.pure, Except.ok.injEq, Prod.mk.injEq, true_and] at h
          have hi : inserted = false := by simpa using ‹¬ inserted = true›
          subst hi
          rw [← h]
          exact ih _ _ _ _ _ hrec
    · split at h
      · split at h
        · obtain ⟨_, -, h⟩ := ok_of_bind_ok _ _ _ h
          obtain ⟨_, -, h⟩ := ok_of_bind_ok _ _ _ h
          obtain ⟨_, -, h⟩ := ok_of_bind_ok _ _ _ h
          simp [pure, Except.pure] at h
        · obtain ⟨⟨inserted, t1⟩, hrec, h⟩ := ok_of_bind_ok _ _ _ h
          dsimp only at h
          split at h
          · obtain ⟨_, -, h⟩ := ok_of_bind_ok _ _ _ h
            obtain ⟨_, -, h⟩ := ok_of_bind_ok _ _ _ h
            simp [pure, Except.pure] at h
          · simp only [pure, Except.pure, Except.ok.injEq, Prod.mk.injEq, true_and] at h
            have hi : inserted = false := by simpa using ‹¬ inserted = true›
            subst hi
            rw [← h]
            exact ih _ _ _ _ _ hrec
      · simp only [pure, Except.pure, Except.ok.injEq, Prod.mk.injEq, true_and] at h
        exact h.symm

/-- `Search_tree::insert` returning false has changed nothing. -/
theorem insert_rejects_without_writing (t : Search_tree) (obj : Int) (t' : Search_tree)
    (h : t.insert obj = .ok (false, t')) : t' = t := by
  unfold Search_tree.insert at h
  split at h
  · obtain ⟨_, -, h⟩ := ok_of_bind_ok _ _ _ h
    obtain ⟨_, -, h⟩ := ok_of_bind_ok _ _ _ h
    obtain ⟨_, -, h⟩ := ok_of_bind_ok _ _ _ h
    obtain ⟨_, -, h⟩ := ok_of_bind_ok _ _ _ h
    obtain ⟨_, -, h⟩ := ok_of_bind_ok _ _ _ h
    obtain ⟨_, -, h⟩ := ok_of_bind_ok _ _ _ h
    obtain ⟨_, -, h⟩ := ok_of_bind_ok _ _ _ h
    obtain ⟨_, -, h⟩ := ok_of_bind_ok _ _ _ h
    simp [pure, Except.pure] at h
  · obtain ⟨r, -, h⟩ := ok_of_bind_ok _ _ _ h
    obtain ⟨⟨inserted, t1⟩, hrec, h⟩ := ok_of_bind_ok _ _ _ h
    dsimp only at h
    split at h
    · simp [pure, Except.pure] at h
    · simp only [pure, Except.pure, Except.ok.injEq, Prod.mk.injEq, true_and] at h
      have hi : inserted = false := by simpa using ‹¬ inserted = true›
      subst hi
      rw [← h]
      exact Node.insert_false_writes_nothing _ _ _ _ _ _ hrec

/-- Inserting a key into a new tree and then inserting it again: the first call
returns true, the second returns false and keeps the state, whose size is 1. -/
theorem insert_same_key_twice (K : Int) :
    ∃ t, new.insert K = .ok (true, t) ∧ t.insert K = .ok (false, t) ∧ t.size = 1 := by
  refine ⟨_, rfl, ?_, rfl⟩
  simp [Search_tree.insert, Search_tree.new, Search_tree.alloc, Search_tree.modify,
    Search_tree.load, Search_tree.address, Search_tree.empty, Search_tree.fuel, Node.insert,
    bind, Except.bind, pure, Except.pure]

/-- `Node::erase` returning false has not written to the heap or to the tree
object, whatever the fuel and whatever the shape of the heap. -/
theorem Node.erase_false_writes_nothing (fuel : Nat) :
    ∀ (t : Search_tree) (this : Nat) (obj : KeyRef) (to_this : Slot) (t' : Search_tree),
      Node.erase fuel t this obj to_this = .ok (false, t') → t' = t := by
  induction fuel with
  | zero => intro t this obj to_this t' h; simp [Node.erase] at h
  | succ fuel ih =>
    intro t this obj to_this t' h
    unfold Node.erase at h
    obtain ⟨n, -, h⟩ := ok_of_bind_ok _ _ _ h
    obtain ⟨k, -, h⟩ := ok_of_bind_ok _ _ _ h
    dsimp only at h
    split at h
    · split at h
      · simp only [pure, Except.pure, Except.ok.injEq, Prod.mk.injEq, true_and] at h
        exact h.symm
      · obtain ⟨⟨erased, t1⟩, hrec, h⟩ := ok_of_bind_ok _ _ _ h
        dsimp only at h
        split at h
        · obtain ⟨_, -, h⟩ := ok_of_bind_ok _ _ _ h
          obtain ⟨_, -, h⟩ := ok_of_bind_ok _ _ _ h
          simp [pure, Except.pure] at h
        · simp only [pure, Except.pure, Except.ok.injEq, Prod.mk.injEq, true_and] at h
          have hi : erased = false := by simpa using ‹¬ erased = true›
          subst hi
          rw [← h]
          exact ih _ _ _ _ _ hrec
    · split at h
      · split at h
        · simp only [pure, Except.pure, Except.ok.injEq, Prod.mk.injEq, true_and] at h
          exact h.symm
        · obtain ⟨⟨erased, t1⟩, hrec, h⟩ := ok_of_bind_ok _ _ _ h
          dsimp only at h
          split at h
          · obtain ⟨_, -, h⟩ := ok_of_bind_ok _ _ _ h
            obtain ⟨_, -, h⟩ := ok_of_bind_ok _ _ _ h
            simp [pure, Except.pure] at h
          · simp only [pure, Except.pure, Except.ok.injEq, Prod.mk.injEq, true_and] at h
            have hi : erased = false := by simpa using ‹¬ erased = true›
            subst hi
            rw [← h]
            exact ih _ _ _ _ _ hrec
      · split at h
        · obtain ⟨_, -, h⟩ := ok_of_bind_ok _ _ _ h
          simp [pure, Except.pure] at h
        · obtain ⟨_, -, h⟩ := ok_of_bind_ok _ _ _ h
          simp [pure, Except.pure] at h
        · obtain ⟨_, -, h⟩ := ok_of_bind_ok _ _ _ h
          simp [pure, Except.pure] at h
        · obtain ⟨_, -, h⟩ := ok_of_bind_ok _ _ _ h
          obtain ⟨_, -, h⟩ := ok_of_bind_ok _ _ _ h
          obtain ⟨_, -, h⟩ := ok_of_bind_ok _ _ _ h
          obtain ⟨_, -, h⟩ := ok_of_bind_ok _ _ _ h
          obtain ⟨_, -, h⟩ := ok_of_bind_ok _ _ _ h
          obtain ⟨_, -, h⟩ := ok_of_bind_ok _ _ _ h
          obtain ⟨_, -, h⟩ := ok_of_bind_ok _ _ _ h
          simp [pure, Except.pure] at h

/-- `Search_tree::erase` returning false has changed nothing. -/
theorem erase_rejects_without_writing (t : Search_tree) (obj : Int) (t' : Search_tree)
    (h : t.erase obj = .ok (false, t')) : t' = t := by
  unfold Search_tree.erase at h
  split at h
  · simp only [Except.ok.injEq, Prod.mk.injEq, true_and] at h
    exact h.symm
  · obtain ⟨r, -, h⟩ := ok_of_bind_ok _ _ _ h
    obtain ⟨⟨erased, t1⟩, hrec, h⟩ := ok_of_bind_ok _ _ _ h
    dsimp only at h
    split at h
    · simp [pure, Except.pure] at h
    · simp only [pure, Except.pure, Except.ok.injEq, Prod.mk.injEq, true_and] at h
      have hi : erased = false := by simpa using ‹¬ erased = true›
      subst hi
      rw [← h]
      exact Node.erase_false_writes_nothing _ _ _ _ _ _ hrec

/-- `Search_tree::erase` on a tree without root returns false and the same state. -/
theorem erase_without_root (t : Search_tree) (obj : Int) (h : t.empty = true) :
    t.erase obj = .ok (false, t) := by
  simp [Search_tree.erase, h]

/-- The operator `++` on a cursor at `end()` returns the cursor as it is. -/
theorem increment_of_end (t : Search_tree) : t.end_.increment t = .ok t.end_ := by
  simp [Iterator.increment, pure, Except.pure]

/-- The in-order traversal of a subtree whose root `a` has right child `b` whose
right child is `a` again returns no sequence, whatever the fuel. -/
theorem inorder_of_right_cycle (t : Search_tree) (a b : Nat) (na nb : Node)
    (ha : t.load a = .ok na) (hb : t.load b = .ok nb)
    (hab : na.right_tree = some b) (hba : nb.right_tree = some a) :
    ∀ (fuel : Nat) (l : List Int), inorder fuel t (some a) ≠ .ok l := by
  intro fuel
  induction fuel using Nat.strong_induction_on with
  | _ fuel ih =>
    intro l h
    match fuel, ih, h with
    | 0, _, h => simp [inorder] at h
    | 1, _, h =>
      rw [inorder] at h
      obtain ⟨_, -, h⟩ := ok_of_bind_ok _ _ _ h
      obtain ⟨_, h1, -⟩ := ok_of_bind_ok _ _ _ h
      simp [inorder] at h1
    | f + 2, ih, h =>
      rw [inorder, ha] at h
      obtain ⟨n, hn, h⟩ := ok_of_bind_ok _ _ _ h
      cases hn
      obtain ⟨_, -, h⟩ := ok_of_bind_ok _ _ _ h
      obtain ⟨_, h1, -⟩ := ok_of_bind_ok _ _ _ h
      rw [hab, inorder, hb] at h1
      obtain ⟨m, hm, h1⟩ := ok_of_bind_ok _ _ _ h1
      cases hm
      obtain ⟨_, -, h1⟩ := ok_of_bind_ok _ _ _ h1
      obtain ⟨r, h2, -⟩ := ok_of_bind_ok _ _ _ h1
      rw [hba] at h2
      exact ih f (by omega) r h2

/-- C1, evaluated on the code.  Key 4 is inserted by the fourth call and never
erased, yet a later `insert(4)` returns true and `size()` becomes 7 with six
distinct keys inserted; and after `insert(1)`, `insert(3)` the call `insert(2)`
of a key that is not stored returns nothing at all (null dereference in
`balanceRight`). -/
theorem insert_result_wrong_after_right_left_case :
    (∃ t t', run new [.insert 2, .insert 1, .insert 6, .insert 4, .insert 7, .insert 3]
        = .ok ([true, true, true, true, true, true], t)
      ∧ t.insert 4 = .ok (true, t') ∧ t'.size = 7)
    ∧ (∃ t, run new [.insert 1, .insert 3] = .ok ([true, true], t)
      ∧ t.insert 2 = .error .null_dereference) :=
  ⟨⟨_, _, rfl, rfl, rfl⟩, ⟨_, rfl, rfl⟩⟩

/-- C2, evaluated on the code.  On the tree holding 1, 2, 3, 4 (built without
any rotation) `erase(1)` of a stored key does not return: `balanceRight`
dereferences a null pointer.  After the inserts 2, 1, 6, 4, 7, 3 the stored key
3 is reported as absent by `erase(3)`. -/
theorem erase_result_wrong_after_right_left_case :
    (∃ t, run new [.insert 2, .insert 1, .insert 4, .insert 3]
        = .ok ([true, true, true, true], t)
      ∧ t.erase 1 = .error .null_dereference)
    ∧ (∃ t, run new [.insert 2, .insert 1, .insert 6, .insert 4, .insert 7, .insert 3]
        = .ok ([true, true, true, true, true, true], t)
      ∧ t.erase 3 = .ok (false, t)) :=
  ⟨⟨_, rfl, rfl⟩, ⟨_, rfl, rfl⟩⟩

/-- C3, evaluated on the code.  After the inserts 2, 1, 6, 4, 7, 3, all
returning true, `find(4)` and `find(3)` both return `end()` although neither key
was erased. -/
theorem find_misses_stored_keys :
    ∃ t, run new [.insert 2, .insert 1, .insert 6, .insert 4, .insert 7, .insert 3]
        = .ok ([true, true, true, true, true, true], t)
      ∧ t.find 4 = .ok t.end_ ∧ t.find 3 = .ok t.end_ :=
  ⟨_, rfl, rfl, rfl⟩

/-- C4, evaluated on the code.  Seven pairwise distinct keys are inserted, every
call returns true, and the cursor loop from `begin()` to `end()` yields
1, 2, 5, 3, 4, 6, 7, which is not ascending. -/
theorem traversal_not_ascending :
    ∃ t, run new [.insert 2, .insert 1, .insert 6, .insert 4, .insert 7, .insert 3, .insert 5]
        = .ok ([true, true, true, true, true, true, true], t)
      ∧ t.traversal = .ok [1, 2, 5, 3, 4, 6, 7] :=
  ⟨_, rfl, rfl⟩

/-- C5, evaluated on the code.  After the inserts 3, 2, 4, 1 and `erase(3)` the
root has no right subtree (height -1) while its left subtree has height 1, both
by shape and by the cached heights: the two-children case of `Node::erase`
removes the successor from the right subtree and never rebalances.  After the
inserts 2, 1, 4, 3, 5 and `erase(1)` the root has no left subtree while its right
subtree has height 1: `balanceRight` rotates only on a strict height comparison. -/
theorem erase_leaves_root_unbalanced :
    (∃ t r n, run new [.insert 3, .insert 2, .insert 4, .insert 1, .erase 3]
        = .ok ([true, true, true, true, true], t)
      ∧ t.root_node = some r ∧ t.load r = .ok n
      ∧ n.right_tree = none
      ∧ subtree_height t.fuel t n.left_tree = .ok 1
      ∧ subtree_height t.fuel t n.right_tree = .ok (-1)
      ∧ Node.height t n.left_tree = .ok 1)
    ∧ (∃ t r n, run new [.insert 2, .insert 1, .insert 4, .insert 3, .insert 5, .erase 1]
        = .ok ([true, true, true, true, true, true], t)
      ∧ t.root_node = some r ∧ t.load r = .ok n
      ∧ n.left_tree = none
      ∧ subtree_height t.fuel t n.left_tree = .ok (-1)
      ∧ subtree_height t.fuel t n.right_tree = .ok 1
      ∧ Node.height t n.right_tree = .ok 1) :=
  ⟨⟨_, _, _, rfl, rfl, rfl, rfl, rfl, rfl, rfl⟩, ⟨_, _, _, rfl, rfl, rfl, rfl, rfl, rfl, rfl⟩⟩

/-- C6, evaluated on the code.  After the inserts 2, 1, 6, 4, 7, 3 the root
holds 7 and its right child holds 6, whose right child is the root again; the
keys 3 and 4 are no longer reachable from the root (`find` returns `end()`). -/
theorem insert_breaks_search_order :
    ∃ t r n b m, run new [.insert 2, .insert 1, .insert 6, .insert 4, .insert 7, .insert 3]
        = .ok ([true, true, true, true, true, true], t)
      ∧ t.root_node = some r ∧ t.load r = .ok n ∧ n.node_value = 7
      ∧ n.right_tree = some b ∧ t.load b = .ok m ∧ m.node_value = 6
      ∧ m.right_tree = some r ∧ m.left_tree = none
      ∧ t.find 4 = .ok t.end_ :=
  ⟨_, _, _, _, _, rfl, rfl, rfl, rfl, rfl, rfl, rfl, rfl, rfl, rfl⟩

/-- C7, evaluated on the code.  After the inserts 3, 1, 2 (left-right double
rotation) the root has two children but a cached height of 0, its left child is
a leaf with cached height 1, and `height()` returns 0 for a tree of height 1. -/
theorem double_rotation_leaves_stale_heights :
    ∃ t r n l m, run new [.insert 3, .insert 1, .insert 2] = .ok ([true, true, true], t)
      ∧ t.root_node = some r ∧ t.load r = .ok n
      ∧ n.tree_height = 0 ∧ subtree_height t.fuel t (some r) = .ok 1
      ∧ n.left_tree = some l ∧ t.load l = .ok m
      ∧ m.left_tree = none ∧ m.right_tree = none ∧ m.tree_height = 1
      ∧ t.height = .ok 0 :=
  ⟨_, _, _, _, _, rfl, rfl, rfl, rfl, rfl, rfl, rfl, rfl, rfl, rfl, rfl⟩

/-- C8, evaluated on the code.  After the inserts 1, 2, 5, 3, 4 and the erases
1, 2, every call returning true, `size()` is 3 while the cursor loop from
`begin()` to `end()` visits the single key 5. -/
theorem size_differs_from_cursor_count :
    ∃ t, run new [.insert 1, .insert 2, .insert 5, .insert 3, .insert 4, .erase 1, .erase 2]
        = .ok ([true, true, true, true, true, true, true], t)
      ∧ t.size = 3 ∧ t.traversal = .ok [5] :=
  ⟨_, rfl, rfl, rfl⟩

/-- C9, evaluated on the code.  Six distinct keys are inserted and then erased
in the order 4, 7, 2, 6, 3, 1: the erases of 4 and of 3 return false, and at the
end the tree is not empty, `size()` is 2 and the front sentinel is not linked to
the back sentinel. -/
theorem round_trip_does_not_empty_the_tree :
    ∃ t, run new [.insert 2, .insert 1, .insert 6, .insert 4, .insert 7, .insert 3,
                  .erase 4, .erase 7, .erase 2, .erase 6, .erase 3, .erase 1]
        = .ok ([true, true, true, true, true, true, false, true, true, true, false, true], t)
      ∧ t.empty = false ∧ t.size = 2
      ∧ next_of t t.front_sentinel ≠ .ok t.back_sentinel :=
  ⟨_, rfl, rfl, rfl, by decide⟩

/-- C10.  Whenever `insert` returns false the whole state is the state before
the call: heap (every node's key, cached height, child links and chain links),
root, size and sentinels.  In particular, for every key K, inserting K twice
into a new tree makes the second call return false with `size()` still 1. -/
theorem duplicate_insert_leaves_tree_unchanged :
    (∀ (t : Search_tree) (obj : Int) (t' : Search_tree),
        t.insert obj = .ok (false, t') → t' = t)
    ∧ (∀ K : Int, ∃ t, new.insert K = .ok (true, t) ∧ t.insert K = .ok (false, t)
        ∧ t.size = 1) :=
  ⟨insert_rejects_without_writing, insert_same_key_twice⟩

/-- C10 at a concrete input: on the tree built by inserting 5, 3, 8 the call
`insert(3)` returns false and the state it returns is the state it was given. -/
theorem duplicate_insert_leaves_tree_unchanged_witness :
    ∃ t t', run new [.insert 5, .insert 3, .insert 8] = .ok ([true, true, true], t)
      ∧ t.insert 3 = .ok (false, t') ∧ t' = t :=
  ⟨_, _, rfl, rfl, duplicate_insert_leaves_tree_unchanged.1 _ 3 _ rfl⟩

/-- C11.  Whenever `erase` returns false the whole state is the state before the
call: heap (every node's key, cached height, child links and chain links), root,
size and sentinels.  In particular `erase` on a tree without root returns false,
raising nothing, and the new tree is such a tree, of size 0. -/
theorem failed_erase_leaves_tree_unchanged :
    (∀ (t : Search_tree) (obj : Int) (t' : Search_tree),
        t.erase obj = .ok (false, t') → t' = t)
    ∧ (∀ (t : Search_tree) (obj : Int), t.empty = true → t.erase obj = .ok (false, t))
    ∧ new.empty = true ∧ new.size = 0 :=
  ⟨erase_rejects_without_writing, fun t obj h => erase_without_root t obj h, rfl, rfl⟩

/-- C11 at concrete inputs: on the tree built by inserting 5, 3, 8 the call
`erase(4)` returns false and the state it returns is the state it was given; on
the new tree `erase(4)` returns false and the new tree. -/
theorem failed_erase_leaves_tree_unchanged_witness :
    (∃ t t', run new [.insert 5, .insert 3, .insert 8] = .ok ([true, true, true], t)
      ∧ t.erase 4 = .ok (false, t') ∧ t' = t)
    ∧ new.empty = true ∧ new.erase 4 = .ok (false, new) :=
  ⟨⟨_, _, rfl, rfl, failed_erase_leaves_tree_unchanged.1 _ 4 _ rfl⟩,
   rfl, failed_erase_leaves_tree_unchanged.2.1 new 4 rfl⟩

/-- C12, evaluated on the code.  After the inserts 1, 2, 5, 3, 4 and the erases
1, 2, every call returning true, the keys 3, 4, 5 are stored (and are the keys on
the order chain), the tree is not empty, and `front()` returns 5. -/
theorem front_returns_key_that_is_not_smallest :
    ∃ t, run new [.insert 1, .insert 2, .insert 5, .insert 3, .insert 4, .erase 1, .erase 2]
        = .ok ([true, true, true, true, true, true, true], t)
      ∧ t.empty = false ∧ chain t = .ok [3, 4, 5] ∧ t.front = .ok 5 :=
  ⟨_, rfl, rfl, rfl, rfl⟩

/-- C13, evaluated on the code.  After the inserts 1, 2, 5, 3, 4, the erases 1, 2
and the insert 1, every call returning true, `size()` is 4, the stored keys are
1, 3, 4, 5, and the front sentinel's next link is the node holding 3: the chain
reads 3, 4, 1, 5. -/
theorem front_sentinel_not_linked_to_minimum :
    ∃ t a n, run new [.insert 1, .insert 2, .insert 5, .insert 3, .insert 4, .erase 1, .erase 2,
                      .insert 1]
        = .ok ([true, true, true, true, true, true, true, true], t)
      ∧ t.size = 4 ∧ next_of t t.front_sentinel = .ok (some a)
      ∧ t.load a = .ok n ∧ n.node_value = 3 ∧ chain t = .ok [3, 4, 1, 5] :=
  ⟨_, _, _, rfl, rfl, rfl, rfl, rfl, rfl⟩

/-- C14, evaluated on the code.  After the inserts 2, 1, 6, 4, 7, 3 of pairwise
distinct keys, all returning true, the order chain reads 1, 2, 3, 4, 6, 7 while
the in-order traversal from `root_node` produces no sequence at all, whatever
the fuel: the right child of the root has the root as its right child. -/
theorem chain_differs_from_inorder :
    ∃ t, run new [.insert 2, .insert 1, .insert 6, .insert 4, .insert 7, .insert 3]
        = .ok ([true, true, true, true, true, true], t)
      ∧ chain t = .ok [1, 2, 3, 4, 6, 7]
      ∧ ∀ (fuel : Nat) (l : List Int), inorder fuel t t.root_node ≠ .ok l :=
  ⟨_, rfl, rfl, inorder_of_right_cycle _ 6 4 _ _ rfl rfl rfl rfl⟩

/-- C15, evaluated on the code.  After the inserts 1, 2, 5, 3, 4 and the erases
1, 2, every call returning true, `begin()` is positioned on the node holding 5,
while the node linked after the front sentinel holds 3, the smallest stored key. -/
theorem begin_differs_from_chain_head :
    ∃ t it a n, run new [.insert 1, .insert 2, .insert 5, .insert 3, .insert 4, .erase 1,
                         .erase 2]
        = .ok ([true, true, true, true, true, true, true], t)
      ∧ t.empty = false ∧ t.begin = .ok it ∧ it.value t = .ok 5
      ∧ next_of t t.front_sentinel = .ok (some a) ∧ it.current_node ≠ some a
      ∧ t.load a = .ok n ∧ n.node_value = 3 :=
  ⟨_, _, _, _, rfl, rfl, rfl, rfl, rfl, by decide, rfl, rfl⟩

/-- C16, evaluated on the code.  After the inserts 2, 1, 6, 4, 7, 3, all
returning true, `clear()` does not complete: `Node::clear` deletes the left
subtree of the root, follows the right links back to the root and calls `clear`
through the pointer to the node it has already deleted. -/
theorem clear_revisits_deleted_node :
    ∃ t, run new [.insert 2, .insert 1, .insert 6, .insert 4, .insert 7, .insert 3]
        = .ok ([true, true, true, true, true, true], t)
      ∧ t.clear = .error .dangling :=
  ⟨_, rfl, rfl⟩

/-- C17.  For every tree, `++` applied to `end()` any number of times yields a
cursor equal to `end()`. -/
theorem increment_at_end_stays_at_end (t : Search_tree) (n : Nat) :
    Iterator.increment_times t n t.end_ = .ok t.end_ := by
  induction n with
  | zero => rfl
  | succ n ih =>
    simp only [Iterator.increment_times, increment_of_end]
    exact ih

/-- C18, evaluated on the code.  On the new tree, and on the tree holding the
single key 5, `--` applied to `rend()` yields the null cursor, which differs
from `rend()`: the test compares the sentinel's `left_tree` with `rend()`. -/
theorem decrement_at_rend_leaves_rend :
    new.rend.decrement new = .ok ⟨none⟩ ∧ (⟨none⟩ : Iterator) ≠ new.rend
    ∧ ∃ t, new.insert 5 = .ok (true, t)
      ∧ t.rend.decrement t = .ok ⟨none⟩ ∧ (⟨none⟩ : Iterator) ≠ t.rend :=
  ⟨rfl, by decide, _, rfl, rfl, by decide⟩

/-- C19.  Inserting 1, 2, 3, 4, 5 into a new tree: every call returns true,
`height()` is 2 (which is also the height by shape), `size()` is 5, and the
tree is search-ordered with in-order key sequence 1, 2, 3, 4, 5. -/
theorem ascending_inserts_give_height_two :
    ∃ t, run new [.insert 1, .insert 2, .insert 3, .insert 4, .insert 5]
        = .ok ([true, true, true, true, true], t)
      ∧ t.height = .ok 2 ∧ subtree_height t.fuel t t.root_node = .ok 2
      ∧ t.size = 5
      ∧ search_ordered t.fuel t t.root_node = .ok true
      ∧ inorder t.fuel t t.root_node = .ok [1, 2, 3, 4, 5] :=
  ⟨_, rfl, rfl, rfl, rfl, rfl, rfl⟩

/-- C20.  Inserting 5, 3, 8, 1, 4, 7, 9 into a new tree: `front()` is 1,
`back()` is 9, the cursor loop from `begin()` to `end()` yields
1, 3, 4, 5, 7, 8, 9, and `height()` is at most 2. -/
theorem seven_key_scenario :
    ∃ t h, run new [.insert 5, .insert 3, .insert 8, .insert 1, .insert 4, .insert 7, .insert 9]
        = .ok ([true, true, true, true, true, true, true], t)
      ∧ t.front = .ok 1 ∧ t.back = .ok 9
      ∧ t.traversal = .ok [1, 3, 4, 5, 7, 8, 9]
      ∧ t.height = .ok h ∧ h ≤ 2 :=
  ⟨_, _, rfl, rfl, rfl, rfl, rfl, by decide⟩

/-- C21.  Inserting 10 and 20 into a new tree and erasing 10: the three calls
return true, `size()` is 1, `front()` and `back()` are 20, `find(10)` is
`end()`, and the order chain is front sentinel, the node holding 20, back
sentinel, in both directions. -/
theorem erase_first_of_two_keys :
    ∃ t a n, run new [.insert 10, .insert 20, .erase 10] = .ok ([true, true, true], t)
      ∧ t.size = 1 ∧ t.front = .ok 20 ∧ t.back = .ok 20
      ∧ t.find 10 = .ok t.end_
      ∧ chain t = .ok [20] ∧ t.traversal = .ok [20]
      ∧ next_of t t.front_sentinel = .ok (some a) ∧ t.load a = .ok n
      ∧ n.node_value = 20 ∧ n.next_node = t.back_sentinel
      ∧ n.previous_node = t.front_sentinel
      ∧ previous_of t t.back_sentinel = .ok (some a) ∧ t.root_node = some a :=
  ⟨_, _, _, rfl, rfl, rfl, rfl, rfl, rfl, rfl, rfl, rfl, rfl, rfl, rfl, rfl, rfl⟩

/-- C22, evaluated on the code.  On the new tree `height()` is -1 and after one
insert it is 0, but after the inserts 3, 1, 2 and the erases 3, 2 (all returning
true) the tree holds the single key 1, its root is a leaf, and `height()`
returns 1: the cached height the double rotation left on that node. -/
theorem height_of_single_key_tree_is_stale :
    new.height = .ok (-1)
    ∧ (∃ t, new.insert 7 = .ok (true, t) ∧ t.height = .ok 0)
    ∧ ∃ t r n, run new [.insert 3, .insert 1, .insert 2, .erase 3, .erase 2]
        = .ok ([true, true, true, true, true], t)
      ∧ t.size = 1 ∧ chain t = .ok [1]
      ∧ t.root_node = some r ∧ t.load r = .ok n
      ∧ n.left_tree = none ∧ n.right_tree = none
      ∧ t.height = .ok 1 :=
  ⟨rfl, ⟨_, rfl, rfl⟩, _, _, _, rfl, rfl, rfl, rfl, rfl, rfl, rfl, rfl⟩

/-- C31, evaluated on the code.  The inserts 2, 1, 6, 4, 7 followed by the
recursive `Node::insert` of 3 below the root leave a search-ordered tree with
in-order keys 1, 2, 3, 4, 6, 7 whose root (key 2) has a left subtree of height 0
and a right subtree of height 2 with the taller grandchild on the left: the
right-left case.  `balanceRight` on the root then installs the node holding 7,
whose right child (key 6) has that node as its right child again, so no in-order
sequence exists any more, and the nodes holding 3 and 4 are not found from the
new subtree root.  On the tree 1, 3 with 2 attached below 3, `balanceRight`
dereferences the null right child of the node holding 3. -/
theorem balanceRight_right_left_case_loses_nodes :
    (∃ t0 t t', run new [.insert 2, .insert 1, .insert 6, .insert 4, .insert 7]
          = .ok ([true, true, true, true, true], t0)
        ∧ Node.insert t0.fuel t0 4 3 (.right_tree 2) = .ok (true, t)
        ∧ search_ordered t.fuel t t.root_node = .ok true
        ∧ inorder t.fuel t t.root_node = .ok [1, 2, 3, 4, 6, 7]
        ∧ t.root_node = some 2
        ∧ subtree_height t.fuel t (some 3) = .ok 0
        ∧ subtree_height t.fuel t (some 4) = .ok 2
        ∧ Node.balanceRight t 2 .root_node = .ok t'
        ∧ t'.root_node = some 6
        ∧ (∀ (fuel : Nat) (l : List Int), inorder fuel t' t'.root_node ≠ .ok l)
        ∧ Node.find t'.fuel t' 6 3 = .ok none
        ∧ Node.find t'.fuel t' 6 4 = .ok none)
    ∧ (∃ s0 s, run new [.insert 1, .insert 3] = .ok ([true, true], s0)
        ∧ Node.insert s0.fuel s0 3 2 (.right_tree 2) = .ok (true, s)
        ∧ inorder s.fuel s s.root_node = .ok [1, 2, 3]
        ∧ Node.balanceRight s 2 .root_node = .error .null_dereference) :=
  ⟨⟨_, _, _, rfl, rfl, rfl, rfl, rfl, rfl, rfl, rfl, rfl,
    inorder_of_right_cycle _ 6 4 _ _ rfl rfl rfl rfl, rfl, rfl⟩,
   ⟨_, _, rfl, rfl, rfl, rfl⟩⟩

/-- C33, evaluated on the code.  After the inserts 4, 2, 5, 1, 3 and `erase(5)`
the root (key 4) has a left subtree of height 1 and no right subtree, and the
two grandchildren below its left child have equal heights 0; `balanceLeft` on the
root changes nothing, so the taller child does not become the subtree root.  In
the right-left case reached by the inserts 2, 1, 6, 4, 7 and the recursive insert
of 3, the taller child (key 6) has its left grandchild (key 4) strictly taller
than its right one (key 7), and `balanceRight` installs the node holding 7. -/
theorem rotation_choice_differs :
    (∃ t r n l m, run new [.insert 4, .insert 2, .insert 5, .insert 1, .insert 3, .erase 5]
          = .ok ([true, true, true, true, true, true], t)
        ∧ t.root_node = some r ∧ t.load r = .ok n
        ∧ n.left_tree = some l ∧ n.right_tree = none
        ∧ subtree_height t.fuel t n.left_tree = .ok 1
        ∧ subtree_height t.fuel t n.right_tree = .ok (-1)
        ∧ t.load l = .ok m
        ∧ subtree_height t.fuel t m.left_tree = .ok 0
        ∧ subtree_height t.fuel t m.right_tree = .ok 0
        ∧ Node.height t m.left_tree = .ok 0 ∧ Node.height t m.right_tree = .ok 0
        ∧ Node.balanceLeft t r .root_node = .ok t)
    ∧ (∃ t0 t t' b m d x, run new [.insert 2, .insert 1, .insert 6, .insert 4, .insert 7]
          = .ok ([true, true, true, true, true], t0)
        ∧ Node.insert t0.fuel t0 4 3 (.right_tree 2) = .ok (true, t)
        ∧ t.root_node = some 2
        ∧ t.load 2 = .ok x ∧ x.right_tree = some b
        ∧ subtree_height t.fuel t x.left_tree = .ok 0
        ∧ subtree_height t.fuel t x.right_tree = .ok 2
        ∧ t.load b = .ok m
        ∧ subtree_height t.fuel t m.left_tree = .ok 1
        ∧ subtree_height t.fuel t m.right_tree = .ok 0
        ∧ Node.height t m.left_tree = .ok 1 ∧ Node.height t m.right_tree = .ok 0
        ∧ Node.balanceRight t 2 .root_node = .ok t'
        ∧ t'.root_node = m.right_tree ∧ t'.root_node ≠ m.left_tree
        ∧ t'.root_node = some d ∧ Iterator.value t' ⟨some d⟩ = .ok 7) :=
  ⟨⟨_, _, _, _, _, rfl, rfl, rfl, rfl, rfl, rfl, rfl, rfl, rfl, rfl, rfl, rfl, rfl⟩,
   ⟨_, _, _, _, _, _, _, rfl, rfl, rfl, rfl, rfl, rfl, rfl, rfl, rfl, rfl, rfl, rfl, rfl,
    rfl, by decide, rfl, rfl⟩⟩

theorem same_chain_refl (s : Slot) (t : Search_tree) : Same_chain s t t :=
  ⟨rfl, rfl, rfl, rfl, fun _ => rfl⟩

theorem same_chain_trans {s : Slot} {t1 t2 t3 : Search_tree}
    (h1 : Same_chain s t1 t2) (h2 : Same_chain s t2 t3) : Same_chain s t1 t3 :=
  ⟨h2.1.trans h1.1, h2.2.1.trans h1.2.1, h2.2.2.1.trans h1.2.2.1,
   h2.2.2.2.1.trans h1.2.2.2.1, fun h => (h2.2.2.2.2 h).trans (h1.2.2.2.2 h)⟩

/-- What `load` returns, in terms of the heap cell. -/
theorem load_eq_ok (t : Search_tree) (a : Nat) (n : Node) :
    t.load a = .ok n ↔ t.heap[a]? = some (some n) := by
  unfold load
  rw [List.get?_eq_getElem?]
  constructor
  · intro h
    split at h
    · rename_i m hm
      cases h
      exact hm
    · cases h
  · intro h
    rw [h]

/-- An assignment to members outside the chain part keeps the chain view. -/
theorem modify_same_chain (s : Slot) (t : Search_tree) (a : Nat) (f : Node → Node)
    (t' : Search_tree) (h : t.modify a f = .ok t')
    (hf : ∀ n, (f n).chain_part = n.chain_part) : Same_chain s t t' := by
  unfold modify at h
  split at h
  · rename_i n hn
    cases h
    refine ⟨?_, rfl, rfl, rfl, fun _ => rfl⟩
    rw [load_eq_ok] at hn
    simp only [chain_view]
    apply List.ext_getElem?
    intro i
    simp only [List.getElem?_map, List.getElem?_set]
    split
    · rename_i hai
      subst hai
      rw [hn]
      split
      · simp [hf]
      · exfalso
        have := List.getElem?_eq_some.mp hn
        obtain ⟨hlt, -⟩ := this
        contradiction
    · rfl
  · cases h

/-- An assignment through a `Node *&` keeps the chain view, and the root unless
the reference is bound to the root. -/
theorem assign_same_chain (t : Search_tree) (s : Slot) (p : Option Nat) (t' : Search_tree)
    (h : t.assign s p = .ok t') : Same_chain s t t' := by
  cases s with
  | root_node =>
    simp only [assign, Except.ok.injEq] at h
    subst h
    exact ⟨rfl, rfl, rfl, rfl, fun h => absurd rfl h⟩
  | left_tree a => exact modify_same_chain _ t a _ t' h (fun _ => rfl)
  | right_tree a => exact modify_same_chain _ t a _ t' h (fun _ => rfl)

/-- `Node::update_height` keeps the chain view. -/
theorem update_height_same_chain (s : Slot) (t : Search_tree) (this : Nat) (t' : Search_tree)
    (h : Node.update_height t this = .ok t') : Same_chain s t t' := by
  unfold Node.update_height at h
  obtain ⟨n, -, h⟩ := ok_of_bind_ok _ _ _ h
  obtain ⟨hl, -, h⟩ := ok_of_bind_ok _ _ _ h
  obtain ⟨hr, -, h⟩ := ok_of_bind_ok _ _ _ h
  exact modify_same_chain _ t this _ t' h (fun _ => rfl)

/-- `Node::balanceLeft` keeps the chain view. -/
theorem balanceLeft_same_chain (t : Search_tree) (this : Nat) (s : Slot) (t' : Search_tree)
    (h : Node.balanceLeft t this s = .ok t') : Same_chain s t t' := by
  unfold Node.balanceLeft at h
  obtain ⟨n, -, h⟩ := ok_of_bind_ok _ _ _ h
  dsimp only at h
  split at h
  · cases h
    exact same_chain_refl _ _
  · obtain ⟨enter, -, h⟩ := ok_of_bind_ok _ _ _ h
    split at h
    · obtain ⟨l, -, h⟩ := ok_of_bind_ok _ _ _ h
      obtain ⟨ln, -, h⟩ := ok_of_bind_ok _ _ _ h
      obtain ⟨hll, -, h⟩ := ok_of_bind_ok _ _ _ h
      obtain ⟨hlr, -, h⟩ := ok_of_bind_ok _ _ _ h
      split at h
      · obtain ⟨t1, h1, h⟩ := ok_of_bind_ok _ _ _ h
        obtain ⟨t2, h2, h⟩ := ok_of_bind_ok _ _ _ h
        exact same_chain_trans (modify_same_chain _ _ _ _ _ h1 (fun _ => rfl))
          (same_chain_trans (assign_same_chain _ _ _ _ h2)
            (modify_same_chain _ _ _ _ _ h (fun _ => rfl)))
      · split at h
        · obtain ⟨d, -, h⟩ := ok_of_bind_ok _ _ _ h
          obtain ⟨dn, -, h⟩ := ok_of_bind_ok _ _ _ h
          obtain ⟨t1, h1, h⟩ := ok_of_bind_ok _ _ _ h
          obtain ⟨t2, h2, h⟩ := ok_of_bind_ok _ _ _ h
          obtain ⟨t3, h3, h⟩ := ok_of_bind_ok _ _ _ h
          obtain ⟨t4, h4, h⟩ := ok_of_bind_ok _ _ _ h
          exact same_chain_trans (modify_same_chain _ _ _ _ _ h1 (fun _ => rfl))
            (same_chain_trans (modify_same_chain _ _ _ _ _ h2 (fun _ => rfl))
              (same_chain_trans (assign_same_chain _ _ _ _ h3)
                (same_chain_trans (modify_same_chain _ _ _ _ _ h4 (fun _ => rfl))
                  (modify_same_chain _ _ _ _ _ h (fun _ => rfl)))))
        · cases h
          exact same_chain_refl _ _
    · cases h
      exact same_chain_refl _ _

/-- `Node::balanceRight` keeps the chain view. -/
theorem balanceRight_same_chain (t : Search_tree) (this : Nat) (s : Slot) (t' : Search_tree)
    (h : Node.balanceRight t this s = .ok t') : Same_chain s t t' := by
  unfold Node.balanceRight at h
  obtain ⟨n, -, h⟩ := ok_of_bind_ok _ _ _ h
  dsimp only at h
  split at h
  · cases h
    exact same_chain_refl _ _
  · obtain ⟨enter, -, h⟩ := ok_of_bind_ok _ _ _ h
    split at h
    · obtain ⟨l, -, h⟩ := ok_of_bind_ok _ _ _ h
      obtain ⟨ln, -, h⟩ := ok_of_bind_ok _ _ _ h
      obtain ⟨hll, -, h⟩ := ok_of_bind_ok _ _ _ h
      obtain ⟨hlr, -, h⟩ := ok_of_bind_ok _ _ _ h
      split at h
      · obtain ⟨t1, h1, h⟩ := ok_of_bind_ok _ _ _ h
        obtain ⟨t2, h2, h⟩ := ok_of_bind_ok _ _ _ h
        exact same_chain_trans (modify_same_chain _ _ _ _ _ h1 (fun _ => rfl))
          (same_chain_trans (assign_same_chain _ _ _ _ h2)
            (modify_same_chain _ _ _ _ _ h (fun _ => rfl)))
      · split at h
        · obtain ⟨d, -, h⟩ := ok_of_bind_ok _ _ _ h
          obtain ⟨dn, -, h⟩ := ok_of_bind_ok _ _ _ h
          obtain ⟨t1, h1, h⟩ := ok_of_bind_ok _ _ _ h
          obtain ⟨t2, h2, h⟩ := ok_of_bind_ok _ _ _ h
          obtain ⟨t3, h3, h⟩ := ok_of_bind_ok _ _ _ h
          obtain ⟨t4, h4, h⟩ := ok_of_bind_ok _ _ _ h
          exact same_chain_trans (modify_same_chain _ _ _ _ _ h1 (fun _ => rfl))
            (same_chain_trans (modify_same_chain _ _ _ _ _ h2 (fun _ => rfl))
              (same_chain_trans (assign_same_chain _ _ _ _ h3)
                (same_chain_trans (modify_same_chain _ _ _ _ _ h4 (fun _ => rfl))
                  (modify_same_chain _ _ _ _ _ h (fun _ => rfl)))))
        · cases h
          exact same_chain_refl _ _
    · cases h
      exact same_chain_refl _ _

/-- States with the same chain view store, at every address, nodes with the
same key and the same chain links. -/
theorem load_of_same_view (t t' : Search_tree) (h : chain_view t' = chain_view t)
    (a : Nat) (n : Node) (hn : t.load a = .ok n) :
    ∃ n', t'.load a = .ok n' ∧ n'.node_value = n.node_value
      ∧ n'.previous_node = n.previous_node ∧ n'.next_node = n.next_node := by
  rw [load_eq_ok] at hn
  have h1 : (chain_view t')[a]? = (chain_view t)[a]? := by rw [h]
  simp only [chain_view, List.getElem?_map, hn, Option.map_some'] at h1
  cases hc : t'.heap[a]? with
  | none => rw [hc] at h1; cases h1
  | some c =>
    rw [hc] at h1
    cases c with
    | none => cases h1
    | some n' =>
      simp only [Option.map_some', Option.some.injEq, Node.chain_part, Prod.mk.injEq] at h1
      exact ⟨n', (load_eq_ok _ _ _).mpr hc, h1.1, h1.2.1, h1.2.2⟩

/-- A failing `load` fails in every state with the same chain view. -/
theorem load_error_of_same_view (t t' : Search_tree) (h : chain_view t' = chain_view t)
    (a : Nat) (e : Fault) (hn : t.load a = .error e) : t'.load a = .error e := by
  cases hl : t'.load a with
  | error e' =>
    unfold load at hn hl
    split at hn
    · cases hn
    · split at hl
      · cases hl
      · cases hn; cases hl; rfl
  | ok n' =>
    obtain ⟨n, hn', -⟩ := load_of_same_view t' t h.symm a n' hl
    rw [hn'] at hn
    cases hn

/-- The key sequence read along `next_node` depends on the chain view only. -/
theorem chain_from_of_same_view (t t' : Search_tree) (h : chain_view t' = chain_view t)
    (hb : t'.back_sentinel = t.back_sentinel) (fuel : Nat) :
    ∀ p, chain_from fuel t' p = chain_from fuel t p := by
  induction fuel with
  | zero => intro p; rfl
  | succ fuel ih =>
    intro p
    simp only [chain_from, hb]
    split
    · rfl
    · cases p with
      | none => rfl
      | some a =>
        simp only [address, bind, Except.bind]
        cases hl : t.load a with
        | error e => rw [load_error_of_same_view t t' h a e hl]
        | ok n =>
          obtain ⟨n', hn', hk, -, hx⟩ := load_of_same_view t t' h a n hl
          rw [hn']
          simp only [hx, hk, ih]

/-- The order chain depends on the chain view and the sentinels only. -/
theorem chain_of_same_view (t t' : Search_tree) (h : chain_view t' = chain_view t)
    (hf : t'.front_sentinel = t.front_sentinel) (hb : t'.back_sentinel = t.back_sentinel) :
    chain t' = chain t := by
  have hlen : t'.fuel = t.fuel := by
    have := congrArg List.length h
    simpa [chain_view, fuel] using this
  have hnext : next_of t' t'.front_sentinel = next_of t t.front_sentinel := by
    rw [hf]
    cases hp : t.front_sentinel with
    | none => rfl
    | some a =>
      simp only [next_of, address, bind, Except.bind]
      cases hl : t.load a with
      | error e => rw [load_error_of_same_view t t' h a e hl]
      | ok n =>
        obtain ⟨n', hn', -, -, hx⟩ := load_of_same_view t t' h a n hl
        rw [hn']
        simp only [pure, Except.pure, hx]
  simp only [chain, hnext, hlen]
  cases next_of t t.front_sentinel with
  | error e => rfl
  | ok first =>
    simp only [bind, Except.bind]
    exact chain_from_of_same_view t t' h hb _ _

/-- An assignment to members outside `Node.frame_part` keeps the frame view. -/
theorem modify_same_frame (t : Search_tree) (a : Nat) (f : Node → Node)
    (t' : Search_tree) (h : t.modify a f = .ok t')
    (hf : ∀ n, (f n).frame_part = n.frame_part) : frame_view t' = frame_view t := by
  unfold modify at h
  split at h
  · rename_i n hn
    cases h
    rw [load_eq_ok] at hn
    simp only [frame_view]
    apply List.ext_getElem?
    intro i
    simp only [List.getElem?_map, List.getElem?_set]
    split
    · rename_i hai
      subst hai
      rw [hn]
      split
      · simp [hf]
      · exfalso
        have := List.getElem?_eq_some.mp hn
        obtain ⟨hlt, -⟩ := this
        contradiction
    · rfl
  · cases h

/-- An assignment through a `Node *&` keeps the frame view. -/
theorem assign_same_frame (t : Search_tree) (s : Slot) (p : Option Nat) (t' : Search_tree)
    (h : t.assign s p = .ok t') : frame_view t' = frame_view t := by
  cases s with
  | root_node =>
    simp only [assign, Except.ok.injEq] at h
    subst h
    rfl
  | left_tree a => exact modify_same_frame t a _ t' h (fun _ => rfl)
  | right_tree a => exact modify_same_frame t a _ t' h (fun _ => rfl)

/-- `Node::balanceLeft` assigns `left_tree` and `right_tree` members and
`to_this` only. -/
theorem balanceLeft_same_frame (t : Search_tree) (this : Nat) (s : Slot) (t' : Search_tree)
    (h : Node.balanceLeft t this s = .ok t') : frame_view t' = frame_view t := by
  unfold Node.balanceLeft at h
  obtain ⟨n, -, h⟩ := ok_of_bind_ok _ _ _ h
  dsimp only at h
  split at h
  · cases h
    rfl
  · obtain ⟨enter, -, h⟩ := ok_of_bind_ok _ _ _ h
    split at h
    · obtain ⟨l, -, h⟩ := ok_of_bind_ok _ _ _ h
      obtain ⟨ln, -, h⟩ := ok_of_bind_ok _ _ _ h
      obtain ⟨hll, -, h⟩ := ok_of_bind_ok _ _ _ h
      obtain ⟨hlr, -, h⟩ := ok_of_bind_ok _ _ _ h
      split at h
      · obtain ⟨t1, h1, h⟩ := ok_of_bind_ok _ _ _ h
        obtain ⟨t2, h2, h⟩ := ok_of_bind_ok _ _ _ h
        rw [modify_same_frame _ _ _ _ h (fun _ => rfl), assign_same_frame _ _ _ _ h2,
          modify_same_frame _ _ _ _ h1 (fun _ => rfl)]
      · split at h
        · obtain ⟨d, -, h⟩ := ok_of_bind_ok _ _ _ h
          obtain ⟨dn, -, h⟩ := ok_of_bind_ok _ _ _ h
          obtain ⟨t1, h1, h⟩ := ok_of_bind_ok _ _ _ h
          obtain ⟨t2, h2, h⟩ := ok_of_bind_ok _ _ _ h
          obtain ⟨t3, h3, h⟩ := ok_of_bind_ok _ _ _ h
          obtain ⟨t4, h4, h⟩ := ok_of_bind_ok _ _ _ h
          rw [modify_same_frame _ _ _ _ h (fun _ => rfl),
            modify_same_frame _ _ _ _ h4 (fun _ => rfl), assign_same_frame _ _ _ _ h3,
            modify_same_frame _ _ _ _ h2 (fun _ => rfl),
            modify_same_frame _ _ _ _ h1 (fun _ => rfl)]
        · cases h
          rfl
    · cases h
      rfl

/-- `Node::balanceRight` assigns `left_tree` and `right_tree` members and
`to_this` only. -/
theorem balanceRight_same_frame (t : Search_tree) (this : Nat) (s : Slot) (t' : Search_tree)
    (h : Node.balanceRight t this s = .ok t') : frame_view t' = frame_view t := by
  unfold Node.balanceRight at h
  obtain ⟨n, -, h⟩ := ok_of_bind_ok _ _ _ h
  dsimp only at h
  split at h
  · cases h
    rfl
  · obtain ⟨enter, -, h⟩ := ok_of_bind_ok _ _ _ h
    split at h
    · obtain ⟨l, -, h⟩ := ok_of_bind_ok _ _ _ h
      obtain ⟨ln, -, h⟩ := ok_of_bind_ok _ _ _ h
      obtain ⟨hll, -, h⟩ := ok_of_bind_ok _ _ _ h
      obtain ⟨hlr, -, h⟩ := ok_of_bind_ok _ _ _ h
      split at h
      · obtain ⟨t1, h1, h⟩ := ok_of_bind_ok _ _ _ h
        obtain ⟨t2, h2, h⟩ := ok_of_bind_ok _ _ _ h
        rw [modify_same_frame _ _ _ _ h (fun _ => rfl), assign_same_frame _ _ _ _ h2,
          modify_same_frame _ _ _ _ h1 (fun _ => rfl)]
      · split at h
        · obtain ⟨d, -, h⟩ := ok_of_bind_ok _ _ _ h
          obtain ⟨dn, -, h⟩ := ok_of_bind_ok _ _ _ h
          obtain ⟨t1, h1, h⟩ := ok_of_bind_ok _ _ _ h
          obtain ⟨t2, h2, h⟩ := ok_of_bind_ok _ _ _ h
          obtain ⟨t3, h3, h⟩ := ok_of_bind_ok _ _ _ h
          obtain ⟨t4, h4, h⟩ := ok_of_bind_ok _ _ _ h
          rw [modify_same_frame _ _ _ _ h (fun _ => rfl),
            modify_same_frame _ _ _ _ h4 (fun _ => rfl), assign_same_frame _ _ _ _ h3,
            modify_same_frame _ _ _ _ h2 (fun _ => rfl),
            modify_same_frame _ _ _ _ h1 (fun _ => rfl)]
        · cases h
          rfl
    · cases h
      rfl

/-- States with the same frame view store, at every address, nodes that differ
in `left_tree` and `right_tree` at most. -/
theorem load_of_same_frame (t t' : Search_tree) (h : frame_view t' = frame_view t)
    (a : Nat) (n : Node) (hn : t.load a = .ok n) :
    ∃ n', t'.load a = .ok n'
      ∧ n' = { n with left_tree := n'.left_tree, right_tree := n'.right_tree } := by
  rw [load_eq_ok] at hn
  have h1 : (frame_view t')[a]? = (frame_view t)[a]? := by rw [h]
  simp only [frame_view, List.getElem?_map, hn, Option.map_some'] at h1
  cases hc : t'.heap[a]? with
  | none => rw [hc] at h1; cases h1
  | some c =>
    rw [hc] at h1
    cases c with
    | none => cases h1
    | some n' =>
      simp only [Option.map_some', Option.some.injEq, Node.frame_part, Prod.mk.injEq] at h1
      refine ⟨n', (load_eq_ok _ _ _).mpr hc, ?_⟩
      obtain ⟨h1, h2, h3, h4⟩ := h1
      cases n
      cases n'
      simp only at h1 h2 h3 h4
      subst h1 h2 h3 h4
      rfl

/-- C34.  Whenever `balanceLeft` or `balanceRight` returns, on any state, any node
and any parent slot, only `left_tree` / `right_tree` members and the parent slot
have been assigned: every node stored before is still stored at its address with
the same key, the same `previous_node`, the same `next_node` and the same cached
`tree_height`, so it differs from the node before in `left_tree` and `right_tree`
at most; an address that held no node holds none; no node is allocated or
deleted; size and sentinels are unchanged; `root_node` is unchanged unless it is
the parent slot, so the tree object differs in the heap and `root_node` at most;
and the order chain reads the same key sequence. -/
theorem rotations_keep_order_chain (t : Search_tree) (this : Nat) (to_this : Slot)
    (t' : Search_tree)
    (h : Node.balanceLeft t this to_this = .ok t' ∨ Node.balanceRight t this to_this = .ok t') :
    (∀ (a : Nat) (n : Node), t.load a = .ok n →
        ∃ n', t'.load a = .ok n' ∧ n'.node_value = n.node_value
          ∧ n'.previous_node = n.previous_node ∧ n'.next_node = n.next_node
          ∧ n'.tree_height = n.tree_height
          ∧ n' = { n with left_tree := n'.left_tree, right_tree := n'.right_tree })
    ∧ (∀ (a : Nat) (e : Fault), t.load a = .error e → t'.load a = .error e)
    ∧ t'.heap.length = t.heap.length
    ∧ t'.tree_size = t.tree_size
    ∧ t'.front_sentinel = t.front_sentinel ∧ t'.back_sentinel = t.back_sentinel
    ∧ (to_this ≠ .root_node → t'.root_node = t.root_node)
    ∧ t' = { t with heap := t'.heap, root_node := t'.root_node }
    ∧ chain t' = chain t := by
  have hs : Same_chain to_this t t' := by
    rcases h with h | h
    · exact balanceLeft_same_chain _ _ _ _ h
    · exact balanceRight_same_chain _ _ _ _ h
  have hfr : frame_view t' = frame_view t := by
    rcases h with h | h
    · exact balanceLeft_same_frame _ _ _ _ h
    · exact balanceRight_same_frame _ _ _ _ h
  obtain ⟨hv, hsz, hf, hb, hr⟩ := hs
  refine ⟨?_, load_error_of_same_view t t' hv, ?_, hsz, hf, hb, hr, ?_,
    chain_of_same_view t t' hv hf hb⟩
  · intro a n hn
    obtain ⟨n', hn', he⟩ := load_of_same_frame t t' hfr a n hn
    refine ⟨n', hn', ?_, ?_, ?_, ?_, he⟩
    · rw [he]
    · rw [he]
    · rw [he]
    · rw [he]
  · have := congrArg List.length hv
    simpa [chain_view] using this
  · cases t
    cases t'
    simp only at hsz hf hb
    subst hsz hf hb
    rfl

/-- C34 at concrete inputs: the left-left rotation at the root after the inserts
3, 2 and the recursive insert of 1, and the right-left case at the root after the
inserts 2, 1, 6, 4, 7 and the recursive insert of 3; both keep the order chain. -/
theorem rotations_keep_order_chain_witness :
    (∃ t0 t t', run new [.insert 3, .insert 2] = .ok ([true, true], t0)
      ∧ Node.insert t0.fuel t0 3 1 (.left_tree 2) = .ok (true, t)
      ∧ Node.balanceLeft t 2 .root_node = .ok t' ∧ t'.root_node = some 3
      ∧ chain t' = chain t ∧ chain t = .ok [1, 2, 3])
    ∧ (∃ t0 t t', run new [.insert 2, .insert 1, .insert 6, .insert 4, .insert 7]
          = .ok ([true, true, true, true, true], t0)
      ∧ Node.insert t0.fuel t0 4 3 (.right_tree 2) = .ok (true, t)
      ∧ Node.balanceRight t 2 .root_node = .ok t' ∧ t'.root_node = some 6
      ∧ chain t' = chain t ∧ chain t = .ok [1, 2, 3, 4, 6, 7]) :=
by
  refine ⟨⟨_, _, _, rfl, rfl, rfl, rfl, ?_, rfl⟩, ⟨_, _, _, rfl, rfl, rfl, rfl, ?_, rfl⟩⟩
  · refine (rotations_keep_order_chain _ 2 .root_node _ (Or.inl ?_)).2.2.2.2.2.2.2.2
    rfl
  · refine (rotations_keep_order_chain _ 2 .root_node _ (Or.inr ?_)).2.2.2.2.2.2.2.2
    rfl

/-- A successful `load` is of an address inside the heap. -/
theorem lt_of_load_ok (t : Search_tree) (a : Nat) (n : Node) (h : t.load a = .ok n) :
    a < t.heap.length := by
  rw [load_eq_ok] at h
  exact (List.getElem?_eq_some.mp h).1

/-- An assignment to a stored node: the resulting state. -/
theorem modify_spec (t : Search_tree) (a : Nat) (f : Node → Node) (n : Node)
    (h : t.load a = .ok n) :
    ∃ t', t.modify a f = .ok t' ∧ t'.load a = .ok (f n)
      ∧ (∀ b, b ≠ a → t'.load b = t.load b)
      ∧ t'.heap.length = t.heap.length ∧ t'.root_node = t.root_node
      ∧ t'.tree_size = t.tree_size ∧ t'.front_sentinel = t.front_sentinel
      ∧ t'.back_sentinel = t.back_sentinel := by
  refine ⟨{ t with heap := t.heap.set a (some (f n)) }, ?_, ?_, ?_, ?_, rfl, rfl, rfl, rfl⟩
  · simp [modify, h]
  · rw [load_eq_ok]
    simp [lt_of_load_ok t a n h]
  · intro b hb
    unfold load
    simp only [List.get?_eq_getElem?]
    rw [List.getElem?_set_ne (Ne.symm hb)]
  · simp

/-- Loads after `new Node( obj )`: the old addresses are untouched and the new
node is at the end of the heap. -/
theorem load_alloc (t : Search_tree) (obj : Int) :
    (t.alloc obj).2.load t.heap.length
        = .ok { node_value := obj, tree_height := 0, left_tree := none, right_tree := none,
                previous_node := none, next_node := none }
    ∧ ∀ c n, t.load c = .ok n → (t.alloc obj).2.load c = .ok n := by
  constructor
  · rw [load_eq_ok]
    simp [alloc]
  · intro c n h
    have hlt := lt_of_load_ok t c n h
    rw [load_eq_ok] at h ⊢
    simp only [alloc]
    rw [List.getElem?_append_left hlt]
    exact h

/-- `Search_tree::insert` on a state without root whose sentinels are stored
nodes: the call returns true and the state it leaves. -/
theorem insert_without_root (t : Search_tree) (k : Int) (f b : Nat) (nf nb : Node)
    (he : t.empty = true) (hf : t.front_sentinel = some f) (hb : t.back_sentinel = some b)
    (hlf : t.load f = .ok nf) (hlb : t.load b = .ok nb) :
    ∃ t', t.insert k = .ok (true, t') ∧ t'.size = 1 ∧ t'.empty = false
      ∧ t'.root_node = some t.heap.length
      ∧ t'.front_sentinel = t.front_sentinel ∧ t'.back_sentinel = t.back_sentinel
      ∧ t'.heap.length = t.heap.length + 1
      ∧ t'.load t.heap.length
          = .ok { node_value := k, tree_height := 0, left_tree := none, right_tree := none,
                  previous_node := t.front_sentinel, next_node := t.back_sentinel }
      ∧ (∃ n, t'.load f = .ok n ∧ n.next_node = some t.heap.length)
      ∧ (∃ n, t'.load b = .ok n ∧ n.previous_node = some t.heap.length) := by
  have hfl := lt_of_load_ok t f nf hlf
  have hbl := lt_of_load_ok t b nb hlb
  obtain ⟨la, lo⟩ := load_alloc t k
  obtain ⟨t1, ht1⟩ : ∃ t1 : Search_tree, t1 =
      { heap := t.heap ++ [some { node_value := k, tree_height := 0, left_tree := none,
                                  right_tree := none, previous_node := none, next_node := none }],
        root_node := some t.heap.length, tree_size := 1, front_sentinel := some f,
        back_sentinel := some b } := ⟨_, rfl⟩
  have l1 : ∀ c, t1.load c = (t.alloc k).2.load c := by
    intro c
    rw [ht1]
    rfl
  have e1 : t1.root_node = some t.heap.length ∧ t1.tree_size = 1 ∧ t1.front_sentinel = some f
      ∧ t1.back_sentinel = some b ∧ t1.heap.length = t.heap.length + 1 := by
    rw [ht1]
    refine ⟨rfl, rfl, rfl, rfl, ?_⟩
    simp
  obtain ⟨e1r, e1z, e1f, e1b, e1l⟩ := e1
  obtain ⟨t2, hm2, hs2, ho2, hlen2, hr2, hz2, hf2, hb2⟩ := modify_spec t1 f
    (fun m => { m with next_node := some t.heap.length }) nf (by rw [l1, lo f nf hlf])
  have l2a : t2.load t.heap.length = .ok
      { node_value := k, tree_height := 0, left_tree := none, right_tree := none,
        previous_node := none, next_node := none } := by
    rw [ho2 _ (by omega), l1, la]
  obtain ⟨t3, hm3, hs3, ho3, hlen3, hr3, hz3, hf3, hb3⟩ := modify_spec t2 t.heap.length
    (fun m => { m with previous_node := some f }) _ l2a
  have l3b : ∃ n, t3.load b = .ok n := by
    rw [ho3 _ (by omega)]
    by_cases hbf : b = f
    · rw [hbf, hs2]
      exact ⟨_, rfl⟩
    · rw [ho2 _ hbf, l1, lo b nb hlb]
      exact ⟨_, rfl⟩
  obtain ⟨n3, l3b⟩ := l3b
  obtain ⟨t4, hm4, hs4, ho4, hlen4, hr4, hz4, hf4, hb4⟩ := modify_spec t3 b
    (fun m => { m with previous_node := some t.heap.length }) _ l3b
  have l4a : t4.load t.heap.length = .ok
      { node_value := k, tree_height := 0, left_tree := none, right_tree := none,
        previous_node := some f, next_node := none } := by
    rw [ho4 _ (by omega), hs3]
  obtain ⟨t5, hm5, hs5, ho5, hlen5, hr5, hz5, hf5, hb5⟩ := modify_spec t4 t.heap.length
    (fun m => { m with next_node := some b }) _ l4a
  refine ⟨t5, ?_, ?_, ?_, ?_, ?_, ?_, ?_, ?_, ?_, ?_⟩
  · unfold Search_tree.insert
    simp only [he, if_true, alloc, hf, hb, address, bind, Except.bind]
    rw [← ht1]
    simp only [hm2, hr2, e1r, hf2, e1f, hm3, hb3, hb2, e1b, hm4, hr4, hr3, hb4, hm5, pure,
      Except.pure]
  · simp only [size, hz5, hz4, hz3, hz2, e1z]
  · simp only [empty, hr5, hr4, hr3, hr2, e1r]
    rfl
  · rw [hr5, hr4, hr3, hr2, e1r]
  · rw [hf5, hf4, hf3, hf2, e1f, hf]
  · rw [hb5, hb4, hb3, hb2, e1b, hb]
  · rw [hlen5, hlen4, hlen3, hlen2, e1l]
  · rw [hs5, hf, hb]
  · rw [ho5 _ (by omega)]
    by_cases hbf : f = b
    · rw [hbf, hs4]
      refine ⟨_, rfl, ?_⟩
      rw [ho3 _ (by omega), ← hbf, hs2] at l3b
      cases l3b
      rfl
    · rw [ho4 _ hbf, ho3 _ (by omega), hs2]
      exact ⟨_, rfl, rfl⟩
  · rw [ho5 _ (by omega), hs4]
    exact ⟨_, rfl, rfl⟩

/-- C38.  For every key k and every state in which `empty()` holds and the two
sentinels are stored nodes, `insert(k)` returns true and leaves: `size()` 1,
`height()` 0, a root holding k with no children whose `previous_node` is the
front sentinel and whose `next_node` is the back sentinel, the front sentinel's
`next_node` and the back sentinel's `previous_node` both the root, `front()` and
`back()` equal to k, `++begin()` equal to `end()`, and a cursor loop that
yields k alone. -/
theorem insert_into_empty_tree (t : Search_tree) (k : Int) (f b : Nat) (nf nb : Node)
    (he : t.empty = true) (hf : t.front_sentinel = some f) (hb : t.back_sentinel = some b)
    (hlf : t.load f = .ok nf) (hlb : t.load b = .ok nb) :
    ∃ t' r, t.insert k = .ok (true, t') ∧ t'.size = 1 ∧ t'.height = .ok 0
      ∧ t'.root_node = some r
      ∧ t'.load r = .ok { node_value := k, tree_height := 0, left_tree := none,
                          right_tree := none, previous_node := t'.front_sentinel,
                          next_node := t'.back_sentinel }
      ∧ next_of t' t'.front_sentinel = .ok (some r)
      ∧ previous_of t' t'.back_sentinel = .ok (some r)
      ∧ t'.front = .ok k ∧ t'.back = .ok k
      ∧ (t'.begin >>= fun it => it.increment t') = .ok t'.end_
      ∧ t'.traversal = .ok [k] := by
  obtain ⟨t', hins, hsz, hem, hroot, hfs, hbs, hlen, hload, ⟨n1, hn1, hn1x⟩, ⟨n2, hn2, hn2p⟩⟩ :=
    insert_without_root t k f b nf nb he hf hb hlf hlb
  have hbl := lt_of_load_ok t b nb hlb
  have hne : (some t.heap.length : Option Nat) ≠ some b := by
    intro h
    cases h
    omega
  have hfront : Node.front t'.fuel t' t.heap.length = .ok t.heap.length := by
    simp [fuel, hlen, Node.front, hload, bind, Except.bind, pure, Except.pure]
  have hback : Node.back t'.fuel t' t.heap.length = .ok t.heap.length := by
    simp [fuel, hlen, Node.back, hload, bind, Except.bind, pure, Except.pure]
  have hbegin : t'.begin = .ok ⟨some t.heap.length⟩ := by
    simp [begin, hem, hroot, address, hfront, bind, Except.bind, pure, Except.pure]
  have hinc : Iterator.increment t' ⟨some t.heap.length⟩ = .ok t'.end_ := by
    simp [Iterator.increment, end_, hbs, hb, hne, address, hload, bind, Except.bind, pure,
      Except.pure]
  refine ⟨t', t.heap.length, hins, hsz, ?_, hroot, ?_, ?_, ?_, ?_, ?_, ?_, ?_⟩
  · simp [height, Node.height, hroot, hload, bind, Except.bind, pure, Except.pure]
  · rw [hload, hfs, hbs]
  · simp [next_of, hfs, hf, address, hn1, hn1x, bind, Except.bind, pure, Except.pure]
  · simp [previous_of, hbs, hb, address, hn2, hn2p, bind, Except.bind, pure, Except.pure]
  · simp [front, hem, hroot, address, hfront, hload, bind, Except.bind, pure, Except.pure]
  · simp [back, hem, hroot, address, hback, hload, bind, Except.bind, pure, Except.pure]
  · rw [hbegin]
    exact hinc
  · simp only [traversal, hbegin, bind, Except.bind, fuel, hlen, Iterator.collect]
    have hne2 : (⟨some t.heap.length⟩ : Iterator) ≠ t'.end_ := by
      intro h
      simp only [end_, hbs, hb, Iterator.mk.injEq] at h
      exact hne h
    rw [if_neg hne2]
    simp [Iterator.value, address, hload, hinc, bind, Except.bind, pure, Except.pure]

/-- C38 on the newly constructed tree with the key 7. -/
theorem insert_into_empty_tree_witness :
    ∃ t' r, new.insert 7 = .ok (true, t') ∧ t'.size = 1 ∧ t'.height = .ok 0
      ∧ t'.root_node = some r
      ∧ t'.load r = .ok { node_value := 7, tree_height := 0, left_tree := none,
                          right_tree := none, previous_node := t'.front_sentinel,
                          next_node := t'.back_sentinel }
      ∧ next_of t' t'.front_sentinel = .ok (some r)
      ∧ previous_of t' t'.back_sentinel = .ok (some r)
      ∧ t'.front = .ok 7 ∧ t'.back = .ok 7
      ∧ (t'.begin >>= fun it => it.increment t') = .ok t'.end_
      ∧ t'.traversal = .ok [7] :=
  insert_into_empty_tree new 7 0 1 _ _ rfl rfl rfl rfl rfl

/-- The cached height read through a child pointer survives an assignment that
keeps every stored node's cached height. -/
theorem height_of_kept (t s : Search_tree) (q : Option Nat) (h : Int)
    (hh : Node.height t q = .ok h)
    (hk : ∀ c m, t.load c = .ok m → ∃ m', s.load c = .ok m' ∧ m'.tree_height = m.tree_height) :
    Node.height s q = .ok h := by
  cases q with
  | none => exact hh
  | some r =>
    simp only [Node.height] at hh ⊢
    obtain ⟨m, hm, hh⟩ := ok_of_bind_ok _ _ _ hh
    obtain ⟨m', hm', he⟩ := hk r m hm
    rw [hm']
    simp only [bind, Except.bind, pure, Except.pure, he] at hh ⊢
    exact hh

/-- `Node::insert` at a node without left child, for a smaller key: the new node
is allocated at the end of the heap and linked in before the node. -/
theorem insert_left_spec (fuel : Nat) (t : Search_tree) (this : Nat) (obj : Int)
    (to_this : Slot) (n : Node) (p : Nat) (pn : Node) (hr : Int)
    (hn : t.load this = .ok n) (hlt : obj < n.node_value) (hleft : n.left_tree = none)
    (hp : n.previous_node = some p) (hpn : t.load p = .ok pn)
    (hh : Node.height t n.right_tree = .ok hr) :
    ∃ t', Node.insert (fuel + 1) t this obj to_this = .ok (true, t')
      ∧ t'.load t.heap.length
          = .ok { node_value := obj, tree_height := 0, left_tree := none, right_tree := none,
                  previous_node := some p, next_node := some this }
      ∧ (∃ m, t'.load this = .ok m ∧ m.left_tree = some t.heap.length
          ∧ m.previous_node = some t.heap.length)
      ∧ (∃ m, t'.load p = .ok m ∧ m.next_node = some t.heap.length)
      ∧ (∀ c m, t.load c = .ok m → ∃ m', t'.load c = .ok m'
          ∧ m'.node_value = m.node_value ∧ m'.right_tree = m.right_tree
          ∧ (c ≠ this → m'.previous_node = m.previous_node ∧ m'.left_tree = m.left_tree
              ∧ m'.tree_height = m.tree_height)
          ∧ (c ≠ p → m'.next_node = m.next_node))
      ∧ t'.heap.length = t.heap.length + 1 ∧ t'.root_node = t.root_node
      ∧ t'.tree_size = t.tree_size ∧ t'.front_sentinel = t.front_sentinel
      ∧ t'.back_sentinel = t.back_sentinel := by
  have hthis := lt_of_load_ok t this n hn
  have hpl := lt_of_load_ok t p pn hpn
  obtain ⟨la, lo⟩ := load_alloc t obj
  -- the property every intermediate state has at the nodes stored before the call
  obtain ⟨P, hP⟩ : ∃ P : Search_tree → Prop, P = fun s =>
      ∀ c m, t.load c = .ok m → ∃ m', s.load c = .ok m'
        ∧ m'.node_value = m.node_value ∧ m'.right_tree = m.right_tree
        ∧ (c ≠ this → m'.previous_node = m.previous_node ∧ m'.left_tree = m.left_tree)
        ∧ (c ≠ p → m'.next_node = m.next_node)
        ∧ (m'.tree_height = m.tree_height) := ⟨_, rfl⟩
  have step : ∀ (s s' : Search_tree) (x : Nat) (f : Node → Node), P s →
      s.modify x f = .ok s' →
      (x ≠ t.heap.length → ∀ m, (f m).node_value = m.node_value ∧ (f m).right_tree = m.right_tree
        ∧ (x ≠ this → (f m).previous_node = m.previous_node ∧ (f m).left_tree = m.left_tree)
        ∧ (x ≠ p → (f m).next_node = m.next_node)
        ∧ (f m).tree_height = m.tree_height) → P s' := by
    intro s s' x f hs hm hf
    rw [hP] at hs ⊢
    intro c m hc
    obtain ⟨m1, hm1, h1, h2, h3, h4, h5⟩ := hs c m hc
    by_cases hcx : c = x
    · subst hcx
      obtain ⟨s2, hm2, hl2, -⟩ := modify_spec s c f m1 hm1
      rw [hm] at hm2
      cases hm2
      obtain ⟨g1, g2, g3, g4, g5⟩ := hf (Nat.ne_of_lt (lt_of_load_ok t c m hc)) m1
      refine ⟨_, hl2, g1.trans h1, g2.trans h2, ?_, ?_, g5.trans h5⟩
      · intro hne
        exact ⟨(g3 hne).1.trans (h3 hne).1, (g3 hne).2.trans (h3 hne).2⟩
      · intro hne
        exact (g4 hne).trans (h4 hne)
    · have hx : ∃ mx, s.load x = .ok mx := by
        unfold modify at hm
        split at hm
        · exact ⟨_, by assumption⟩
        · cases hm
      obtain ⟨mx, hmx⟩ := hx
      obtain ⟨s2, hm2, -, ho2, -⟩ := modify_spec s x f mx hmx
      rw [hm] at hm2
      cases hm2
      rw [ho2 c hcx]
      exact ⟨m1, hm1, h1, h2, h3, h4, h5⟩
  obtain ⟨t1, ht1⟩ : ∃ t1 : Search_tree, t1 =
      { heap := t.heap ++ [some { node_value := obj, tree_height := 0, left_tree := none,
                                  right_tree := none, previous_node := none,
                                  next_node := none }],
        root_node := t.root_node, tree_size := t.tree_size,
        front_sentinel := t.front_sentinel, back_sentinel := t.back_sentinel } := ⟨_, rfl⟩
  have l1 : ∀ c, t1.load c = (t.alloc obj).2.load c := by
    intro c
    rw [ht1]
    rfl
  have e1 : t1.heap.length = t.heap.length + 1 ∧ t1.root_node = t.root_node
      ∧ t1.tree_size = t.tree_size ∧ t1.front_sentinel = t.front_sentinel
      ∧ t1.back_sentinel = t.back_sentinel := by
    rw [ht1]
    refine ⟨?_, rfl, rfl, rfl, rfl⟩
    simp
  have P1 : P t1 := by
    rw [hP]
    intro c m hc
    exact ⟨m, by rw [l1, lo c m hc], rfl, rfl, fun _ => ⟨rfl, rfl⟩, fun _ => rfl, rfl⟩
  -- left_tree = new Node( obj )
  obtain ⟨t2, hm2, hs2, ho2, hlen2, hr2, hz2, hf2, hb2⟩ := modify_spec t1 this
    (fun m => { m with left_tree := some t.heap.length }) n (by rw [l1, lo this n hn])
  have P2 : P t2 := step _ _ _ _ P1 hm2 (fun _ m => ⟨rfl, rfl, fun h => absurd rfl h, fun _ => rfl, rfl⟩)
  have l2a : t2.load t.heap.length = .ok
      { node_value := obj, tree_height := 0, left_tree := none, right_tree := none,
        previous_node := none, next_node := none } := by
    rw [ho2 _ (by omega), l1, la]
  -- this->previous_node->next_node = left_tree
  have l2p : ∃ m, t2.load p = .ok m := by
    rw [hP] at P2
    obtain ⟨m, hm, -⟩ := P2 p pn hpn
    exact ⟨m, hm⟩
  obtain ⟨m2p, l2p⟩ := l2p
  obtain ⟨t3, hm3, hs3, ho3, hlen3, hr3, hz3, hf3, hb3⟩ := modify_spec t2 p
    (fun m => { m with next_node := some t.heap.length }) m2p l2p
  have P3 : P t3 := step _ _ _ _ P2 hm3 (fun _ m => ⟨rfl, rfl, fun _ => ⟨rfl, rfl⟩, fun h => absurd rfl h, rfl⟩)
  have l3t : ∃ m, t3.load this = .ok m ∧ m.left_tree = some t.heap.length
      ∧ m.previous_node = some p := by
    by_cases hpt : this = p
    · rw [hpt, hs3]
      rw [← hpt, hs2] at l2p
      cases l2p
      exact ⟨_, rfl, rfl, hp⟩
    · rw [ho3 _ hpt, hs2]
      exact ⟨_, rfl, rfl, hp⟩
  obtain ⟨m3t, l3t, l3tl, l3tp⟩ := l3t
  -- left_tree->previous_node = this->previous_node
  have l3a : t3.load t.heap.length = .ok
      { node_value := obj, tree_height := 0, left_tree := none, right_tree := none,
        previous_node := none, next_node := none } := by
    rw [ho3 _ (by omega), l2a]
  obtain ⟨t4, hm4, hs4, ho4, hlen4, hr4, hz4, hf4, hb4⟩ := modify_spec t3 t.heap.length
    (fun m => { m with previous_node := some p }) _ l3a
  have P4 : P t4 := step _ _ _ _ P3 hm4 (fun h => absurd rfl h)
  -- this->previous_node = left_tree
  have l4t : t4.load this = .ok m3t := by
    rw [ho4 _ (by omega), l3t]
  obtain ⟨t5, hm5, hs5, ho5, hlen5, hr5, hz5, hf5, hb5⟩ := modify_spec t4 this
    (fun m => { m with previous_node := some t.heap.length }) _ l4t
  have P5 : P t5 := step _ _ _ _ P4 hm5
    (fun _ m => ⟨rfl, rfl, fun h => absurd rfl h, fun _ => rfl, rfl⟩)
  -- left_tree->next_node = this
  have l5a : t5.load t.heap.length = .ok
      { node_value := obj, tree_height := 0, left_tree := none, right_tree := none,
        previous_node := some p, next_node := none } := by
    rw [ho5 _ (by omega), hs4]
  obtain ⟨t6, hm6, hs6, ho6, hlen6, hr6, hz6, hf6, hb6⟩ := modify_spec t5 t.heap.length
    (fun m => { m with next_node := some this }) _ l5a
  have P6 : P t6 := step _ _ _ _ P5 hm6 (fun h => absurd rfl h)
  have l6t : t6.load this = .ok { m3t with previous_node := some t.heap.length } := by
    rw [ho6 _ (by omega), hs5]
  have hsplice : Node.splice_before t2 this = .ok t6 := by
    unfold Node.splice_before
    simp only [hs2, bind, Except.bind, hp, address, hm3, l3t, l3tl, l3tp, hm4, l4t, hm5, hs5,
      hm6]
  -- update_height
  have hhr : Node.height t6 m3t.right_tree = .ok hr := by
    have hrt : m3t.right_tree = n.right_tree := by
      rw [hP] at P3
      obtain ⟨m', hm', -, h2, -⟩ := P3 this n hn
      rw [l3t] at hm'
      cases hm'
      exact h2
    rw [hrt]
    apply height_of_kept t t6 _ _ hh
    intro c m hc
    rw [hP] at P6
    obtain ⟨m', hm', -, -, -, -, h5⟩ := P6 c m hc
    exact ⟨m', hm', h5⟩
  have hhl : Node.height t6 (some t.heap.length) = .ok 0 := by
    simp only [Node.height, hs6, bind, Except.bind, pure, Except.pure]
  obtain ⟨t7, hm7, hs7, ho7, hlen7, hr7, hz7, hf7, hb7⟩ := modify_spec t6 this
    (fun m => { m with tree_height := max 0 hr + 1 }) _ l6t
  have hupd : Node.update_height t6 this = .ok t7 := by
    unfold Node.update_height
    simp only [l6t, bind, Except.bind, l3tl, hhl, hhr, hm7]
  refine ⟨t7, ?_, ?_, ?_, ?_, ?_, ?_, ?_, ?_, ?_, ?_⟩
  · unfold Node.insert
    simp only [hn, hlt, if_true, hleft, alloc, bind, Except.bind]
    rw [← ht1]
    simp only [hm2, hsplice, hupd, pure, Except.pure]
  · rw [ho7 _ (by omega), hs6]
  · rw [hs7]
    exact ⟨_, rfl, l3tl, rfl⟩
  · by_cases hpt : p = this
    · rw [hpt, hs7]
      refine ⟨_, rfl, ?_⟩
      rw [hpt] at hs3
      rw [l3t] at hs3
      cases hs3
      rfl
    · rw [ho7 _ hpt, ho6 _ (by omega), ho5 _ hpt, ho4 _ (by omega), hs3]
      exact ⟨_, rfl, rfl⟩
  · intro c m hc
    rw [hP] at P6
    obtain ⟨m', hm', h1, h2, h3, h4, h5⟩ := P6 c m hc
    by_cases hct : c = this
    · subst hct
      rw [hs7]
      rw [l6t] at hm'
      cases hm'
      exact ⟨_, rfl, h1, h2, fun h => absurd rfl h, h4⟩
    · rw [ho7 _ hct]
      exact ⟨m', hm', h1, h2, fun h => ⟨(h3 h).1, (h3 h).2, h5⟩, h4⟩
  · rw [hlen7, hlen6, hlen5, hlen4, hlen3, hlen2, e1.1]
  · rw [hr7, hr6, hr5, hr4, hr3, hr2, e1.2.1]
  · rw [hz7, hz6, hz5, hz4, hz3, hz2, e1.2.2.1]
  · rw [hf7, hf6, hf5, hf4, hf3, hf2, e1.2.2.2.1]
  · rw [hb7, hb6, hb5, hb4, hb3, hb2, e1.2.2.2.2]

/-- `Node::insert` at a node without right child, for a larger key: the new node
is allocated at the end of the heap and linked in after the node. -/
theorem insert_right_spec (fuel : Nat) (t : Search_tree) (this : Nat) (obj : Int)
    (to_this : Slot) (n : Node) (p : Nat) (pn : Node) (hr : Int)
    (hn : t.load this = .ok n) (hlt : obj > n.node_value) (hleft : n.right_tree = none)
    (hp : n.next_node = some p) (hpn : t.load p = .ok pn)
    (hh : Node.height t n.left_tree = .ok hr) :
    ∃ t', Node.insert (fuel + 1) t this obj to_this = .ok (true, t')
      ∧ t'.load t.heap.length
          = .ok { node_value := obj, tree_height := 0, right_tree := none, left_tree := none,
                  next_node := some p, previous_node := some this }
      ∧ (∃ m, t'.load this = .ok m ∧ m.right_tree = some t.heap.length
          ∧ m.next_node = some t.heap.length)
      ∧ (∃ m, t'.load p = .ok m ∧ m.previous_node = some t.heap.length)
      ∧ (∀ c m, t.load c = .ok m → ∃ m', t'.load c = .ok m'
          ∧ m'.node_value = m.node_value ∧ m'.left_tree = m.left_tree
          ∧ (c ≠ this → m'.next_node = m.next_node ∧ m'.right_tree = m.right_tree
              ∧ m'.tree_height = m.tree_height)
          ∧ (c ≠ p → m'.previous_node = m.previous_node))
      ∧ t'.heap.length = t.heap.length + 1 ∧ t'.root_node = t.root_node
      ∧ t'.tree_size = t.tree_size ∧ t'.front_sentinel = t.front_sentinel
      ∧ t'.back_sentinel = t.back_sentinel := by
  have hthis := lt_of_load_ok t this n hn
  have hpl := lt_of_load_ok t p pn hpn
  obtain ⟨la, lo⟩ := load_alloc t obj
  -- the property every intermediate state has at the nodes stored before the call
  obtain ⟨P, hP⟩ : ∃ P : Search_tree → Prop, P = fun s =>
      ∀ c m, t.load c = .ok m → ∃ m', s.load c = .ok m'
        ∧ m'.node_value = m.node_value ∧ m'.left_tree = m.left_tree
        ∧ (c ≠ this → m'.next_node = m.next_node ∧ m'.right_tree = m.right_tree)
        ∧ (c ≠ p → m'.previous_node = m.previous_node)
        ∧ (m'.tree_height = m.tree_height) := ⟨_, rfl⟩
  have step : ∀ (s s' : Search_tree) (x : Nat) (f : Node → Node), P s →
      s.modify x f = .ok s' →
      (x ≠ t.heap.length → ∀ m, (f m).node_value = m.node_value ∧ (f m).left_tree = m.left_tree
        ∧ (x ≠ this → (f m).next_node = m.next_node ∧ (f m).right_tree = m.right_tree)
        ∧ (x ≠ p → (f m).previous_node = m.previous_node)
        ∧ (f m).tree_height = m.tree_height) → P s' := by
    intro s s' x f hs hm hf
    rw [hP] at hs ⊢
    intro c m hc
    obtain ⟨m1, hm1, h1, h2, h3, h4, h5⟩ := hs c m hc
    by_cases hcx : c = x
    · subst hcx
      obtain ⟨s2, hm2, hl2, -⟩ := modify_spec s c f m1 hm1
      rw [hm] at hm2
      cases hm2
      obtain ⟨g1, g2, g3, g4, g5⟩ := hf (Nat.ne_of_lt (lt_of_load_ok t c m hc)) m1
      refine ⟨_, hl2, g1.trans h1, g2.trans h2, ?_, ?_, g5.trans h5⟩
      · intro hne
        exact ⟨(g3 hne).1.trans (h3 hne).1, (g3 hne).2.trans (h3 hne).2⟩
      · intro hne
        exact (g4 hne).trans (h4 hne)
    · have hx : ∃ mx, s.load x = .ok mx := by
        unfold modify at hm
        split at hm
        · exact ⟨_, by assumption⟩
        · cases hm
      obtain ⟨mx, hmx⟩ := hx
      obtain ⟨s2, hm2, -, ho2, -⟩ := modify_spec s x f mx hmx
      rw [hm] at hm2
      cases hm2
      rw [ho2 c hcx]
      exact ⟨m1, hm1, h1, h2, h3, h4, h5⟩
  obtain ⟨t1, ht1⟩ : ∃ t1 : Search_tree, t1 =
      { heap := t.heap ++ [some { node_value := obj, tree_height := 0, right_tree := none,
                                  left_tree := none, next_node := none,
                                  previous_node := none }],
        root_node := t.root_node, tree_size := t.tree_size,
        front_sentinel := t.front_sentinel, back_sentinel := t.back_sentinel } := ⟨_, rfl⟩
  have l1 : ∀ c, t1.load c = (t.alloc obj).2.load c := by
    intro c
    rw [ht1]
    rfl
  have e1 : t1.heap.length = t.heap.length + 1 ∧ t1.root_node = t.root_node
      ∧ t1.tree_size = t.tree_size ∧ t1.front_sentinel = t.front_sentinel
      ∧ t1.back_sentinel = t.back_sentinel := by
    rw [ht1]
    refine ⟨?_, rfl, rfl, rfl, rfl⟩
    simp
  have P1 : P t1 := by
    rw [hP]
    intro c m hc
    exact ⟨m, by rw [l1, lo c m hc], rfl, rfl, fun _ => ⟨rfl, rfl⟩, fun _ => rfl, rfl⟩
  -- right_tree = new Node( obj )
  obtain ⟨t2, hm2, hs2, ho2, hlen2, hr2, hz2, hf2, hb2⟩ := modify_spec t1 this
    (fun m => { m with right_tree := some t.heap.length }) n (by rw [l1, lo this n hn])
  have P2 : P t2 := step _ _ _ _ P1 hm2 (fun _ m => ⟨rfl, rfl, fun h => absurd rfl h, fun _ => rfl, rfl⟩)
  have l2a : t2.load t.heap.length = .ok
      { node_value := obj, tree_height := 0, right_tree := none, left_tree := none,
        next_node := none, previous_node := none } := by
    rw [ho2 _ (by omega), l1, la]
  -- this->next_node->previous_node = right_tree
  have l2p : ∃ m, t2.load p = .ok m := by
    rw [hP] at P2
    obtain ⟨m, hm, -⟩ := P2 p pn hpn
    exact ⟨m, hm⟩
  obtain ⟨m2p, l2p⟩ := l2p
  obtain ⟨t3, hm3, hs3, ho3, hlen3, hr3, hz3, hf3, hb3⟩ := modify_spec t2 p
    (fun m => { m with previous_node := some t.heap.length }) m2p l2p
  have P3 : P t3 := step _ _ _ _ P2 hm3 (fun _ m => ⟨rfl, rfl, fun _ => ⟨rfl, rfl⟩, fun h => absurd rfl h, rfl⟩)
  have l3t : ∃ m, t3.load this = .ok m ∧ m.right_tree = some t.heap.length
      ∧ m.next_node = some p := by
    by_cases hpt : this = p
    · rw [hpt, hs3]
      rw [← hpt, hs2] at l2p
      cases l2p
      exact ⟨_, rfl, rfl, hp⟩
    · rw [ho3 _ hpt, hs2]
      exact ⟨_, rfl, rfl, hp⟩
  obtain ⟨m3t, l3t, l3tl, l3tp⟩ := l3t
  -- right_tree->next_node = this->next_node
  have l3a : t3.load t.heap.length = .ok
      { node_value := obj, tree_height := 0, right_tree := none, left_tree := none,
        next_node := none, previous_node := none } := by
    rw [ho3 _ (by omega), l2a]
  obtain ⟨t4, hm4, hs4, ho4, hlen4, hr4, hz4, hf4, hb4⟩ := modify_spec t3 t.heap.length
    (fun m => { m with next_node := some p }) _ l3a
  have P4 : P t4 := step _ _ _ _ P3 hm4 (fun h => absurd rfl h)
  -- this->next_node = right_tree
  have l4t : t4.load this = .ok m3t := by
    rw [ho4 _ (by omega), l3t]
  obtain ⟨t5, hm5, hs5, ho5, hlen5, hr5, hz5, hf5, hb5⟩ := modify_spec t4 this
    (fun m => { m with next_node := some t.heap.length }) _ l4t
  have P5 : P t5 := step _ _ _ _ P4 hm5
    (fun _ m => ⟨rfl, rfl, fun h => absurd rfl h, fun _ => rfl, rfl⟩)
  -- right_tree->previous_node = this
  have l5a : t5.load t.heap.length = .ok
      { node_value := obj, tree_height := 0, right_tree := none, left_tree := none,
        next_node := some p, previous_node := none } := by
    rw [ho5 _ (by omega), hs4]
  obtain ⟨t6, hm6, hs6, ho6, hlen6, hr6, hz6, hf6, hb6⟩ := modify_spec t5 t.heap.length
    (fun m => { m with previous_node := some this }) _ l5a
  have P6 : P t6 := step _ _ _ _ P5 hm6 (fun h => absurd rfl h)
  have l6t : t6.load this = .ok { m3t with next_node := some t.heap.length } := by
    rw [ho6 _ (by omega), hs5]
  have hsplice : Node.splice_after t2 this = .ok t6 := by
    unfold Node.splice_after
    simp only [hs2, bind, Except.bind, hp, address, hm3, l3t, l3tl, l3tp, hm4, l4t, hm5, hs5,
      hm6]
  -- update_height
  have hhr : Node.height t6 m3t.left_tree = .ok hr := by
    have hrt : m3t.left_tree = n.left_tree := by
      rw [hP] at P3
      obtain ⟨m', hm', -, h2, -⟩ := P3 this n hn
      rw [l3t] at hm'
      cases hm'
      exact h2
    rw [hrt]
    apply height_of_kept t t6 _ _ hh
    intro c m hc
    rw [hP] at P6
    obtain ⟨m', hm', -, -, -, -, h5⟩ := P6 c m hc
    exact ⟨m', hm', h5⟩
  have hhl : Node.height t6 (some t.heap.length) = .ok 0 := by
    simp only [Node.height, hs6, bind, Except.bind, pure, Except.pure]
  obtain ⟨t7, hm7, hs7, ho7, hlen7, hr7, hz7, hf7, hb7⟩ := modify_spec t6 this
    (fun m => { m with tree_height := max hr 0 + 1 }) _ l6t
  have hupd : Node.update_height t6 this = .ok t7 := by
    unfold Node.update_height
    simp only [l6t, bind, Except.bind, l3tl, hhl, hhr, hm7]
  refine ⟨t7, ?_, ?_, ?_, ?_, ?_, ?_, ?_, ?_, ?_, ?_⟩
  · unfold Node.insert
    simp only [hn, not_lt_of_gt hlt, if_false, hlt, if_true, hleft, alloc, bind, Except.bind]
    rw [← ht1]
    simp only [hm2, hsplice, hupd, pure, Except.pure]
  · rw [ho7 _ (by omega), hs6]
  · rw [hs7]
    exact ⟨_, rfl, l3tl, rfl⟩
  · by_cases hpt : p = this
    · rw [hpt, hs7]
      refine ⟨_, rfl, ?_⟩
      rw [hpt] at hs3
      rw [l3t] at hs3
      cases hs3
      rfl
    · rw [ho7 _ hpt, ho6 _ (by omega), ho5 _ hpt, ho4 _ (by omega), hs3]
      exact ⟨_, rfl, rfl⟩
  · intro c m hc
    rw [hP] at P6
    obtain ⟨m', hm', h1, h2, h3, h4, h5⟩ := P6 c m hc
    by_cases hct : c = this
    · subst hct
      rw [hs7]
      rw [l6t] at hm'
      cases hm'
      exact ⟨_, rfl, h1, h2, fun h => absurd rfl h, h4⟩
    · rw [ho7 _ hct]
      exact ⟨m', hm', h1, h2, fun h => ⟨(h3 h).1, (h3 h).2, h5⟩, h4⟩
  · rw [hlen7, hlen6, hlen5, hlen4, hlen3, hlen2, e1.1]
  · rw [hr7, hr6, hr5, hr4, hr3, hr2, e1.2.1]
  · rw [hz7, hz6, hz5, hz4, hz3, hz2, e1.2.2.1]
  · rw [hf7, hf6, hf5, hf4, hf3, hf2, e1.2.2.2.1]
  · rw [hb7, hb6, hb5, hb4, hb3, hb2, e1.2.2.2.2]

/-- C35.  `Node::insert` called on a stored node for a smaller key, when the node
has no left child (its `previous_node` p being a stored node and its right child
having a readable height): the call returns true; the new node, allocated at the
end of the heap, has `previous_node` p and `next_node` the node; the node's
`left_tree` and `previous_node` are the new node; p's `next_node` is the new node;
every node stored before keeps its key, every one but the node keeps its
`previous_node`, and every one but p keeps its `next_node`.  Symmetrically for a
larger key at a node without right child, with `next_node` x in the place of p:
the new node has `previous_node` the node and `next_node` x. -/
theorem insert_splices_new_node_into_chain :
    (∀ (fuel : Nat) (t : Search_tree) (this : Nat) (obj : Int) (to_this : Slot) (n : Node)
        (p : Nat) (pn : Node) (hr : Int),
      t.load this = .ok n → obj < n.node_value → n.left_tree = none →
      n.previous_node = some p → t.load p = .ok pn →
      Node.height t n.right_tree = .ok hr →
      ∃ t', Node.insert (fuel + 1) t this obj to_this = .ok (true, t')
        ∧ t'.load t.heap.length
            = .ok { node_value := obj, tree_height := 0, left_tree := none,
                    right_tree := none, previous_node := some p, next_node := some this }
        ∧ (∃ m, t'.load this = .ok m ∧ m.left_tree = some t.heap.length
            ∧ m.previous_node = some t.heap.length)
        ∧ (∃ m, t'.load p = .ok m ∧ m.next_node = some t.heap.length)
        ∧ (∀ c m, t.load c = .ok m → ∃ m', t'.load c = .ok m'
            ∧ m'.node_value = m.node_value
            ∧ (c ≠ this → m'.previous_node = m.previous_node)
            ∧ (c ≠ p → m'.next_node = m.next_node))
        ∧ t'.heap.length = t.heap.length + 1
        ∧ t'.front_sentinel = t.front_sentinel ∧ t'.back_sentinel = t.back_sentinel)
    ∧ (∀ (fuel : Nat) (t : Search_tree) (this : Nat) (obj : Int) (to_this : Slot) (n : Node)
        (x : Nat) (xn : Node) (hl : Int),
      t.load this = .ok n → obj > n.node_value → n.right_tree = none →
      n.next_node = some x → t.load x = .ok xn →
      Node.height t n.left_tree = .ok hl →
      ∃ t', Node.insert (fuel + 1) t this obj to_this = .ok (true, t')
        ∧ t'.load t.heap.length
            = .ok { node_value := obj, tree_height := 0, left_tree := none,
                    right_tree := none, previous_node := some this, next_node := some x }
        ∧ (∃ m, t'.load this = .ok m ∧ m.right_tree = some t.heap.length
            ∧ m.next_node = some t.heap.length)
        ∧ (∃ m, t'.load x = .ok m ∧ m.previous_node = some t.heap.length)
        ∧ (∀ c m, t.load c = .ok m → ∃ m', t'.load c = .ok m'
            ∧ m'.node_value = m.node_value
            ∧ (c ≠ this → m'.next_node = m.next_node)
            ∧ (c ≠ x → m'.previous_node = m.previous_node))
        ∧ t'.heap.length = t.heap.length + 1
        ∧ t'.front_sentinel = t.front_sentinel ∧ t'.back_sentinel = t.back_sentinel) := by
  constructor
  · intro fuel t this obj to_this n p pn hr hn hlt hleft hp hpn hh
    obtain ⟨t', h1, h2, h3, h4, h5, h6, -, -, h9, h10⟩ :=
      insert_left_spec fuel t this obj to_this n p pn hr hn hlt hleft hp hpn hh
    refine ⟨t', h1, h2, h3, h4, ?_, h6, h9, h10⟩
    intro c m hc
    obtain ⟨m', g1, g2, -, g4, g5⟩ := h5 c m hc
    exact ⟨m', g1, g2, fun h => (g4 h).1, g5⟩
  · intro fuel t this obj to_this n x xn hl hn hgt hright hx hxn hh
    obtain ⟨t', h1, h2, h3, h4, h5, h6, -, -, h9, h10⟩ :=
      insert_right_spec fuel t this obj to_this n x xn hl hn hgt hright hx hxn hh
    refine ⟨t', h1, h2, h3, h4, ?_, h6, h9, h10⟩
    intro c m hc
    obtain ⟨m', g1, g2, -, g4, g5⟩ := h5 c m hc
    exact ⟨m', g1, g2, fun h => (g4 h).1, g5⟩

/-- C35 at concrete inputs: on the tree holding the single key 5 (root at address
2, front sentinel 0, back sentinel 1), `Node::insert` of 3 at the root links the
new node 3 between the front sentinel and the root, and `Node::insert` of 8 at
the root links it between the root and the back sentinel. -/
theorem insert_splices_new_node_into_chain_witness :
    ∃ t, new.insert 5 = .ok (true, t)
      ∧ (∃ t', Node.insert 1 t 2 3 .root_node = .ok (true, t')
          ∧ t'.load 3 = .ok { node_value := 3, tree_height := 0, left_tree := none,
                              right_tree := none, previous_node := some 0,
                              next_node := some 2 }
          ∧ (∃ m, t'.load 2 = .ok m ∧ m.left_tree = some 3 ∧ m.previous_node = some 3)
          ∧ (∃ m, t'.load 0 = .ok m ∧ m.next_node = some 3)
          ∧ chain t' = .ok [3, 5])
      ∧ (∃ t', Node.insert 1 t 2 8 .root_node = .ok (true, t')
          ∧ t'.load 3 = .ok { node_value := 8, tree_height := 0, left_tree := none,
                              right_tree := none, previous_node := some 2,
                              next_node := some 1 }
          ∧ (∃ m, t'.load 2 = .ok m ∧ m.right_tree = some 3 ∧ m.next_node = some 3)
          ∧ (∃ m, t'.load 1 = .ok m ∧ m.previous_node = some 3)
          ∧ chain t' = .ok [5, 8]) := by
  refine ⟨_, rfl, ?_, ?_⟩
  · obtain ⟨t', h1, h2, h3, h4, -⟩ := insert_splices_new_node_into_chain.1 0
      (match new.insert 5 with
        | .ok r => r.2
        | .error _ => new)
      2 3 .root_node _ 0 _ (-1) rfl (by decide) rfl rfl rfl rfl
    refine ⟨t', h1, h2, h3, h4, ?_⟩
    cases h1
    rfl
  · obtain ⟨t', h1, h2, h3, h4, -⟩ := insert_splices_new_node_into_chain.2 0
      (match new.insert 5 with
        | .ok r => r.2
        | .error _ => new)
      2 8 .root_node _ 1 _ (-1) rfl (by decide) rfl rfl rfl rfl
    refine ⟨t', h1, h2, h3, h4, ?_⟩
    cases h1
    rfl

/-- One level of `search_ordered` and `inorder` at a stored node. -/
theorem search_ordered_unfold (fuel : Nat) (t : Search_tree) (a : Nat) (ks : List Int)
    (ho : search_ordered (fuel + 1) t (some a) = .ok true)
    (hi : inorder (fuel + 1) t (some a) = .ok ks) :
    ∃ n l r, t.load a = .ok n ∧ inorder fuel t n.left_tree = .ok l
      ∧ inorder fuel t n.right_tree = .ok r ∧ ks = l ++ n.node_value :: r
      ∧ (∀ k ∈ l, k < n.node_value) ∧ (∀ k ∈ r, n.node_value < k)
      ∧ search_ordered fuel t n.left_tree = .ok true
      ∧ search_ordered fuel t n.right_tree = .ok true := by
  rw [search_ordered] at ho
  rw [inorder] at hi
  obtain ⟨n, hn, ho⟩ := ok_of_bind_ok _ _ _ ho
  obtain ⟨l, hl, ho⟩ := ok_of_bind_ok _ _ _ ho
  obtain ⟨r, hr, ho⟩ := ok_of_bind_ok _ _ _ ho
  obtain ⟨ol, hol, ho⟩ := ok_of_bind_ok _ _ _ ho
  obtain ⟨or', hor, ho⟩ := ok_of_bind_ok _ _ _ ho
  rw [hn] at hi
  simp only [bind, Except.bind, hl, hr, pure, Except.pure, Except.ok.injEq] at hi
  simp only [pure, Except.pure, Except.ok.injEq, Bool.and_eq_true, List.all_eq_true,
    decide_eq_true_eq] at ho
  obtain ⟨⟨⟨h1, h2⟩, h3⟩, h4⟩ := ho
  subst h3 h4
  exact ⟨n, l, r, hn, hl, hr, hi.symm, h1, h2, hol, hor⟩

/-- The in-order sequence of the null subtree is empty. -/
theorem inorder_none (fuel : Nat) (t : Search_tree) (l : List Int)
    (h : inorder fuel t none = .ok l) : l = [] := by
  cases fuel with
  | zero => simp [inorder] at h
  | succ f =>
    simp only [inorder, Except.ok.injEq] at h
    exact h.symm

/-- `Node::find` on a search-ordered subtree. -/
theorem find_of_search_ordered (fuel : Nat) :
    ∀ (t : Search_tree) (a : Nat) (ks : List Int) (k : Int),
      search_ordered fuel t (some a) = .ok true → inorder fuel t (some a) = .ok ks →
      ∃ r, Node.find fuel t a k = .ok r
        ∧ (k ∈ ks → ∃ b n, r = some b ∧ t.load b = .ok n ∧ n.node_value = k)
        ∧ (k ∉ ks → r = none) := by
  induction fuel with
  | zero => intro t a ks k ho; simp [search_ordered] at ho
  | succ fuel ih =>
    intro t a ks k ho hi
    obtain ⟨n, l, r, hn, hl, hr, hks, hlt, hgt, hol, hor⟩ :=
      search_ordered_unfold fuel t a ks ho hi
    subst hks
    rw [Node.find]
    simp only [hn, bind, Except.bind]
    by_cases hk : k = n.node_value
    · rw [if_pos hk]
      refine ⟨some a, rfl, fun _ => ⟨a, n, rfl, hn, hk.symm⟩, fun h => ?_⟩
      exact absurd (by simp [hk]) h
    · rw [if_neg hk]
      by_cases hlt' : k < n.node_value
      · rw [if_pos hlt']
        have hnr : k ∉ r := fun h => by
          have := hgt k h
          omega
        cases hc : n.left_tree with
        | none =>
          rw [hc] at hl
          have := inorder_none _ _ _ hl
          subst this
          refine ⟨none, rfl, fun h => ?_, fun _ => rfl⟩
          simp only [List.nil_append, List.mem_cons] at h
          rcases h with h | h
          · exact absurd h hk
          · exact absurd h hnr
        | some c =>
          rw [hc] at hl hol
          obtain ⟨res, h1, h2, h3⟩ := ih t c l k hol hl
          refine ⟨res, h1, fun h => ?_, fun h => ?_⟩
          · apply h2
            simp only [List.mem_append, List.mem_cons] at h
            rcases h with h | h | h
            · exact h
            · exact absurd h hk
            · exact absurd h hnr
          · apply h3
            intro hm
            exact h (List.mem_append_left _ hm)
      · rw [if_neg hlt']
        have hnl : k ∉ l := fun h => by
          have := hlt k h
          omega
        cases hc : n.right_tree with
        | none =>
          rw [hc] at hr
          have := inorder_none _ _ _ hr
          subst this
          refine ⟨none, rfl, fun h => ?_, fun _ => rfl⟩
          simp only [List.mem_append, List.mem_cons, List.not_mem_nil, or_false] at h
          rcases h with h | h
          · exact absurd h hnl
          · exact absurd h hk
        | some c =>
          rw [hc] at hr hor
          obtain ⟨res, h1, h2, h3⟩ := ih t c r k hor hr
          refine ⟨res, h1, fun h => ?_, fun h => ?_⟩
          · apply h2
            simp only [List.mem_append, List.mem_cons] at h
            rcases h with h | h | h
            · exact absurd h hnl
            · exact absurd h hk
            · exact h
          · apply h3
            intro hm
            exact h (List.mem_append_right _ (List.mem_cons_of_mem _ hm))

/-- `Node::front` on a search-ordered subtree returns the node of the least key. -/
theorem front_of_search_ordered (fuel : Nat) :
    ∀ (t : Search_tree) (a : Nat) (ks : List Int),
      search_ordered fuel t (some a) = .ok true → inorder fuel t (some a) = .ok ks →
      ∃ f n, Node.front fuel t a = .ok f ∧ t.load f = .ok n ∧ n.node_value ∈ ks
        ∧ ∀ k ∈ ks, n.node_value ≤ k := by
  induction fuel with
  | zero => intro t a ks ho; simp [search_ordered] at ho
  | succ fuel ih =>
    intro t a ks ho hi
    obtain ⟨n, l, r, hn, hl, hr, hks, hlt, hgt, hol, hor⟩ :=
      search_ordered_unfold fuel t a ks ho hi
    subst hks
    rw [Node.front]
    simp only [hn, bind, Except.bind]
    cases hc : n.left_tree with
    | none =>
      rw [hc] at hl
      have := inorder_none _ _ _ hl
      subst this
      refine ⟨a, n, rfl, hn, by simp, fun k hk => ?_⟩
      simp only [List.nil_append, List.mem_cons] at hk
      rcases hk with hk | hk
      · omega
      · exact le_of_lt (hgt k hk)
    | some c =>
      rw [hc] at hl hol
      obtain ⟨f, m, h1, h2, h3, h4⟩ := ih t c l hol hl
      refine ⟨f, m, h1, h2, List.mem_append_left _ h3, fun k hk => ?_⟩
      have hm := hlt _ h3
      simp only [List.mem_append, List.mem_cons] at hk
      rcases hk with hk | hk | hk
      · exact h4 k hk
      · omega
      · have := hgt k hk
        omega

/-- `Node::back` on a search-ordered subtree returns the node of the greatest key. -/
theorem back_of_search_ordered (fuel : Nat) :
    ∀ (t : Search_tree) (a : Nat) (ks : List Int),
      search_ordered fuel t (some a) = .ok true → inorder fuel t (some a) = .ok ks →
      ∃ b n, Node.back fuel t a = .ok b ∧ t.load b = .ok n ∧ n.node_value ∈ ks
        ∧ ∀ k ∈ ks, k ≤ n.node_value := by
  induction fuel with
  | zero => intro t a ks ho; simp [search_ordered] at ho
  | succ fuel ih =>
    intro t a ks ho hi
    obtain ⟨n, l, r, hn, hl, hr, hks, hlt, hgt, hol, hor⟩ :=
      search_ordered_unfold fuel t a ks ho hi
    subst hks
    rw [Node.back]
    simp only [hn, bind, Except.bind]
    cases hc : n.right_tree with
    | none =>
      rw [hc] at hr
      have := inorder_none _ _ _ hr
      subst this
      refine ⟨a, n, rfl, hn, by simp, fun k hk => ?_⟩
      simp only [List.mem_append, List.mem_cons, List.not_mem_nil, or_false] at hk
      rcases hk with hk | hk
      · exact le_of_lt (hlt k hk)
      · omega
    | some c =>
      rw [hc] at hr hor
      obtain ⟨f, m, h1, h2, h3, h4⟩ := ih t c r hor hr
      refine ⟨f, m, h1, h2, List.mem_append_right _ (List.mem_cons_of_mem _ h3), fun k hk => ?_⟩
      have hm := hgt _ h3
      simp only [List.mem_append, List.mem_cons] at hk
      rcases hk with hk | hk | hk
      · have := hlt k hk
        omega
      · omega
      · exact h4 k hk

/-- C37.  For every subtree that is search-ordered (with in-order key sequence
ks, both computed with the same fuel) and every key k: `Node::find` returns a
stored node whose key is k when k occurs in ks and null when it does not;
`Node::front` returns a stored node whose key occurs in ks and is less than or
equal to every key of ks; `Node::back` returns one whose key is greater than or
equal to every key of ks. -/
theorem find_front_back_on_search_ordered_subtree (fuel : Nat) (t : Search_tree) (a : Nat)
    (ks : List Int) (ho : search_ordered fuel t (some a) = .ok true)
    (hi : inorder fuel t (some a) = .ok ks) :
    (∀ k : Int, ∃ r, Node.find fuel t a k = .ok r
        ∧ (k ∈ ks → ∃ b n, r = some b ∧ t.load b = .ok n ∧ n.node_value = k)
        ∧ (k ∉ ks → r = none))
    ∧ (∃ f n, Node.front fuel t a = .ok f ∧ t.load f = .ok n ∧ n.node_value ∈ ks
        ∧ ∀ k ∈ ks, n.node_value ≤ k)
    ∧ (∃ b n, Node.back fuel t a = .ok b ∧ t.load b = .ok n ∧ n.node_value ∈ ks
        ∧ ∀ k ∈ ks, k ≤ n.node_value) :=
  ⟨fun k => find_of_search_ordered fuel t a ks k ho hi,
   front_of_search_ordered fuel t a ks ho hi, back_of_search_ordered fuel t a ks ho hi⟩

/-- C37 on the tree built by inserting 5, 3, 8, 1, 4, 7, 9, at its root (address
2) with the fuel of the public operations. -/
theorem find_front_back_on_search_ordered_subtree_witness :
    ∃ t, run new [.insert 5, .insert 3, .insert 8, .insert 1, .insert 4, .insert 7, .insert 9]
        = .ok ([true, true, true, true, true, true, true], t)
      ∧ search_ordered t.fuel t (some 2) = .ok true
      ∧ inorder t.fuel t (some 2) = .ok [1, 3, 4, 5, 7, 8, 9]
      ∧ (∀ k : Int, ∃ r, Node.find t.fuel t 2 k = .ok r
          ∧ (k ∈ [1, 3, 4, 5, 7, 8, 9] → ∃ b n, r = some b ∧ t.load b = .ok n ∧ n.node_value = k)
          ∧ (k ∉ [1, 3, 4, 5, 7, 8, 9] → r = none))
      ∧ (∃ f n, Node.front t.fuel t 2 = .ok f ∧ t.load f = .ok n
          ∧ n.node_value ∈ [1, 3, 4, 5, 7, 8, 9]
          ∧ ∀ k ∈ [1, 3, 4, 5, 7, 8, 9], n.node_value ≤ k)
      ∧ (∃ b n, Node.back t.fuel t 2 = .ok b ∧ t.load b = .ok n
          ∧ n.node_value ∈ [1, 3, 4, 5, 7, 8, 9]
          ∧ ∀ k ∈ [1, 3, 4, 5, 7, 8, 9], k ≤ n.node_value) :=
  ⟨_, rfl, rfl, rfl, find_front_back_on_search_ordered_subtree _ _ 2 _ rfl rfl⟩

/-- C39, evaluated on the code.  Sixteen calls on a new tree, every one
returning true: after the first twelve the root (key 3) has two children, and the
leftmost node of its right subtree also holds 3 but is not found by the search
from the right child, so each further `erase(3)` takes the two-children case,
removes nothing, and decrements the size.  After four of them `size()` is 0 while
the root is still present, so `empty()` is false. -/
theorem size_zero_with_root_present :
    ∃ t r n, run new [.insert 1, .insert 2, .insert 6, .insert 3, .insert 4, .erase 1,
                      .erase 2, .insert 3, .insert 5, .insert 1, .erase 5, .erase 4,
                      .erase 3, .erase 3, .erase 3, .erase 3]
        = .ok ([true, true, true, true, true, true, true, true, true, true, true, true,
                true, true, true, true], t)
      ∧ t.size = 0 ∧ t.empty = false
      ∧ t.root_node = some r ∧ t.load r = .ok n ∧ n.node_value = 3
      ∧ t.erase 3 = .ok (true, { t with tree_size := -1 }) :=
  ⟨_, _, _, rfl, rfl, rfl, rfl, rfl, rfl, rfl⟩

/-- A shape is kept by any change of state that leaves its nodes as they are. -/
theorem shape_congr (t t' : Search_tree) (p : Option Nat) (nodes : List Nat)
    (h : Shape t p nodes) (hl : ∀ a ∈ nodes, t'.load a = t.load a) : Shape t' p nodes := by
  induction h with
  | null => exact Shape.null
  | node a n l r hn _ _ ihl ihr =>
    refine Shape.node a n l r ?_ (ihl ?_) (ihr ?_)
    · rw [hl a (by simp), hn]
    · intro c hc
      exact hl c (List.mem_append_left _ hc)
    · intro c hc
      exact hl c (List.mem_append_right _ (List.mem_cons_of_mem _ hc))

/-- The root of a shape, if any, is one of its nodes; the null shape is empty. -/
theorem shape_cases (t : Search_tree) (p : Option Nat) (nodes : List Nat)
    (h : Shape t p nodes) :
    (p = none ∧ nodes = [])
    ∨ ∃ a n l r, p = some a ∧ t.load a = .ok n ∧ Shape t n.left_tree l
        ∧ Shape t n.right_tree r ∧ nodes = l ++ a :: r := by
  cases h with
  | null => exact Or.inl ⟨rfl, rfl⟩
  | node a n l r hn hl hr => exact Or.inr ⟨a, n, l, r, rfl, hn, hl, hr, rfl⟩

/-- The shape below a stored node, split at the node. -/
theorem shape_some (t : Search_tree) (a : Nat) (nodes : List Nat)
    (h : Shape t (some a) nodes) :
    ∃ n l r, t.load a = .ok n ∧ Shape t n.left_tree l ∧ Shape t n.right_tree r
      ∧ nodes = l ++ a :: r := by
  rcases shape_cases t _ _ h with ⟨h1, -⟩ | ⟨a', n, l, r, h1, h2, h3, h4, h5⟩
  · cases h1
  · cases h1
    exact ⟨n, l, r, h2, h3, h4, h5⟩

/-- The in-order key sequence of a shape, by the executable traversal. -/
theorem inorder_of_shape (t : Search_tree) (p : Option Nat) (nodes : List Nat)
    (h : Shape t p nodes) :
    ∀ fuel, nodes.length + 1 ≤ fuel → inorder fuel t p = .ok (nodes.map (key_at t)) := by
  induction h with
  | null =>
    intro fuel hf
    obtain ⟨f, rfl⟩ : ∃ f, fuel = f + 1 := ⟨fuel - 1, by omega⟩
    rfl
  | node a n l r hn _ _ ihl ihr =>
    intro fuel hf
    obtain ⟨f, rfl⟩ : ∃ f, fuel = f + 1 := ⟨fuel - 1, by omega⟩
    simp only [List.length_append, List.length_cons] at hf
    rw [inorder, hn]
    simp only [bind, Except.bind, ihl f (by omega), ihr f (by omega), pure, Except.pure,
      List.map_append, List.map_cons, key_at, hn]

/-- The cached height read through the root pointer of a shape. -/
theorem height_of_shape (t : Search_tree) (p : Option Nat) (nodes : List Nat)
    (h : Shape t p nodes) : ∃ v, Node.height t p = .ok v := by
  cases h with
  | null => exact ⟨-1, rfl⟩
  | node a n l r hn _ _ =>
    exact ⟨n.tree_height, by simp [Node.height, hn, bind, Except.bind, pure, Except.pure]⟩

/-- An assignment through a `Node *&` bound to the root or to a member of a
stored node. -/
theorem assign_spec (t : Search_tree) (s : Slot) (p q : Option Nat)
    (h : slot_value t s = .ok q) :
    ∃ t', t.assign s p = .ok t' ∧ slot_value t' s = .ok p
      ∧ (∀ c, s.owner ≠ some c → t'.load c = t.load c) := by
  cases s with
  | root_node => exact ⟨{ t with root_node := p }, rfl, rfl, fun _ _ => rfl⟩
  | left_tree o =>
    simp only [slot_value] at h
    obtain ⟨m, hm, -⟩ := ok_of_bind_ok _ _ _ h
    obtain ⟨t', h1, h2, h3, -⟩ := modify_spec t o (fun n => { n with left_tree := p }) m hm
    refine ⟨t', h1, ?_, fun c hc => h3 c ?_⟩
    · simp [slot_value, h2, bind, Except.bind, pure, Except.pure]
    · intro hco
      exact hc (by rw [hco]; rfl)
  | right_tree o =>
    simp only [slot_value] at h
    obtain ⟨m, hm, -⟩ := ok_of_bind_ok _ _ _ h
    obtain ⟨t', h1, h2, h3, -⟩ := modify_spec t o (fun n => { n with right_tree := p }) m hm
    refine ⟨t', h1, ?_, fun c hc => h3 c ?_⟩
    · simp [slot_value, h2, bind, Except.bind, pure, Except.pure]
    · intro hco
      exact hc (by rw [hco]; rfl)

/-- Reading through a `Node *&` after an assignment to another node. -/
theorem slot_value_of_modify (t t' : Search_tree) (a : Nat) (f : Node → Node) (s : Slot)
    (h : t.modify a f = .ok t') (hs : s.owner ≠ some a) : slot_value t' s = slot_value t s := by
  have hx : ∃ mx, t.load a = .ok mx := by
    unfold modify at h
    split at h
    · exact ⟨_, by assumption⟩
    · cases h
  obtain ⟨mx, hmx⟩ := hx
  obtain ⟨t2, h1, -, h3, -, h5, -⟩ := modify_spec t a f mx hmx
  rw [h] at h1
  cases h1
  cases s with
  | root_node => simp only [slot_value, h5]
  | left_tree o =>
    have : o ≠ a := fun e => hs (by rw [e]; rfl)
    simp only [slot_value, h3 o this]
  | right_tree o =>
    have : o ≠ a := fun e => hs (by rw [e]; rfl)
    simp only [slot_value, h3 o this]

/-- Membership facts used for the nodes of a subtree split twice. -/
theorem nodup_split (A B C : List Nat) (x y : Nat) (h : ((A ++ x :: B) ++ y :: C).Nodup) :
    x ≠ y ∧ (∀ c ∈ A, c ≠ x ∧ c ≠ y) ∧ (∀ c ∈ B, c ≠ x ∧ c ≠ y) ∧ (∀ c ∈ C, c ≠ x ∧ c ≠ y) := by
  obtain ⟨hAxB, hyC, hd⟩ := List.nodup_append.mp h
  obtain ⟨hA, hxB, hd2⟩ := List.nodup_append.mp hAxB
  obtain ⟨hxnB, hB⟩ := List.nodup_cons.mp hxB
  obtain ⟨hynC, hC⟩ := List.nodup_cons.mp hyC
  have mx : x ∈ A ++ x :: B := by simp
  refine ⟨?_, ?_, ?_, ?_⟩
  · intro e
    exact hd mx (by simp [e])
  · intro c hc
    exact ⟨fun e => hd2 hc (by simp [e]), fun e => @hd c (by simp [hc]) (by simp [e])⟩
  · intro c hc
    exact ⟨fun e => hxnB (e ▸ hc), fun e => @hd c (by simp [hc]) (by simp [e])⟩
  · intro c hc
    exact ⟨fun e => hd mx (by simp [← e, hc]), fun e => hynC (e ▸ hc)⟩

/-- Membership facts used for the nodes of a subtree split three times. -/
theorem nodup_split3 (A B C D : List Nat) (x y z : Nat)
    (h : ((A ++ x :: (B ++ y :: C)) ++ z :: D).Nodup) :
    x ≠ y ∧ x ≠ z ∧ y ≠ z ∧ (∀ c ∈ A, c ≠ x ∧ c ≠ y ∧ c ≠ z) ∧ (∀ c ∈ B, c ≠ x ∧ c ≠ y ∧ c ≠ z)
      ∧ (∀ c ∈ C, c ≠ x ∧ c ≠ y ∧ c ≠ z) ∧ (∀ c ∈ D, c ≠ x ∧ c ≠ y ∧ c ≠ z) := by
  obtain ⟨h1, h2, h3, h4⟩ := nodup_split A (B ++ y :: C) D x z h
  have h' : ((A ++ x :: B) ++ y :: C).Nodup := by
    have := (List.nodup_append.mp h).1
    simpa using this
  obtain ⟨k1, k2, k3, k4⟩ := nodup_split A B C x y h'
  refine ⟨k1, h1, ?_, ?_, ?_, ?_, ?_⟩
  · exact fun e => (h3 y (by simp)).2 e
  · intro c hc
    exact ⟨(h2 c hc).1, (k2 c hc).2, (h2 c hc).2⟩
  · intro c hc
    exact ⟨(k3 c hc).1, (k3 c hc).2, (h3 c (by simp [hc])).2⟩
  · intro c hc
    exact ⟨(k4 c hc).1, (k4 c hc).2, (h3 c (by simp [hc])).2⟩
  · intro c hc
    refine ⟨(h4 c hc).1, ?_, (h4 c hc).2⟩
    intro e
    have hd := (List.nodup_append.mp h).2.2
    exact hd (show y ∈ A ++ x :: (B ++ y :: C) by simp) (by simp [← e, hc])

/-- The cached height read through the root pointer of a shape is at least -1
when the cached heights of its nodes are. -/
theorem height_ge_of_shape (t : Search_tree) (p : Option Nat) (nodes : List Nat) (v : Int)
    (h : Shape t p nodes) (hv : Node.height t p = .ok v)
    (hh : ∀ a ∈ nodes, ∀ m, t.load a = .ok m → -1 ≤ m.tree_height) : -1 ≤ v := by
  cases h with
  | null =>
    simp only [Node.height, Except.ok.injEq] at hv
    omega
  | node a n l r hn _ _ =>
    simp only [Node.height, hn, bind, Except.bind, pure, Except.pure, Except.ok.injEq] at hv
    rw [← hv]
    exact hh a (by simp) n hn

/-- `Node::balanceLeft` on the root of a tree-shaped subtree held by the parent
slot: the call returns, and the slot then holds the root of a subtree with the
same in-order node sequence. -/
theorem balanceLeft_shape (t : Search_tree) (this : Nat) (to_this : Slot) (nodes : List Nat)
    (hs : Shape t (some this) nodes) (hnd : nodes.Nodup)
    (hslot : slot_value t to_this = .ok (some this))
    (hown : ∀ o, to_this.owner = some o → o ∉ nodes)
    (hh : ∀ a ∈ nodes, ∀ m, t.load a = .ok m → -1 ≤ m.tree_height) :
    ∃ t' p, Node.balanceLeft t this to_this = .ok t' ∧ slot_value t' to_this = .ok p
      ∧ Shape t' p nodes := by
  obtain ⟨n, L, R, hn, hL, hR, hnodes⟩ := shape_some t this nodes hs
  have hown' : ∀ c ∈ nodes, to_this.owner ≠ some c := fun c hc e => hown c e hc
  rcases shape_cases t _ _ hL with ⟨hl0, -⟩ | ⟨b, bn, BL, BR, hlb, hbn, hBL, hBR, hLeq⟩
  · refine ⟨t, some this, ?_, hslot, hs⟩
    unfold Node.balanceLeft
    simp only [hn, bind, Except.bind, hl0, if_true, pure, Except.pure]
  · have hE : ∃ e : Bool, (if n.right_tree = none then (pure true : Except Fault Bool) else do
        let hl ← Node.height t (some b)
        let hr ← Node.height t n.right_tree
        pure (decide (hl - hr = 2))) = .ok e := by
      by_cases hr0 : n.right_tree = none
      · exact ⟨true, by rw [if_pos hr0]; rfl⟩
      · obtain ⟨v, hv⟩ := height_of_shape t _ _ hR
        rw [if_neg hr0, hv]
        simp only [Node.height, hbn, bind, Except.bind, pure, Except.pure]
        exact ⟨_, rfl⟩
    obtain ⟨e, hE⟩ := hE
    simp only [bind, Except.bind] at hE
    obtain ⟨hll, hhll⟩ := height_of_shape t _ _ hBL
    obtain ⟨hlr, hhlr⟩ := height_of_shape t _ _ hBR
    have hunf : Node.balanceLeft t this to_this = (if e = true then
        (if hll > hlr then (do
          let t ← t.modify b (fun m => { m with right_tree := some this })
          let t ← t.assign to_this (some b)
          t.modify this (fun m => { m with left_tree := bn.right_tree }))
        else if hll < hlr then (do
          let d ← address bn.right_tree
          let dn ← t.load d
          let t ← t.modify d (fun m => { m with left_tree := some b })
          let t ← t.modify d (fun m => { m with right_tree := some this })
          let t ← t.assign to_this (some d)
          let t ← t.modify b (fun m => { m with right_tree := dn.left_tree })
          t.modify this (fun m => { m with left_tree := dn.right_tree }))
        else pure t)
        else pure t) := by
      unfold Node.balanceLeft
      simp only [hn, bind, Except.bind, hlb, reduceCtorEq, if_false, hE, address, hbn, hhll, hhlr]
    rw [hunf]
    subst hLeq
    by_cases he : e = true
    swap
    · rw [if_neg he]
      exact ⟨t, some this, rfl, hslot, hs⟩
    rw [if_pos he]
    by_cases hgt : hll > hlr
    · -- Case 1: left-left
      rw [if_pos hgt]
      subst hnodes
      obtain ⟨hbt, fBL, fBR, fR⟩ := nodup_split BL BR R b this hnd
      have hob : to_this.owner ≠ some b := hown' b (by simp)
      have hot : to_this.owner ≠ some this := hown' this (by simp)
      obtain ⟨t1, hm1, hs1, ho1, -⟩ := modify_spec t b
        (fun m => { m with right_tree := some this }) bn hbn
      have hslot1 : slot_value t1 to_this = .ok (some this) := by
        rw [slot_value_of_modify t t1 b _ to_this hm1 hob, hslot]
      obtain ⟨t2, ha2, hsv2, ho2⟩ := assign_spec t1 to_this (some b) _ hslot1
      have l2t : t2.load this = .ok n := by
        rw [ho2 _ hot, ho1 _ (Ne.symm hbt), hn]
      obtain ⟨t3, hm3, hs3, ho3, -⟩ := modify_spec t2 this
        (fun m => { m with left_tree := bn.right_tree }) n l2t
      have l3b : t3.load b = .ok { bn with right_tree := some this } := by
        rw [ho3 _ hbt, ho2 _ hob, hs1]
      have frame : ∀ c ∈ (BL ++ b :: BR) ++ this :: R, c ≠ b → c ≠ this →
          t3.load c = t.load c := by
        intro c hc h1 h2
        rw [ho3 _ h2, ho2 _ (hown' c hc), ho1 _ h1]
      refine ⟨t3, some b, ?_, ?_, ?_⟩
      · simp only [bind, Except.bind, hm1, ha2, hm3]
      · rw [slot_value_of_modify t2 t3 this _ to_this hm3 hot, hsv2]
      · have sBL : Shape t3 bn.left_tree BL := shape_congr t t3 _ _ hBL
          (fun c hc => frame c (by simp [hc]) (fBL c hc).1 (fBL c hc).2)
        have sBR : Shape t3 bn.right_tree BR := shape_congr t t3 _ _ hBR
          (fun c hc => frame c (by simp [hc]) (fBR c hc).1 (fBR c hc).2)
        have sR : Shape t3 n.right_tree R := shape_congr t t3 _ _ hR
          (fun c hc => frame c (by simp [hc]) (fR c hc).1 (fR c hc).2)
        have := Shape.node b _ BL (BR ++ this :: R) l3b sBL
          (Shape.node this _ BR R hs3 sBR sR)
        simpa using this
    · rw [if_neg hgt]
      by_cases hlt : hll < hlr
      swap
      · rw [if_neg hlt]
        exact ⟨t, some this, rfl, hslot, hs⟩
      -- Case 2: left-right
      rw [if_pos hlt]
      have hge : -1 ≤ hll := height_ge_of_shape t _ BL hll hBL hhll
        (fun a ha => hh a (by rw [hnodes]; simp [ha]))
      rcases shape_cases t _ _ hBR with ⟨hr0, -⟩ | ⟨d, dn, DL, DR, hrd, hdn, hDL, hDR, hBReq⟩
      · rw [hr0] at hhlr
        simp only [Node.height, Except.ok.injEq] at hhlr
        omega
      subst hBReq
      subst hnodes
      obtain ⟨hbd, hbt, hdt, fBL, fDL, fDR, fR⟩ := nodup_split3 BL DL DR R b d this hnd
      have hob : to_this.owner ≠ some b := hown' b (by simp)
      have hod : to_this.owner ≠ some d := hown' d (by simp)
      have hot : to_this.owner ≠ some this := hown' this (by simp)
      obtain ⟨t1, hm1, hs1, ho1, -⟩ := modify_spec t d
        (fun m => { m with left_tree := some b }) dn hdn
      obtain ⟨t2, hm2, hs2, ho2, -⟩ := modify_spec t1 d
        (fun m => { m with right_tree := some this }) _ hs1
      have hslot2 : slot_value t2 to_this = .ok (some this) := by
        rw [slot_value_of_modify t1 t2 d _ to_this hm2 hod,
          slot_value_of_modify t t1 d _ to_this hm1 hod, hslot]
      obtain ⟨t3, ha3, hsv3, ho3⟩ := assign_spec t2 to_this (some d) _ hslot2
      have l3b : t3.load b = .ok bn := by
        rw [ho3 _ hob, ho2 _ hbd, ho1 _ hbd, hbn]
      obtain ⟨t4, hm4, hs4, ho4, -⟩ := modify_spec t3 b
        (fun m => { m with right_tree := dn.left_tree }) bn l3b
      have l4t : t4.load this = .ok n := by
        rw [ho4 _ (Ne.symm hbt), ho3 _ hot, ho2 _ (Ne.symm hdt), ho1 _ (Ne.symm hdt), hn]
      obtain ⟨t5, hm5, hs5, ho5, -⟩ := modify_spec t4 this
        (fun m => { m with left_tree := dn.right_tree }) n l4t
      have l5b : t5.load b = .ok { bn with right_tree := dn.left_tree } := by
        rw [ho5 _ hbt, hs4]
      have l5d : t5.load d
          = .ok { dn with left_tree := some b, right_tree := some this } := by
        rw [ho5 _ hdt, ho4 _ (Ne.symm hbd), ho3 _ hod, hs2]
      have frame : ∀ c ∈ (BL ++ b :: (DL ++ d :: DR)) ++ this :: R, c ≠ b → c ≠ d →
          c ≠ this → t5.load c = t.load c := by
        intro c hc h1 h2 h3
        rw [ho5 _ h3, ho4 _ h1, ho3 _ (hown' c hc), ho2 _ h2, ho1 _ h2]
      refine ⟨t5, some d, ?_, ?_, ?_⟩
      · simp only [bind, Except.bind, hrd, address, hdn, hm1, hm2, ha3, hm4, hm5]
      · rw [slot_value_of_modify t4 t5 this _ to_this hm5 hot,
          slot_value_of_modify t3 t4 b _ to_this hm4 hob, hsv3]
      · have sBL : Shape t5 bn.left_tree BL := shape_congr t t5 _ _ hBL
          (fun c hc => frame c (by simp [hc]) (fBL c hc).1 (fBL c hc).2.1 (fBL c hc).2.2)
        have sDL : Shape t5 dn.left_tree DL := shape_congr t t5 _ _ hDL
          (fun c hc => frame c (by simp [hc]) (fDL c hc).1 (fDL c hc).2.1 (fDL c hc).2.2)
        have sDR : Shape t5 dn.right_tree DR := shape_congr t t5 _ _ hDR
          (fun c hc => frame c (by simp [hc]) (fDR c hc).1 (fDR c hc).2.1 (fDR c hc).2.2)
        have sR : Shape t5 n.right_tree R := shape_congr t t5 _ _ hR
          (fun c hc => frame c (by simp [hc]) (fR c hc).1 (fR c hc).2.1 (fR c hc).2.2)
        have := Shape.node d _ (BL ++ b :: DL) (DR ++ this :: R) l5d
          (Shape.node b _ BL DL l5b sBL sDL) (Shape.node this _ DR R hs5 sDR sR)
        simpa using this

/-- States with the same chain view have the same key at every address. -/
theorem key_at_of_same_view (t t' : Search_tree) (h : chain_view t' = chain_view t) (a : Nat) :
    key_at t' a = key_at t a := by
  unfold key_at
  cases hl : t.load a with
  | error e => rw [load_error_of_same_view t t' h a e hl]
  | ok n =>
    obtain ⟨n', hn', hk, -⟩ := load_of_same_view t t' h a n hl
    rw [hn']
    exact hk

/-- C32.  `balanceLeft` invoked on a node that is the root of a tree-shaped
subtree (in-order node sequence `nodes`, without repetition), held by the parent
slot `to_this` whose owner is outside the subtree, all cached heights in the
subtree being at least -1: the call returns in every case (no rotation, left-left
single rotation, left-right double rotation), and afterwards the parent slot holds
the root of a subtree with the same in-order node sequence, every address holds
the same key, and the in-order key sequence is the one before the call. -/
theorem balanceLeft_keeps_nodes_and_key_order (t : Search_tree) (this : Nat) (to_this : Slot)
    (nodes : List Nat) (hs : Shape t (some this) nodes) (hnd : nodes.Nodup)
    (hslot : slot_value t to_this = .ok (some this))
    (hown : ∀ o, to_this.owner = some o → o ∉ nodes)
    (hh : ∀ a ∈ nodes, ∀ m, t.load a = .ok m → -1 ≤ m.tree_height) :
    ∃ t' p, Node.balanceLeft t this to_this = .ok t' ∧ slot_value t' to_this = .ok p
      ∧ Shape t' p nodes
      ∧ (∀ a, key_at t' a = key_at t a)
      ∧ inorder (nodes.length + 1) t (some this) = .ok (nodes.map (key_at t))
      ∧ inorder (nodes.length + 1) t' p = .ok (nodes.map (key_at t)) := by
  obtain ⟨t', p, h1, h2, h3⟩ := balanceLeft_shape t this to_this nodes hs hnd hslot hown hh
  have hk : ∀ a, key_at t' a = key_at t a :=
    key_at_of_same_view t t' (balanceLeft_same_chain t this to_this t' h1).1
  refine ⟨t', p, h1, h2, h3, hk, inorder_of_shape t _ _ hs _ (le_refl _), ?_⟩
  rw [inorder_of_shape t' _ _ h3 _ (le_refl _)]
  congr 1
  exact List.map_congr_left (fun a _ => hk a)

/-- C32 at concrete inputs: the left-left case at the root after the inserts 3, 2
and the recursive insert of 1 (nodes 4, 3, 2 in order, keys 1, 2, 3), and the
left-right case at the root after the inserts 3, 1 and the recursive insert of 2
(nodes 3, 4, 2 in order, keys 1, 2, 3). -/
theorem balanceLeft_keeps_nodes_and_key_order_witness :
    (∃ t, (do let (_, t0) ← run new [.insert 3, .insert 2]
              Node.insert t0.fuel t0 3 1 (.left_tree 2)) = .ok (true, t)
      ∧ ∃ t' p, Node.balanceLeft t 2 .root_node = .ok t' ∧ slot_value t' .root_node = .ok p
        ∧ Shape t' p [4, 3, 2]
        ∧ (∀ a, key_at t' a = key_at t a)
        ∧ inorder 4 t (some 2) = .ok ([4, 3, 2].map (key_at t))
        ∧ inorder 4 t' p = .ok ([4, 3, 2].map (key_at t)))
    ∧ (∃ t, (do let (_, t0) ← run new [.insert 3, .insert 1]
                Node.insert t0.fuel t0 3 2 (.left_tree 2)) = .ok (true, t)
      ∧ ∃ t' p, Node.balanceLeft t 2 .root_node = .ok t' ∧ slot_value t' .root_node = .ok p
        ∧ Shape t' p [3, 4, 2]
        ∧ (∀ a, key_at t' a = key_at t a)
        ∧ inorder 4 t (some 2) = .ok ([3, 4, 2].map (key_at t))
        ∧ inorder 4 t' p = .ok ([3, 4, 2].map (key_at t))) := by
  constructor
  · refine ⟨_, rfl, ?_⟩
    refine balanceLeft_keeps_nodes_and_key_order
      (match (do let (_, t0) ← run new [.insert 3, .insert 2]
                 Node.insert t0.fuel t0 3 1 (.left_tree 2)) with
        | .ok r => r.2
        | .error _ => new)
      2 .root_node [4, 3, 2] ?_ (by decide) ?_ ?_ ?_
    · exact Shape.node 2 _ [4, 3] [] rfl
        (Shape.node 3 _ [4] [] rfl (Shape.node 4 _ [] [] rfl Shape.null Shape.null)
          Shape.null) Shape.null
    · rfl
    · intro o h
      cases h
    · intro a ha m hm
      simp only [List.mem_cons, List.mem_singleton, List.not_mem_nil, or_false] at ha
      rcases ha with rfl | rfl | rfl <;> cases hm <;> decide
  · refine ⟨_, rfl, ?_⟩
    refine balanceLeft_keeps_nodes_and_key_order
      (match (do let (_, t0) ← run new [.insert 3, .insert 1]
                 Node.insert t0.fuel t0 3 2 (.left_tree 2)) with
        | .ok r => r.2
        | .error _ => new)
      2 .root_node [3, 4, 2] ?_ (by decide) ?_ ?_ ?_
    · exact Shape.node 2 _ [3, 4] [] rfl
        (Shape.node 3 _ [] [4] rfl Shape.null
          (Shape.node 4 _ [] [] rfl Shape.null Shape.null)) Shape.null
    · rfl
    · intro o h
      cases h
    · intro a ha m hm
      simp only [List.mem_cons, List.mem_singleton, List.not_mem_nil, or_false] at ha
      rcases ha with rfl | rfl | rfl <;> cases hm <;> decide

/-! ### `Node::erase` and the order chain -/

/-- Deleting a stored node: the resulting state. -/
theorem free_ok (t : Search_tree) (a : Nat) (t' : Search_tree) (h : t.free a = .ok t') :
    t'.load a = .error .dangling ∧ (∀ b, b ≠ a → t'.load b = t.load b)
      ∧ t'.heap.length = t.heap.length ∧ t'.root_node = t.root_node
      ∧ t'.tree_size = t.tree_size ∧ t'.front_sentinel = t.front_sentinel
      ∧ t'.back_sentinel = t.back_sentinel := by
  unfold free at h
  split at h
  · rename_i n hn
    cases h
    have hlt := lt_of_load_ok t a n hn
    refine ⟨?_, ?_, ?_, rfl, rfl, rfl, rfl⟩
    · unfold load
      simp [List.getElem?_set, hlt]
    · intro b hb
      unfold load
      simp only [List.get?_eq_getElem?]
      rw [List.getElem?_set_ne (Ne.symm hb)]
    · simp
  · cases h

/-- An assignment that returned was to a stored node, and the state it left. -/
theorem modify_ok (t : Search_tree) (a : Nat) (f : Node → Node) (t' : Search_tree)
    (h : t.modify a f = .ok t') :
    ∃ n, t.load a = .ok n ∧ t'.load a = .ok (f n)
      ∧ (∀ b, b ≠ a → t'.load b = t.load b)
      ∧ t'.heap.length = t.heap.length ∧ t'.root_node = t.root_node
      ∧ t'.tree_size = t.tree_size ∧ t'.front_sentinel = t.front_sentinel
      ∧ t'.back_sentinel = t.back_sentinel := by
  have hx : ∃ mx, t.load a = .ok mx := by
    unfold modify at h
    split at h
    · exact ⟨_, by assumption⟩
    · cases h
  obtain ⟨mx, hmx⟩ := hx
  obtain ⟨t2, h1, h2⟩ := modify_spec t a f mx hmx
  rw [h] at h1
  cases h1
  exact ⟨mx, hmx, h2⟩

/-- The address a dereferenced pointer holds. -/
theorem address_ok (p : Option Nat) (a : Nat) (h : address p = .ok a) : p = some a := by
  cases p with
  | none => cases h
  | some b =>
    simp only [address, Except.ok.injEq] at h
    rw [h]

/-- The leaf and one-child cases of `Node::erase`: the effect of the statements
on keys and chain. -/
theorem unlink_unlinked (t : Search_tree) (this : Nat) (to_this : Slot) (child : Option Nat)
    (t' : Search_tree) (h : Node.unlink t this to_this child = .ok t') :
    Unlinked t t' this this := by
  unfold Node.unlink at h
  obtain ⟨t1, ha, h⟩ := ok_of_bind_ok _ _ _ h
  obtain ⟨n1, hn1, h⟩ := ok_of_bind_ok _ _ _ h
  obtain ⟨p, hp, h⟩ := ok_of_bind_ok _ _ _ h
  obtain ⟨t2, hm2, h⟩ := ok_of_bind_ok _ _ _ h
  obtain ⟨n2, hn2, h⟩ := ok_of_bind_ok _ _ _ h
  obtain ⟨x, hx, h⟩ := ok_of_bind_ok _ _ _ h
  obtain ⟨t3, hm3, h⟩ := ok_of_bind_ok _ _ _ h
  have hp := address_ok _ _ hp
  have hx := address_ok _ _ hx
  obtain ⟨hv1, hz1, hf1, hb1, -⟩ := assign_same_chain t to_this child t1 ha
  obtain ⟨mp, hmp, hs2, ho2, hl2, -, -, hf2, hb2⟩ := modify_ok _ _ _ _ hm2
  obtain ⟨mx, hmx, hs3, ho3, hl3, -, -, hf3, hb3⟩ := modify_ok _ _ _ _ hm3
  obtain ⟨hd4, ho4, hl4, -, -, hf4, hb4⟩ := free_ok _ _ _ h
  obtain ⟨vn, hvn, hk, hvp, hvx⟩ := load_of_same_view t1 t hv1.symm this n1 hn1
  have hn2' : n2.next_node = n1.next_node ∧ n2.previous_node = n1.previous_node := by
    by_cases hpt : this = p
    · rw [hpt, hs2] at hn2
      rw [hpt, hmp] at hn1
      cases hn1
      cases hn2
      exact ⟨rfl, rfl⟩
    · rw [ho2 _ hpt, hn1] at hn2
      cases hn2
      exact ⟨rfl, rfl⟩
  have hlen1 : t1.heap.length = t.heap.length := by
    have := congrArg List.length hv1
    simpa [chain_view] using this
  refine ⟨by rw [hl4, hl3, hl2, hlen1], by rw [hf4, hf3, hf2, hf1], by rw [hb4, hb3, hb2, hb1],
    hd4, vn, hvn, ?_⟩
  intro c m hc hm
  obtain ⟨m1, hm1, hk1, hp1, hx1⟩ := load_of_same_view t t1 hv1 c m hm
  rw [if_neg hc, ho4 c hc]
  have hvp' : vn.previous_node = some p := by rw [hvp, hp]
  have hvx' : vn.next_node = some x := by rw [hvx, ← hn2'.1, hx]
  have h2 : ∃ m2, t2.load c = .ok m2 ∧ m2.node_value = m.node_value
      ∧ m2.next_node = (if vn.previous_node = some c then vn.next_node else m.next_node)
      ∧ m2.previous_node = m.previous_node := by
    by_cases hcp : c = p
    · subst hcp
      rw [hm1] at hmp
      cases hmp
      rw [hs2]
      refine ⟨_, rfl, hk1, ?_, hp1⟩
      rw [if_pos hvp', hvx]
    · rw [ho2 c hcp]
      refine ⟨m1, hm1, hk1, ?_, hp1⟩
      rw [if_neg (fun e => hcp (by rw [hvp'] at e; cases e; rfl)), hx1]
  obtain ⟨m2, hm2', hk2, hx2, hp2⟩ := h2
  by_cases hcx : c = x
  · subst hcx
    rw [hm2'] at hmx
    cases hmx
    rw [hs3]
    refine ⟨_, rfl, hk2, hx2, ?_⟩
    rw [if_pos hvx', hvp, ← hn2'.2]
  · rw [ho3 c hcx]
    refine ⟨m2, hm2', hk2, hx2, ?_⟩
    rw [if_neg (fun e => hcx (by rw [hvx'] at e; cases e; rfl)), hp2]

/-- What `Node::erase` has done to keys and chain is not changed by later
assignments to child links, cached heights and `to_this`. -/
theorem unlinked_of_same_view (t t1 t2 : Search_tree) (u v : Nat) (h : Unlinked t t1 u v)
    (hv : chain_view t2 = chain_view t1) (hf : t2.front_sentinel = t1.front_sentinel)
    (hb : t2.back_sentinel = t1.back_sentinel) : Unlinked t t2 u v := by
  obtain ⟨h1, h2, h3, h4, vn, hvn, h5⟩ := h
  have hlen : t2.heap.length = t1.heap.length := by
    have := congrArg List.length hv
    simpa [chain_view] using this
  refine ⟨hlen.trans h1, hf.trans h2, hb.trans h3, load_error_of_same_view t1 t2 hv v _ h4,
    vn, hvn, ?_⟩
  intro c m hc hm
  obtain ⟨m1, hm1, g1, g2, g3⟩ := h5 c m hc hm
  obtain ⟨m2, hm2, k1, k2, k3⟩ := load_of_same_view t1 t2 hv c m1 hm1
  exact ⟨m2, hm2, k1.trans g1, k3.trans g2, k2.trans g3⟩

/-- The two-children case of `Node::erase`: the key copied into the node before
the recursive call becomes part of the effect. -/
theorem unlinked_of_key_copy (t tk t' : Search_tree) (a v : Nat) (vn : Node) (hav : a ≠ v)
    (hvn : t.load v = .ok vn)
    (hm : t.modify a (fun m => { m with node_value := vn.node_value }) = .ok tk)
    (h : Unlinked tk t' v v) : Unlinked t t' a v := by
  obtain ⟨h1, h2, h3, h4, vn', hvn', h5⟩ := h
  obtain ⟨an, han, hs, ho, hl, -, -, hf, hb⟩ := modify_ok _ _ _ _ hm
  rw [ho v (Ne.symm hav), hvn] at hvn'
  cases hvn'
  refine ⟨h1.trans hl, h2.trans hf, h3.trans hb, h4, vn, hvn, ?_⟩
  intro c m hc hmc
  by_cases hca : c = a
  · subst hca
    rw [han] at hmc
    cases hmc
    obtain ⟨m', hm', g1, g2, g3⟩ := h5 c _ hc hs
    rw [if_neg hc] at g1
    refine ⟨m', hm', ?_, g2, g3⟩
    rw [if_pos rfl, g1]
  · have : tk.load c = .ok m := by rw [ho c hca, hmc]
    obtain ⟨m', hm', g1, g2, g3⟩ := h5 c m hc this
    rw [if_neg hc] at g1
    refine ⟨m', hm', ?_, g2, g3⟩
    rw [if_neg hca, g1]

/-- The null pointer has the empty shape only. -/
theorem shape_none (t : Search_tree) (nodes : List Nat) (h : Shape t none nodes) :
    nodes = [] := by
  rcases shape_cases t _ _ h with ⟨-, h2⟩ | ⟨a, n, l, r, h1, -⟩
  · exact h2
  · cases h1

/-- `Node::front` returns the first node of the in-order sequence, which has no
left child. -/
theorem front_of_shape (fuel : Nat) :
    ∀ (t : Search_tree) (r : Nat) (R : List Nat) (f : Nat),
      Shape t (some r) R → Node.front fuel t r = .ok f →
      ∃ R' fn, R = f :: R' ∧ t.load f = .ok fn ∧ fn.left_tree = none := by
  induction fuel with
  | zero => intro t r R f _ h; simp [Node.front] at h
  | succ fuel ih =>
    intro t r R f hs h
    obtain ⟨n, L, Rr, hn, hL, hR, hnodes⟩ := shape_some t r R hs
    rw [Node.front, hn] at h
    simp only [bind, Except.bind] at h
    cases hl : n.left_tree with
    | none =>
      rw [hl] at h hL
      simp only [pure, Except.pure, Except.ok.injEq] at h
      subst h
      have := shape_none t L hL
      subst this
      exact ⟨Rr, n, by simpa using hnodes, hn, hl⟩
    | some l =>
      rw [hl] at h hL
      obtain ⟨L', fn, hL', hfn, hfl⟩ := ih t l L f hL h
      subst hL'
      exact ⟨L' ++ r :: Rr, fn, by simpa using hnodes, hfn, hfl⟩

/-- Strictly ascending keys along an in-order sequence split at a node. -/
theorem sorted_split (key : Nat → Int) (L R : List Nat) (a : Nat)
    (h : ((L ++ a :: R).map key).Pairwise (· < ·)) :
    (L.map key).Pairwise (· < ·) ∧ (R.map key).Pairwise (· < ·)
      ∧ (∀ l ∈ L, key l < key a) ∧ (∀ r ∈ R, key a < key r) := by
  rw [List.map_append, List.map_cons, List.pairwise_append, List.pairwise_cons] at h
  obtain ⟨h1, ⟨h2, h3⟩, h4⟩ := h
  refine ⟨h1, h3, ?_, ?_⟩
  · intro l hl
    exact h4 _ (List.mem_map_of_mem key hl) _ (by simp)
  · intro r hr
    exact h2 _ (List.mem_map_of_mem key hr)

/-- Strictly ascending keys are pairwise different. -/
theorem key_injective (key : Nat → Int) (nodes : List Nat)
    (h : (nodes.map key).Pairwise (· < ·)) (c d : Nat) (hc : c ∈ nodes) (hd : d ∈ nodes)
    (hk : key c = key d) : c = d := by
  rw [List.pairwise_map] at h
  have h' : nodes.Pairwise (fun x y => key x ≠ key y) := h.imp (fun hlt => ne_of_lt hlt)
  by_contra hne
  exact List.Pairwise.forall (fun x y hxy => Ne.symm hxy) h' hc hd hne hk

/-- The keys of a list of nodes that an assignment left alone. -/
theorem map_key_congr (t t' : Search_tree) (nodes : List Nat)
    (h : ∀ c ∈ nodes, t'.load c = t.load c) :
    nodes.map (key_at t') = nodes.map (key_at t) := by
  apply List.map_congr_left
  intro c hc
  simp only [key_at, h c hc]

/-- A sequence without repetition that starts with `f` splits at `f` in one way. -/
theorem head_split (f : Nat) (R' A B : List Nat) (hnd : (f :: R').Nodup)
    (h : f :: R' = A ++ f :: B) : A = [] ∧ B = R' := by
  cases A with
  | nil =>
    simp only [List.nil_append, List.cons.injEq, true_and] at h
    exact ⟨rfl, h.symm⟩
  | cons x A =>
    simp only [List.cons_append, List.cons.injEq] at h
    obtain ⟨h1, h2⟩ := h
    subst h1
    rw [h2] at hnd
    have := (List.nodup_cons.mp hnd).1
    simp at this

/-- `Node::erase` on the root of a tree-shaped, search-ordered subtree: when the
call returns false the key is not in the subtree; when it returns true, either
the node holding the key had a null child and is the node deleted, or it had two
children, now holds the key of the node right after it in the in-order sequence,
and that node is the one deleted.  In both cases nothing else of keys and chain
links has changed except the two links around the deleted node. -/
theorem erase_unlinks (fuel : Nat) :
    ∀ (t : Search_tree) (a : Nat) (obj : KeyRef) (to_this : Slot) (nodes : List Nat) (k : Int)
      (res : Bool) (t' : Search_tree),
      Shape t (some a) nodes → nodes.Nodup →
      (nodes.map (key_at t)).Pairwise (· < ·) →
      t.key obj = .ok k → (∀ u, obj = .node_value u → u ∉ nodes) →
      Node.erase fuel t a obj to_this = .ok (res, t') →
      (res = false ∧ k ∉ nodes.map (key_at t))
      ∨ (res = true ∧ ∃ u v A B, Unlinked t t' u v ∧ key_at t u = k
          ∧ ((u = v ∧ nodes = A ++ v :: B
                ∧ ∃ vn, t.load v = .ok vn ∧ (vn.left_tree = none ∨ vn.right_tree = none))
             ∨ (nodes = A ++ u :: v :: B
                ∧ ∃ un l r fuel', t.load u = .ok un ∧ un.left_tree = some l
                    ∧ un.right_tree = some r ∧ Node.front fuel' t r = .ok v))) := by
  induction fuel with
  | zero => intro t a obj to_this nodes k res t' _ _ _ _ _ h; simp [Node.erase] at h
  | succ fuel ih =>
    intro t a obj to_this nodes k res t' hs hnd hsort hkey hobj h
    obtain ⟨n, L, R, hn, hL, hR, hnodes⟩ := shape_some t a nodes hs
    subst hnodes
    obtain ⟨sL, sR, hlt, hgt⟩ := sorted_split (key_at t) L R a hsort
    have hka : key_at t a = n.node_value := by simp [key_at, hn]
    obtain ⟨hndL, hndaR, hdisj⟩ := List.nodup_append.mp hnd
    obtain ⟨haR, hndR⟩ := List.nodup_cons.mp hndaR
    have haL : a ∉ L := fun hm => hdisj hm (by simp)
    unfold Node.erase at h
    obtain ⟨n', hn', h⟩ := ok_of_bind_ok _ _ _ h
    rw [hn] at hn'
    cases hn'
    obtain ⟨k', hk', h⟩ := ok_of_bind_ok _ _ _ h
    rw [hkey] at hk'
    cases hk'
    dsimp only at h
    by_cases hklt : k < n.node_value
    · -- the key is smaller: descend to the left
      rw [if_pos hklt] at h
      have hnotin : k ∉ (a :: R).map (key_at t) := by
        intro hm
        simp only [List.map_cons, List.mem_cons, List.mem_map] at hm
        rcases hm with hm | ⟨r, hr, hm⟩
        · rw [hka] at hm
          omega
        · have := hgt r hr
          rw [hka, hm] at this
          omega
      cases hl : n.left_tree with
      | none =>
        rw [hl] at h hL
        simp only [pure, Except.pure, Except.ok.injEq, Prod.mk.injEq] at h
        have := shape_none t L hL
        subst this
        exact Or.inl ⟨h.1.symm, by simpa using hnotin⟩
      | some l =>
        rw [hl] at h hL
        obtain ⟨⟨erased, t1⟩, hrec, h⟩ := ok_of_bind_ok _ _ _ h
        dsimp only at h
        rcases ih t l obj (.left_tree a) L k erased t1 hL hndL sL hkey
            (fun u hu hm => hobj u hu (List.mem_append_left _ hm)) hrec with
          ⟨he, hk⟩ | ⟨he, u, v, A, B, hU, hku, hpos⟩
        · subst he
          simp only [pure, Except.pure, Except.ok.injEq, Prod.mk.injEq, Bool.false_eq_true,
            if_false] at h
          refine Or.inl ⟨h.1.symm, ?_⟩
          rw [List.map_append, List.mem_append]
          exact fun hm => hm.elim hk hnotin
        · subst he
          simp only [if_true] at h
          obtain ⟨t2, hbal, h⟩ := ok_of_bind_ok _ _ _ h
          obtain ⟨t3, hupd, h⟩ := ok_of_bind_ok _ _ _ h
          simp only [pure, Except.pure, Except.ok.injEq, Prod.mk.injEq] at h
          obtain ⟨h1, h2⟩ := h
          subst h1 h2
          have s2 := balanceRight_same_chain t1 a to_this t2 hbal
          have s3 := update_height_same_chain to_this t2 a t3 hupd
          have s := same_chain_trans s2 s3
          refine Or.inr ⟨rfl, u, v, ?_⟩
          rcases hpos with ⟨huv, hL', hvn⟩ | ⟨hL', hun⟩
          · exact ⟨A, B ++ a :: R, unlinked_of_same_view t t1 t3 u v hU s.1 s.2.2.1 s.2.2.2.1,
              hku, Or.inl ⟨huv, by rw [hL']; simp, hvn⟩⟩
          · exact ⟨A, B ++ a :: R, unlinked_of_same_view t t1 t3 u v hU s.1 s.2.2.1 s.2.2.2.1,
              hku, Or.inr ⟨by rw [hL']; simp, hun⟩⟩
    · rw [if_neg hklt] at h
      by_cases hkgt : k > n.node_value
      · -- the key is larger: descend to the right
        rw [if_pos hkgt] at h
        have hnotin : k ∉ (L ++ [a]).map (key_at t) := by
          intro hm
          simp only [List.map_append, List.map_cons, List.map_nil, List.mem_append,
            List.mem_singleton, List.mem_map] at hm
          rcases hm with ⟨l, hl, hm⟩ | hm
          · have := hlt l hl
            rw [hka, hm] at this
            omega
          · rw [hka] at hm
            omega
        cases hr : n.right_tree with
        | none =>
          rw [hr] at h hR
          simp only [pure, Except.pure, Except.ok.injEq, Prod.mk.injEq] at h
          have := shape_none t R hR
          subst this
          exact Or.inl ⟨h.1.symm, hnotin⟩
        | some r =>
          rw [hr] at h hR
          obtain ⟨⟨erased, t1⟩, hrec, h⟩ := ok_of_bind_ok _ _ _ h
          dsimp only at h
          rcases ih t r obj (.right_tree a) R k erased t1 hR hndR sR hkey
              (fun u hu hm => hobj u hu (List.mem_append_right _ (List.mem_cons_of_mem _ hm)))
              hrec with
            ⟨he, hk⟩ | ⟨he, u, v, A, B, hU, hku, hpos⟩
          · subst he
            simp only [pure, Except.pure, Except.ok.injEq, Prod.mk.injEq, Bool.false_eq_true,
              if_false] at h
            refine Or.inl ⟨h.1.symm, ?_⟩
            intro hm
            have : L ++ a :: R = (L ++ [a]) ++ R := by simp
            rw [this, List.map_append, List.mem_append] at hm
            exact hm.elim hnotin hk
          · subst he
            simp only [if_true] at h
            obtain ⟨t2, hbal, h⟩ := ok_of_bind_ok _ _ _ h
            obtain ⟨t3, hupd, h⟩ := ok_of_bind_ok _ _ _ h
            simp only [pure, Except.pure, Except.ok.injEq, Prod.mk.injEq] at h
            obtain ⟨h1, h2⟩ := h
            subst h1 h2
            have s2 := balanceLeft_same_chain t1 a to_this t2 hbal
            have s3 := update_height_same_chain to_this t2 a t3 hupd
            have s := same_chain_trans s2 s3
            refine Or.inr ⟨rfl, u, v, ?_⟩
            rcases hpos with ⟨huv, hR', hvn⟩ | ⟨hR', hun⟩
            · exact ⟨L ++ a :: A, B,
                unlinked_of_same_view t t1 t3 u v hU s.1 s.2.2.1 s.2.2.2.1,
                hku, Or.inl ⟨huv, by rw [hR']; simp, hvn⟩⟩
            · exact ⟨L ++ a :: A, B,
                unlinked_of_same_view t t1 t3 u v hU s.1 s.2.2.1 s.2.2.2.1,
                hku, Or.inr ⟨by rw [hR']; simp, hun⟩⟩
      · -- the key is found at this node
        rw [if_neg hkgt] at h
        have hkeq : key_at t a = k := by
          rw [hka]
          omega
        have simple : ∀ child, (n.left_tree = none ∨ n.right_tree = none) →
            (do let t ← Node.unlink t a to_this child
                pure (true, t) : Except Fault (Bool × Search_tree)) = .ok (res, t') →
            res = true ∧ ∃ u v A B, Unlinked t t' u v ∧ key_at t u = k
              ∧ ((u = v ∧ L ++ a :: R = A ++ v :: B
                    ∧ ∃ vn, t.load v = .ok vn
                        ∧ (vn.left_tree = none ∨ vn.right_tree = none))
                 ∨ (L ++ a :: R = A ++ u :: v :: B
                    ∧ ∃ un l r fuel', t.load u = .ok un ∧ un.left_tree = some l
                        ∧ un.right_tree = some r ∧ Node.front fuel' t r = .ok v)) := by
          intro child hch h
          obtain ⟨t1, hunl, h⟩ := ok_of_bind_ok _ _ _ h
          simp only [pure, Except.pure, Except.ok.injEq, Prod.mk.injEq] at h
          obtain ⟨h1, h2⟩ := h
          subst h1 h2
          exact ⟨rfl, a, a, L, R, unlink_unlinked t a to_this child t1 hunl, hkeq,
            Or.inl ⟨rfl, rfl, n, hn, hch⟩⟩
        cases hl : n.left_tree with
        | none =>
          cases hr : n.right_tree with
          | none =>
            rw [hl, hr] at h
            exact Or.inr (simple none (Or.inl hl) h)
          | some r =>
            rw [hl, hr] at h
            exact Or.inr (simple (some r) (Or.inl hl) h)
        | some l =>
          cases hr : n.right_tree with
          | none =>
            rw [hl, hr] at h
            exact Or.inr (simple (some l) (Or.inr hr) h)
          | some r =>
            -- two children: copy the successor's key, erase it from the right subtree
            rw [hl, hr] at h
            rw [hr] at hR
            dsimp only at h
            obtain ⟨f, hfront, h⟩ := ok_of_bind_ok _ _ _ h
            obtain ⟨fn, hfn, h⟩ := ok_of_bind_ok _ _ _ h
            obtain ⟨tk, hmk, h⟩ := ok_of_bind_ok _ _ _ h
            obtain ⟨n', hn', h⟩ := ok_of_bind_ok _ _ _ h
            obtain ⟨r', hr', h⟩ := ok_of_bind_ok _ _ _ h
            obtain ⟨⟨e, t1⟩, hrec, h⟩ := ok_of_bind_ok _ _ _ h
            obtain ⟨t2, hupd, h⟩ := ok_of_bind_ok _ _ _ h
            simp only [pure, Except.pure, Except.ok.injEq, Prod.mk.injEq] at h
            obtain ⟨h1, h2⟩ := h
            subst h1 h2
            obtain ⟨R', fn', hR', hfn', hfl⟩ := front_of_shape fuel t r R f hR hfront
            rw [hfn] at hfn'
            cases hfn'
            have hfR : f ∈ R := by rw [hR']; simp
            have hfa : a ≠ f := fun e => haR (e ▸ hfR)
            obtain ⟨an, han, hsk, hok, -⟩ := modify_ok _ _ _ _ hmk
            rw [hn] at han
            cases han
            rw [hsk] at hn'
            cases hn'
            have hr'' := address_ok _ _ hr'
            dsimp only at hr''
            rw [hr] at hr''
            cases hr''
            have hframe : ∀ c ∈ R, tk.load c = t.load c :=
              fun c hc => hok c (fun e => haR (e ▸ hc))
            have hkeys : R.map (key_at tk) = R.map (key_at t) := map_key_congr t tk R hframe
            have hkf : key_at tk f = fn.node_value := by
              simp [key_at, hframe f hfR, hfn]
            rcases ih tk r (.node_value a) (.right_tree a) R fn.node_value e t1
                (shape_congr t tk _ _ hR hframe) hndR (by rw [hkeys]; exact sR)
                (by simp [key, hsk, bind, Except.bind, pure, Except.pure])
                (fun u hu => by cases hu; exact haR) hrec with
              ⟨-, hk⟩ | ⟨-, u, v, A, B, hU, hku, hpos⟩
            · exfalso
              apply hk
              rw [← hkf]
              exact List.mem_map_of_mem _ hfR
            · have s3 := update_height_same_chain to_this t1 a t2 hupd
              have huR : u ∈ R := by
                rcases hpos with ⟨huv, hRe, -⟩ | ⟨hRe, -⟩
                · rw [huv, hRe]; simp
                · rw [hRe]; simp
              have huf : u = f := key_injective (key_at tk) R (by rw [hkeys]; exact sR) u f huR hfR
                (by rw [hku, hkf])
              subst huf
              rcases hpos with ⟨huv, hRe, -⟩ | ⟨-, un, l', r', fuel', hun, hunl, -⟩
              · subst huv
                rw [hR'] at hRe hndR
                obtain ⟨hA, hB⟩ := head_split u R' A B hndR hRe
                have hU' : Unlinked t t1 a u := unlinked_of_key_copy t tk t1 a u fn hfa hfn hmk hU
                refine Or.inr ⟨rfl, a, u, L, R', unlinked_of_same_view t t1 t2 a u hU' s3.1
                  s3.2.2.1 s3.2.2.2.1, hkeq, Or.inr ⟨by rw [hR'], n, l, r, fuel, hn, hl, hr, hfront⟩⟩
              · exfalso
                rw [hframe u hfR, hfn] at hun
                cases hun
                rw [hfl] at hunl
                cases hunl

/-- Distinct addresses below a bound are at most as many as the bound. -/
theorem length_le_of_nodup_below (c : List Nat) (n : Nat) (hnd : c.Nodup)
    (hlt : ∀ p ∈ c, p < n) : c.length ≤ n := by
  have h1 : c.toFinset ⊆ Finset.range n := by
    intro p hp
    rw [List.mem_toFinset] at hp
    exact Finset.mem_range.mpr (hlt p hp)
  have h2 := Finset.card_le_card h1
  rw [List.toFinset_card_of_nodup hnd, Finset.card_range] at h2
  exact h2

/-- A chain carries over to a relation that agrees on the elements of the list. -/
theorem chain_of_mem {R S : Nat → Nat → Prop} (c : List Nat)
    (h : List.Chain' R c) (hRS : ∀ p q, p ∈ c → q ∈ c → R p q → S p q) : List.Chain' S c := by
  rw [List.Chain'.iff_mem] at h
  exact h.imp (fun p q ⟨hp, hq, hr⟩ => hRS p q hp hq hr)

/-- Every element of a linked sequence of at least two nodes is a stored node. -/
theorem linked_stored (t : Search_tree) (c : List Nat) (h : List.Chain' (Linked t) c)
    (hlen : 2 ≤ c.length) : ∀ p ∈ c, ∃ n, t.load p = .ok n := by
  induction c with
  | nil => simp at hlen
  | cons a c ih =>
    cases c with
    | nil => simp at hlen
    | cons b c =>
      have h1 := (List.chain'_cons.mp h).1
      have h2 := (List.chain'_cons.mp h).2
      intro p hp
      rcases List.mem_cons.mp hp with he | hp
      · subst he
        obtain ⟨⟨n, hn, -⟩, -⟩ := h1
        exact ⟨n, hn⟩
      · cases c with
        | nil =>
          simp only [List.mem_singleton] at hp
          subst hp
          obtain ⟨-, ⟨m, hm, -⟩⟩ := h1
          exact ⟨m, hm⟩
        | cons d c => exact ih h2 (by simp) p hp

/-- Reading the chain from a node of a linked sequence that ends at the back
sentinel yields the keys of the nodes before the sentinel. -/
theorem chain_from_of_linked (t : Search_tree) (b : Nat) (hb : t.back_sentinel = some b) :
    ∀ (ns : List Nat) (x : Nat) (fuel : Nat), List.Chain' (Linked t) (x :: ns ++ [b]) →
      b ∉ x :: ns → ns.length + 2 ≤ fuel →
      chain_from fuel t (some x) = .ok ((x :: ns).map (key_at t)) := by
  intro ns
  induction ns with
  | nil =>
    intro x fuel hch hbn hf
    obtain ⟨f, rfl⟩ : ∃ f, fuel = f + 2 := ⟨fuel - 2, by simp at hf; omega⟩
    have hl : Linked t x b := by
      simpa using hch
    obtain ⟨⟨n, hn, hnx⟩, -⟩ := hl
    have hxb : (some x : Option Nat) ≠ t.back_sentinel := by
      rw [hb]
      intro e
      cases e
      exact hbn (by simp)
    rw [chain_from, if_neg hxb]
    simp only [address, bind, Except.bind, hn, hnx, chain_from, hb, if_true, pure, Except.pure,
      List.map_cons, List.map_nil, key_at]
  | cons y ns ih =>
    intro x fuel hch hbn hf
    obtain ⟨f, rfl⟩ : ∃ f, fuel = f + 1 := ⟨fuel - 1, by simp at hf; omega⟩
    have hch' : List.Chain' (Linked t) (x :: (y :: ns ++ [b])) := by simpa using hch
    obtain ⟨hl, hrest⟩ := List.chain'_cons.mp hch'
    obtain ⟨⟨n, hn, hnx⟩, -⟩ := hl
    have hxb : (some x : Option Nat) ≠ t.back_sentinel := by
      rw [hb]
      intro e
      cases e
      exact hbn (by simp)
    have hrec := ih y f (by simpa using hrest)
      (fun hm => hbn (List.mem_cons_of_mem _ hm)) (by simp at hf ⊢; omega)
    rw [chain_from, if_neg hxb]
    simp only [address, bind, Except.bind, hn, hnx, hrec, pure, Except.pure, List.map_cons,
      key_at]

/-- The order chain of a state whose chain runs from the front sentinel through
`nodes` to the back sentinel reads the keys of `nodes`. -/
theorem chain_of_linked (t : Search_tree) (nodes : List Nat) (f b : Nat)
    (hf : t.front_sentinel = some f) (hb : t.back_sentinel = some b)
    (hnd : (f :: nodes ++ [b]).Nodup)
    (hch : List.Chain' (Linked t) (f :: nodes ++ [b])) :
    chain t = .ok (nodes.map (key_at t)) := by
  have hlt : ∀ p ∈ f :: nodes ++ [b], p < t.heap.length := by
    intro p hp
    obtain ⟨n, hn⟩ := linked_stored t _ hch (by simp) p hp
    exact lt_of_load_ok t p n hn
  have hlen := length_le_of_nodup_below _ _ hnd hlt
  simp only [List.cons_append, List.length_cons, List.length_append, List.length_singleton,
    List.length_nil] at hlen
  have hbn : b ∉ f :: nodes := by
    intro hm
    have := List.nodup_append.mp (show ((f :: nodes) ++ [b]).Nodup by simpa using hnd)
    exact this.2.2 hm (by simp)
  cases nodes with
  | nil =>
    have hl : Linked t f b := by simpa using hch
    obtain ⟨⟨n, hn, hnx⟩, -⟩ := hl
    obtain ⟨g, hg⟩ : ∃ g, t.fuel = g + 1 := ⟨t.fuel - 1, by simp only [fuel]; omega⟩
    simp only [chain, next_of, hf, address, bind, Except.bind, hn, pure, Except.pure, hnx, hg,
      chain_from, hb, if_true, List.map_nil]
  | cons y ns =>
    have hch' : List.Chain' (Linked t) (f :: (y :: ns ++ [b])) := by simpa using hch
    obtain ⟨hl, hrest⟩ := List.chain'_cons.mp hch'
    obtain ⟨⟨n, hn, hnx⟩, -⟩ := hl
    have hrec := chain_from_of_linked t b hb ns y t.fuel (by simpa using hrest)
      (fun hm => hbn (List.mem_cons_of_mem _ hm))
      (by simp only [fuel, List.length_cons] at hlen ⊢; omega)
    simp only [chain, next_of, hf, address, bind, Except.bind, hn, pure, Except.pure, hnx, hrec]

/-- Removing the deleted node from a linked sequence leaves a linked sequence in
the state after `Node::erase`. -/
theorem linked_after_unlink (t t' : Search_tree) (u v : Nat) (pre post : List Nat)
    (hU : Unlinked t t' u v) (hnd : (pre ++ v :: post).Nodup)
    (hch : List.Chain' (Linked t) (pre ++ v :: post))
    (hpre : pre ≠ []) (hpost : post ≠ []) :
    List.Chain' (Linked t') (pre ++ post) := by
  obtain ⟨-, -, -, -, vn, hvn, hload⟩ := hU
  obtain ⟨hch1, hch2, hjoin⟩ := List.chain'_append.mp hch
  obtain ⟨hndpre, hndvpost, hdisj⟩ := List.nodup_append.mp hnd
  obtain ⟨hvpost, hndpost⟩ := List.nodup_cons.mp hndvpost
  have hvpre : v ∉ pre := fun hm => hdisj hm (by simp)
  obtain ⟨p, hp⟩ : ∃ p, pre.getLast? = some p := by
    cases h : pre.getLast? with
    | none => exact absurd (List.getLast?_eq_none_iff.mp h) hpre
    | some p => exact ⟨p, rfl⟩
  obtain ⟨x, post', hx⟩ : ∃ x post', post = x :: post' := by
    cases post with
    | nil => exact absurd rfl hpost
    | cons x post' => exact ⟨x, post', rfl⟩
  subst hx
  have hpv : Linked t p v := hjoin p hp v (by simp)
  obtain ⟨hvx, hch3⟩ := List.chain'_cons.mp hch2
  have hppre : p ∈ pre := List.mem_of_mem_getLast? hp
  have hvprev : vn.previous_node = some p := by
    obtain ⟨-, ⟨m, hm, hmp⟩⟩ := hpv
    rw [hvn] at hm
    cases hm
    exact hmp
  have hvnext : vn.next_node = some x := by
    obtain ⟨⟨m, hm, hmx⟩, -⟩ := hvx
    rw [hvn] at hm
    cases hm
    exact hmx
  -- a link between two nodes other than `v` survives
  have keep : ∀ c d, c ≠ v → d ≠ v → Linked t c d → Linked t' c d := by
    intro c d hc hd ⟨⟨m, hm, hmx⟩, ⟨m2, hm2, hm2p⟩⟩
    obtain ⟨m', hm', -, g2, -⟩ := hload c m hc hm
    obtain ⟨m2', hm2', -, -, g3⟩ := hload d m2 hd hm2
    refine ⟨⟨m', hm', ?_⟩, ⟨m2', hm2', ?_⟩⟩
    · rw [g2, if_neg, hmx]
      intro e
      rw [hvprev] at e
      cases e
      obtain ⟨⟨mp, hmp, hmpx⟩, -⟩ := hpv
      rw [hm] at hmp
      cases hmp
      rw [hmx] at hmpx
      cases hmpx
      exact hd rfl
    · rw [g3, if_neg, hm2p]
      intro e
      rw [hvnext] at e
      cases e
      obtain ⟨-, ⟨mx, hmxl, hmxp⟩⟩ := hvx
      rw [hm2] at hmxl
      cases hmxl
      rw [hm2p] at hmxp
      cases hmxp
      exact hc rfl
  refine List.chain'_append.mpr ⟨?_, ?_, ?_⟩
  · exact chain_of_mem pre hch1 (fun c d hc hd h => keep c d (fun e => hvpre (e ▸ hc))
      (fun e => hvpre (e ▸ hd)) h)
  · exact chain_of_mem (x :: post') hch3 (fun c d hc hd h => keep c d
      (fun e => hvpost (e ▸ hc)) (fun e => hvpost (e ▸ hd)) h)
  · intro p' hp' x' hx'
    have e1 : p' = p := by
      rw [Option.mem_def, hp] at hp'
      exact (Option.some.inj hp').symm
    have e2 : x' = x := by
      simp only [List.head?_cons, Option.mem_def, Option.some.injEq] at hx'
      exact hx'.symm
    rw [e1, e2]
    have hpne : p ≠ v := fun e => hvpre (e ▸ hppre)
    have hxne : x ≠ v := fun e => hvpost (by rw [← e]; simp)
    obtain ⟨⟨mp, hmp, -⟩, -⟩ := hpv
    obtain ⟨-, ⟨mx, hmx, -⟩⟩ := hvx
    obtain ⟨mp', hmp', -, g2, -⟩ := hload p mp hpne hmp
    obtain ⟨mx', hmx', -, -, g3⟩ := hload x mx hxne hmx
    refine ⟨⟨mp', hmp', ?_⟩, ⟨mx', hmx', ?_⟩⟩
    · rw [g2, if_pos hvprev, hvnext]
    · rw [g3, if_pos hvnext, hvprev]

/-- `Search_tree::erase` returning true on a well-formed tree: the effect on keys
and chain, and the place of the deleted node in the in-order sequence. -/
theorem erase_true_unlinks (t : Search_tree) (nodes : List Nat) (k : Int) (res : Bool)
    (t' : Search_tree) (hwf : Well_formed t nodes) (he : t.erase k = .ok (res, t')) :
    (res = false ∧ k ∉ nodes.map (key_at t))
    ∨ (res = true ∧ ∃ u v A B, Unlinked t t' u v ∧ key_at t u = k
        ∧ ((u = v ∧ nodes = A ++ v :: B
              ∧ ∃ vn, t.load v = .ok vn ∧ (vn.left_tree = none ∨ vn.right_tree = none))
           ∨ (nodes = A ++ u :: v :: B
              ∧ ∃ un l r fuel', t.load u = .ok un ∧ un.left_tree = some l
                  ∧ un.right_tree = some r ∧ Node.front fuel' t r = .ok v))) := by
  obtain ⟨f, b, hf, hb, hshape, hnd, hch, hsort⟩ := hwf
  unfold Search_tree.erase at he
  by_cases hem : t.empty = true
  · rw [if_pos hem] at he
    simp only [Except.ok.injEq, Prod.mk.injEq] at he
    have hroot : t.root_node = none := by simpa [empty] using hem
    rw [hroot] at hshape
    have := shape_none t nodes hshape
    subst this
    exact Or.inl ⟨he.1.symm, by simp⟩
  · rw [if_neg hem] at he
    obtain ⟨r, hr, he⟩ := ok_of_bind_ok _ _ _ he
    obtain ⟨⟨erased, t1⟩, hrec, he⟩ := ok_of_bind_ok _ _ _ he
    have hr := address_ok _ _ hr
    rw [hr] at hshape
    have hnodes : nodes.Nodup := by
      have h1 := (List.nodup_cons.mp (show (f :: (nodes ++ [b])).Nodup by simpa using hnd)).2
      exact (List.nodup_append.mp h1).1
    rcases erase_unlinks t.fuel t r (.value k) .root_node nodes k erased t1 hshape hnodes hsort
        rfl (fun u hu => by cases hu) hrec with
      ⟨h1, h2⟩ | ⟨h1, u, v, A, B, hU, hku, hpos⟩
    · subst h1
      simp only [pure, Except.pure, Except.ok.injEq, Prod.mk.injEq, Bool.false_eq_true,
        if_false] at he
      exact Or.inl ⟨he.1.symm, h2⟩
    · subst h1
      simp only [pure, Except.pure, Except.ok.injEq, Prod.mk.injEq, if_true] at he
      obtain ⟨e1, e2⟩ := he
      subst e1 e2
      exact Or.inr ⟨rfl, u, v, A, B, unlinked_of_same_view t t1 _ u v hU rfl rfl rfl, hku, hpos⟩

/-- The order chain after `Node::erase` has deleted the node `v` at a known place
of a well-formed tree and put its key into `u`. -/
theorem chain_after_unlink (t t' : Search_tree) (A B : List Nat) (u v : Nat)
    (hwf : Well_formed t (A ++ v :: B)) (hU : Unlinked t t' u v) :
    (∃ f b, t'.front_sentinel = some f ∧ t'.back_sentinel = some b
        ∧ (f :: (A ++ B) ++ [b]).Nodup ∧ List.Chain' (Linked t') (f :: (A ++ B) ++ [b]))
    ∧ chain t' = .ok ((A ++ B).map (key_at t'))
    ∧ (∀ c ∈ A ++ B, key_at t' c = if c = u then key_at t v else key_at t c)
    ∧ ∃ p x, Linked t p v ∧ Linked t v x ∧ Linked t' p x := by
  obtain ⟨f, b, hf, hb, hshape, hnd, hch, hsort⟩ := hwf
  have hsplit : f :: (A ++ v :: B) ++ [b] = (f :: A) ++ v :: (B ++ [b]) := by simp
  rw [hsplit] at hnd hch
  have hch' := linked_after_unlink t t' u v (f :: A) (B ++ [b]) hU hnd hch (by simp) (by simp)
  have hsub : ((f :: A) ++ (B ++ [b])).Sublist ((f :: A) ++ v :: (B ++ [b])) :=
    List.Sublist.append (List.Sublist.refl _) (List.sublist_cons_self _ _)
  have hnd' := hnd.sublist hsub
  have hre : (f :: A) ++ (B ++ [b]) = f :: (A ++ B) ++ [b] := by simp
  rw [hre] at hch' hnd'
  have hU' := hU
  obtain ⟨-, hf', hb', -, vn, hvn, hload⟩ := hU
  have hkeys : ∀ c ∈ A ++ B, key_at t' c = if c = u then key_at t v else key_at t c := by
    intro c hc
    have hcv : c ≠ v := by
      intro e
      subst e
      have h1 := List.nodup_append.mp hnd
      rcases List.mem_append.mp hc with h | h
      · exact h1.2.2 (List.mem_cons_of_mem _ h) (by simp)
      · exact (List.nodup_cons.mp h1.2.1).1 (by simp [h])
    have hmem : c ∈ (f :: A) ++ v :: (B ++ [b]) := by
      rcases List.mem_append.mp hc with h | h
      · simp [h]
      · simp [h]
    obtain ⟨m, hm⟩ := linked_stored t _ hch (by simp; omega) c hmem
    obtain ⟨m', hm', g1, -⟩ := hload c m hcv hm
    simp only [key_at, hm', g1, hvn, hm]
  refine ⟨⟨f, b, hf'.trans hf, hb'.trans hb, hnd', hch'⟩, ?_, hkeys, ?_⟩
  · exact chain_of_linked t' (A ++ B) f b (hf'.trans hf) (hb'.trans hb) hnd' hch'
  · -- the neighbours of the deleted node
    obtain ⟨hch1, hch2, hjoin⟩ := List.chain'_append.mp hch
    have hlast : ∃ p, (f :: A).getLast? = some p := by
      cases h : (f :: A).getLast? with
      | none => simp [List.getLast?_eq_none_iff] at h
      | some p => exact ⟨p, rfl⟩
    obtain ⟨p, hp⟩ := hlast
    have hhead : ∃ x, (B ++ [b]).head? = some x := by
      cases B with
      | nil => exact ⟨b, rfl⟩
      | cons x B => exact ⟨x, rfl⟩
    obtain ⟨x, hx⟩ := hhead
    have hpv : Linked t p v := hjoin p hp v (by simp)
    have hvx : Linked t v x := by
      have := (List.chain'_cons'.mp hch2).1
      exact this x hx
    have hch'' : List.Chain' (Linked t') ((f :: A) ++ (B ++ [b])) := by rw [hre]; exact hch'
    exact ⟨p, x, hpv, hvx, (List.chain'_append.mp hch'').2.2 p hp x hx⟩

/-- Reading through a `Node *&` right after an assignment through it. -/
theorem slot_value_of_assign (t : Search_tree) (s : Slot) (p : Option Nat) (t' : Search_tree)
    (h : t.assign s p = .ok t') : slot_value t' s = .ok p := by
  cases s with
  | root_node =>
    simp only [assign, Except.ok.injEq] at h
    subst h
    rfl
  | left_tree o =>
    obtain ⟨n, -, hs, -⟩ := modify_ok _ _ _ _ h
    simp [slot_value, hs, bind, Except.bind, pure, Except.pure]
  | right_tree o =>
    obtain ⟨n, -, hs, -⟩ := modify_ok _ _ _ _ h
    simp [slot_value, hs, bind, Except.bind, pure, Except.pure]

/-- Reading through a `Node *&` after an assignment that keeps child links. -/
theorem slot_value_of_modify_chain (t t' : Search_tree) (a : Nat) (f : Node → Node) (s : Slot)
    (h : t.modify a f = .ok t')
    (hf : ∀ m, (f m).left_tree = m.left_tree ∧ (f m).right_tree = m.right_tree) :
    slot_value t' s = slot_value t s := by
  obtain ⟨n, hn, hs, ho, -, hr, -⟩ := modify_ok _ _ _ _ h
  cases s with
  | root_node => simp only [slot_value, hr]
  | left_tree o =>
    by_cases hoa : o = a
    · subst hoa
      simp [slot_value, hs, hn, bind, Except.bind, pure, Except.pure, (hf n).1]
    · simp only [slot_value, ho o hoa]
  | right_tree o =>
    by_cases hoa : o = a
    · subst hoa
      simp [slot_value, hs, hn, bind, Except.bind, pure, Except.pure, (hf n).2]
    · simp only [slot_value, ho o hoa]

/-- The leaf and one-child cases of `Node::erase`: the parent slot ends up holding
the child that was passed, and the node is deleted. -/
theorem unlink_slot (t : Search_tree) (this : Nat) (to_this : Slot) (child : Option Nat)
    (t' : Search_tree) (h : Node.unlink t this to_this child = .ok t')
    (hown : to_this.owner ≠ some this) :
    slot_value t' to_this = .ok child ∧ t'.load this = .error .dangling := by
  have hU := unlink_unlinked t this to_this child t' h
  refine ⟨?_, hU.2.2.2.1⟩
  unfold Node.unlink at h
  obtain ⟨t1, ha, h⟩ := ok_of_bind_ok _ _ _ h
  obtain ⟨n1, hn1, h⟩ := ok_of_bind_ok _ _ _ h
  obtain ⟨p, hp, h⟩ := ok_of_bind_ok _ _ _ h
  obtain ⟨t2, hm2, h⟩ := ok_of_bind_ok _ _ _ h
  obtain ⟨n2, hn2, h⟩ := ok_of_bind_ok _ _ _ h
  obtain ⟨x, hx, h⟩ := ok_of_bind_ok _ _ _ h
  obtain ⟨t3, hm3, h⟩ := ok_of_bind_ok _ _ _ h
  obtain ⟨-, ho4, -, hr4, -⟩ := free_ok _ _ _ h
  have h3 : slot_value t3 to_this = .ok child := by
    rw [slot_value_of_modify_chain t2 t3 x _ to_this hm3 (fun _ => ⟨rfl, rfl⟩),
      slot_value_of_modify_chain t1 t2 p _ to_this hm2 (fun _ => ⟨rfl, rfl⟩),
      slot_value_of_assign t to_this child t1 ha]
  rw [← h3]
  cases to_this with
  | root_node => simp only [slot_value, hr4]
  | left_tree o =>
    have : o ≠ this := fun e => hown (by rw [e]; rfl)
    simp only [slot_value, ho4 o this]
  | right_tree o =>
    have : o ≠ this := fun e => hown (by rw [e]; rfl)
    simp only [slot_value, ho4 o this]

/-- `Node::erase` at a node that holds the key and has a null child. -/
theorem erase_at_node (fuel : Nat) (t : Search_tree) (this : Nat) (obj : KeyRef)
    (to_this : Slot) (n : Node) (hn : t.load this = .ok n) (hk : t.key obj = .ok n.node_value)
    (hc : n.left_tree = none ∨ n.right_tree = none) :
    Node.erase (fuel + 1) t this obj to_this
      = (do let t ← Node.unlink t this to_this
                    (if n.left_tree = none then n.right_tree else n.left_tree)
            pure (true, t)) := by
  rw [Node.erase]
  simp only [hn, hk, bind, Except.bind, lt_irrefl, if_false, gt_iff_lt]
  cases hl : n.left_tree with
  | none =>
    cases hr : n.right_tree with
    | none => simp
    | some r => simp
  | some l =>
    cases hr : n.right_tree with
    | none => simp
    | some r =>
      rw [hl, hr] at hc
      simp at hc

/-- C36.  For every well-formed tree (tree-shaped below the root, keys strictly
ascending along the in-order node sequence, order chain running from the front
sentinel through exactly these nodes in this order to the back sentinel) and
every stored key k: the chain reads the keys in ascending order; `erase(k)` never
returns false; and whenever it returns true, the chain afterwards reads exactly
the former keys without k, still ascending.  The node `v` that is deleted is
unlinked: its former neighbours `p` and `x` are linked to each other.  If the
node holding k has a null child this node is `v`; otherwise it is kept, `v` is
the node right after it in order, which is the leftmost node of its right
subtree, and the kept node now holds the key `v` held.  Finally, at a node that
holds the key and has a null child, a returning `Node::erase` leaves the other
child pointer (null for a leaf) in the parent slot and deletes the node. -/
theorem erase_relinks_chain_without_key (t : Search_tree) (nodes : List Nat) (k : Int)
    (hwf : Well_formed t nodes) (hk : k ∈ nodes.map (key_at t)) :
    chain t = .ok (nodes.map (key_at t))
    ∧ (∀ t', t.erase k ≠ .ok (false, t'))
    ∧ (∀ t', t.erase k = .ok (true, t') →
        chain t' = .ok ((nodes.map (key_at t)).erase k)
        ∧ ((nodes.map (key_at t)).erase k).Pairwise (· < ·)
        ∧ ∃ u v A B p x, key_at t u = k ∧ t'.load v = .error .dangling
            ∧ Linked t p v ∧ Linked t v x ∧ Linked t' p x
            ∧ ((u = v ∧ nodes = A ++ v :: B
                  ∧ ∃ vn, t.load v = .ok vn
                      ∧ (vn.left_tree = none ∨ vn.right_tree = none))
               ∨ (nodes = A ++ u :: v :: B
                  ∧ (∃ un l r fuel', t.load u = .ok un ∧ un.left_tree = some l
                      ∧ un.right_tree = some r ∧ Node.front fuel' t r = .ok v)
                  ∧ key_at t' u = key_at t v)))
    ∧ (∀ (fuel : Nat) (s : Search_tree) (this : Nat) (obj : KeyRef) (to_this : Slot)
        (n : Node) (s' : Search_tree),
        s.load this = .ok n → s.key obj = .ok n.node_value →
        (n.left_tree = none ∨ n.right_tree = none) → to_this.owner ≠ some this →
        Node.erase (fuel + 1) s this obj to_this = .ok (true, s') →
        slot_value s' to_this = .ok (if n.left_tree = none then n.right_tree else n.left_tree)
          ∧ s'.load this = .error .dangling) := by
  have hwf' := hwf
  obtain ⟨f, b, hf, hb, hshape, hnd, hch, hsort⟩ := hwf
  refine ⟨chain_of_linked t nodes f b hf hb hnd hch, ?_, ?_, ?_⟩
  · intro t' he
    rcases erase_true_unlinks t nodes k false t' hwf' he with ⟨-, h⟩ | ⟨h, -⟩
    · exact h hk
    · cases h
  · intro t' he
    have hsorted : ((nodes.map (key_at t)).erase k).Pairwise (· < ·) :=
      hsort.sublist (List.erase_sublist _ _)
    rcases erase_true_unlinks t nodes k true t' hwf' he with ⟨h, -⟩ | ⟨-, u, v, A, B, hU, hku, hpos⟩
    · cases h
    rcases hpos with ⟨huv, hnodes, hvn⟩ | ⟨hnodes, hun⟩
    · -- the node holding the key is deleted
      subst huv hnodes
      obtain ⟨-, hchain, hkeys, p, x, hpv, hvx, hpx⟩ := chain_after_unlink t t' A B u u hwf' hU
      obtain ⟨-, -, hltA, -⟩ := sorted_split (key_at t) A B u hsort
      have hkA : k ∉ A.map (key_at t) := by
        intro hm
        obtain ⟨c, hc, hck⟩ := List.mem_map.mp hm
        have := hltA c hc
        rw [hck, hku] at this
        exact lt_irrefl _ this
      have hnu : ∀ c ∈ A ++ B, c ≠ u := by
        intro c hc e
        subst e
        have h1 := (List.nodup_cons.mp (show (f :: ((A ++ c :: B) ++ [b])).Nodup by
          simpa using hnd)).2
        have h2 := (List.nodup_append.mp h1).1
        have h3 := List.nodup_append.mp h2
        rcases List.mem_append.mp hc with h | h
        · exact h3.2.2 h (by simp)
        · exact (List.nodup_cons.mp h3.2.1).1 h
      refine ⟨?_, hsorted, u, u, A, B, p, x, hku, hU.2.2.2.1, hpv, hvx, hpx,
        Or.inl ⟨rfl, rfl, hvn⟩⟩
      have hR : (List.map (key_at t) (A ++ u :: B)).erase k
          = List.map (key_at t) (A ++ B) := by
        rw [List.map_append, List.map_cons, hku, List.erase_append_right _ hkA,
          List.erase_cons_head, ← List.map_append]
      rw [hchain, hR]
      congr 1
      apply List.map_congr_left
      intro c hc
      rw [hkeys c hc, if_neg (hnu c hc)]
    · -- the node holding the key is kept and its successor is deleted
      subst hnodes
      have hwf2 : Well_formed t ((A ++ [u]) ++ v :: B) := by simpa using hwf'
      obtain ⟨-, hchain, hkeys, p, x, hpv, hvx, hpx⟩ :=
        chain_after_unlink t t' (A ++ [u]) B u v hwf2 hU
      obtain ⟨-, -, hltA, -⟩ := sorted_split (key_at t) A (v :: B) u hsort
      have hkA : k ∉ A.map (key_at t) := by
        intro hm
        obtain ⟨c, hc, hck⟩ := List.mem_map.mp hm
        have := hltA c hc
        rw [hck, hku] at this
        exact lt_irrefl _ this
      have hndn : (A ++ u :: v :: B).Nodup := by
        have h1 := (List.nodup_cons.mp (show (f :: ((A ++ u :: v :: B) ++ [b])).Nodup by
          simpa using hnd)).2
        exact (List.nodup_append.mp h1).1
      have h3 := List.nodup_append.mp hndn
      have huA : ∀ c ∈ A, c ≠ u := fun c hc e => h3.2.2 hc (by simp [e])
      have huB : ∀ c ∈ B, c ≠ u := by
        intro c hc e
        have := (List.nodup_cons.mp h3.2.1).1
        exact this (by simp [← e, hc])
      have hku' : key_at t' u = key_at t v := by
        rw [hkeys u (by simp), if_pos rfl]
      refine ⟨?_, hsorted, u, v, A, B, p, x, hku, hU.2.2.2.1, hpv, hvx, hpx,
        Or.inr ⟨rfl, hun, hku'⟩⟩
      have hR : (List.map (key_at t) (A ++ u :: v :: B)).erase k
          = List.map (key_at t) A ++ key_at t v :: List.map (key_at t) B := by
        rw [List.map_append, List.map_cons, hku, List.erase_append_right _ hkA,
          List.erase_cons_head, List.map_cons]
      have hA : List.map (key_at t') A = List.map (key_at t) A := by
        apply List.map_congr_left
        intro c hc
        rw [hkeys c (by simp [hc]), if_neg (huA c hc)]
      have hB : List.map (key_at t') B = List.map (key_at t) B := by
        apply List.map_congr_left
        intro c hc
        rw [hkeys c (by simp [hc]), if_neg (huB c hc)]
      rw [hchain, hR]
      congr 1
      simp only [List.map_append, List.map_cons, List.map_nil, List.append_assoc,
        List.singleton_append, hku', hA, hB]
  · intro fuel s this obj to_this n s' hn hkey hc hown he
    rw [erase_at_node fuel s this obj to_this n hn hkey hc] at he
    obtain ⟨s1, hunl, he⟩ := ok_of_bind_ok _ _ _ he
    simp only [pure, Except.pure, Except.ok.injEq, Prod.mk.injEq, true_and] at he
    subst he
    exact unlink_slot s this to_this _ s1 hunl hown

/-- C36 on the tree built by inserting 5, 3, 8 (root at address 2, its children at
3 and 4): the tree is well-formed with in-order nodes 3, 2, 4, the chain reads
3, 5, 8, and `erase(5)`, which takes the two-children case, returns true and
leaves a chain that reads 3, 8. -/
theorem erase_relinks_chain_without_key_witness :
    ∃ t t', run new [.insert 5, .insert 3, .insert 8] = .ok ([true, true, true], t)
      ∧ Well_formed t [3, 2, 4] ∧ (5 : Int) ∈ [3, 2, 4].map (key_at t)
      ∧ chain t = .ok [3, 5, 8]
      ∧ t.erase 5 = .ok (true, t') ∧ chain t' = .ok [3, 8] := by
  have hwf : Well_formed
      (match run new [.insert 5, .insert 3, .insert 8] with
        | .ok r => r.2
        | .error _ => new) [3, 2, 4] := by
    refine ⟨0, 1, rfl, rfl, ?_, by decide, ?_, ?_⟩
    · exact Shape.node 2 _ [3] [4] rfl (Shape.node 3 _ [] [] rfl Shape.null Shape.null)
        (Shape.node 4 _ [] [] rfl Shape.null Shape.null)
    · exact List.Chain.cons ⟨⟨_, rfl, rfl⟩, ⟨_, rfl, rfl⟩⟩
        (List.Chain.cons ⟨⟨_, rfl, rfl⟩, ⟨_, rfl, rfl⟩⟩
          (List.Chain.cons ⟨⟨_, rfl, rfl⟩, ⟨_, rfl, rfl⟩⟩
            (List.Chain.cons ⟨⟨_, rfl, rfl⟩, ⟨_, rfl, rfl⟩⟩ List.Chain.nil)))
    · decide
  have h := erase_relinks_chain_without_key _ [3, 2, 4] 5 hwf (by decide)
  exact ⟨_, _, rfl, hwf, by decide, h.1, rfl, (h.2.2.1 _ rfl).1⟩

end Search_tree

/-! ## Resizable_deque: the claims -/

namespace Array_fault

/-- Reading a cell at a natural-number index that is in range. -/
theorem fetch_cast {α : Type} (a : List α) (n : Nat) (v : α) (h : a[n]? = some v) :
    fetch a (n : Int) = .ok v := by
  simp [fetch, h]

/-- Writing a cell at a natural-number index that is in range. -/
theorem store_cast {α : Type} (a : List α) (n : Nat) (v : α) (h : n < a.length) :
    store a (n : Int) v = .ok (a.set n v) := by
  simp [store, h]

end Array_fault

namespace Resizable_deque
open Array_fault (fetch store fetch_cast store_cast)

/-- The copy loop never stops when the argument's back index is the last cell. -/
theorem copy_cells_of_back_in_last_cell (deque : Resizable_deque) (C : Nat)
    (hlen : deque.array.length = C) (hback : deque.iback + 1 = (C : Int)) :
    ∀ (fuel i : Nat) (d : Resizable_deque), i < C → d.array.length = C →
      d.array_capacity = (C : Int) → d.iback = deque.iback →
      copy_cells fuel (i : Int) deque d = .error .out_of_fuel := by
  intro fuel
  induction fuel with
  | zero => intro i d _ _ _ _; rfl
  | succ fuel ih =>
    intro i d hi hd hc hb
    have h1 : ∃ v, deque.array[i]? = some v := by
      rw [List.getElem?_eq_getElem (by omega)]; exact ⟨_, rfl⟩
    obtain ⟨v, hv⟩ := h1
    rw [copy_cells, fetch_cast _ _ _ hv]
    simp only [bind, Except.bind]
    rw [store_cast _ _ _ (by omega)]
    dsimp only [capacity]
    split_ifs with h1 h2 h2
    · exact ih 0 _ (by omega) (by simp [hd]) hc hb
    · exfalso; omega
    · have := ih (i + 1) { d with array := d.array.set i v } (by omega) (by simp [hd]) hc hb
      simpa using this
    · exfalso; omega


/-- The copying loop: after `k` iterations the front index has advanced by `k`
(wrapping), the `k` cells read circularly from the old front index stand at
`i + o`, `i + o + 1`, ... of the new array, whose other cells are untouched. -/
theorem copy_loop_spec (o C : Nat) :
    ∀ (k i f : Nat) (d : Resizable_deque) (temp : List (Option Int)),
      d.array.length = C → d.array_capacity = (C : Int) → d.ifront = (f : Int) → f < C →
      k ≤ C → i + o + k ≤ temp.length →
      ∃ d' temp', copy_loop (o : Int) k (i : Int) d temp = .ok (d', temp')
        ∧ d'.ifront = (wrap C (f + k) : Nat) ∧ d'.iback = d.iback
        ∧ d'.deque_size = d.deque_size
        ∧ d'.initial_array_capacity = d.initial_array_capacity
        ∧ d'.array_capacity = d.array_capacity ∧ d'.array = d.array
        ∧ temp'.length = temp.length
        ∧ (∀ t, t < k → temp'[i + o + t]? = d.array[wrap C (f + t)]?)
        ∧ (∀ idx, idx < i + o ∨ i + o + k ≤ idx → temp'[idx]? = temp[idx]?) := by
  intro k
  induction k with
  | zero =>
    intro i f d temp _ _ hf hfC _ _
    refine ⟨d, temp, rfl, ?_, rfl, rfl, rfl, rfl, rfl, rfl, ?_, fun _ _ => rfl⟩
    · rw [hf]; simp [wrap, hfC]
    · intro t ht; omega
  | succ k ih =>
    intro i f d temp hlen hcap hf hfC hk hi
    have hv : d.array[f]? = some (d.array[f]) := List.getElem?_eq_getElem (by omega)
    rw [copy_loop, hf, fetch_cast _ _ _ hv]
    simp only [bind, Except.bind]
    rw [show ((i : Int) + (o : Int)) = ((i + o : Nat) : Int) by push_cast; rfl,
      store_cast _ _ _ (by omega)]
    dsimp only [capacity]
    have key : ∀ f2 : Nat, f2 < C → wrap C (f2 + 0) = wrap C (f + 1) →
        ∃ d' temp', copy_loop (o : Int) k ((i : Int) + 1)
            { d with ifront := (f2 : Int) } (temp.set (i + o) d.array[f]) = .ok (d', temp')
          ∧ d'.ifront = (wrap C (f + (k + 1)) : Nat) ∧ d'.iback = d.iback
          ∧ d'.deque_size = d.deque_size
          ∧ d'.initial_array_capacity = d.initial_array_capacity
          ∧ d'.array_capacity = d.array_capacity ∧ d'.array = d.array
          ∧ temp'.length = temp.length
          ∧ (∀ t, t < k + 1 → temp'[i + o + t]? = d.array[wrap C (f + t)]?)
          ∧ (∀ idx, idx < i + o ∨ i + o + (k + 1) ≤ idx → temp'[idx]? = temp[idx]?) := by
      intro f2 hf2 hw
      obtain ⟨d', temp', h1, h2, h3, h4, h5, h6, h7, h8, h9, h10⟩ :=
        ih (i + 1) f2 { d with ifront := (f2 : Int) } (temp.set (i + o) d.array[f])
          hlen hcap rfl hf2 (by omega) (by simp; omega)
      have hw2 : ∀ t, t ≤ k → wrap C (f2 + t) = wrap C (f + (t + 1)) := by
        intro t ht
        simp only [wrap, Nat.add_zero] at hw ⊢
        split_ifs at hw ⊢ <;> omega
      refine ⟨d', temp', ?_, ?_, h3, h4, h5, h6, h7, ?_, ?_, ?_⟩
      · rw [← h1]; push_cast; rfl
      · rw [h2, hw2 k (le_refl k)]
      · rw [h8]; simp
      · intro t ht
        cases t with
        | zero =>
          rw [Nat.add_zero, h10 (i + o) (Or.inl (by omega))]
          simp only [wrap, Nat.add_zero, if_pos hfC]
          rw [List.getElem?_set_self (by omega), hv]
        | succ t =>
          have := h9 t (by omega)
          rw [show i + o + (t + 1) = i + 1 + o + t by omega, this]
          simp only [hw2 t (by omega)]
      · intro idx hidx
        rw [h10 idx (by omega), List.getElem?_set_ne (by omega)]
    by_cases hwrap : (f : Int) + 1 = (C : Int)
    · rw [if_pos (by rw [hcap]; exact hwrap)]
      exact key 0 (by omega) (by simp only [wrap]; split_ifs <;> omega)
    · rw [if_neg (by rw [hcap]; exact hwrap)]
      have := key (f + 1) (by omega) rfl
      simpa using this


/-- The constructor yields a deque holding the empty sequence. -/
theorem represents_new (n : Int) : Represents (new n) [] := by
  refine ⟨(max n 16).toNat, 0, by simp [new], ?_, ?_, rfl, ?_, rfl, by simp, ?_, Or.inl ⟨rfl, rfl, rfl⟩, ?_⟩
  · simp only [new]; omega
  · omega
  · omega
  · simp only [new]; omega
  · intro j x h; simp at h

/-- Positions below `C` are not wrapped. -/
theorem wrap_lt (C x : Nat) (h : x < C) : wrap C x = x := by simp [wrap, h]

/-- An element of `l ++ [x]` is an element of `l` or is `x` at position `l.length`. -/
theorem getElem?_append_singleton_cases (l : List Int) (x : Int) (j : Nat) (y : Int)
    (h : (l ++ [x])[j]? = some y) : (j < l.length ∧ l[j]? = some y) ∨ (j = l.length ∧ y = x) := by
  rcases Nat.lt_trichotomy j l.length with hj | hj | hj
  · left; rw [List.getElem?_append_left hj] at h; exact ⟨hj, h⟩
  · right; subst hj; simp at h; exact ⟨rfl, h.symm⟩
  · exfalso
    have : (l ++ [x])[j]? = none := List.getElem?_eq_none (by simp; omega)
    rw [this] at h; cases h

/-- An element of `x :: l` is `x` at position 0 or an element of `l` one further. -/
theorem getElem?_cons_cases (l : List Int) (x : Int) (j : Nat) (y : Int)
    (h : (x :: l)[j]? = some y) : (j = 0 ∧ y = x) ∨ (∃ i, j = i + 1 ∧ l[i]? = some y) := by
  cases j with
  | zero => left; simp at h; exact ⟨rfl, h.symm⟩
  | succ i => right; exact ⟨i, rfl, by simpa using h⟩

/-- A position that holds an element is below the length. -/
theorem getElem?_lt_of_eq_some (l : List Int) (j : Nat) (y : Int) (h : l[j]? = some y) :
    j < l.length := by
  by_contra hn
  rw [List.getElem?_eq_none (by omega)] at h; cases h

/-- `push_back` appends to the sequence held. -/
theorem represents_push_back (d : Resizable_deque) (l : List Int) (x : Int)
    (h : Represents d l) : ∃ d', d.push_back x = .ok d' ∧ Represents d' (l ++ [x]) := by
  obtain ⟨C, f, hlen, hcap, hC, hf, hfC, hsz, hle, hinit, hb, hel⟩ := h
  obtain ⟨ifront, iback, deque_size, init, cap, array⟩ := d
  simp only at hlen hcap hf hsz hinit hb hel
  subst hcap hf hsz
  simp only [push_back, size, capacity]
  by_cases hfull : l.length = C
  · rw [if_pos (by exact_mod_cast hfull)]
    have h2 : ((C : Int) * 2).toNat = C * 2 := by omega
    simp only [h2]
    rw [store_cast _ _ _ (by simp; omega)]
    simp only [bind, Except.bind, Int.toNat_ofNat]
    obtain ⟨d', temp', h1, e1, e2, e3, e4, e5, e6, e7, e8, e9⟩ :=
      copy_loop_spec 0 C l.length 0 f ⟨(f : Int), iback, (l.length : Int), init, (C : Int), array⟩
        ((List.replicate (C * 2) none).set l.length (some x)) hlen rfl rfl hfC (by omega)
        (by simp; omega)
    simp only [Nat.cast_zero] at h1
    simp only [Nat.zero_add, List.length_set, List.length_replicate] at e2 e3 e4 e5 e6 e7 e8 e9
    rw [h1]
    refine ⟨_, rfl, C * 2, 0, e7, ?_, by omega, rfl, by omega, ?_, ?_, ?_, Or.inr ⟨l.length, ?_, by omega, ?_⟩, ?_⟩
    · simp only [e5]; push_cast; ring
    · simp only [e3]; simp
    · simp; omega
    · simp only [e4]; exact hinit
    · simp only [e3]; ring
    · simp
    · intro j y hj
      rw [Nat.zero_add, wrap_lt _ _ (by have := getElem?_lt_of_eq_some _ _ _ hj; simp at this; omega)]
      rcases getElem?_append_singleton_cases l x j y hj with ⟨hj1, hj2⟩ | ⟨hj1, hj2⟩
      · rw [e8 j hj1]; exact hel j y hj2
      · subst hj1 hj2
        rw [e9 _ (Or.inr (le_refl _)), List.getElem?_set_self (by simp; omega)]
  · rw [if_neg (by intro hn; exact hfull (by exact_mod_cast hn))]
    rcases hb with ⟨hib, hf0, hl⟩ | ⟨b, hib, hbC, hw⟩
    · subst hib hf0 hl
      rw [if_pos (by decide)]
      simp only [bind, Except.bind, pure, Except.pure]
      rw [store_cast _ _ _ (by omega)]
      refine ⟨_, rfl, C, 0, by simp [hlen], rfl, hC, rfl, hC, by simp, by simp; omega, hinit,
        Or.inr ⟨0, rfl, hC, rfl⟩, ?_⟩
      intro j y hj
      have hj0 : j = 0 := by have := getElem?_lt_of_eq_some _ _ _ hj; simp at this; omega
      subst hj0
      simp at hj; subst hj
      simp [wrap, hC, hlen]
    · subst hib
      rw [if_neg (by omega)]
      simp only [bind, Except.bind, pure, Except.pure]
      have hb2 : (if (b : Int) + 1 = (C : Int) then
            ({ ifront := (f : Int), iback := 0, deque_size := (l.length : Int),
               initial_array_capacity := init, array_capacity := (C : Int), array := array } : Resizable_deque)
          else { ifront := (f : Int), iback := (b : Int) + 1, deque_size := (l.length : Int),
                 initial_array_capacity := init, array_capacity := (C : Int), array := array })
          = { ifront := (f : Int), iback := ((wrap C (b + 1) : Nat) : Int), deque_size := (l.length : Int),
              initial_array_capacity := init, array_capacity := (C : Int), array := array } := by
        simp only [wrap]; split_ifs <;> first | rfl | (exfalso; omega) | (congr 1; omega)
      rw [hb2]
      dsimp only
      have hbw : wrap C (b + 1) < C := by simp only [wrap]; split_ifs <;> omega
      rw [store_cast _ _ _ (by omega)]
      refine ⟨_, rfl, C, f, by simp [hlen], rfl, hC, rfl, hfC, by simp, by simp; omega, hinit,
        Or.inr ⟨wrap C (b + 1), rfl, hbw, ?_⟩, ?_⟩
      · simp only [wrap, List.length_append, List.length_singleton] at hw ⊢
        split_ifs at hw ⊢ <;> omega
      · intro j y hj
        rcases getElem?_append_singleton_cases l x j y hj with ⟨hj1, hj2⟩ | ⟨hj1, hj2⟩
        · dsimp only
          rw [List.getElem?_set_ne]
          · exact hel j y hj2
          · simp only [wrap] at hw ⊢
            split_ifs at hw ⊢ <;> omega
        · subst hj1 hj2
          dsimp only
          rw [← hw, List.getElem?_set_self (by omega)]


/-- `push_front` prepends to the sequence held. -/
theorem represents_push_front (d : Resizable_deque) (l : List Int) (x : Int)
    (h : Represents d l) : ∃ d', d.push_front x = .ok d' ∧ Represents d' (x :: l) := by
  obtain ⟨C, f, hlen, hcap, hC, hf, hfC, hsz, hle, hinit, hb, hel⟩ := h
  obtain ⟨ifront, iback, deque_size, init, cap, array⟩ := d
  simp only at hlen hcap hf hsz hinit hb hel
  subst hcap hf hsz
  simp only [push_front, size, capacity]
  by_cases hfull : l.length = C
  · rw [if_pos (by exact_mod_cast hfull)]
    have h2 : ((C : Int) * 2).toNat = C * 2 := by omega
    simp only [h2]
    have hs : store (List.replicate (C * 2) (none : Option Int)) 0 (some x)
        = .ok ((List.replicate (C * 2) none).set 0 (some x)) :=
      store_cast _ 0 _ (by simp; omega)
    rw [hs]
    simp only [bind, Except.bind, Int.toNat_ofNat]
    obtain ⟨d', temp', h1, e1, e2, e3, e4, e5, e6, e7, e8, e9⟩ :=
      copy_loop_spec 1 C l.length 0 f ⟨(f : Int), iback, (l.length : Int), init, (C : Int), array⟩
        ((List.replicate (C * 2) none).set 0 (some x)) hlen rfl rfl hfC (by omega)
        (by simp; omega)
    simp only [Nat.cast_zero, Nat.cast_one] at h1
    simp only [Nat.zero_add, List.length_set, List.length_replicate] at e2 e3 e4 e5 e6 e7 e8 e9
    rw [h1]
    refine ⟨_, rfl, C * 2, 0, e7, ?_, by omega, rfl, by omega, ?_, ?_, ?_, Or.inr ⟨l.length, ?_, by omega, ?_⟩, ?_⟩
    · simp only [e5]; push_cast; ring
    · simp only [e3]; simp
    · simp; omega
    · simp only [e4]; exact hinit
    · simp only [e3]; ring
    · simp
    · intro j y hj
      rw [Nat.zero_add, wrap_lt _ _ (by have := getElem?_lt_of_eq_some _ _ _ hj; simp at this; omega)]
      rcases getElem?_cons_cases l x j y hj with ⟨hj1, hj2⟩ | ⟨i, hj1, hj2⟩
      · subst hj1 hj2
        rw [e9 _ (Or.inl (by omega)), List.getElem?_set_self (by simp; omega)]
      · subst hj1
        have hi := getElem?_lt_of_eq_some _ _ _ hj2
        rw [show i + 1 = 1 + i by omega, e8 i hi]; exact hel i y hj2
  · rw [if_neg (by intro hn; exact hfull (by exact_mod_cast hn))]
    rcases hb with ⟨hib, hf0, hl⟩ | ⟨b, hib, hbC, hw⟩
    · subst hib hf0 hl
      rw [if_pos (by decide)]
      simp only [bind, Except.bind, pure, Except.pure]
      rw [store_cast _ _ _ (by omega)]
      refine ⟨_, rfl, C, 0, by simp [hlen], rfl, hC, rfl, hC, by simp, by simp; omega, hinit,
        Or.inr ⟨0, rfl, hC, rfl⟩, ?_⟩
      intro j y hj
      have hj0 : j = 0 := by have := getElem?_lt_of_eq_some _ _ _ hj; simp at this; omega
      subst hj0
      simp at hj; subst hj
      simp [wrap, hC, hlen]
    · subst hib
      rw [if_neg (by omega)]
      simp only [bind, Except.bind, pure, Except.pure]
      have hf2 : (if (f : Int) - 1 < 0 then
            ({ ifront := (C : Int) - 1, iback := (b : Int), deque_size := (l.length : Int),
               initial_array_capacity := init, array_capacity := (C : Int), array := array } : Resizable_deque)
          else { ifront := (f : Int) - 1, iback := (b : Int), deque_size := (l.length : Int),
                 initial_array_capacity := init, array_capacity := (C : Int), array := array })
          = { ifront := ((wrap C (f + (C - 1)) : Nat) : Int), iback := (b : Int), deque_size := (l.length : Int),
              initial_array_capacity := init, array_capacity := (C : Int), array := array } := by
        simp only [wrap]; split_ifs <;> first | rfl | (exfalso; omega) | (congr 1; omega)
      rw [hf2]
      dsimp only
      have hfw : wrap C (f + (C - 1)) < C := by simp only [wrap]; split_ifs <;> omega
      rw [store_cast _ _ _ (by omega)]
      refine ⟨_, rfl, C, wrap C (f + (C - 1)), by simp [hlen], rfl, hC, rfl, hfw, by simp, by simp; omega,
        hinit, Or.inr ⟨b, rfl, hbC, ?_⟩, ?_⟩
      · simp only [wrap, List.length_cons] at hw ⊢
        split_ifs at hw ⊢ <;> omega
      · intro j y hj
        rcases getElem?_cons_cases l x j y hj with ⟨hj1, hj2⟩ | ⟨i, hj1, hj2⟩
        · subst hj1 hj2
          dsimp only
          rw [Nat.add_zero, wrap_lt _ _ hfw, List.getElem?_set_self (by omega)]
        · subst hj1
          have hi := getElem?_lt_of_eq_some _ _ _ hj2
          dsimp only
          have hpos : wrap C (wrap C (f + (C - 1)) + (i + 1)) = wrap C (f + i) := by
            simp only [wrap]; split_ifs <;> omega
          rw [hpos, List.getElem?_set_ne]
          · exact hel i y hj2
          · simp only [wrap]; split_ifs <;> omega


/-- The halving branch keeps the sequence held. -/
theorem represents_shrink (d : Resizable_deque) (l : List Int) (h : Represents d l) :
    ∃ d', d.shrink = .ok d' ∧ Represents d' l := by
  unfold shrink
  split_ifs with hc
  · obtain ⟨C, f, hlen, hcap, hC, hf, hfC, hsz, hle, hinit, hb, hel⟩ := h
    obtain ⟨ifront, iback, deque_size, init, cap, array⟩ := d
    simp only [size, capacity] at hlen hcap hf hsz hinit hb hel hc
    subst hcap hf hsz
    obtain ⟨hc1, hc2⟩ := hc
    have hn : l.length = C / 4 := by omega
    have h2 : ((C : Int) / 2).toNat = C / 2 := by omega
    simp only [size, capacity, h2, bind, Except.bind, Int.toNat_ofNat]
    obtain ⟨d', temp', h1, e1, e2, e3, e4, e5, e6, e7, e8, e9⟩ :=
      copy_loop_spec 0 C l.length 0 f ⟨(f : Int), iback, (l.length : Int), init, (C : Int), array⟩
        (List.replicate (C / 2) none) hlen rfl rfl hfC (by omega) (by simp; omega)
    simp only [Nat.cast_zero] at h1
    simp only [Nat.zero_add, List.length_replicate] at e2 e3 e4 e5 e6 e7 e8 e9
    rw [h1]
    refine ⟨_, rfl, C / 2, 0, e7, ?_, by omega, rfl, by omega, ?_, by omega, ?_, ?_, ?_⟩
    · simp only [e5]; omega
    · simp only [e3]
    · simp only [e4]; exact hinit
    · simp only [e3]
      by_cases hl : l = []
      · left; subst hl; simp
      · right
        have hpos : 0 < l.length := List.length_pos.mpr hl
        refine ⟨l.length - 1, by omega, by omega, ?_⟩
        simp only [wrap]; split_ifs <;> omega
    · intro j y hj
      have hj1 := getElem?_lt_of_eq_some _ _ _ hj
      rw [Nat.zero_add, wrap_lt _ _ (by omega), e8 j hj1]
      exact hel j y hj
  · exact ⟨d, rfl, h⟩

/-- `pop_front` on a non-empty deque drops the first element. -/
theorem represents_pop_front (d : Resizable_deque) (l : List Int) (h : Represents d l)
    (hne : l ≠ []) : ∃ d', d.pop_front = .ok d' ∧ Represents d' l.tail := by
  obtain ⟨C, f, hlen, hcap, hC, hf, hfC, hsz, hle, hinit, hb, hel⟩ := h
  obtain ⟨ifront, iback, deque_size, init, cap, array⟩ := d
  simp only at hlen hcap hf hsz hinit hb hel
  subst hcap hf hsz
  have hpos : 0 < l.length := List.length_pos.mpr hne
  simp only [pop_front, empty, capacity]
  rw [if_neg (by simpa using hne)]
  apply represents_shrink
  rcases hb with ⟨-, -, hl⟩ | ⟨b, hib, hbC, hw⟩
  · exact absurd hl hne
  · subst hib
    have hf2 : (if (f : Int) + 1 = (C : Int) then
          ({ ifront := 0, iback := (b : Int), deque_size := (l.length : Int) - 1,
             initial_array_capacity := init, array_capacity := (C : Int), array := array } : Resizable_deque)
        else { ifront := (f : Int) + 1, iback := (b : Int), deque_size := (l.length : Int) - 1,
               initial_array_capacity := init, array_capacity := (C : Int), array := array })
        = { ifront := ((wrap C (f + 1) : Nat) : Int), iback := (b : Int), deque_size := (l.length : Int) - 1,
            initial_array_capacity := init, array_capacity := (C : Int), array := array } := by
      simp only [wrap]; split_ifs <;> first | rfl | (exfalso; omega) | (congr 1; omega)
    rw [hf2]
    have hfw : wrap C (f + 1) < C := by simp only [wrap]; split_ifs <;> omega
    refine ⟨C, wrap C (f + 1), hlen, rfl, hC, rfl, hfw, ?_, by simp; omega, hinit,
      Or.inr ⟨b, rfl, hbC, ?_⟩, ?_⟩
    · simp; omega
    · simp only [wrap, List.length_tail] at hw ⊢
      split_ifs at hw ⊢ <;> omega
    · intro j y hj
      rw [List.getElem?_tail] at hj
      have hj1 := getElem?_lt_of_eq_some _ _ _ hj
      have hpos2 : wrap C (wrap C (f + 1) + j) = wrap C (f + (j + 1)) := by
        simp only [wrap]; split_ifs <;> omega
      dsimp only
      rw [hpos2]
      exact hel (j + 1) y hj

/-- `pop_back` on a non-empty deque drops the last element. -/
theorem represents_pop_back (d : Resizable_deque) (l : List Int) (h : Represents d l)
    (hne : l ≠ []) : ∃ d', d.pop_back = .ok d' ∧ Represents d' l.dropLast := by
  obtain ⟨C, f, hlen, hcap, hC, hf, hfC, hsz, hle, hinit, hb, hel⟩ := h
  obtain ⟨ifront, iback, deque_size, init, cap, array⟩ := d
  simp only at hlen hcap hf hsz hinit hb hel
  subst hcap hf hsz
  have hpos : 0 < l.length := List.length_pos.mpr hne
  simp only [pop_back, empty, capacity]
  rw [if_neg (by simpa using hne)]
  apply represents_shrink
  rcases hb with ⟨-, -, hl⟩ | ⟨b, hib, hbC, hw⟩
  · exact absurd hl hne
  · subst hib
    have hb2 : (if (b : Int) - 1 < 0 then
          ({ ifront := (f : Int), iback := (C : Int) - 1, deque_size := (l.length : Int) - 1,
             initial_array_capacity := init, array_capacity := (C : Int), array := array } : Resizable_deque)
        else { ifront := (f : Int), iback := (b : Int) - 1, deque_size := (l.length : Int) - 1,
               initial_array_capacity := init, array_capacity := (C : Int), array := array })
        = { ifront := (f : Int), iback := ((wrap C (b + (C - 1)) : Nat) : Int),
            deque_size := (l.length : Int) - 1,
            initial_array_capacity := init, array_capacity := (C : Int), array := array } := by
      simp only [wrap]; split_ifs <;> first | rfl | (exfalso; omega) | (congr 1; omega)
    rw [hb2]
    have hbw : wrap C (b + (C - 1)) < C := by simp only [wrap]; split_ifs <;> omega
    refine ⟨C, f, hlen, rfl, hC, rfl, hfC, ?_, by simp; omega, hinit,
      Or.inr ⟨wrap C (b + (C - 1)), rfl, hbw, ?_⟩, ?_⟩
    · simp; omega
    · simp only [wrap, List.length_dropLast] at hw ⊢
      split_ifs at hw ⊢ <;> omega
    · intro j y hj
      have hj1 := getElem?_lt_of_eq_some _ _ _ hj
      simp only [List.length_dropLast] at hj1
      apply hel j y
      rw [← hj, List.dropLast_eq_take, List.getElem?_take_of_lt (by omega)]


/-- `empty()` holds exactly when the sequence held is empty. -/
theorem represents_empty (d : Resizable_deque) (l : List Int) (h : Represents d l) :
    d.empty = true ↔ l = [] := by
  obtain ⟨C, f, hlen, hcap, hC, hf, hfC, hsz, hle, hinit, hb, hel⟩ := h
  simp [empty, hsz]

/-- `size()`, `front()` and `back()` read off the sequence held. -/
theorem represents_observers (d : Resizable_deque) (l : List Int) (h : Represents d l) :
    d.size = (l.length : Int)
    ∧ d.front = (match l.head? with | some x => .ok x | none => .error .underflow)
    ∧ d.back = (match l.getLast? with | some x => .ok x | none => .error .underflow) := by
  have hempty := represents_empty d l h
  obtain ⟨C, f, hlen, hcap, hC, hf, hfC, hsz, hle, hinit, hb, hel⟩ := h
  refine ⟨hsz, ?_, ?_⟩
  · cases l with
    | nil => simp [front, hempty.mpr rfl]
    | cons x l =>
      have hne : d.empty = false := by
        cases hd : d.empty
        · rfl
        · exact absurd (hempty.mp hd) (by simp)
      have h0 := hel 0 x (by simp)
      rw [Nat.add_zero, wrap_lt _ _ hfC] at h0
      simp [front, hne, hf, fetch_cast _ _ _ h0, bind, Except.bind, value_of]
  · rcases List.eq_nil_or_concat l with hl | ⟨l', x, hl⟩
    · subst hl; simp [back, hempty.mpr rfl]
    · rw [List.concat_eq_append] at hl
      subst hl
      have hne : d.empty = false := by
        cases hd : d.empty
        · rfl
        · exact absurd (hempty.mp hd) (by simp)
      rcases hb with ⟨-, -, hl⟩ | ⟨b, hib, hbC, hw⟩
      · simp at hl
      · have h0 := hel l'.length x (by simp)
        have hbpos : wrap C (f + l'.length) = b := by
          simp only [wrap, List.length_append, List.length_singleton] at hw hle ⊢
          split_ifs at hw ⊢ <;> omega
        rw [hbpos] at h0
        simp [back, hne, hib, fetch_cast _ _ _ h0, bind, Except.bind, value_of]

/-- Every sequence of calls returns and the result holds the model sequence. -/
theorem run_represents (ops : List Op) : ∀ (d : Resizable_deque) (l : List Int),
    Represents d l → ∃ d', run d ops = .ok d' ∧ Represents d' (model l ops) := by
  induction ops with
  | nil => intro d l h; exact ⟨d, rfl, h⟩
  | cons op ops ih =>
    intro d l h
    have hstep : ∃ d1, d.step op = .ok d1 ∧ Represents d1 (model_step l op) := by
      cases op with
      | push_front x => exact represents_push_front d l x h
      | push_back x => exact represents_push_back d l x h
      | pop_front =>
        by_cases hl : l = []
        · refine ⟨d, ?_, ?_⟩
          · simp [step, (represents_empty d l h).mpr hl]
          · subst hl; exact h
        · have hne : d.empty = false := by
            cases hd : d.empty
            · rfl
            · exact absurd ((represents_empty d l h).mp hd) hl
          simp only [step, hne]
          exact represents_pop_front d l h hl
      | pop_back =>
        by_cases hl : l = []
        · refine ⟨d, ?_, ?_⟩
          · simp [step, (represents_empty d l h).mpr hl]
          · subst hl; exact h
        · have hne : d.empty = false := by
            cases hd : d.empty
            · rfl
            · exact absurd ((represents_empty d l h).mp hd) hl
          simp only [step, hne]
          exact represents_pop_back d l h hl
    obtain ⟨d1, h1, h2⟩ := hstep
    obtain ⟨d', h3, h4⟩ := ih d1 _ h2
    exact ⟨d', by simp [run, h1, bind, Except.bind, h3], h4⟩

/-- C23.  Starting from a newly constructed deque of any requested capacity and
after any sequence of `push_front`, `push_back`, `pop_front`, `pop_back` (a pop
on an empty deque throws and leaves it as it was), every call returns, `size()`
is the length of the model sequence, `front()` is its first element and `back()`
its last, both throwing `underflow` exactly when the model sequence is empty. -/
theorem deque_refines_sequence (n : Int) (ops : List Op) :
    ∃ d, run (new n) ops = .ok d
      ∧ d.size = ((model [] ops).length : Int)
      ∧ d.front = (match (model [] ops).head? with
          | some x => .ok x | none => .error .underflow)
      ∧ d.back = (match (model [] ops).getLast? with
          | some x => .ok x | none => .error .underflow) := by
  obtain ⟨d, h1, h2⟩ := run_represents ops (new n) [] (represents_new n)
  exact ⟨d, h1, represents_observers d _ h2⟩



/-- C24, evaluated on the code.  The deque obtained by 16 `push_back` calls on a
deque of capacity 16 has its back index at `capacity() - 1`, and the copy
constructor applied to it never leaves its `do ... while(i != iback + 1)` loop,
whatever the fuel: `i` is reset to 0 when it reaches `capacity()`, so it never
equals `iback + 1`. -/
theorem copy_of_full_deque_never_returns :
    ∃ d, run (new 16) [.push_back 0, .push_back 1, .push_back 2, .push_back 3, .push_back 4,
          .push_back 5, .push_back 6, .push_back 7, .push_back 8, .push_back 9, .push_back 10,
          .push_back 11, .push_back 12, .push_back 13, .push_back 14, .push_back 15] = .ok d
      ∧ d.size = 16 ∧ d.capacity = 16 ∧ d.iback = d.capacity - 1
      ∧ ∀ fuel, copy fuel d = .error .out_of_fuel := by
  refine ⟨_, rfl, rfl, rfl, rfl, ?_⟩
  intro fuel
  apply copy_cells_of_back_in_last_cell _ 16 _ _ fuel 0
  · decide
  · rfl
  · rfl
  · rfl
  · rfl
  · rfl

end Resizable_deque

/-! ## Double_sentinel_list: the claims -/

namespace Double_sentinel_list

/-- Reading a node is reading an occupied heap cell. -/
theorem load_eq (t : Double_sentinel_list) (a : Nat) (n : Double_node) :
    t.load a = .ok n ↔ t.heap[a]? = some (some n) := by
  unfold load
  rw [List.get?_eq_getElem?]
  constructor
  · intro h
    split at h
    · rename_i m hm; cases h; exact hm
    · cases h
  · intro h; rw [h]

/-- An address that holds a node lies inside the heap. -/
theorem load_lt (t : Double_sentinel_list) (a : Nat) (n : Double_node)
    (h : t.load a = .ok n) : a < t.heap.length := by
  rw [load_eq] at h
  by_contra hn
  rw [List.getElem?_eq_none (by omega)] at h
  cases h

/-- Lists with the same cell at `b` read the same node at `b`. -/
theorem load_congr (t t' : Double_sentinel_list) (b : Nat)
    (h : t'.heap[b]? = t.heap[b]?) : t'.load b = t.load b := by
  unfold load; rw [List.get?_eq_getElem?, List.get?_eq_getElem?, h]

/-- A node whose `next_node` is known can be read. -/
theorem load_of_next_at (t : Double_sentinel_list) (a : Nat) (x : Option Nat)
    (h : next_at t a = some x) : ∃ n, t.load a = .ok n ∧ n.next_node = x := by
  unfold next_at at h
  split at h
  · rename_i n hn; exact ⟨n, hn, Option.some.inj h⟩
  · cases h

/-- A node whose `previous_node` is known can be read. -/
theorem load_of_previous_at (t : Double_sentinel_list) (a : Nat) (x : Option Nat)
    (h : previous_at t a = some x) : ∃ n, t.load a = .ok n ∧ n.previous_node = x := by
  unfold previous_at at h
  split at h
  · rename_i n hn; exact ⟨n, hn, Option.some.inj h⟩
  · cases h

/-- A node whose `node_value` is known can be read. -/
theorem load_of_value_at (t : Double_sentinel_list) (a : Nat) (x : Int)
    (h : value_at t a = some x) : ∃ n, t.load a = .ok n ∧ n.node_value = x := by
  unfold value_at at h
  split at h
  · rename_i n hn; exact ⟨n, hn, Option.some.inj h⟩
  · cases h

/-- An assignment to `previous_node` of the node at `a`. -/
theorem modify_previous_spec (t : Double_sentinel_list) (a : Nat) (v : Option Nat)
    (n : Double_node) (h : t.load a = .ok n) :
    ∃ t', t.modify (some a) (fun m => { m with previous_node := v }) = .ok t'
      ∧ t'.list_head = t.list_head ∧ t'.list_tail = t.list_tail ∧ t'.list_size = t.list_size
      ∧ t'.heap.length = t.heap.length
      ∧ next_at t' = next_at t ∧ value_at t' = value_at t
      ∧ previous_at t' a = some v ∧ ∀ b, b ≠ a → previous_at t' b = previous_at t b := by
  have hlt := load_lt _ _ _ h
  have hself : load { t with heap := t.heap.set a (some { n with previous_node := v }) } a
      = .ok { n with previous_node := v } := by
    rw [load_eq]; dsimp only; rw [List.getElem?_set_self hlt]
  have hother : ∀ b, b ≠ a →
      load { t with heap := t.heap.set a (some { n with previous_node := v }) } b = t.load b := by
    intro b hb; apply load_congr; dsimp only; rw [List.getElem?_set_ne (Ne.symm hb)]
  refine ⟨{ t with heap := t.heap.set a (some { n with previous_node := v }) }, ?_, rfl, rfl, rfl,
    by simp, ?_, ?_, ?_, ?_⟩
  · simp [modify, address, h, bind, Except.bind, pure, Except.pure]
  · funext b
    by_cases hb : b = a
    · subst hb; simp only [next_at, hself, h]
    · simp only [next_at, hother b hb]
  · funext b
    by_cases hb : b = a
    · subst hb; simp only [value_at, hself, h]
    · simp only [value_at, hother b hb]
  · simp only [previous_at, hself]
  · intro b hb; simp only [previous_at, hother b hb]

/-- An assignment to `next_node` of the node at `a`. -/
theorem modify_next_spec (t : Double_sentinel_list) (a : Nat) (v : Option Nat)
    (n : Double_node) (h : t.load a = .ok n) :
    ∃ t', t.modify (some a) (fun m => { m with next_node := v }) = .ok t'
      ∧ t'.list_head = t.list_head ∧ t'.list_tail = t.list_tail ∧ t'.list_size = t.list_size
      ∧ t'.heap.length = t.heap.length
      ∧ previous_at t' = previous_at t ∧ value_at t' = value_at t
      ∧ next_at t' a = some v ∧ ∀ b, b ≠ a → next_at t' b = next_at t b := by
  have hlt := load_lt _ _ _ h
  have hself : load { t with heap := t.heap.set a (some { n with next_node := v }) } a
      = .ok { n with next_node := v } := by
    rw [load_eq]; dsimp only; rw [List.getElem?_set_self hlt]
  have hother : ∀ b, b ≠ a →
      load { t with heap := t.heap.set a (some { n with next_node := v }) } b = t.load b := by
    intro b hb; apply load_congr; dsimp only; rw [List.getElem?_set_ne (Ne.symm hb)]
  refine ⟨{ t with heap := t.heap.set a (some { n with next_node := v }) }, ?_, rfl, rfl, rfl,
    by simp, ?_, ?_, ?_, ?_⟩
  · simp [modify, address, h, bind, Except.bind, pure, Except.pure]
  · funext b
    by_cases hb : b = a
    · subst hb; simp only [previous_at, hself, h]
    · simp only [previous_at, hother b hb]
  · funext b
    by_cases hb : b = a
    · subst hb; simp only [value_at, hself, h]
    · simp only [value_at, hother b hb]
  · simp only [next_at, hself]
  · intro b hb; simp only [next_at, hother b hb]

/-- The statement `delete p` on an allocated node. -/
theorem free_spec (t : Double_sentinel_list) (a : Nat) (n : Double_node)
    (h : t.load a = .ok n) :
    ∃ t', t.free (some a) = .ok t' ∧ t'.list_head = t.list_head ∧ t'.list_tail = t.list_tail
      ∧ t'.list_size = t.list_size ∧ t'.heap.length = t.heap.length
      ∧ (∀ b, b ≠ a → next_at t' b = next_at t b)
      ∧ (∀ b, b ≠ a → previous_at t' b = previous_at t b)
      ∧ (∀ b, b ≠ a → value_at t' b = value_at t b) := by
  have hother : ∀ b, b ≠ a → load { t with heap := t.heap.set a none } b = t.load b := by
    intro b hb; apply load_congr; dsimp only; rw [List.getElem?_set_ne (Ne.symm hb)]
  refine ⟨{ t with heap := t.heap.set a none }, ?_, rfl, rfl, rfl, by simp, ?_, ?_, ?_⟩
  · simp [free, address, h, bind, Except.bind, pure, Except.pure]
  · intro b hb; simp only [next_at, hother b hb]
  · intro b hb; simp only [previous_at, hother b hb]
  · intro b hb; simp only [value_at, hother b hb]

/-- The expression `new Double_node( nv, pn, nn )`. -/
theorem alloc_spec (t : Double_sentinel_list) (nv : Int) (pn nn : Option Nat) :
    (t.alloc nv pn nn).1 = some t.heap.length
    ∧ (t.alloc nv pn nn).2.list_head = t.list_head
    ∧ (t.alloc nv pn nn).2.list_tail = t.list_tail
    ∧ (t.alloc nv pn nn).2.list_size = t.list_size
    ∧ (t.alloc nv pn nn).2.heap.length = t.heap.length + 1
    ∧ next_at (t.alloc nv pn nn).2 t.heap.length = some nn
    ∧ previous_at (t.alloc nv pn nn).2 t.heap.length = some pn
    ∧ value_at (t.alloc nv pn nn).2 t.heap.length = some nv
    ∧ (∀ b, b ≠ t.heap.length → next_at (t.alloc nv pn nn).2 b = next_at t b)
    ∧ (∀ b, b ≠ t.heap.length → previous_at (t.alloc nv pn nn).2 b = previous_at t b)
    ∧ (∀ b, b ≠ t.heap.length → value_at (t.alloc nv pn nn).2 b = value_at t b) := by
  have hself : (t.alloc nv pn nn).2.load t.heap.length = .ok ⟨nv, pn, nn⟩ := by
    rw [load_eq]; simp [alloc]
  have hother : ∀ b, b ≠ t.heap.length → (t.alloc nv pn nn).2.load b = t.load b := by
    intro b hb
    apply load_congr
    simp only [alloc]
    rcases Nat.lt_or_gt_of_ne hb with h | h
    · rw [List.getElem?_append_left h]
    · rw [List.getElem?_eq_none (by simp; omega), List.getElem?_eq_none (by omega)]
  refine ⟨rfl, rfl, rfl, rfl, by simp [alloc], ?_, ?_, ?_, ?_, ?_, ?_⟩
  · simp only [next_at, hself]
  · simp only [previous_at, hself]
  · simp only [value_at, hself]
  · intro b hb; simp only [next_at, hother b hb]
  · intro b hb; simp only [previous_at, hother b hb]
  · intro b hb; simp only [value_at, hother b hb]

/-- A node has one predecessor. -/
theorem linked_prev_unique (t : Double_sentinel_list) (p p' q : Nat)
    (h : linked t p q) (h' : linked t p' q) : p = p' := by
  have := h.2.symm.trans h'.2
  simpa using this

/-- A node has one successor. -/
theorem linked_next_unique (t : Double_sentinel_list) (p q q' : Nat)
    (h : linked t p q) (h' : linked t p q') : q = q' := by
  have := h.1.symm.trans h'.1
  simpa using this

/-- A node whose `next_node` is known lies inside the heap. -/
theorem lt_of_next_at (t : Double_sentinel_list) (a : Nat) (x : Option Nat)
    (h : next_at t a = some x) : a < t.heap.length := by
  obtain ⟨n, hn, _⟩ := load_of_next_at t a x h
  exact load_lt _ _ _ hn

/-- A node whose `previous_node` is known lies inside the heap. -/
theorem lt_of_previous_at (t : Double_sentinel_list) (a : Nat) (x : Option Nat)
    (h : previous_at t a = some x) : a < t.heap.length := by
  obtain ⟨n, hn, _⟩ := load_of_previous_at t a x h
  exact load_lt _ _ _ hn

/-- A chain carries over to a relation that agrees on the elements of the list. -/
theorem chain_congr {R S : Nat → Nat → Prop} (c : List Nat)
    (h : List.Chain' R c) (hRS : ∀ p q, p ∈ c → q ∈ c → R p q → S p q) : List.Chain' S c := by
  rw [List.Chain'.iff_mem] at h
  exact h.imp (fun p q ⟨hp, hq, hr⟩ => hRS p q hp hq hr)

/-- A pairing carries over to a relation that agrees on the elements of the list.
-/
theorem forall₂_congr {R S : Nat → Int → Prop} (c : List Nat) (l : List Int)
    (h : List.Forall₂ R c l) (hRS : ∀ p v, p ∈ c → R p v → S p v) : List.Forall₂ S c l := by
  induction h with
  | nil => exact List.Forall₂.nil
  | cons hr _ ih =>
    exact List.Forall₂.cons (hRS _ _ (List.mem_cons_self _ _) hr)
      (ih (fun p v hp => hRS p v (List.mem_cons_of_mem _ hp)))

/-- Every element of a chain of at least two nodes is an allocated node. -/
theorem chain_lt (t : Double_sentinel_list) (c : List Nat) (h : List.Chain' (linked t) c)
    (hlen : 2 ≤ c.length) : ∀ p ∈ c, p < t.heap.length := by
  induction c with
  | nil => simp at hlen
  | cons a c ih =>
    cases c with
    | nil => simp at hlen
    | cons b c =>
      have h1 := (List.chain'_cons.mp h).1
      have h2 := (List.chain'_cons.mp h).2
      intro p hp
      rcases List.mem_cons.mp hp with he | hp
      · subst he; exact lt_of_next_at _ _ _ h1.1
      · cases c with
        | nil =>
          simp at hp; subst hp; exact lt_of_previous_at _ _ _ h1.2
        | cons d c => exact ih h2 (by simp) p hp

/-- What `begin()` returns when the head sentinel can be read. -/
theorem begin_eq (t : Double_sentinel_list) (h : Nat) (x : Option Nat)
    (hh : t.list_head = some h) (hn : next_at t h = some x) : t.begin = .ok x := by
  obtain ⟨n, hl, he⟩ := load_of_next_at t h x hn
  simp [begin, deref, hh, address, hl, he, bind, Except.bind, pure, Except.pure]

/-- What `rbegin()` returns when the tail sentinel can be read. -/
theorem rbegin_eq (t : Double_sentinel_list) (tl : Nat) (x : Option Nat)
    (htl : t.list_tail = some tl) (hn : previous_at t tl = some x) : t.rbegin = .ok x := by
  obtain ⟨n, hl, he⟩ := load_of_previous_at t tl x hn
  simp [rbegin, deref, htl, address, hl, he, bind, Except.bind, pure, Except.pure]

/-- The call `push_front(x)` prepends to the sequence held, in a new node. -/
theorem push_front_represents (t : Double_sentinel_list) (nodes : List Nat) (l : List Int)
    (x : Int) (h : Represents t nodes l) :
    ∃ t', t.push_front x = .ok t' ∧ Represents t' (t.heap.length :: nodes) (x :: l) := by
  obtain ⟨h, tl, hh, htl, hnd, hch, hval, hsz⟩ := h
  have hlt := chain_lt t _ hch (by simp)
  obtain ⟨first, rest, hrest⟩ : ∃ first rest, nodes ++ [tl] = first :: rest := by
    cases nodes with
    | nil => exact ⟨tl, [], rfl⟩
    | cons a ns => exact ⟨a, ns ++ [tl], rfl⟩
  have hnodes : ∀ p ∈ nodes, p ∈ first :: rest := by
    intro p hp; rw [← hrest]; exact List.mem_append_left _ hp
  rw [List.cons_append, hrest] at hnd hch hlt
  have hlink := (List.chain'_cons.mp hch).1
  have hch' := (List.chain'_cons.mp hch).2
  have hbegin : t.begin = .ok (some first) := begin_eq t h _ hh hlink.1
  have hA := alloc_spec t x t.rend (some first)
  simp only [push_front, hbegin, bind, Except.bind]
  generalize t.alloc x t.rend (some first) = al at hA ⊢
  obtain ⟨nfp, t1⟩ := al
  simp only at hA ⊢
  obtain ⟨a1, a2, a3, a4, a5, a6, a7, a8, a9, a10, a11⟩ := hA
  subst a1
  have hhlt : h < t.heap.length := hlt h (List.mem_cons_self _ _)
  have hflt : first < t.heap.length := hlt first (by simp)
  have hne : h ≠ first := by
    intro he; subst he; simp at hnd
  have hbegin1 : t1.begin = .ok (some first) :=
    begin_eq t1 h _ (by rw [a2, hh]) (by rw [a9 h (by omega)]; exact hlink.1)
  rw [hbegin1]
  dsimp only
  obtain ⟨nf, lf, -⟩ := load_of_previous_at t1 first _ (by rw [a10 first (by omega)]; exact hlink.2)
  obtain ⟨t2, m2, b1, b2, b3, b4, b5, b6, b7, b8⟩ :=
    modify_previous_spec t1 first (some t.heap.length) nf lf
  rw [m2]
  dsimp only
  obtain ⟨nh, lh, -⟩ := load_of_next_at t2 h _ (by rw [b5, a9 h (by omega)]; exact hlink.1)
  obtain ⟨t3, m3, c1, c2, c3, c4, c5, c6, c7, c8⟩ :=
    modify_next_spec t2 h (some t.heap.length) nh lh
  have hrend : t2.rend = some h := by simp [rend, b1, a2, hh]
  rw [hrend, m3]
  have hnext : ∀ p, p ≠ h → p ≠ t.heap.length →
      next_at { t3 with list_size := t3.list_size + 1 } p = next_at t p := by
    intro p hp1 hp2
    show next_at t3 p = _
    rw [c8 p hp1, b5, a9 p hp2]
  have hprev : ∀ p, p ≠ first → p ≠ t.heap.length →
      previous_at { t3 with list_size := t3.list_size + 1 } p = previous_at t p := by
    intro p hp1 hp2
    show previous_at t3 p = _
    rw [c5, b8 p hp1, a10 p hp2]
  have hvalue : ∀ p, p ≠ t.heap.length →
      value_at { t3 with list_size := t3.list_size + 1 } p = value_at t p := by
    intro p hp2
    show value_at t3 p = _
    rw [c6, b6, a11 p hp2]
  refine ⟨_, rfl, h, tl, ?_, ?_, ?_, ?_, ?_, ?_⟩
  · simp [c1, b1, a2, hh]
  · simp [c2, b2, a3, htl]
  · rw [List.cons_append, List.cons_append, hrest]
    rw [List.nodup_cons] at hnd ⊢
    refine ⟨?_, ?_⟩
    · intro hm
      rcases List.mem_cons.mp hm with he | hm
      · omega
      · exact hnd.1 hm
    · rw [List.nodup_cons]
      refine ⟨?_, hnd.2⟩
      intro hm
      have := hlt _ (List.mem_cons_of_mem _ hm)
      omega
  · rw [List.cons_append, List.cons_append, hrest]
    refine List.chain'_cons.mpr ⟨⟨?_, ?_⟩, List.chain'_cons.mpr ⟨⟨?_, ?_⟩, ?_⟩⟩
    · show next_at t3 h = _
      exact c7
    · show previous_at t3 _ = _
      rw [c5, b8 _ (by omega), a7]; simp [rend, hh]
    · show next_at t3 _ = _
      rw [c8 _ (by omega), b5, a6]
    · show previous_at t3 first = _
      rw [c5, b7]
    · apply chain_congr _ hch'
      intro p q hp hq hpq
      have hph : p ≠ h := by intro he; subst he; exact (List.nodup_cons.mp hnd).1 hp
      have hqh : q ≠ h := by intro he; subst he; exact (List.nodup_cons.mp hnd).1 hq
      have hqf : q ≠ first := by
        intro he; subst he
        exact hph (linked_prev_unique t _ _ _ hpq hlink)
      have hp2 := hlt p (List.mem_cons_of_mem _ hp)
      have hq2 := hlt q (List.mem_cons_of_mem _ hq)
      exact ⟨by rw [hnext p hph (by omega)]; exact hpq.1,
        by rw [hprev q hqf (by omega)]; exact hpq.2⟩
  · refine List.Forall₂.cons ?_ ?_
    · show value_at t3 _ = _
      rw [c6, b6, a8]
    · apply forall₂_congr _ _ hval
      intro p v hp hpv
      have hp2 := hlt p (List.mem_cons_of_mem _ (hnodes p hp))
      show value_at _ p = _
      rw [hvalue p (by omega)]; exact hpv
  · simp [c3, b3, a4, hsz]

/-- The call `push_back(x)` appends to the sequence held, in a new node. -/
theorem push_back_represents (t : Double_sentinel_list) (nodes : List Nat) (l : List Int)
    (x : Int) (h : Represents t nodes l) :
    ∃ t', t.push_back x = .ok t' ∧ Represents t' (nodes ++ [t.heap.length]) (l ++ [x]) := by
  obtain ⟨h, tl, hh, htl, hnd, hch, hval, hsz⟩ := h
  have hlt := chain_lt t _ hch (by simp)
  obtain ⟨init, last, hinit⟩ : ∃ init last, h :: nodes = init ++ [last] :=
    ⟨(h :: nodes).dropLast, (h :: nodes).getLast (by simp),
      (List.dropLast_append_getLast (by simp)).symm⟩
  have hnodes : ∀ p ∈ nodes, p ∈ init ++ [last] := by
    intro p hp; rw [← hinit]; exact List.mem_cons_of_mem _ hp
  have hhmem : h ∈ init ++ [last] := by rw [← hinit]; exact List.mem_cons_self _ _
  rw [hinit] at hnd hch hlt
  obtain ⟨hch1, -, hlast⟩ := List.chain'_append.mp hch
  have hlink : linked t last tl := hlast last (by simp) tl (by simp)
  have hrbegin : t.rbegin = .ok (some last) := rbegin_eq t tl _ htl hlink.2
  have hA := alloc_spec t x (some last) t.end_
  simp only [push_back, hrbegin, bind, Except.bind]
  generalize t.alloc x (some last) t.end_ = al at hA ⊢
  obtain ⟨nfp, t1⟩ := al
  simp only at hA ⊢
  obtain ⟨a1, a2, a3, a4, a5, a6, a7, a8, a9, a10, a11⟩ := hA
  subst a1
  have htllt : tl < t.heap.length := hlt tl (by simp)
  have hllt : last < t.heap.length := hlt last (by simp)
  have htlmem : tl ∉ init ++ [last] := by
    intro hm
    have := List.nodup_append.mp hnd
    exact this.2.2 hm (List.mem_singleton_self _) 
  have hne : last ≠ tl := by
    intro he; apply htlmem; rw [← he]; simp
  have hrbegin1 : t1.rbegin = .ok (some last) :=
    rbegin_eq t1 tl _ (by rw [a3, htl]) (by rw [a10 tl (by omega)]; exact hlink.2)
  rw [hrbegin1]
  dsimp only
  obtain ⟨nl, ll, -⟩ := load_of_next_at t1 last _ (by rw [a9 last (by omega)]; exact hlink.1)
  obtain ⟨t2, m2, b1, b2, b3, b4, b5, b6, b7, b8⟩ :=
    modify_next_spec t1 last (some t.heap.length) nl ll
  rw [m2]
  dsimp only
  obtain ⟨nt, lt, -⟩ := load_of_previous_at t2 tl _ (by rw [b5, a10 tl (by omega)]; exact hlink.2)
  obtain ⟨t3, m3, c1, c2, c3, c4, c5, c6, c7, c8⟩ :=
    modify_previous_spec t2 tl (some t.heap.length) nt lt
  have hend : t2.end_ = some tl := by simp [end_, b2, a3, htl]
  rw [hend, m3]
  have hnext : ∀ p, p ≠ last → p ≠ t.heap.length →
      next_at { t3 with list_size := t3.list_size + 1 } p = next_at t p := by
    intro p hp1 hp2
    show next_at t3 p = _
    rw [c5, b8 p hp1, a9 p hp2]
  have hprev : ∀ p, p ≠ tl → p ≠ t.heap.length →
      previous_at { t3 with list_size := t3.list_size + 1 } p = previous_at t p := by
    intro p hp1 hp2
    show previous_at t3 p = _
    rw [c8 p hp1, b5, a10 p hp2]
  have hvalue : ∀ p, p ≠ t.heap.length →
      value_at { t3 with list_size := t3.list_size + 1 } p = value_at t p := by
    intro p hp2
    show value_at t3 p = _
    rw [c6, b6, a11 p hp2]
  have hlist : h :: (nodes ++ [t.heap.length]) ++ [tl]
      = (init ++ [last]) ++ [t.heap.length, tl] := by
    rw [← hinit]; simp
  refine ⟨_, rfl, h, tl, ?_, ?_, ?_, ?_, ?_, ?_⟩
  · simp [c1, b1, a2, hh]
  · simp [c2, b2, a3, htl]
  · rw [hlist]
    have hnd1 := (List.nodup_append.mp hnd).1
    refine List.nodup_append.mpr ⟨hnd1, ?_, ?_⟩
    · simp; omega
    · intro p hp1 hp2
      rcases List.mem_cons.mp hp2 with he | hp2
      · subst he
        have := hlt _ (List.mem_append_left _ hp1)
        omega
      · rw [List.mem_singleton] at hp2; subst hp2; exact htlmem hp1
  · rw [hlist]
    refine List.chain'_append.mpr ⟨?_, ?_, ?_⟩
    · apply chain_congr _ hch1
      intro p q hp hq hpq
      have hpl : p ≠ last := by
        intro he; subst he
        exact htlmem (by rw [← linked_next_unique t _ _ _ hpq hlink]; exact hq)
      have hqt : q ≠ tl := by intro he; subst he; exact htlmem hq
      have hp2 := hlt p (List.mem_append_left _ hp)
      have hq2 := hlt q (List.mem_append_left _ hq)
      exact ⟨by rw [hnext p hpl (by omega)]; exact hpq.1,
        by rw [hprev q hqt (by omega)]; exact hpq.2⟩
    · refine List.chain'_cons.mpr ⟨⟨?_, ?_⟩, List.chain'_singleton _⟩
      · show next_at t3 _ = _
        rw [c5, b8 _ (by omega), a6]; simp [end_, htl]
      · show previous_at t3 tl = _
        exact c7
    · intro p hp q hq
      simp at hp hq
      subst hp hq
      refine ⟨?_, ?_⟩
      · show next_at t3 _ = _
        rw [c5, b7]
      · show previous_at t3 _ = _
        rw [c8 _ (by omega), b5, a7]
  · refine List.rel_append ?_ ?_
    · apply forall₂_congr _ _ hval
      intro p v hp hpv
      have hp2 := hlt p (List.mem_append_left _ (hnodes p hp))
      show value_at _ p = _
      rw [hvalue p (by omega)]; exact hpv
    · refine List.Forall₂.cons ?_ List.Forall₂.nil
      show value_at t3 _ = _
      rw [c6, b6, a8]
  · simp [c3, b3, a4, hsz]

/-- A pairing of two lists that end in one more element each splits. -/
theorem forall₂_of_append_singleton {R : Nat → Int → Prop} (c : List Nat) (l : List Int)
    (a : Nat) (v : Int) (h : List.Forall₂ R (c ++ [a]) (l ++ [v])) :
    List.Forall₂ R c l ∧ R a v := by
  rw [← List.forall₂_reverse_iff] at h
  simp only [List.reverse_append, List.reverse_singleton, List.singleton_append] at h
  cases h with
  | cons h1 h2 => exact ⟨List.forall₂_reverse_iff.mp h2, h1⟩

/-- Dereferencing a pointer to a node that can be read. -/
theorem deref_ok (t : Double_sentinel_list) (a : Nat) (n : Double_node)
    (h : t.load a = .ok n) : t.deref (some a) = .ok n := by
  simp [deref, address, h, bind, Except.bind]

/-- A well-formed list is `empty()` exactly when its sequence is empty. -/
theorem empty_iff_of_represents (t : Double_sentinel_list) (nodes : List Nat) (l : List Int)
    (h : Represents t nodes l) : t.empty = true ↔ l = [] := by
  obtain ⟨h, tl, hh, htl, hnd, hch, hval, hsz⟩ := h
  simp [empty, hsz]

/-- The call `pop_front()` on a list that is not empty drops the first element. -/
theorem pop_front_represents (t : Double_sentinel_list) (a : Nat) (nodes : List Nat)
    (v : Int) (l : List Int) (h : Represents t (a :: nodes) (v :: l)) :
    ∃ t', t.pop_front = .ok t' ∧ Represents t' nodes l := by
  have hempty : t.empty = false := by
    cases he : t.empty
    · rfl
    · exact absurd ((empty_iff_of_represents t _ _ h).mp he) (by simp)
  obtain ⟨h, tl, hh, htl, hnd, hch, hval, hsz⟩ := h
  have hlt := chain_lt t _ hch (by simp)
  obtain ⟨s, rest, hrest⟩ : ∃ s rest, nodes ++ [tl] = s :: rest := by
    cases nodes with
    | nil => exact ⟨tl, [], rfl⟩
    | cons b ns => exact ⟨b, ns ++ [tl], rfl⟩
  have hnodes : ∀ p ∈ nodes, p ∈ s :: rest := by
    intro p hp; rw [← hrest]; exact List.mem_append_left _ hp
  rw [List.cons_append, List.cons_append, hrest] at hnd hch hlt
  have hha := (List.chain'_cons.mp hch).1
  have hch1 := (List.chain'_cons.mp hch).2
  have has := (List.chain'_cons.mp hch1).1
  have hch2 := (List.chain'_cons.mp hch1).2
  have hnd1 := List.nodup_cons.mp hnd
  have hnd2 := List.nodup_cons.mp hnd1.2
  have hne_ha : h ≠ a := by intro he; subst he; exact hnd1.1 (List.mem_cons_self _ _)
  have hne_hs : h ≠ s := by
    intro he; subst he; exact hnd1.1 (List.mem_cons_of_mem _ (List.mem_cons_self _ _))
  have hne_as : a ≠ s := by intro he; subst he; exact hnd2.1 (List.mem_cons_self _ _)
  have hbegin : t.begin = .ok (some a) := begin_eq t h _ hh hha.1
  obtain ⟨na, la, ea⟩ := load_of_next_at t a _ has.1
  simp only [pop_front, hempty, hbegin, bind, Except.bind, deref_ok t a na la, ea]
  simp only [Bool.false_eq_true, if_false]
  obtain ⟨ns, ls, -⟩ := load_of_previous_at t s _ has.2
  obtain ⟨t1, m1, b1, b2, b3, b4, b5, b6, b7, b8⟩ :=
    modify_previous_spec t s t.rend ns ls
  rw [m1]
  dsimp only
  have hbegin1 : t1.begin = .ok (some a) :=
    begin_eq t1 h _ (by rw [b1, hh]) (by rw [b5]; exact hha.1)
  obtain ⟨na1, la1, ea1⟩ := load_of_next_at t1 a (some s) (by rw [b5]; exact has.1)
  rw [hbegin1]
  dsimp only
  rw [deref_ok t1 a na1 la1]
  dsimp only
  obtain ⟨nh, lh, -⟩ := load_of_next_at t1 h _ (by rw [b5]; exact hha.1)
  obtain ⟨t2, m2, c1, c2, c3, c4, c5, c6, c7, c8⟩ :=
    modify_next_spec t1 h na1.next_node nh lh
  have hrend : t1.rend = some h := by simp [rend, b1, hh]
  rw [hrend, m2]
  dsimp only
  obtain ⟨na2, la2, -⟩ := load_of_next_at t2 a (some s) (by rw [c8 a (Ne.symm hne_ha), b5]; exact has.1)
  obtain ⟨t3, m3, d1, d2, d3, d4, d5, d6, d7⟩ := free_spec t2 a na2 la2
  rw [m3]
  refine ⟨_, rfl, h, tl, ?_, ?_, ?_, ?_, ?_, ?_⟩
  · simp [d1, c1, b1, hh]
  · simp [d2, c2, b2, htl]
  · rw [List.cons_append, hrest]
    exact List.nodup_cons.mpr ⟨fun hm => hnd1.1 (List.mem_cons_of_mem _ hm), hnd2.2⟩
  · rw [List.cons_append, hrest]
    refine List.chain'_cons.mpr ⟨⟨?_, ?_⟩, ?_⟩
    · show next_at t3 h = _
      rw [d5 h hne_ha, c7, ea1]
    · show previous_at t3 s = _
      rw [d6 s (Ne.symm hne_as), c5, b7]; simp [rend, hh]
    · apply chain_congr _ hch2
      intro p q hp hq hpq
      have hph : p ≠ h := by intro he; subst he; exact hnd1.1 (List.mem_cons_of_mem _ hp)
      have hpa : p ≠ a := by intro he; subst he; exact hnd2.1 hp
      have hqa : q ≠ a := by intro he; subst he; exact hnd2.1 hq
      have hqs : q ≠ s := by
        intro he; subst he
        exact hpa (linked_prev_unique t _ _ _ hpq has)
      refine ⟨?_, ?_⟩
      · show next_at t3 p = _
        rw [d5 p hpa, c8 p hph, b5]; exact hpq.1
      · show previous_at t3 q = _
        rw [d6 q hqa, c5, b8 q hqs]; exact hpq.2
  · cases hval with
    | cons hv hval' =>
      apply forall₂_congr _ _ hval'
      intro p w hp hpw
      have hpa : p ≠ a := by intro he; subst he; exact hnd2.1 (hnodes p hp)
      show value_at t3 p = _
      rw [d7 p hpa, c6, b6]; exact hpw
  · show t3.list_size - 1 = _
    rw [d3, c3, b3, hsz]; simp

/-- The call `pop_back()` on a list that is not empty drops the last element. -/
theorem pop_back_represents (t : Double_sentinel_list) (a : Nat) (nodes : List Nat)
    (v : Int) (l : List Int) (h : Represents t (nodes ++ [a]) (l ++ [v])) :
    ∃ t', t.pop_back = .ok t' ∧ Represents t' nodes l := by
  have hempty : t.empty = false := by
    cases he : t.empty
    · rfl
    · exact absurd ((empty_iff_of_represents t _ _ h).mp he) (by simp)
  obtain ⟨h, tl, hh, htl, hnd, hch, hval, hsz⟩ := h
  have hlt := chain_lt t _ hch (by simp)
  obtain ⟨init, p', hinit⟩ : ∃ init p', h :: nodes = init ++ [p'] :=
    ⟨(h :: nodes).dropLast, (h :: nodes).getLast (by simp),
      (List.dropLast_append_getLast (by simp)).symm⟩
  have hnodes : ∀ p ∈ nodes, p ∈ init ++ [p'] := by
    intro p hp; rw [← hinit]; exact List.mem_cons_of_mem _ hp
  have hlist : h :: (nodes ++ [a]) ++ [tl] = (init ++ [p']) ++ [a, tl] := by
    rw [← hinit]; simp
  rw [hlist] at hnd hch hlt
  obtain ⟨hch1, hch2, hlast⟩ := List.chain'_append.mp hch
  have hpa : linked t p' a := hlast p' (by simp) a (by simp)
  have hat : linked t a tl := (List.chain'_cons.mp hch2).1
  obtain ⟨hnd1, hnd2, hdisj⟩ := List.nodup_append.mp hnd
  have ha_mem : a ∉ init ++ [p'] := fun hm => hdisj hm (by simp)
  have htl_mem : tl ∉ init ++ [p'] := fun hm => hdisj hm (by simp)
  have hne_at : a ≠ tl := by
    intro he; subst he; simp at hnd2
  have hne_pa : p' ≠ a := by intro he; subst he; exact ha_mem (by simp)
  have hne_pt : p' ≠ tl := by intro he; subst he; exact htl_mem (by simp)
  have hrbegin : t.rbegin = .ok (some a) := rbegin_eq t tl _ htl hat.2
  obtain ⟨na, la, ea⟩ := load_of_previous_at t a _ hpa.2
  simp only [pop_back, hempty, hrbegin, bind, Except.bind, deref_ok t a na la, ea]
  simp only [Bool.false_eq_true, if_false]
  obtain ⟨np, lp, -⟩ := load_of_next_at t p' _ hpa.1
  obtain ⟨t1, m1, b1, b2, b3, b4, b5, b6, b7, b8⟩ :=
    modify_next_spec t p' t.end_ np lp
  rw [m1]
  dsimp only
  have hrbegin1 : t1.rbegin = .ok (some a) :=
    rbegin_eq t1 tl _ (by rw [b2, htl]) (by rw [b5]; exact hat.2)
  obtain ⟨na1, la1, ea1⟩ := load_of_previous_at t1 a (some p') (by rw [b5]; exact hpa.2)
  rw [hrbegin1]
  dsimp only
  rw [deref_ok t1 a na1 la1]
  dsimp only
  obtain ⟨nt, lt, -⟩ := load_of_previous_at t1 tl _ (by rw [b5]; exact hat.2)
  obtain ⟨t2, m2, c1, c2, c3, c4, c5, c6, c7, c8⟩ :=
    modify_previous_spec t1 tl na1.previous_node nt lt
  have hend : t1.end_ = some tl := by simp [end_, b2, htl]
  rw [hend, m2]
  dsimp only
  obtain ⟨na2, la2, -⟩ := load_of_previous_at t2 a (some p')
    (by rw [c8 a hne_at, b5]; exact hpa.2)
  obtain ⟨t3, m3, d1, d2, d3, d4, d5, d6, d7⟩ := free_spec t2 a na2 la2
  rw [m3]
  refine ⟨_, rfl, h, tl, ?_, ?_, ?_, ?_, ?_, ?_⟩
  · simp [d1, c1, b1, hh]
  · simp [d2, c2, b2, htl]
  · rw [hinit]
    exact List.nodup_append.mpr ⟨hnd1, List.nodup_singleton _, fun p hp1 hp2 => by
      rw [List.mem_singleton] at hp2; subst hp2; exact htl_mem hp1⟩
  · rw [hinit]
    refine List.chain'_append.mpr ⟨?_, List.chain'_singleton _, ?_⟩
    · apply chain_congr _ hch1
      intro p q hp hq hpq
      have hpp : p ≠ p' := by
        intro he; subst he
        exact ha_mem (by rw [← linked_next_unique t _ _ _ hpq hpa]; exact hq)
      have hpa' : p ≠ a := by intro he; subst he; exact ha_mem hp
      have hqa : q ≠ a := by intro he; subst he; exact ha_mem hq
      have hqt : q ≠ tl := by intro he; subst he; exact htl_mem hq
      refine ⟨?_, ?_⟩
      · show next_at t3 p = _
        rw [d5 p hpa', c5, b8 p hpp]; exact hpq.1
      · show previous_at t3 q = _
        rw [d6 q hqa, c8 q hqt, b5]; exact hpq.2
    · intro p hp q hq
      simp at hp hq
      subst hp hq
      refine ⟨?_, ?_⟩
      · show next_at t3 _ = _
        rw [d5 _ hne_pa, c5, b7]; simp [end_, htl]
      · show previous_at t3 _ = _
        rw [d6 _ (Ne.symm hne_at), c7, ea1]
  · apply forall₂_congr _ _ (forall₂_of_append_singleton _ _ _ _ hval).1
    intro p w hp hpw
    have hpa' : p ≠ a := by intro he; subst he; exact ha_mem (hnodes p hp)
    show value_at t3 p = _
    rw [d7 p hpa', c6, b6]; exact hpw
  · show t3.list_size - 1 = _
    rw [d3, c3, b3, hsz]; simp

/-- There are at most `n` distinct numbers below `n`. -/
theorem length_le_of_nodup_of_lt (c : List Nat) (n : Nat) (hnd : c.Nodup)
    (hlt : ∀ p ∈ c, p < n) : c.length ≤ n := by
  have h1 : c.toFinset ⊆ Finset.range n := by
    intro p hp
    rw [List.mem_toFinset] at hp
    exact Finset.mem_range.mpr (hlt p hp)
  have h2 := Finset.card_le_card h1
  rw [List.toFinset_card_of_nodup hnd, Finset.card_range] at h2
  exact h2

/-- The fuel of the loops covers the nodes and both sentinels. -/
theorem fuel_of_represents (t : Double_sentinel_list) (nodes : List Nat) (l : List Int)
    (h : Represents t nodes l) : nodes.length + 2 ≤ t.fuel := by
  obtain ⟨h, tl, hh, htl, hnd, hch, hval, hsz⟩ := h
  have hlt := chain_lt t _ hch (by simp)
  have := length_le_of_nodup_of_lt _ _ hnd hlt
  simp at this
  simp only [fuel]; omega

/-- The forward loop over a segment of the chain ending at the tail sentinel. -/
theorem forward_loop_spec (t : Double_sentinel_list) (tl : Nat) (htl : t.list_tail = some tl) :
    ∀ (ns : List Nat) (vs : List Int) (pred : Nat) (fuel : Nat),
      List.Chain' (linked t) (pred :: (ns ++ [tl])) → tl ∉ ns → List.Forall₂ (holds t) ns vs →
      ns.length < fuel →
      forward_loop fuel t (ns ++ [tl]).head? = .ok vs := by
  intro ns
  induction ns with
  | nil =>
    intro vs pred fuel _ _ hv hf
    cases hv
    obtain ⟨f, rfl⟩ : ∃ f, fuel = f + 1 := ⟨fuel - 1, by simp at hf; omega⟩
    simp [forward_loop, end_, htl, pure, Except.pure]
  | cons a ns ih =>
    intro vs pred fuel hch hmem hv hf
    cases hv with
    | cons hav hv' =>
      rename_i v vs'
      obtain ⟨f, rfl⟩ : ∃ f, fuel = f + 1 := ⟨fuel - 1, by simp at hf; omega⟩
      have hch1 : List.Chain' (linked t) (a :: (ns ++ [tl])) := (List.chain'_cons.mp hch).2
      obtain ⟨s, rest, hrest⟩ : ∃ s rest, ns ++ [tl] = s :: rest := by
        cases ns with
        | nil => exact ⟨tl, [], rfl⟩
        | cons b ns' => exact ⟨b, ns' ++ [tl], rfl⟩
      have has : linked t a s := by
        rw [hrest] at hch1; exact (List.chain'_cons.mp hch1).1
      obtain ⟨n, ln, en⟩ := load_of_next_at t a _ has.1
      obtain ⟨n', ln', ev⟩ := load_of_value_at t a _ hav
      rw [ln] at ln'; cases ln'
      have hne : a ≠ tl := by intro he; subst he; exact hmem (List.mem_cons_self _ _)
      have hih := ih vs' a f hch1 (fun hm => hmem (List.mem_cons_of_mem _ hm)) hv'
        (by simp at hf; omega)
      rw [hrest] at hih
      simp only [List.head?_cons] at hih
      simp [forward_loop, end_, htl, hne, deref_ok t a n ln, bind, Except.bind, en, hih, ev,
        pure, Except.pure]

/-- Reading forward from `begin()` to `end()` gives the sequence held. -/
theorem forward_of_represents (t : Double_sentinel_list) (nodes : List Nat) (l : List Int)
    (h : Represents t nodes l) : t.forward = .ok l := by
  have hfuel := fuel_of_represents t nodes l h
  obtain ⟨h, tl, hh, htl, hnd, hch, hval, hsz⟩ := h
  rw [List.cons_append] at hch hnd
  obtain ⟨s, rest, hrest⟩ : ∃ s rest, nodes ++ [tl] = s :: rest := by
    cases nodes with
    | nil => exact ⟨tl, [], rfl⟩
    | cons b ns' => exact ⟨b, ns' ++ [tl], rfl⟩
  have hhs : linked t h s := by
    rw [hrest] at hch; exact (List.chain'_cons.mp hch).1
  have hmem : tl ∉ nodes := by
    intro hm
    have := (List.nodup_cons.mp hnd).2
    rw [List.nodup_append] at this
    exact this.2.2 hm (List.mem_singleton_self _)
  have := forward_loop_spec t tl htl nodes l h t.fuel hch hmem hval (by omega)
  rw [hrest] at this
  simp only [List.head?_cons] at this
  simp [forward, begin_eq t h _ hh hhs.1, bind, Except.bind, this]

/-- A pairing whose left list ends in `a` ends in a partner of `a`. -/
theorem forall₂_append_singleton_left {R : Nat → Int → Prop} (c : List Nat) (a : Nat)
    (vs : List Int) (h : List.Forall₂ R (c ++ [a]) vs) :
    ∃ vs' v, vs = vs' ++ [v] ∧ List.Forall₂ R c vs' ∧ R a v := by
  rcases List.eq_nil_or_concat vs with hv | ⟨vs', v, hv⟩
  · subst hv
    have := h.length_eq
    simp at this
  · rw [List.concat_eq_append] at hv
    subst hv
    exact ⟨vs', v, rfl, forall₂_of_append_singleton _ _ _ _ h⟩

/-- A pairing whose right list ends in `v` ends in a partner of `v`. -/
theorem forall₂_append_singleton_right {R : Nat → Int → Prop} (c : List Nat)
    (vs : List Int) (v : Int) (h : List.Forall₂ R c (vs ++ [v])) :
    ∃ c' a, c = c' ++ [a] ∧ List.Forall₂ R c' vs ∧ R a v := by
  rcases List.eq_nil_or_concat c with hc | ⟨c', a, hc⟩
  · subst hc
    have := h.length_eq
    simp at this
  · rw [List.concat_eq_append] at hc
    subst hc
    exact ⟨c', a, rfl, forall₂_of_append_singleton _ _ _ _ h⟩

/-- The backward loop over a segment of the chain starting at the head sentinel. -/
theorem backward_loop_spec (t : Double_sentinel_list) (h : Nat) (hh : t.list_head = some h) :
    ∀ (ns : List Nat) (vs : List Int) (succ : Nat) (fuel : Nat),
      List.Chain' (linked t) ((h :: ns) ++ [succ]) → h ∉ ns → List.Forall₂ (holds t) ns vs →
      ns.length < fuel →
      backward_loop fuel t (h :: ns).getLast? = .ok vs.reverse := by
  intro ns
  induction ns using List.reverseRecOn with
  | nil =>
    intro vs succ fuel _ _ hv hf
    cases hv
    obtain ⟨f, rfl⟩ : ∃ f, fuel = f + 1 := ⟨fuel - 1, by simp at hf; omega⟩
    simp [backward_loop, rend, hh, pure, Except.pure]
  | append_singleton ns a ih =>
    intro vs succ fuel hch hmem hv hf
    obtain ⟨vs', v, rfl, hv', hav⟩ := forall₂_append_singleton_left _ _ _ hv
    obtain ⟨f, rfl⟩ : ∃ f, fuel = f + 1 := ⟨fuel - 1, by simp at hf; omega⟩
    have hch1 : List.Chain' (linked t) ((h :: ns) ++ [a]) := by
      have : (h :: (ns ++ [a])) ++ [succ] = ((h :: ns) ++ [a]) ++ [succ] := by simp
      rw [this] at hch
      exact (List.chain'_append.mp hch).1
    obtain ⟨p, hp⟩ : ∃ p, (h :: ns).getLast? = some p :=
      ⟨(h :: ns).getLast (by simp), List.getLast?_eq_getLast _ _⟩
    have hpa : linked t p a := (List.chain'_append.mp hch1).2.2 p hp a (by simp)
    obtain ⟨n, ln, en⟩ := load_of_previous_at t a _ hpa.2
    obtain ⟨n', ln', ev⟩ := load_of_value_at t a _ hav
    rw [ln] at ln'; cases ln'
    have hne : a ≠ h := by intro he; subst he; exact hmem (by simp)
    have hih := ih vs' a f hch1 (fun hm => hmem (List.mem_append_left _ hm)) hv'
      (by simp at hf; omega)
    rw [hp] at hih
    have hlast : (h :: (ns ++ [a])).getLast? = some a := by
      rw [← List.cons_append, List.getLast?_append]; simp
    rw [hlast]
    simp [backward_loop, rend, hh, hne, deref_ok t a n ln, bind, Except.bind, en, hih, ev,
      pure, Except.pure]

/-- Reading backward from `rbegin()` to `rend()` gives the reverse of the sequence
held. -/
theorem backward_of_represents (t : Double_sentinel_list) (nodes : List Nat) (l : List Int)
    (h : Represents t nodes l) : t.backward = .ok l.reverse := by
  have hfuel := fuel_of_represents t nodes l h
  obtain ⟨h, tl, hh, htl, hnd, hch, hval, hsz⟩ := h
  obtain ⟨p, hp⟩ : ∃ p, (h :: nodes).getLast? = some p :=
    ⟨(h :: nodes).getLast (by simp), List.getLast?_eq_getLast _ _⟩
  have hpt : linked t p tl := (List.chain'_append.mp hch).2.2 p hp tl (by simp)
  have hmem : h ∉ nodes := by
    intro hm
    rw [List.cons_append] at hnd
    exact (List.nodup_cons.mp hnd).1 (List.mem_append_left _ hm)
  have := backward_loop_spec t h hh nodes l tl t.fuel hch hmem hval (by omega)
  rw [hp] at this
  simp [backward, rbegin_eq t tl _ htl hpt.2, bind, Except.bind, this]

/-- What `size()`, `front()` and `back()` return on a well-formed list. -/
theorem observers_of_represents (t : Double_sentinel_list) (nodes : List Nat) (l : List Int)
    (h : Represents t nodes l) :
    t.size = (l.length : Int)
    ∧ t.front = (match l.head? with | some x => .ok x | none => .error .underflow)
    ∧ t.back = (match l.getLast? with | some x => .ok x | none => .error .underflow) := by
  have hempty := empty_iff_of_represents t nodes l h
  obtain ⟨h, tl, hh, htl, hnd, hch, hval, hsz⟩ := h
  refine ⟨hsz, ?_, ?_⟩
  · cases hval with
    | nil => simp [front, hempty.mpr rfl]
    | cons hav hv' =>
      rename_i a v ns vs
      have hne : t.empty = false := by
        cases hd : t.empty
        · rfl
        · exact absurd (hempty.mp hd) (by simp)
      rw [List.cons_append, List.cons_append] at hch
      have hha := (List.chain'_cons.mp hch).1
      obtain ⟨n, ln, ev⟩ := load_of_value_at t a _ hav
      simp [front, hne, begin_eq t h _ hh hha.1, deref_ok t a n ln, bind, Except.bind, ev,
        pure, Except.pure]
  · rcases List.eq_nil_or_concat l with hl | ⟨l', v, hl⟩
    · subst hl; simp [back, hempty.mpr rfl]
    · rw [List.concat_eq_append] at hl
      subst hl
      have hne : t.empty = false := by
        cases hd : t.empty
        · rfl
        · exact absurd (hempty.mp hd) (by simp)
      obtain ⟨ns, a, rfl, hv', hav⟩ := forall₂_append_singleton_right _ _ _ hval
      have hch2 : List.Chain' (linked t) ((h :: ns) ++ [a, tl]) := by
        have : (h :: (ns ++ [a])) ++ [tl] = (h :: ns) ++ [a, tl] := by simp
        rw [this] at hch; exact hch
      have hat : linked t a tl :=
        (List.chain'_cons.mp (List.chain'_append.mp hch2).2.1).1
      obtain ⟨n, ln, ev⟩ := load_of_value_at t a _ hav
      simp [back, hne, rbegin_eq t tl _ htl hat.2, deref_ok t a n ln, bind, Except.bind, ev,
        pure, Except.pure]

/-- The constructor yields a well-formed list holding the empty sequence. -/
theorem new_represents : Represents new [] [] := by
  refine ⟨0, 1, rfl, rfl, by decide, ?_, List.Forall₂.nil, rfl⟩
  exact List.chain'_cons.mpr ⟨⟨rfl, rfl⟩, List.chain'_singleton _⟩

/-- Every series of calls on a well-formed list returns a well-formed list that
holds the model sequence. -/
theorem run_preserves_represents (ops : List Op) : ∀ (t : Double_sentinel_list) (nodes : List Nat)
    (l : List Int), Represents t nodes l →
    ∃ t' nodes', run t ops = .ok t' ∧ Represents t' nodes' (model l ops) := by
  induction ops with
  | nil => intro t nodes l h; exact ⟨t, nodes, rfl, h⟩
  | cons op ops ih =>
    intro t nodes l h
    have hstep : ∃ t1 nodes1, t.step op = .ok t1 ∧ Represents t1 nodes1 (model_step l op) := by
      cases op with
      | push_front x =>
        obtain ⟨t1, h1, h2⟩ := push_front_represents t nodes l x h
        exact ⟨t1, _, h1, h2⟩
      | push_back x =>
        obtain ⟨t1, h1, h2⟩ := push_back_represents t nodes l x h
        exact ⟨t1, _, h1, h2⟩
      | pop_front =>
        cases l with
        | nil =>
          refine ⟨t, nodes, ?_, h⟩
          simp [step, pop_front, (empty_iff_of_represents t _ _ h).mpr rfl]
        | cons v l' =>
          obtain ⟨h0, tl, hh, htl, hnd, hch, hval, hsz⟩ := id h
          cases hval with
          | cons hav hv' =>
            rename_i a ns
            obtain ⟨t1, h1, h2⟩ := pop_front_represents t a ns v l' h
            exact ⟨t1, ns, by simp [step, h1], h2⟩
      | pop_back =>
        rcases List.eq_nil_or_concat l with hl | ⟨l', v, hl⟩
        · subst hl
          refine ⟨t, nodes, ?_, h⟩
          simp [step, pop_back, (empty_iff_of_represents t _ _ h).mpr rfl]
        · rw [List.concat_eq_append] at hl
          subst hl
          obtain ⟨h0, tl, hh, htl, hnd, hch, hval, hsz⟩ := id h
          obtain ⟨ns, a, rfl, hv', hav⟩ := forall₂_append_singleton_right _ _ _ hval
          obtain ⟨t1, h1, h2⟩ := pop_back_represents t a ns v l' h
          refine ⟨t1, ns, by simp [step, h1], ?_⟩
          simpa [model_step] using h2
    obtain ⟨t1, nodes1, h1, h2⟩ := hstep
    obtain ⟨t', nodes', h3, h4⟩ := ih t1 nodes1 _ h2
    exact ⟨t', nodes', by simp [run, h1, bind, Except.bind, h3], h4⟩

/-- The counting loop over a segment of the chain ending at the tail sentinel. -/
theorem count_loop_spec (t : Double_sentinel_list) (tl : Nat) (htl : t.list_tail = some tl)
    (x : Int) :
    ∀ (ns : List Nat) (vs : List Int) (pred : Nat) (fuel : Nat) (k : Int),
      List.Chain' (linked t) (pred :: (ns ++ [tl])) → tl ∉ ns → List.Forall₂ (holds t) ns vs →
      ns.length < fuel →
      count_loop fuel t (ns ++ [tl]).head? x k = .ok (k + (vs.count x : Int)) := by
  intro ns
  induction ns with
  | nil =>
    intro vs pred fuel k _ _ hv hf
    cases hv
    obtain ⟨f, rfl⟩ : ∃ f, fuel = f + 1 := ⟨fuel - 1, by simp at hf; omega⟩
    simp [count_loop, end_, htl, pure, Except.pure]
  | cons a ns ih =>
    intro vs pred fuel k hch hmem hv hf
    cases hv with
    | cons hav hv' =>
      rename_i v vs'
      obtain ⟨f, rfl⟩ : ∃ f, fuel = f + 1 := ⟨fuel - 1, by simp at hf; omega⟩
      have hch1 : List.Chain' (linked t) (a :: (ns ++ [tl])) := (List.chain'_cons.mp hch).2
      obtain ⟨s, rest, hrest⟩ : ∃ s rest, ns ++ [tl] = s :: rest := by
        cases ns with
        | nil => exact ⟨tl, [], rfl⟩
        | cons b ns' => exact ⟨b, ns' ++ [tl], rfl⟩
      have has : linked t a s := by
        rw [hrest] at hch1; exact (List.chain'_cons.mp hch1).1
      obtain ⟨n, ln, en⟩ := load_of_next_at t a _ has.1
      obtain ⟨n', ln', ev⟩ := load_of_value_at t a _ hav
      rw [ln] at ln'; cases ln'
      have hne : a ≠ tl := by intro he; subst he; exact hmem (List.mem_cons_self _ _)
      have hih := fun k' => ih vs' a f k' hch1 (fun hm => hmem (List.mem_cons_of_mem _ hm)) hv'
        (by simp at hf; omega)
      rw [hrest] at hih
      simp only [List.head?_cons] at hih
      simp only [List.cons_append, List.head?_cons, count_loop, end_, htl, ne_eq,
        Option.some.injEq, hne, not_false_eq_true, if_true, deref_ok t a n ln, bind, Except.bind,
        en, ev, hih]
      by_cases hvx : v = x
      · subst hvx; simp; ring
      · simp [hvx, List.count_cons_of_ne (Ne.symm hvx)]

/-- The call `count(x)` returns the number of occurrences in the sequence held. -/
theorem count_of_represents (t : Double_sentinel_list) (nodes : List Nat) (l : List Int)
    (x : Int) (h : Represents t nodes l) : t.count x = .ok (l.count x : Int) := by
  have hfuel := fuel_of_represents t nodes l h
  obtain ⟨h, tl, hh, htl, hnd, hch, hval, hsz⟩ := h
  rw [List.cons_append] at hch hnd
  obtain ⟨s, rest, hrest⟩ : ∃ s rest, nodes ++ [tl] = s :: rest := by
    cases nodes with
    | nil => exact ⟨tl, [], rfl⟩
    | cons b ns' => exact ⟨b, ns' ++ [tl], rfl⟩
  have hhs : linked t h s := by
    rw [hrest] at hch; exact (List.chain'_cons.mp hch).1
  have hmem : tl ∉ nodes := by
    intro hm
    have := (List.nodup_cons.mp hnd).2
    rw [List.nodup_append] at this
    exact this.2.2 hm (List.mem_singleton_self _)
  have := count_loop_spec t tl htl x nodes l h t.fuel 0 hch hmem hval (by omega)
  rw [hrest] at this
  simp only [List.head?_cons] at this
  simp [count, begin_eq t h _ hh hhs.1, bind, Except.bind, this]

/-- Unlinking and deleting the node `a` that stands between `p` and `s`: the four
statements of the matching branch of the loop of `erase`. -/
theorem unlink_spec (t : Double_sentinel_list) (front back : List Nat) (p a s : Nat)
    (hnd : ((front ++ [p]) ++ a :: s :: back).Nodup)
    (hch : List.Chain' (linked t) ((front ++ [p]) ++ a :: s :: back)) :
    ∃ t1 t2 t4 n n1 n2,
      t.deref (some a) = .ok n ∧ n.previous_node = some p ∧ n.next_node = some s
      ∧ t.modify (some p) (fun m => { m with next_node := some s }) = .ok t1
      ∧ t1.deref (some a) = .ok n1 ∧ n1.previous_node = some p ∧ n1.next_node = some s
      ∧ t1.modify (some s) (fun m => { m with previous_node := some p }) = .ok t2
      ∧ t2.deref (some a) = .ok n2 ∧ n2.next_node = some s
      ∧ free { t2 with list_size := t2.list_size - 1 } (some a) = .ok t4
      ∧ t4.list_head = t.list_head ∧ t4.list_tail = t.list_tail
      ∧ t4.list_size = t.list_size - 1 ∧ t4.heap.length = t.heap.length
      ∧ List.Chain' (linked t4) ((front ++ [p]) ++ s :: back)
      ∧ (∀ b, b ≠ a → value_at t4 b = value_at t b) := by
  obtain ⟨hch1, hch2, hjoin⟩ := List.chain'_append.mp hch
  have hpa : linked t p a := hjoin p (by simp) a (by simp)
  have has : linked t a s := (List.chain'_cons.mp hch2).1
  have hch3 : List.Chain' (linked t) (s :: back) := (List.chain'_cons.mp hch2).2
  obtain ⟨hnd1, hnd2, hdisj⟩ := List.nodup_append.mp hnd
  have hnd3 := List.nodup_cons.mp hnd2
  have ha_front : a ∉ front ++ [p] := fun hm => hdisj hm (by simp)
  have hs_front : s ∉ front ++ [p] := fun hm => hdisj hm (by simp)
  have ha_back : a ∉ s :: back := hnd3.1
  have hback_front : ∀ b, b ∈ s :: back → b ∉ front ++ [p] :=
    fun b hb hm => hdisj hm (List.mem_cons_of_mem _ hb)
  have hne_pa : p ≠ a := by intro he; subst he; exact ha_front (by simp)
  have hne_ps : p ≠ s := by intro he; subst he; exact hs_front (by simp)
  have hne_as : a ≠ s := by intro he; subst he; exact ha_back (by simp)
  obtain ⟨n, ln, en⟩ := load_of_next_at t a _ has.1
  obtain ⟨n', ln', ep⟩ := load_of_previous_at t a _ hpa.2
  rw [ln] at ln'; cases ln'
  obtain ⟨np, lp, -⟩ := load_of_next_at t p _ hpa.1
  obtain ⟨t1, m1, b1, b2, b3, b4, b5, b6, b7, b8⟩ := modify_next_spec t p (some s) np lp
  obtain ⟨n1, ln1, en1⟩ := load_of_next_at t1 a (some s) (by rw [b8 a (Ne.symm hne_pa)]; exact has.1)
  obtain ⟨n1', ln1', ep1⟩ := load_of_previous_at t1 a (some p) (by rw [b5]; exact hpa.2)
  rw [ln1] at ln1'; cases ln1'
  obtain ⟨ns, ls, -⟩ := load_of_previous_at t1 s _ (by rw [b5]; exact has.2)
  obtain ⟨t2, m2, c1, c2, c3, c4, c5, c6, c7, c8⟩ := modify_previous_spec t1 s (some p) ns ls
  obtain ⟨n2, ln2, en2⟩ := load_of_next_at t2 a (some s)
    (by rw [c5, b8 a (Ne.symm hne_pa)]; exact has.1)
  obtain ⟨t4, m4, d1, d2, d3, d4, d5, d6, d7⟩ :=
    free_spec { t2 with list_size := t2.list_size - 1 } a n2 ln2
  have hnext : ∀ b, b ≠ a → b ≠ p → next_at t4 b = next_at t b := by
    intro b h1 h2
    rw [d5 b h1]
    show next_at t2 b = _
    rw [c5, b8 b h2]
  have hprev : ∀ b, b ≠ a → b ≠ s → previous_at t4 b = previous_at t b := by
    intro b h1 h2
    rw [d6 b h1]
    show previous_at t2 b = _
    rw [c8 b h2, b5]
  refine ⟨t1, t2, t4, n, n1, n2, deref_ok t a n ln, ep, en, m1, deref_ok t1 a n1 ln1, ep1, en1, m2,
    deref_ok t2 a n2 ln2, en2, m4, ?_, ?_, ?_, ?_, ?_, ?_⟩
  · rw [d1]; show t2.list_head = _; rw [c1, b1]
  · rw [d2]; show t2.list_tail = _; rw [c2, b2]
  · rw [d3]; show t2.list_size - 1 = _; rw [c3, b3]
  · rw [d4]; show t2.heap.length = _; rw [c4, b4]
  · refine List.chain'_append.mpr ⟨?_, ?_, ?_⟩
    · apply chain_congr _ hch1
      intro u w hu hw huw
      have hup : u ≠ p := by
        intro he; subst he
        exact ha_front (by rw [← linked_next_unique t _ _ _ huw hpa]; exact hw)
      have hua : u ≠ a := by intro he; subst he; exact ha_front hu
      have hwa : w ≠ a := by intro he; subst he; exact ha_front hw
      have hws : w ≠ s := by intro he; subst he; exact hs_front hw
      exact ⟨by rw [hnext u hua hup]; exact huw.1, by rw [hprev w hwa hws]; exact huw.2⟩
    · apply chain_congr _ hch3
      intro u w hu hw huw
      have hup : u ≠ p := by intro he; subst he; exact hback_front _ hu (by simp)
      have hua : u ≠ a := by intro he; subst he; exact ha_back hu
      have hwa : w ≠ a := by intro he; subst he; exact ha_back hw
      have hws : w ≠ s := by
        intro he; subst he
        exact hua (linked_prev_unique t _ _ _ huw has)
      exact ⟨by rw [hnext u hua hup]; exact huw.1, by rw [hprev w hwa hws]; exact huw.2⟩
    · intro u hu w hw
      simp at hu hw
      subst hu hw
      refine ⟨?_, ?_⟩
      · rw [d5 _ hne_pa]
        show next_at t2 _ = _
        rw [c5, b7]
      · rw [d6 _ (Ne.symm hne_as)]
        show previous_at t2 _ = _
        rw [c7]
  · intro b hb
    rw [d7 b hb]
    show value_at t2 b = _
    rw [c6, b6]

/-- The loop of `erase` over the part `todo` of the nodes that is still to be
visited; `done` are the nodes already visited and kept. -/
theorem erase_loop_spec (x : Int) (h tl : Nat) :
    ∀ (todo : List Nat) (ltodo : List Int) (t : Double_sentinel_list) (done : List Nat)
      (ldone : List Int) (k : Int) (fuel : Nat),
      t.list_head = some h → t.list_tail = some tl →
      ((h :: (done ++ todo)) ++ [tl]).Nodup →
      List.Chain' (linked t) ((h :: (done ++ todo)) ++ [tl]) →
      List.Forall₂ (holds t) done ldone → List.Forall₂ (holds t) todo ltodo →
      todo.length < fuel →
      ∃ t' todo', erase_loop fuel t (todo ++ [tl]).head? x k
          = .ok (k + (ltodo.count x : Int), t')
        ∧ t'.list_head = some h ∧ t'.list_tail = some tl
        ∧ ((h :: (done ++ todo')) ++ [tl]).Nodup
        ∧ List.Chain' (linked t') ((h :: (done ++ todo')) ++ [tl])
        ∧ List.Forall₂ (holds t') done ldone
        ∧ List.Forall₂ (holds t') todo' (ltodo.filter (fun y => decide (y ≠ x)))
        ∧ t'.list_size = t.list_size - (ltodo.count x : Int)
        ∧ t'.heap.length = t.heap.length
        ∧ todo' = todo.filter (fun b => decide (value_at t b ≠ some x)) := by
  intro todo
  induction todo with
  | nil =>
    intro ltodo t done ldone k fuel hh htl hnd hch hvd hvt hf
    cases hvt
    obtain ⟨f, rfl⟩ : ∃ f, fuel = f + 1 := ⟨fuel - 1, by simp at hf; omega⟩
    refine ⟨t, [], ?_, hh, htl, hnd, hch, hvd, List.Forall₂.nil, by simp, rfl, rfl⟩
    simp [erase_loop, end_, htl, pure, Except.pure]
  | cons a todo ih =>
    intro ltodo t done ldone k fuel hh htl hnd hch hvd hvt hf
    cases hvt with
    | cons hav hvt' =>
      rename_i v ltodo'
      obtain ⟨f, rfl⟩ : ∃ f, fuel = f + 1 := ⟨fuel - 1, by simp at hf; omega⟩
      obtain ⟨init, p, hinit⟩ : ∃ init p, h :: done = init ++ [p] :=
        ⟨(h :: done).dropLast, (h :: done).getLast (by simp),
          (List.dropLast_append_getLast (by simp)).symm⟩
      obtain ⟨s, rest, hrest⟩ : ∃ s rest, todo ++ [tl] = s :: rest := by
        cases todo with
        | nil => exact ⟨tl, [], rfl⟩
        | cons b ns' => exact ⟨b, ns' ++ [tl], rfl⟩
      have hlist : (h :: (done ++ a :: todo)) ++ [tl] = (init ++ [p]) ++ a :: s :: rest := by
        rw [← hinit, ← hrest]; simp
      have hlist' : (h :: (done ++ todo)) ++ [tl] = (init ++ [p]) ++ s :: rest := by
        rw [← hinit, ← hrest]; simp
      have hne : a ≠ tl := by
        intro he; subst he
        have := List.nodup_append.mp hnd
        exact this.2.2 (by simp) (List.mem_singleton_self _)
      obtain ⟨n0, ln0, ev⟩ := load_of_value_at t a _ hav
      by_cases hvx : v = x
      · subst hvx
        rw [hlist] at hnd hch
        obtain ⟨t1, t2, t4, n, n1, n2, e1, e2, e3, e4, e5, e6, e7, e8, e9, e10, e11, f1, f2, f3,
          f4, f5, f6⟩ := unlink_spec t init rest p a s hnd hch
        have hn0 : n = n0 := by
          rw [deref_ok t a n0 ln0] at e1; cases e1; rfl
        subst hn0
        have ha_free : ∀ b, b ∈ done ++ todo → b ≠ a := by
          intro b hb he; subst he
          have h1 := (List.nodup_append.mp hnd).2.1
          have h2 := (List.nodup_cons.mp h1).1
          have h3 := (List.nodup_append.mp hnd).2.2
          rcases List.mem_append.mp hb with hb | hb
          · exact h3 (by rw [← hinit]; exact List.mem_cons_of_mem _ hb) (by simp)
          · exact h2 (by rw [← hrest]; exact List.mem_append_left _ hb)
        have hnd' : ((h :: (done ++ todo)) ++ [tl]).Nodup := by
          rw [hlist']
          obtain ⟨g1, g2, g3⟩ := List.nodup_append.mp hnd
          exact List.nodup_append.mpr ⟨g1, (List.nodup_cons.mp g2).2,
            fun b hb1 hb2 => g3 hb1 (List.mem_cons_of_mem _ hb2)⟩
        obtain ⟨t', todo', r1, r2, r3, r4, r5, r6, r7, r8, r9, r10⟩ :=
          ih ltodo' t4 done ldone (k + 1) f (by rw [f1, hh]) (by rw [f2, htl]) hnd'
            (by rw [hlist']; exact f5)
            (forall₂_congr _ _ hvd (fun b w hb hbw => by
              show value_at t4 b = _
              rw [f6 b (ha_free b (List.mem_append_left _ hb))]; exact hbw))
            (forall₂_congr _ _ hvt' (fun b w hb hbw => by
              show value_at t4 b = _
              rw [f6 b (ha_free b (List.mem_append_right _ hb))]; exact hbw))
            (by simp at hf; omega)
        refine ⟨t', todo', ?_, r2, r3, r4, r5, r6, ?_, ?_, ?_, ?_⟩
        · rw [hrest] at r1
          simp only [List.head?_cons] at r1
          simp only [List.cons_append, List.head?_cons, erase_loop, end_, htl, ne_eq,
            Option.some.injEq, hne, not_false_eq_true, if_true, e1, bind, Except.bind, ev, e2, e3,
            e4, e5, e6, e7, e8, e9, e10, e11, r1]
          simp; ring
        · simpa using r7
        · rw [r8, f3]; simp; ring
        · rw [r9, f4]
        · rw [r10, List.filter_cons]
          have hax : decide (value_at t a ≠ some v) = false := by
            simp [show value_at t a = some v from hav]
          rw [hax]
          simp only [Bool.false_eq_true, if_false]
          apply List.filter_congr
          intro b hb
          rw [f6 b (ha_free b (List.mem_append_right _ hb))]
      · have hnd' : ((h :: ((done ++ [a]) ++ todo)) ++ [tl]).Nodup := by
          simpa using hnd
        have hch' : List.Chain' (linked t) ((h :: ((done ++ [a]) ++ todo)) ++ [tl]) := by
          simpa using hch
        obtain ⟨t', todo', r1, r2, r3, r4, r5, r6, r7, r8, r9, r10⟩ :=
          ih ltodo' t (done ++ [a]) (ldone ++ [v]) k f hh htl hnd' hch'
            (List.rel_append hvd (List.Forall₂.cons hav List.Forall₂.nil)) hvt'
            (by simp at hf; omega)
        have has : linked t a s := by
          rw [hlist] at hch
          exact (List.chain'_cons.mp (List.chain'_append.mp hch).2.1).1
        obtain ⟨n, ln, en⟩ := load_of_next_at t a _ has.1
        rw [ln0] at ln; cases ln
        obtain ⟨r6a, r6b⟩ := forall₂_of_append_singleton _ _ _ _ r6
        refine ⟨t', a :: todo', ?_, r2, r3, by simpa using r4, by simpa using r5, r6a, ?_, ?_, r9,
          ?_⟩
        · rw [hrest] at r1
          simp only [List.head?_cons] at r1
          simp only [List.cons_append, List.head?_cons, erase_loop, end_, htl, ne_eq,
            Option.some.injEq, hne, not_false_eq_true, if_true, deref_ok t a n0 ln0, bind,
            Except.bind, ev, hvx, if_false, en, r1]
          simp [List.count_cons_of_ne (Ne.symm hvx)]
        · simp only [List.filter_cons, hvx, ne_eq, not_false_eq_true, decide_True, if_true]
          exact List.Forall₂.cons r6b r7
        · rw [r8]; simp [List.count_cons_of_ne (Ne.symm hvx)]
        · rw [r10, List.filter_cons]
          have hax : decide (value_at t a ≠ some x) = true := by
            simp [show value_at t a = some v from hav, hvx]
          rw [hax]
          simp

/-- The sequence length splits into the occurrences of `x` and the rest. -/
theorem length_filter_ne (l : List Int) (x : Int) :
    ((l.filter (fun y => decide (y ≠ x))).length : Int) = (l.length : Int) - (l.count x : Int) := by
  induction l with
  | nil => simp
  | cons v l ih =>
    by_cases hvx : v = x
    · subst hvx
      simp only [List.filter_cons, ne_eq, not_true_eq_false, decide_False, Bool.false_eq_true,
        if_false, List.count_cons_self, List.length_cons]
      rw [ih]; push_cast; ring
    · simp only [List.filter_cons, ne_eq, hvx, not_false_eq_true, decide_True, if_true,
        List.count_cons_of_ne (Ne.symm hvx), List.length_cons]
      push_cast
      rw [ih]; ring

/-- On a well-formed list `erase` returns the number of occurrences and leaves
a well-formed list that holds the other values in the nodes that held them. -/
theorem erase_represents (t : Double_sentinel_list) (nodes : List Nat) (l : List Int)
    (x : Int) (h : Represents t nodes l) :
    ∃ t', t.erase x = .ok ((l.count x : Int), t')
      ∧ Represents t' (nodes.filter (fun b => decide (value_at t b ≠ some x)))
          (l.filter (fun y => decide (y ≠ x))) := by
  have hfuel := fuel_of_represents t nodes l h
  obtain ⟨h, tl, hh, htl, hnd, hch, hval, hsz⟩ := h
  obtain ⟨s, rest, hrest⟩ : ∃ s rest, nodes ++ [tl] = s :: rest := by
    cases nodes with
    | nil => exact ⟨tl, [], rfl⟩
    | cons b ns' => exact ⟨b, ns' ++ [tl], rfl⟩
  have hhs : linked t h s := by
    rw [List.cons_append, hrest] at hch; exact (List.chain'_cons.mp hch).1
  obtain ⟨t', todo', r1, r2, r3, r4, r5, r6, r7, r8, r9, r10⟩ :=
    erase_loop_spec x h tl nodes l t [] [] 0 t.fuel hh htl (by simpa using hnd)
      (by simpa using hch) List.Forall₂.nil hval (by omega)
  subst r10
  rw [hrest] at r1
  simp only [List.head?_cons, zero_add] at r1
  refine ⟨t', ?_, ⟨h, tl, r2, r3, by simpa using r4, by simpa using r5, r7, ?_⟩⟩
  · simp [erase, begin_eq t h _ hh hhs.1, bind, Except.bind, r1]
  · rw [r8, hsz, length_filter_ne]

/-- The call `count(x)` on a sequence from which `x` has been filtered out
counts nothing. -/
theorem count_filter_ne (l : List Int) (x : Int) :
    (l.filter (fun y => decide (y ≠ x))).count x = 0 := by
  rw [List.count_eq_zero]
  intro hm
  have := (List.mem_filter.mp hm).2
  simp at this

/-- A `pop_front()` that returns leaves a list of another size. -/
theorem pop_front_ne (t t1 : Double_sentinel_list) (nodes nodes1 : List Nat) (v : Int)
    (l : List Int) (h : Represents t nodes (v :: l)) (h1 : Represents t1 nodes1 l) : t1 ≠ t := by
  intro he
  subst he
  obtain ⟨_, _, _, _, _, _, _, hsz⟩ := h
  obtain ⟨_, _, _, _, _, _, _, hsz1⟩ := h1
  rw [hsz] at hsz1
  simp at hsz1

/-- The list built by `push_back(5)`, `push_back(7)`, `push_back(5)` on a new
list is well formed: its nodes are at the addresses 2, 3, 4. -/
theorem three_pushes_represent :
    Represents
      { heap :=
          [some { node_value := 0, previous_node := none, next_node := some 2 },
           some { node_value := 0, previous_node := some 4, next_node := none },
           some { node_value := 5, previous_node := some 0, next_node := some 3 },
           some { node_value := 7, previous_node := some 2, next_node := some 4 },
           some { node_value := 5, previous_node := some 3, next_node := some 1 }],
        list_head := some 0,
        list_tail := some 1,
        list_size := 3 }
      [2, 3, 4] [5, 7, 5] := by
  refine ⟨0, 1, rfl, rfl, by decide, ?_, ?_, rfl⟩
  · repeat (first
      | exact List.chain'_singleton _
      | refine List.chain'_cons.mpr ⟨⟨rfl, rfl⟩, ?_⟩)
  · exact List.Forall₂.cons rfl (List.Forall₂.cons rfl (List.Forall₂.cons rfl List.Forall₂.nil))

/-- C29.  On every well-formed list `t`, holding the sequence `l` in the nodes
`nodes`, and for every value `x`: reading forward gives `l` and `count(x)`
returns the number of occurrences of `x` in `l`; `erase(x)` returns, and returns
that number; the list it leaves is well formed and holds `l` with every
occurrence of `x` filtered out, the other values in their order and in the nodes
that held them (the nodes of `t` whose value is not `x`); reading it forward
gives the filtered sequence, `size()` has decreased by the number returned, and
`count(x)` returns 0. -/
theorem erase_removes_exactly_the_occurrences (t : Double_sentinel_list) (nodes : List Nat)
    (l : List Int) (x : Int) (h : Represents t nodes l) :
    ∃ t', t.forward = .ok l
      ∧ t.count x = .ok (l.count x : Int)
      ∧ t.erase x = .ok ((l.count x : Int), t')
      ∧ Represents t' (nodes.filter (fun b => decide (value_at t b ≠ some x)))
          (l.filter (fun y => decide (y ≠ x)))
      ∧ t'.forward = .ok (l.filter (fun y => decide (y ≠ x)))
      ∧ t'.size = t.size - (l.count x : Int)
      ∧ t'.count x = .ok 0 := by
  obtain ⟨t', h1, h2⟩ := erase_represents t nodes l x h
  refine ⟨t', forward_of_represents t nodes l h, count_of_represents t nodes l x h, h1, h2,
    forward_of_represents t' _ _ h2, ?_, ?_⟩
  · rw [(observers_of_represents t' _ _ h2).1, (observers_of_represents t nodes l h).1]
    exact length_filter_ne l x
  · rw [count_of_represents t' _ _ x h2, count_filter_ne]
    rfl

/-- C29 at a concrete input: the list built by `push_back(5)`, `push_back(7)`,
`push_back(5)` is well formed and holds 5, 7, 5 in the nodes 2, 3, 4; `count(5)`
returns 2 on it, `erase(5)` returns 2 and leaves the sequence 7 in the node 3,
of size 1, on which `count(5)` returns 0. -/
theorem erase_removes_exactly_the_occurrences_witness :
    ∃ t, run new [.push_back 5, .push_back 7, .push_back 5] = .ok t
      ∧ Represents t [2, 3, 4] [5, 7, 5]
      ∧ ∃ t', t.forward = .ok [5, 7, 5]
        ∧ t.count 5 = .ok 2
        ∧ t.erase 5 = .ok (2, t')
        ∧ Represents t' [3] [7]
        ∧ t'.forward = .ok [7]
        ∧ t'.size = t.size - 2
        ∧ t'.count 5 = .ok 0 :=
  ⟨_, rfl, three_pushes_represent,
    erase_removes_exactly_the_occurrences _ [2, 3, 4] [5, 7, 5] 5 three_pushes_represent⟩

/-- C30.  After any series of `push_front`, `push_back`, `pop_front` and
`pop_back` on a new list (a pop on an empty list throws `underflow`, which the
caller catches, and the list is the one before the call) every call returns;
the values read from `begin()` forward to `end()` are the model sequence, those
read from `rbegin()` backward to `rend()` are its reverse, `size()` is its
length, `front()` and `back()` return its first and last element and throw
`underflow` when it is empty, and `pop_front()` and `pop_back()` throw
`underflow` exactly when it is empty, in which case the call leaves the list as
it was. -/
theorem list_refines_sequence (ops : List Op) :
    ∃ t, run new ops = .ok t
      ∧ t.forward = .ok (model [] ops)
      ∧ t.backward = .ok (model [] ops).reverse
      ∧ t.size = ((model [] ops).length : Int)
      ∧ t.front = (match (model [] ops).head? with
          | some x => .ok x | none => .error .underflow)
      ∧ t.back = (match (model [] ops).getLast? with
          | some x => .ok x | none => .error .underflow)
      ∧ (t.pop_front = .error .underflow ↔ model [] ops = [])
      ∧ (t.pop_back = .error .underflow ↔ model [] ops = [])
      ∧ (t.step .pop_front = .ok t ↔ model [] ops = [])
      ∧ (t.step .pop_back = .ok t ↔ model [] ops = []) := by
  obtain ⟨t, nodes, h1, h2⟩ := run_preserves_represents ops new [] [] new_represents
  generalize model [] ops = l at h2
  have hobs := observers_of_represents t nodes l h2
  have hempty := empty_iff_of_represents t nodes l h2
  refine ⟨t, h1, forward_of_represents t nodes l h2, backward_of_represents t nodes l h2,
    hobs.1, hobs.2.1, hobs.2.2, ?_, ?_, ?_, ?_⟩
  · constructor
    · intro he
      cases l with
      | nil => rfl
      | cons v l' =>
        obtain ⟨h0, tl, hh, htl, hnd, hch, hval, hsz⟩ := id h2
        cases hval with
        | cons hav hv' =>
          rename_i a ns
          obtain ⟨t1, e1, _⟩ := pop_front_represents t a ns v l' h2
          rw [e1] at he; cases he
    · intro hl
      simp [pop_front, hempty.mpr hl]
  · constructor
    · intro he
      rcases List.eq_nil_or_concat l with hl | ⟨l', v, hl⟩
      · exact hl
      · rw [List.concat_eq_append] at hl
        subst hl
        obtain ⟨h0, tl, hh, htl, hnd, hch, hval, hsz⟩ := id h2
        obtain ⟨ns, a, rfl, hv', hav⟩ := forall₂_append_singleton_right _ _ _ hval
        obtain ⟨t1, e1, _⟩ := pop_back_represents t a ns v l' h2
        rw [e1] at he; cases he
    · intro hl
      simp [pop_back, hempty.mpr hl]
  · constructor
    · intro he
      cases l with
      | nil => rfl
      | cons v l' =>
        obtain ⟨h0, tl, hh, htl, hnd, hch, hval, hsz⟩ := id h2
        cases hval with
        | cons hav hv' =>
          rename_i a ns
          obtain ⟨t1, e1, r1⟩ := pop_front_represents t a ns v l' h2
          simp only [step, e1] at he
          exact absurd (Except.ok.inj he) (pop_front_ne t t1 _ _ v l' h2 r1)
    · intro hl
      simp [step, pop_front, hempty.mpr hl]
  · constructor
    · intro he
      rcases List.eq_nil_or_concat l with hl | ⟨l', v, hl⟩
      · exact hl
      · rw [List.concat_eq_append] at hl
        subst hl
        obtain ⟨h0, tl, hh, htl, hnd, hch, hval, hsz⟩ := id h2
        obtain ⟨ns, a, rfl, hv', hav⟩ := forall₂_append_singleton_right _ _ _ hval
        obtain ⟨t1, e1, r1⟩ := pop_back_represents t a ns v l' h2
        simp only [step, e1] at he
        have hne : t1 ≠ t := by
          intro hx
          subst hx
          obtain ⟨_, _, _, _, _, _, _, hsz1⟩ := r1
          rw [hsz] at hsz1
          simp at hsz1
        exact absurd (Except.ok.inj he) hne
    · intro hl
      simp [step, pop_back, hempty.mpr hl]

end Double_sentinel_list

/-! ## Quadratic_hash_table: the claims -/

namespace Quadratic_hash_table
open Array_fault (fetch store fetch_cast store_cast)

/-- Twice the value of `bin` after `k` rounds is twice the start plus
`k * (k - 1)`, modulo twice the number of bins. -/
theorem bin_after_modEq (M h : Nat) :
    ∀ k, Nat.ModEq (2 * M) (2 * bin_after M h k) (2 * h + k * (k - 1)) := by
  intro k
  induction k with
  | zero => simp [bin_after, Nat.ModEq]
  | succ k ih =>
    have h1 : Nat.ModEq M ((bin_after M h k + k) % M) (bin_after M h k + k) := Nat.mod_modEq _ _
    have h2 := Nat.ModEq.mul_left' 2 h1
    have h3 : Nat.ModEq (2 * M) (2 * (bin_after M h k + k)) (2 * h + k * (k - 1) + 2 * k) := by
      rw [Nat.mul_add]
      exact Nat.ModEq.add_right _ ih
    have h4 : 2 * h + k * (k - 1) + 2 * k = 2 * h + (k + 1) * (k + 1 - 1) := by
      cases k with
      | zero => rfl
      | succ n => simp only [Nat.add_sub_cancel]; ring
    rw [← h4]
    exact h2.trans h3

/-- After at least one round `bin` is the index of a bin. -/
theorem probe_lt (M : Nat) (x : Int) (k : Nat) (hM : 0 < M) : probe M x k < M :=
  Nat.mod_lt _ hM

/-- In a table whose number of bins is a power of two, the first `2 ^ p` rounds
of the probing examine pairwise different bins. -/
theorem probe_injective (p : Nat) (x : Int) (i j : Nat) (hij : i < j) (hj : j < 2 ^ p) :
    probe (2 ^ p) x i ≠ probe (2 ^ p) x j := by
  intro he
  unfold probe at he
  have hi := bin_after_modEq (2 ^ p) (x % ((2 ^ p : Nat) : Int)).toNat (i + 1)
  have hjj := bin_after_modEq (2 ^ p) (x % ((2 ^ p : Nat) : Int)).toNat (j + 1)
  rw [he] at hi
  have h1 := (hi.symm.trans hjj)
  have h2 : Nat.ModEq (2 * 2 ^ p) ((i + 1) * i) ((j + 1) * j) := by
    have := Nat.ModEq.add_left_cancel' _ h1
    simpa using this
  have h3 : ((2 * 2 ^ p : Nat) : Int) ∣ (((j + 1) * j : Nat) : Int) - (((i + 1) * i : Nat) : Int) :=
    (Nat.modEq_iff_dvd).mp h2
  have h4 : (((j + 1) * j : Nat) : Int) - (((i + 1) * i : Nat) : Int)
      = (((j - i) * (i + j + 1) : Nat) : Int) := by
    push_cast [Nat.cast_sub (le_of_lt hij)]
    ring
  rw [h4] at h3
  have h5 : 2 * 2 ^ p ∣ (j - i) * (i + j + 1) := Int.natCast_dvd_natCast.mp h3
  have hpow : 2 * 2 ^ p = 2 ^ (p + 1) := by ring
  rw [hpow] at h5
  rcases Nat.even_or_odd (j - i) with hev | hodd
  · have hodd2 : Odd (i + j + 1) := by
      have : i + j + 1 = (j - i) + (2 * i + 1) := by omega
      rw [this]
      exact Even.add_odd hev ⟨i, rfl⟩
    have hc : Nat.Coprime (2 ^ (p + 1)) (i + j + 1) :=
      Nat.Coprime.pow_left _ (Nat.coprime_two_left.mpr hodd2)
    have h6 : 2 ^ (p + 1) ∣ j - i := hc.dvd_of_dvd_mul_right h5
    have h7 := Nat.le_of_dvd (by omega) h6
    have : 2 ^ (p + 1) = 2 * 2 ^ p := by ring
    omega
  · have hc : Nat.Coprime (2 ^ (p + 1)) (j - i) :=
      Nat.Coprime.pow_left _ (Nat.coprime_two_left.mpr hodd)
    have h6 : 2 ^ (p + 1) ∣ i + j + 1 := hc.dvd_of_dvd_mul_left h5
    have h7 := Nat.le_of_dvd (by omega) h6
    have : 2 ^ (p + 1) = 2 * 2 ^ p := by ring
    omega

/-- In a table whose number of bins is a power of two, the first `2 ^ p` rounds
of the probing examine every bin. -/
theorem probe_surjective (p : Nat) (x : Int) (b : Nat) (hb : b < 2 ^ p) :
    ∃ k, k < 2 ^ p ∧ probe (2 ^ p) x k = b := by
  have hM : 0 < 2 ^ p := Nat.pos_pow_of_pos _ (by decide)
  let f : Fin (2 ^ p) → Fin (2 ^ p) := fun k => ⟨probe (2 ^ p) x k.val, probe_lt _ x _ hM⟩
  have hinj : Function.Injective f := by
    intro a c hac
    have hv : probe (2 ^ p) x a.val = probe (2 ^ p) x c.val := congrArg Fin.val hac
    rcases Nat.lt_trichotomy a.val c.val with hlt | heq | hgt
    · exact absurd hv (probe_injective p x _ _ hlt c.isLt)
    · exact Fin.ext heq
    · exact absurd hv.symm (probe_injective p x _ _ hgt a.isLt)
  obtain ⟨k, hk⟩ := (Finite.injective_iff_surjective.mp hinj) ⟨b, hb⟩
  exact ⟨k.val, k.isLt, congrArg Fin.val hk⟩

/-- A table in which fewer bins than there are are `OCCUPIED` has a bin that is
not, and the probing for any value examines it. -/
theorem exists_free_bin (p : Nat) (x : Int) (occupied : List bin_state_t)
    (hlen : occupied.length = 2 ^ p) (hcount : occupied.count bin_state_t.OCCUPIED < 2 ^ p) :
    ∃ k, k < 2 ^ p ∧ occupied[probe (2 ^ p) x k]? ≠ some bin_state_t.OCCUPIED := by
  by_contra hno
  push_neg at hno
  have hall : ∀ s ∈ occupied, bin_state_t.OCCUPIED = s := by
    intro s hs
    obtain ⟨b, hb, hbs⟩ := List.mem_iff_getElem.mp hs
    obtain ⟨k, hk, hkb⟩ := probe_surjective p x b (hlen ▸ hb)
    have := hno k hk
    rw [hkb, List.getElem?_eq_getElem hb, hbs] at this
    exact (Option.some.inj this).symm
  have := List.count_eq_length.mpr hall
  omega


/-- The remainder of C++ lies strictly between minus the divisor and the
divisor. -/
theorem tmod_bounds (x : Int) (n : Nat) (hn : 0 < n) :
    -(n : Int) < Int.tmod x n ∧ Int.tmod x n < n := by
  refine ⟨?_, Int.tmod_lt_of_pos x (by exact_mod_cast hn)⟩
  cases x with
  | ofNat m =>
    have : Int.tmod (Int.ofNat m) (n : Int) = ((m % n : Nat) : Int) := rfl
    rw [this]
    have : (0 : Int) ≤ ((m % n : Nat) : Int) := Int.ofNat_nonneg _
    omega
  | negSucc m =>
    have : Int.tmod (Int.negSucc m) (n : Int) = -(((m + 1) % n : Nat) : Int) := rfl
    rw [this]
    have := Nat.mod_lt (m + 1) hn
    omega

/-- The function `hash` returns the remainder in `0 .. array_size - 1`. -/
theorem hash_eq (t : Quadratic_hash_table) (x : Int) (M : Nat) (hM : 0 < M)
    (hsz : t.array_size = (M : Int)) : t.hash x = (((x % (M : Int)).toNat : Nat) : Int) := by
  have hpos : (0 : Int) < (M : Int) := by exact_mod_cast hM
  rw [Int.toNat_of_nonneg (Int.emod_nonneg _ (by omega))]
  obtain ⟨hlo, hhi⟩ := tmod_bounds x M hM
  have hdef := Int.tmod_def x (M : Int)
  unfold hash
  rw [hsz]
  dsimp only
  split_ifs with h
  · have hx : x = Int.tmod x M + (M : Int) * (x.tdiv M) := by omega
    conv_rhs => rw [hx]
    rw [Int.add_mul_emod_self_left]
    exact (Int.emod_eq_of_lt h hhi).symm
  · have hx : x = (Int.tmod x M + (M : Int)) + (M : Int) * (x.tdiv M - 1) := by
      rw [Int.mul_sub]; omega
    conv_rhs => rw [hx]
    rw [Int.add_mul_emod_self_left]
    exact (Int.emod_eq_of_lt (by omega) (by omega)).symm

/-- One round of probing moves `bin` to the next bin of the probing. -/
theorem next_bin_eq (t : Quadratic_hash_table) (M : Nat) (hsz : t.array_size = (M : Int))
    (x : Int) (k : Nat) :
    Int.tmod (((bin_after M (x % (M : Int)).toNat k : Nat) : Int) + (k : Int)) t.array_size
      = ((probe M x k : Nat) : Int) := by
  unfold probe
  rw [hsz, bin_after, ← Nat.cast_add, ← Int.ofNat_tmod]

/-- The loop of `member` returns, and returns true exactly when the probing
finds the value. -/
theorem member_loop_finds (t : Quadratic_hash_table) (x : Int) (M : Nat) (hM : 0 < M)
    (hsz : t.array_size = (M : Int)) (hocc : t.occupied.length = M)
    (harr : t.array.length = M)
    (hsome : ∀ b : Nat, t.occupied[b]? = some .OCCUPIED → ∃ y, t.array[b]? = some (some y)) :
    ∀ (n k fuel : Nat), k + n = M → n < fuel →
      (∀ i : Nat, i < k → t.occupied[probe M x i]? ≠ some .UNOCCUPIED
        ∧ ¬ stored_at t (probe M x i) x) →
      ∃ b, member_loop fuel t x ((bin_after M (x % (M : Int)).toNat k : Nat) : Int) (k : Int)
          = .ok b ∧ (b = true ↔ Found t x) := by
  intro n
  induction n with
  | zero =>
    intro k fuel hk hf hprev
    obtain ⟨f, rfl⟩ : ∃ f, fuel = f + 1 := ⟨fuel - 1, by omega⟩
    refine ⟨false, ?_, ?_⟩
    · have : ¬ ((k : Int) < t.array_size) := by rw [hsz]; omega
      simp [member_loop, this, pure, Except.pure]
    · constructor
      · intro h; cases h
      · rintro ⟨j, hj, hst, _⟩
        rw [hocc] at hj hst
        exact absurd hst (hprev j (by omega)).2
  | succ n ih =>
    intro k fuel hk hf hprev
    obtain ⟨f, rfl⟩ : ∃ f, fuel = f + 1 := ⟨fuel - 1, by omega⟩
    have hlt : (k : Int) < t.array_size := by rw [hsz]; omega
    have hp := probe_lt M x k hM
    obtain ⟨s, hs⟩ : ∃ s, t.occupied[probe M x k]? = some s :=
      ⟨_, List.getElem?_eq_getElem (by rw [hocc]; exact hp)⟩
    have hnext : ∀ (hnew : t.occupied[probe M x k]? ≠ some .UNOCCUPIED
        ∧ ¬ stored_at t (probe M x k) x),
        ∃ b, member_loop f t x ((probe M x k : Nat) : Int) ((k : Int) + 1) = .ok b
          ∧ (b = true ↔ Found t x) := by
      intro hnew
      have := ih (k + 1) f (by omega) (by omega) (by
        intro i hi
        rcases Nat.lt_succ_iff_lt_or_eq.mp hi with h1 | h1
        · exact hprev i h1
        · subst h1; exact hnew)
      simpa [probe] using this
    simp only [member_loop, hlt, if_true, next_bin_eq t M hsz, fetch_cast _ _ _ hs, bind,
      Except.bind]
    cases s with
    | UNOCCUPIED =>
      refine ⟨false, by simp [pure, Except.pure], ?_⟩
      constructor
      · intro h; cases h
      · rintro ⟨j, hj, hst, hbefore⟩
        rw [hocc] at hj hst hbefore
        rcases Nat.lt_trichotomy j k with h1 | h1 | h1
        · exact absurd hst (hprev j h1).2
        · subst h1
          rw [stored_at, hs] at hst
          cases hst.1
        · exact absurd hs (hbefore k h1)
    | OCCUPIED =>
      obtain ⟨v, hv⟩ := hsome _ hs
      simp only [reduceCtorEq, if_false, if_true, fetch_cast _ _ _ hv, value_of]
      by_cases hvx : v = x
      · subst hvx
        refine ⟨true, by simp [pure, Except.pure], ?_⟩
        constructor
        · intro _
          refine ⟨k, by omega, ?_, ?_⟩
          · rw [hocc]; exact ⟨hs, hv⟩
          · intro i hi; rw [hocc]; exact (hprev i hi).1
        · intro _; rfl
      · simp only [hvx, if_false]
        apply hnext
        refine ⟨by rw [hs]; simp, ?_⟩
        rintro ⟨_, h2⟩
        rw [hv] at h2
        exact hvx (Option.some.inj (Option.some.inj h2))
    | ERASED =>
      simp only [reduceCtorEq, if_false]
      apply hnext
      refine ⟨by rw [hs]; simp, ?_⟩
      rintro ⟨h1, _⟩
      rw [hs] at h1
      cases h1


/-- The loop of `erase` returns, and returns true exactly when the probing
finds the value; then it has marked one bin that held the value as `ERASED`,
and otherwise it has written nothing. -/
theorem erase_loop_finds (t : Quadratic_hash_table) (x : Int) (M : Nat) (hM : 0 < M)
    (hsz : t.array_size = (M : Int)) (hocc : t.occupied.length = M)
    (harr : t.array.length = M)
    (hsome : ∀ b : Nat, t.occupied[b]? = some .OCCUPIED → ∃ y, t.array[b]? = some (some y)) :
    ∀ (n k fuel : Nat), k + n = M → n < fuel →
      (∀ i : Nat, i < k → t.occupied[probe M x i]? ≠ some .UNOCCUPIED
        ∧ ¬ stored_at t (probe M x i) x) →
      ∃ b t', erase_loop fuel t x ((bin_after M (x % (M : Int)).toNat k : Nat) : Int) (k : Int)
          = .ok (b, t') ∧ (b = true ↔ Found t x)
        ∧ (b = false → t' = t)
        ∧ (b = true → ∃ b0, stored_at t b0 x
            ∧ t' = { t with occupied := t.occupied.set b0 .ERASED, count := t.count - 1,
                            countErased := t.countErased + 1 }) := by
  intro n
  induction n with
  | zero =>
    intro k fuel hk hf hprev
    obtain ⟨f, rfl⟩ : ∃ f, fuel = f + 1 := ⟨fuel - 1, by omega⟩
    refine ⟨false, t, ?_, ?_, fun _ => rfl, fun h => by cases h⟩
    · have : ¬ ((k : Int) < t.array_size) := by rw [hsz]; omega
      simp [erase_loop, this, pure, Except.pure]
    · constructor
      · intro h; cases h
      · rintro ⟨j, hj, hst, _⟩
        rw [hocc] at hj hst
        exact absurd hst (hprev j (by omega)).2
  | succ n ih =>
    intro k fuel hk hf hprev
    obtain ⟨f, rfl⟩ : ∃ f, fuel = f + 1 := ⟨fuel - 1, by omega⟩
    have hlt : (k : Int) < t.array_size := by rw [hsz]; omega
    have hp := probe_lt M x k hM
    obtain ⟨s, hs⟩ : ∃ s, t.occupied[probe M x k]? = some s :=
      ⟨_, List.getElem?_eq_getElem (by rw [hocc]; exact hp)⟩
    have hnext : ∀ (hnew : t.occupied[probe M x k]? ≠ some .UNOCCUPIED
        ∧ ¬ stored_at t (probe M x k) x),
        ∃ b t', erase_loop f t x ((probe M x k : Nat) : Int) ((k : Int) + 1) = .ok (b, t')
          ∧ (b = true ↔ Found t x)
          ∧ (b = false → t' = t)
          ∧ (b = true → ∃ b0, stored_at t b0 x
              ∧ t' = { t with occupied := t.occupied.set b0 .ERASED, count := t.count - 1,
                              countErased := t.countErased + 1 }) := by
      intro hnew
      have := ih (k + 1) f (by omega) (by omega) (by
        intro i hi
        rcases Nat.lt_succ_iff_lt_or_eq.mp hi with h1 | h1
        · exact hprev i h1
        · subst h1; exact hnew)
      simpa [probe] using this
    simp only [erase_loop, hlt, if_true, next_bin_eq t M hsz, fetch_cast _ _ _ hs, bind,
      Except.bind]
    cases s with
    | UNOCCUPIED =>
      refine ⟨false, t, by simp [pure, Except.pure], ?_, fun _ => rfl, fun h => by cases h⟩
      constructor
      · intro h; cases h
      · rintro ⟨j, hj, hst, hbefore⟩
        rw [hocc] at hj hst hbefore
        rcases Nat.lt_trichotomy j k with h1 | h1 | h1
        · exact absurd hst (hprev j h1).2
        · subst h1
          rw [stored_at, hs] at hst
          cases hst.1
        · exact absurd hs (hbefore k h1)
    | OCCUPIED =>
      obtain ⟨v, hv⟩ := hsome _ hs
      simp only [reduceCtorEq, if_false, if_true, fetch_cast _ _ _ hv, value_of]
      by_cases hvx : v = x
      · subst hvx
        refine ⟨true, _, by
          simp only [if_true, store_cast _ _ _ (show probe M v k < t.occupied.length by
            rw [hocc]; exact hp), pure, Except.pure], ?_, (fun h => by cases h),
          fun _ => ⟨probe M v k, ⟨hs, hv⟩, rfl⟩⟩
        constructor
        · intro _
          refine ⟨k, by omega, ?_, ?_⟩
          · rw [hocc]; exact ⟨hs, hv⟩
          · intro i hi; rw [hocc]; exact (hprev i hi).1
        · intro _; rfl
      · simp only [hvx, if_false]
        apply hnext
        refine ⟨by rw [hs]; simp, ?_⟩
        rintro ⟨_, h2⟩
        rw [hv] at h2
        exact hvx (Option.some.inj (Option.some.inj h2))
    | ERASED =>
      simp only [reduceCtorEq, if_false]
      apply hnext
      refine ⟨by rw [hs]; simp, ?_⟩
      rintro ⟨h1, _⟩
      rw [hs] at h1
      cases h1

/-- The loop of `insert`, when the probing examines a bin that is not
`OCCUPIED`, writes the value to the first such bin and marks it `OCCUPIED`. -/
theorem insert_loop_places (t : Quadratic_hash_table) (x : Int) (M : Nat) (hM : 0 < M)
    (hsz : t.array_size = (M : Int)) (hocc : t.occupied.length = M)
    (harr : t.array.length = M) :
    ∀ (n k fuel : Nat), k + n = M → n < fuel →
      (∀ i : Nat, i < k → t.occupied[probe M x i]? = some .OCCUPIED) →
      (∃ j, k ≤ j ∧ j < M ∧ t.occupied[probe M x j]? ≠ some .OCCUPIED) →
      ∃ j s, j < M ∧ t.occupied[probe M x j]? = some s ∧ s ≠ .OCCUPIED
        ∧ (∀ i : Nat, i < j → t.occupied[probe M x i]? = some .OCCUPIED)
        ∧ insert_loop fuel t x ((bin_after M (x % (M : Int)).toNat k : Nat) : Int) (k : Int)
          = .ok { t with array := t.array.set (probe M x j) (some x),
                         count := t.count + 1,
                         countErased :=
                           if s = .ERASED then t.countErased - 1 else t.countErased,
                         occupied := t.occupied.set (probe M x j) .OCCUPIED } := by
  intro n
  induction n with
  | zero =>
    intro k fuel hk hf hprev hfree
    obtain ⟨j, h1, h2, _⟩ := hfree
    omega
  | succ n ih =>
    intro k fuel hk hf hprev hfree
    obtain ⟨f, rfl⟩ : ∃ f, fuel = f + 1 := ⟨fuel - 1, by omega⟩
    have hlt : (k : Int) < t.array_size := by rw [hsz]; omega
    have hp := probe_lt M x k hM
    obtain ⟨s, hs⟩ : ∃ s, t.occupied[probe M x k]? = some s :=
      ⟨_, List.getElem?_eq_getElem (by rw [hocc]; exact hp)⟩
    simp only [insert_loop, hlt, if_true, next_bin_eq t M hsz, fetch_cast _ _ _ hs, bind,
      Except.bind]
    by_cases hso : s = .OCCUPIED
    · subst hso
      simp only [ne_eq, not_true_eq_false, if_false]
      have := ih (k + 1) f (by omega) (by omega) (by
        intro i hi
        rcases Nat.lt_succ_iff_lt_or_eq.mp hi with h1 | h1
        · exact hprev i h1
        · subst h1; exact hs) (by
        obtain ⟨j, h1, h2, h3⟩ := hfree
        refine ⟨j, ?_, h2, h3⟩
        rcases Nat.lt_or_eq_of_le h1 with h4 | h4
        · exact h4
        · subst h4; exact absurd hs h3)
      simpa [probe] using this
    · refine ⟨k, s, by omega, hs, hso, hprev, ?_⟩
      have h1 := store_cast t.array (probe M x k) (some x) (by rw [harr]; exact hp)
      have h2 := store_cast t.occupied (probe M x k) bin_state_t.OCCUPIED
        (by rw [hocc]; exact hp)
      cases s with
      | OCCUPIED => exact absurd rfl hso
      | UNOCCUPIED => simp [h1, h2, fetch_cast _ _ _ hs, pure, Except.pure]
      | ERASED => simp [h1, h2, fetch_cast _ _ _ hs, pure, Except.pure]

/-- The loop of `clear` marks the bins from `i` on as `UNOCCUPIED`. -/
theorem clear_loop_spec (M : Nat) :
    ∀ (n i fuel : Nat) (t : Quadratic_hash_table), i + n = M → n < fuel →
      t.array_size = (M : Int) → t.occupied.length = M →
      ∃ t', clear_loop fuel t (i : Int) = .ok t'
        ∧ t'.array_size = t.array_size ∧ t'.array = t.array ∧ t'.power = t.power
        ∧ t'.mask = t.mask
        ∧ t'.occupied.length = M
        ∧ (∀ b : Nat, b < i → t'.occupied[b]? = t.occupied[b]?)
        ∧ (∀ b : Nat, i ≤ b → b < M → t'.occupied[b]? = some .UNOCCUPIED) := by
  intro n
  induction n with
  | zero =>
    intro i fuel t hi hf hsz hocc
    obtain ⟨f, rfl⟩ : ∃ f, fuel = f + 1 := ⟨fuel - 1, by omega⟩
    have : ¬ ((i : Int) < t.array_size) := by rw [hsz]; omega
    exact ⟨t, by simp [clear_loop, this, pure, Except.pure], rfl, rfl, rfl, rfl, hocc,
      fun _ _ => rfl, fun b h1 h2 => by omega⟩
  | succ n ih =>
    intro i fuel t hi hf hsz hocc
    obtain ⟨f, rfl⟩ : ∃ f, fuel = f + 1 := ⟨fuel - 1, by omega⟩
    have hlt : (i : Int) < t.array_size := by rw [hsz]; omega
    obtain ⟨t', h1, h2, h3, h4, h5, h6, h7, h8⟩ :=
      ih (i + 1) f { t with occupied := t.occupied.set i .UNOCCUPIED } (by omega) (by omega)
        hsz (by simp [hocc])
    refine ⟨t', ?_, h2, h3, h4, h5, h6, ?_, ?_⟩
    · simp only [clear_loop, hlt, if_true,
        store_cast _ _ _ (show i < t.occupied.length by omega), bind, Except.bind]
      simpa using h1
    · intro b hb
      rw [h7 b (by omega)]
      exact List.getElem?_set_ne (by omega)
    · intro b hb1 hb2
      rcases Nat.lt_or_eq_of_le hb1 with h | h
      · exact h8 b (by omega) hb2
      · subst h
        rw [h7 i (by omega)]
        exact List.getElem?_set_self (by omega)


/-- The fuel is one more than the number of bins. -/
theorem fuel_eq (t : Quadratic_hash_table) (M : Nat) (hsz : t.array_size = (M : Int)) :
    t.fuel = M + 1 := by
  simp [fuel, hsz]

/-- On a well-formed table `member` returns, and returns true exactly when the
probing finds the value. -/
theorem member_spec (t : Quadratic_hash_table) (x : Int) (hwf : Well_formed t) :
    ∃ b, t.member x = .ok b ∧ (b = true ↔ Found t x) := by
  obtain ⟨p, hsz, harr, hocc, hcount, hsome, hfound, hnodup⟩ := hwf
  have hM : 0 < 2 ^ p := Nat.pos_pow_of_pos _ (by decide)
  have := member_loop_finds t x (2 ^ p) hM hsz hocc harr hsome (2 ^ p) 0 t.fuel (by omega)
    (by rw [fuel_eq t _ hsz]; omega) (fun i hi => by omega)
  simpa [member, hash_eq t x _ hM hsz, bin_after] using this

/-- The probing finds in `u` what it finds in `t` when the bins that hold the
value in `t` hold it in `u` and the bins `UNOCCUPIED` in `u` are so in `t`. -/
theorem found_congr (t u : Quadratic_hash_table) (y : Int)
    (hlen : u.occupied.length = t.occupied.length)
    (hst : ∀ b : Nat, stored_at t b y → stored_at u b y)
    (hun : ∀ b : Nat, u.occupied[b]? = some .UNOCCUPIED → t.occupied[b]? = some .UNOCCUPIED) :
    Found t y → Found u y := by
  rintro ⟨j, hj, h1, h2⟩
  refine ⟨j, by omega, ?_, ?_⟩
  · rw [hlen]; exact hst _ h1
  · intro i hi hu
    rw [hlen] at hu
    exact h2 i hi (hun _ hu)

/-- Marking a bin that was not `OCCUPIED` as `OCCUPIED` adds one to their
number. -/
theorem count_set_occupied (l : List bin_state_t) (b : Nat) (s : bin_state_t)
    (hs : l[b]? = some s) (hne : s ≠ .OCCUPIED) :
    (l.set b .OCCUPIED).count .OCCUPIED = l.count .OCCUPIED + 1 := by
  induction l generalizing b with
  | nil => simp at hs
  | cons a l ih =>
    cases b with
    | zero =>
      simp only [List.getElem?_cons_zero, Option.some.injEq] at hs
      subst hs
      simp [List.set, List.count_cons, hne]
    | succ b =>
      simp only [List.getElem?_cons_succ] at hs
      simp [List.set, List.count_cons, ih b hs]
      omega

/-- Marking an `OCCUPIED` bin as `ERASED` takes one from their number. -/
theorem count_set_erased (l : List bin_state_t) (b : Nat)
    (hs : l[b]? = some .OCCUPIED) :
    (l.set b .ERASED).count .OCCUPIED + 1 = l.count .OCCUPIED := by
  induction l generalizing b with
  | nil => simp at hs
  | cons a l ih =>
    cases b with
    | zero =>
      simp only [List.getElem?_cons_zero, Option.some.injEq] at hs
      subst hs
      simp [List.set, List.count_cons]
    | succ b =>
      simp only [List.getElem?_cons_succ] at hs
      have := ih b hs
      simp [List.set, List.count_cons]
      omega

/-- The constructor yields a well-formed table. -/
theorem new_well_formed (m : Int) : Well_formed (new m) := by
  generalize hq : (if m ≥ 0 then m else 5).toNat = q
  have hpow : ((2 : Int) ^ q).toNat = 2 ^ q := by
    have : ((2 : Int) ^ q) = ((2 ^ q : Nat) : Int) := by push_cast; rfl
    rw [this, Int.toNat_natCast]
  have hocc : (new m).occupied = List.replicate (2 ^ q) bin_state_t.UNOCCUPIED := by
    simp only [new, hq, hpow]
  have harr : (new m).array = List.replicate (2 ^ q) none := by
    simp only [new, hq, hpow]
  have hun : ∀ b : Nat, (new m).occupied[b]? ≠ some bin_state_t.OCCUPIED := by
    intro b hb
    rw [hocc, List.getElem?_replicate] at hb
    split_ifs at hb
    cases hb
  refine ⟨q, ?_, ?_, ?_, ?_, ?_, ?_, ?_⟩
  · simp only [new, hq]; push_cast; rfl
  · rw [harr]; simp
  · rw [hocc]; simp
  · rw [hocc]; simp [new, List.count_replicate]
  · intro b hb; exact absurd hb (hun b)
  · rintro b y ⟨hb, _⟩; exact absurd hb (hun b)
  · rintro b c y ⟨hb, _⟩; exact absurd hb (hun b)

/-- On a well-formed table `clear` returns a well-formed table. -/
theorem clear_well_formed (t : Quadratic_hash_table) (hwf : Well_formed t) :
    ∃ t', t.clear = .ok t' ∧ Well_formed t' := by
  obtain ⟨p, hsz, harr, hocc, hcount, hsome, hfound, hnodup⟩ := hwf
  obtain ⟨t', h1, h2, h3, h4, h5, h6, h7, h8⟩ :=
    clear_loop_spec (2 ^ p) (2 ^ p) 0 t.fuel t (by omega) (by rw [fuel_eq t _ hsz]; omega)
      hsz hocc
  have hun : ∀ b : Nat, t'.occupied[b]? ≠ some .OCCUPIED := by
    intro b hb
    by_cases hlt : b < 2 ^ p
    · rw [h8 b (by omega) hlt] at hb; cases hb
    · rw [List.getElem?_eq_none (by omega)] at hb; cases hb
  simp only [Nat.cast_zero] at h1
  refine ⟨{ t' with count := 0, countErased := 0 },
    by simp [clear, h1, bind, Except.bind, pure, Except.pure], p, ?_, ?_, ?_, ?_, ?_, ?_, ?_⟩
  · exact h2.trans hsz
  · show t'.array.length = 2 ^ p
    rw [h3]; exact harr
  · exact h6
  · show (0 : Int) = ((t'.occupied.count bin_state_t.OCCUPIED : Nat) : Int)
    have : t'.occupied.count bin_state_t.OCCUPIED = 0 := by
      rw [List.count_eq_zero]
      intro hm
      obtain ⟨b, hb, hbs⟩ := List.mem_iff_getElem.mp hm
      exact hun b (by rw [List.getElem?_eq_getElem hb, hbs])
    rw [this]; rfl
  · intro b hb; exact absurd hb (hun b)
  · rintro b y ⟨hb, _⟩; exact absurd hb (hun b)
  · rintro b c y ⟨hb, _⟩; exact absurd hb (hun b)

/-- On a well-formed table that is not full `insert` returns a well-formed
table in which the probing finds the value and whatever it found before; the
size grows by one unless the value was a member. -/
theorem insert_spec (t : Quadratic_hash_table) (x : Int) (hwf : Well_formed t)
    (hlt : t.size < t.capacity) :
    ∃ b t', t.member x = .ok b ∧ t.insert x = .ok t' ∧ Well_formed t'
      ∧ Found t' x ∧ t'.size = (if b = true then t.size else t.size + 1)
      ∧ t'.capacity = t.capacity
      ∧ ∀ y, Found t y → Found t' y := by
  obtain ⟨b, hb, hbf⟩ := member_spec t x hwf
  have hne : ¬ t.size = t.capacity := by omega
  have hlt' : t.count < t.array_size := hlt
  cases b with
  | true =>
    refine ⟨true, t, hb, ?_, hwf, hbf.mp rfl, by simp, rfl, fun y h => h⟩
    simp [insert, hne, hlt', hb, bind, Except.bind, pure, Except.pure]
  | false =>
    have hnf : ¬ Found t x := fun h => by cases hbf.mpr h
    obtain ⟨p, hsz, harr, hocc, hcount, hsome, hfound, hnodup⟩ := hwf
    have hM : 0 < 2 ^ p := Nat.pos_pow_of_pos _ (by decide)
    have hc : t.occupied.count bin_state_t.OCCUPIED < 2 ^ p := by
      have : t.count < ((2 ^ p : Nat) : Int) := hsz ▸ hlt'
      rw [hcount] at this
      exact_mod_cast this
    obtain ⟨j0, hj0, hfree⟩ := exists_free_bin p x t.occupied hocc hc
    obtain ⟨j, s, hj, hs, hso, hbefore, hloop⟩ :=
      insert_loop_places t x (2 ^ p) hM hsz hocc harr (2 ^ p) 0 t.fuel (by omega)
        (by rw [fuel_eq t _ hsz]; omega) (fun i hi => by omega) ⟨j0, by omega, hj0, hfree⟩
    have hp := probe_lt (2 ^ p) x j hM
    generalize hb0 : probe (2 ^ p) x j = b0 at hs hbefore hloop hp
    have hocc' : ∀ c : Nat, (t.occupied.set b0 bin_state_t.OCCUPIED)[c]?
        = if b0 = c then some bin_state_t.OCCUPIED else t.occupied[c]? := by
      intro c
      rw [List.getElem?_set]
      split_ifs with h1 h2
      · rfl
      · omega
      · rfl
    have harr' : ∀ c : Nat, (t.array.set b0 (some x))[c]?
        = if b0 = c then some (some x) else t.array[c]? := by
      intro c
      rw [List.getElem?_set]
      split_ifs with h1 h2
      · rfl
      · omega
      · rfl
    obtain ⟨t', ht'⟩ : ∃ t' : Quadratic_hash_table, t' =
        { t with array := t.array.set b0 (some x), count := t.count + 1,
                 countErased := if s = .ERASED then t.countErased - 1 else t.countErased,
                 occupied := t.occupied.set b0 .OCCUPIED } := ⟨_, rfl⟩
    rw [← ht'] at hloop
    simp only [Nat.cast_zero] at hloop
    refine ⟨false, t', hb, ?_, ?_⟩
    · simpa [insert, hne, hlt', hb, bind, Except.bind, pure, Except.pure,
        hash_eq t x _ hM hsz, bin_after] using hloop
    · -- the table after the call
      have e1 : t'.occupied = t.occupied.set b0 .OCCUPIED := by rw [ht']
      have e2 : t'.array = t.array.set b0 (some x) := by rw [ht']
      have e3 : t'.count = t.count + 1 := by rw [ht']
      have e4 : t'.array_size = t.array_size := by rw [ht']
      have hlen : t'.occupied.length = t.occupied.length := by rw [e1]; simp
      have hkeep : ∀ (c : Nat) (y : Int), stored_at t c y → stored_at t' c y := by
        rintro c y ⟨h1, h2⟩
        have hcb : b0 ≠ c := by
          intro h; subst h
          rw [hs] at h1
          exact hso (Option.some.inj h1)
        exact ⟨by rw [e1, hocc', if_neg hcb]; exact h1, by rw [e2, harr', if_neg hcb]; exact h2⟩
      have hmono : ∀ y, Found t y → Found t' y := by
        intro y
        apply found_congr t t' y hlen (fun c => hkeep c y)
        intro c hc
        rw [e1, hocc'] at hc
        split_ifs at hc with h
        · cases hc
        · exact hc
      have hfx : Found t' x := by
        refine ⟨j, by rw [hlen, hocc]; exact hj, ?_, ?_⟩
        · rw [hlen, hocc, hb0]
          exact ⟨by rw [e1, hocc', if_pos rfl], by rw [e2, harr', if_pos rfl]⟩
        · intro i hi
          rw [hlen, hocc, e1, hocc']
          split_ifs
          · simp
          · rw [hbefore i hi]; simp
      refine ⟨⟨p, e4.trans hsz, by rw [e2]; simpa using harr, by rw [hlen]; exact hocc, ?_, ?_,
        ?_, ?_⟩, hfx, by simpa [size] using e3, e4, hmono⟩
      · rw [e3, e1, count_set_occupied _ _ _ hs hso, hcount]
        push_cast; rfl
      · intro c hc
        rw [e1, hocc'] at hc
        rw [e2, harr']
        split_ifs at hc ⊢ with h
        · exact ⟨x, rfl⟩
        · exact hsome c hc
      · rintro c y ⟨h1, h2⟩
        rw [e1, hocc'] at h1
        rw [e2, harr'] at h2
        split_ifs at h1 h2 with h
        · have : y = x := (Option.some.inj (Option.some.inj h2)).symm
          subst this
          exact hfx
        · exact hmono y (hfound c y ⟨h1, h2⟩)
      · rintro c d y ⟨h1, h2⟩ ⟨h3, h4⟩
        rw [e1, hocc'] at h1 h3
        rw [e2, harr'] at h2 h4
        by_cases hc : b0 = c
        · by_cases hd : b0 = d
          · omega
          · exfalso
            rw [if_pos hc] at h2
            rw [if_neg hd] at h3 h4
            have : y = x := (Option.some.inj (Option.some.inj h2)).symm
            subst this
            exact hnf (hfound d y ⟨h3, h4⟩)
        · by_cases hd : b0 = d
          · exfalso
            rw [if_pos hd] at h4
            rw [if_neg hc] at h1 h2
            have : y = x := (Option.some.inj (Option.some.inj h4)).symm
            subst this
            exact hnf (hfound c y ⟨h1, h2⟩)
          · rw [if_neg hc] at h1 h2
            rw [if_neg hd] at h3 h4
            exact hnodup c d y ⟨h1, h2⟩ ⟨h3, h4⟩


/-- On a well-formed table `erase` returns what `member` returns and leaves a
well-formed table in which the probing no longer finds the value and finds
every other value exactly when it did before; the size drops by one when the
value was a member, and otherwise nothing is written. -/
theorem erase_spec (t : Quadratic_hash_table) (x : Int) (hwf : Well_formed t) :
    ∃ b t', t.member x = .ok b ∧ t.erase x = .ok (b, t') ∧ Well_formed t'
      ∧ ¬ Found t' x ∧ t'.size = (if b = true then t.size - 1 else t.size)
      ∧ (∀ y, y ≠ x → (Found t' y ↔ Found t y)) := by
  obtain ⟨b, hb, hbf⟩ := member_spec t x hwf
  obtain ⟨p, hsz, harr, hocc, hcount, hsome, hfound, hnodup⟩ := id hwf
  have hM : 0 < 2 ^ p := Nat.pos_pow_of_pos _ (by decide)
  obtain ⟨c, t', h1, h2, h3, h4⟩ :=
    erase_loop_finds t x (2 ^ p) hM hsz hocc harr hsome (2 ^ p) 0 t.fuel (by omega)
      (by rw [fuel_eq t _ hsz]; omega) (fun i hi => by omega)
  simp only [Nat.cast_zero] at h1
  have hcb : c = b := by
    cases c <;> cases b <;> simp_all
  subst hcb
  have herase : t.erase x = .ok (c, t') := by
    simpa [erase, hash_eq t x _ hM hsz, bin_after] using h1
  cases c with
  | false =>
    have := h3 rfl
    subst this
    exact ⟨false, t', hb, herase, hwf, (fun h => by cases hbf.mpr h), by simp, fun y _ => Iff.rfl⟩
  | true =>
    obtain ⟨b0, hst, ht'⟩ := h4 rfl
    have hb0 : b0 < t.occupied.length := by
      by_contra hn
      have := hst.1
      rw [List.getElem?_eq_none (by omega)] at this
      cases this
    have e1 : t'.occupied = t.occupied.set b0 .ERASED := by rw [ht']
    have e2 : t'.array = t.array := by rw [ht']
    have e3 : t'.count = t.count - 1 := by rw [ht']
    have e4 : t'.array_size = t.array_size := by rw [ht']
    have hlen : t'.occupied.length = t.occupied.length := by rw [e1]; simp
    have hocc' : ∀ d : Nat, t'.occupied[d]?
        = if b0 = d then some bin_state_t.ERASED else t.occupied[d]? := by
      intro d
      rw [e1, List.getElem?_set]
      simp only [hb0, if_true]
    have hback : ∀ (d : Nat) (y : Int), stored_at t' d y → b0 ≠ d ∧ stored_at t d y := by
      rintro d y ⟨g1, g2⟩
      rw [hocc'] at g1
      rw [e2] at g2
      split_ifs at g1 with g
      · cases g1
      · exact ⟨g, g1, g2⟩
    have hnot : ¬ Found t' x := by
      rintro ⟨j, _, g, _⟩
      obtain ⟨g1, g2⟩ := hback _ _ g
      exact g1 (hnodup _ _ x hst g2)
    have hiff : ∀ y, y ≠ x → (Found t' y ↔ Found t y) := by
      intro y hy
      constructor
      · apply found_congr t' t y hlen.symm (fun d g => (hback d y g).2)
        intro d hd
        rw [hocc']
        split_ifs with g
        · subst g
          rw [hst.1] at hd
          cases hd
        · exact hd
      · apply found_congr t t' y hlen
        · rintro d ⟨g1, g2⟩
          have hd : b0 ≠ d := by
            intro g; subst g
            rw [hst.2] at g2
            exact hy (Option.some.inj (Option.some.inj g2)).symm
          exact ⟨by rw [hocc', if_neg hd]; exact g1, by rw [e2]; exact g2⟩
        · intro d hd
          rw [hocc'] at hd
          split_ifs at hd with g
          · cases hd
          · exact hd
    refine ⟨true, t', hb, herase, ⟨p, e4.trans hsz, by rw [e2]; exact harr,
      by rw [hlen]; exact hocc, ?_, ?_, ?_, ?_⟩, hnot, by simpa [size] using e3, hiff⟩
    · have := count_set_erased t.occupied b0 hst.1
      rw [e3, e1, hcount]
      omega
    · intro d hd
      rw [hocc'] at hd
      rw [e2]
      split_ifs at hd with g
      · cases hd
      · exact hsome d hd
    · intro d y g
      obtain ⟨g1, g2⟩ := hback d y g
      have hy : y ≠ x := by
        intro h; subst h
        exact g1 (hnodup _ _ y hst g2)
      exact (hiff y hy).mpr (hfound d y g2)
    · intro d e y g g'
      exact hnodup d e y (hback d y g).2 (hback e y g').2

/-- Every series of calls on a well-formed table returns a well-formed
table. -/
theorem run_well_formed (ops : List Op) : ∀ (t : Quadratic_hash_table), Well_formed t →
    ∃ t', run t ops = .ok t' ∧ Well_formed t' := by
  induction ops with
  | nil => intro t h; exact ⟨t, rfl, h⟩
  | cons op ops ih =>
    intro t h
    have hstep : ∃ t1, t.step op = .ok t1 ∧ Well_formed t1 := by
      cases op with
      | insert x =>
        by_cases hfull : t.size = t.capacity
        · exact ⟨t, by simp [step, insert, hfull], h⟩
        · have hle : t.size ≤ t.capacity := by
            obtain ⟨p, hsz, harr, hocc, hcount, _⟩ := h
            have := List.count_le_length bin_state_t.OCCUPIED t.occupied
            simp only [size, capacity, hsz, hcount]
            rw [hocc] at this
            exact_mod_cast this
          obtain ⟨b, t1, _, h1, h2, _⟩ := insert_spec t x h (by omega)
          exact ⟨t1, by simp [step, h1], h2⟩
      | erase x =>
        obtain ⟨b, t1, _, h1, h2, _⟩ := erase_spec t x h
        exact ⟨t1, by simp [step, h1, bind, Except.bind, pure, Except.pure], h2⟩
      | clear =>
        obtain ⟨t1, h1, h2⟩ := clear_well_formed t h
        exact ⟨t1, by simp [step, h1], h2⟩
    obtain ⟨t1, h1, h2⟩ := hstep
    obtain ⟨t', h3, h4⟩ := ih t1 h2
    exact ⟨t', by simp [run, h1, bind, Except.bind, h3], h4⟩

/-- A table reached from the constructor by calls of `insert`, `erase` and
`clear` is well formed. -/
theorem well_formed_of_reachable (t : Quadratic_hash_table)
    (hr : ∃ m ops, run (new m) ops = .ok t) : Well_formed t := by
  obtain ⟨m, ops, h⟩ := hr
  obtain ⟨t', h1, h2⟩ := run_well_formed ops (new m) (new_well_formed m)
  rw [h] at h1
  cases h1
  exact h2

/-- C25.  For every table `t` reached from the constructor by calls of
`insert`, `erase` and `clear` with `size() < capacity()` and every value `x`:
`member(x)` and `insert(x)` return; in the table after the insert `member(x)` is
true; `size()` has grown by exactly 1 if `x` was not a member and is unchanged
if it was; and `member(y)` returns before and after for every `y`, true after
whenever it was true before. -/
theorem insert_makes_member (t : Quadratic_hash_table) (x : Int)
    (hr : ∃ m ops, run (new m) ops = .ok t) (hlt : t.size < t.capacity) :
    ∃ b t', t.member x = .ok b ∧ t.insert x = .ok t'
      ∧ t'.member x = .ok true
      ∧ t'.size = (if b = true then t.size else t.size + 1)
      ∧ ∀ y, ∃ c c', t.member y = .ok c ∧ t'.member y = .ok c' ∧ (c = true → c' = true) := by
  have hwf := well_formed_of_reachable t hr
  obtain ⟨b, t', h1, h2, h3, h4, h5, _, h7⟩ := insert_spec t x hwf hlt
  refine ⟨b, t', h1, h2, ?_, h5, ?_⟩
  · obtain ⟨c, hc, hcf⟩ := member_spec t' x h3
    rw [hc, hcf.mpr h4]
  · intro y
    obtain ⟨c, hc, hcf⟩ := member_spec t y hwf
    obtain ⟨c', hc', hcf'⟩ := member_spec t' y h3
    exact ⟨c, c', hc, hc', fun h => hcf'.mpr (h7 y (hcf.mp h))⟩

/-- C25 at a concrete input: the table of 4 bins reached by `insert(1)`,
`insert(5)`, `insert(9)`, `erase(5)` holds 2 values; on it the theorem gives
that `insert(13)` returns and makes 13 a member. -/
theorem insert_makes_member_witness :
    ∃ t, run (new 2) [.insert 1, .insert 5, .insert 9, .erase 5] = .ok t
      ∧ t.size < t.capacity
      ∧ ∃ b t', t.member 13 = .ok b ∧ t.insert 13 = .ok t'
        ∧ t'.member 13 = .ok true
        ∧ t'.size = (if b = true then t.size else t.size + 1)
        ∧ ∀ y, ∃ c c', t.member y = .ok c ∧ t'.member y = .ok c' ∧ (c = true → c' = true) :=
  ⟨_, rfl, by decide,
    insert_makes_member _ 13 ⟨2, [.insert 1, .insert 5, .insert 9, .erase 5], rfl⟩ (by decide)⟩

/-- C26.  For every table `t` reached from the constructor by calls of
`insert`, `erase` and `clear` and every value `x`: `erase(x)` returns, and
returns what `member(x)` returned before it; in the table after the erase
`member(x)` is false; `size()` has decreased by exactly 1 if the erase returned
true and is unchanged otherwise; and for every `y` other than `x`, `member(y)`
returns the same after as before. -/
theorem erase_removes_member (t : Quadratic_hash_table) (x : Int)
    (hr : ∃ m ops, run (new m) ops = .ok t) :
    ∃ b t', t.member x = .ok b ∧ t.erase x = .ok (b, t')
      ∧ t'.member x = .ok false
      ∧ t'.size = (if b = true then t.size - 1 else t.size)
      ∧ ∀ y, y ≠ x → ∃ c, t.member y = .ok c ∧ t'.member y = .ok c := by
  have hwf := well_formed_of_reachable t hr
  obtain ⟨b, t', h1, h2, h3, h4, h5, h6⟩ := erase_spec t x hwf
  refine ⟨b, t', h1, h2, ?_, h5, ?_⟩
  · obtain ⟨c, hc, hcf⟩ := member_spec t' x h3
    rw [hc]
    cases c with
    | false => rfl
    | true => exact absurd (hcf.mp rfl) h4
  · intro y hy
    obtain ⟨c, hc, hcf⟩ := member_spec t y hwf
    obtain ⟨c', hc', hcf'⟩ := member_spec t' y h3
    have : c' = c := by
      have := h6 y hy
      cases c <;> cases c' <;> simp_all
    subst this
    exact ⟨c', hc, hc'⟩

/-- C26 at a concrete input: on the table of 4 bins reached by `insert(1)`,
`insert(5)`, `insert(9)` the theorem gives that `erase(5)` returns what
`member(5)` returned and leaves a table in which 5 is not a member. -/
theorem erase_removes_member_witness :
    ∃ t, run (new 2) [.insert 1, .insert 5, .insert 9] = .ok t
      ∧ ∃ b t', t.member 5 = .ok b ∧ t.erase 5 = .ok (b, t')
        ∧ t'.member 5 = .ok false
        ∧ t'.size = (if b = true then t.size - 1 else t.size)
        ∧ ∀ y, y ≠ 5 → ∃ c, t.member y = .ok c ∧ t'.member y = .ok c :=
  ⟨_, rfl, erase_removes_member _ 5 ⟨2, [.insert 1, .insert 5, .insert 9], rfl⟩⟩

end Quadratic_hash_table

/-! ## Weighted_graph: the claims -/

namespace Array_fault

/-- A sequence of two steps that returns has returned from the first. -/
theorem bind_eq_ok {α β : Type} (x : Except Array_fault α) (f : α → Except Array_fault β)
    (b : β) (h : (x >>= f) = .ok b) : ∃ a, x = .ok a ∧ f a = .ok b := by
  cases x with
  | error e => cases h
  | ok a => exact ⟨a, rfl, h⟩

/-- A read that returns was given an index of a cell. -/
theorem fetch_eq_ok {α : Type} (a : List α) (i : Int) (v : α) (h : fetch a i = .ok v) :
    ∃ n : Nat, i = (n : Int) ∧ a[n]? = some v := by
  unfold fetch at h
  split_ifs at h with h0
  refine ⟨i.toNat, (Int.toNat_of_nonneg h0).symm, ?_⟩
  cases hg : a.get? i.toNat with
  | none => rw [hg] at h; cases h
  | some w =>
    rw [hg] at h
    cases h
    simpa using hg

/-- A write that returns was given an index of a cell. -/
theorem store_eq_ok {α : Type} (a : List α) (i : Int) (v : α) (b : List α)
    (h : store a i v = .ok b) : ∃ n : Nat, i = (n : Int) ∧ n < a.length ∧ b = a.set n v := by
  unfold store at h
  split_ifs at h with h0
  cases h
  exact ⟨i.toNat, (Int.toNat_of_nonneg h0.1).symm, h0.2, rfl⟩

end Array_fault

namespace Weighted_graph
open Array_fault (fetch store fetch_cast store_cast bind_eq_ok fetch_eq_ok store_eq_ok)

/-- Reading `vertex_visited[x]`. -/
theorem fetch_visited {W : Type} (g : Weighted_graph W) (x : Nat) (hx : x < g.vertex_visited.length) :
    fetch g.vertex_visited (x : Int) = .ok (visited_at g x) := by
  have h1 : g.vertex_visited[x]? = some g.vertex_visited[x] := List.getElem?_eq_getElem hx
  rw [fetch_cast _ _ _ h1]
  simp [visited_at, h1]

variable {W : Type} [LinearOrderedAddCommMonoidWithTop W]

/-- The queue has no top exactly when it is empty. -/
theorem top_eq_none (heap : List (Pair W)) : top heap = none ↔ heap = [] := by
  cases heap with
  | nil => simp [top]
  | cons p rest =>
    simp only [top]
    cases top rest with
    | none => simp
    | some q => dsimp only; split_ifs <;> simp

/-- The top of the queue is one of its pairs, and none has less weight. -/
theorem top_spec (heap : List (Pair W)) (q : Pair W) (h : top heap = some q) :
    q ∈ heap ∧ ∀ r ∈ heap, q.edge_weight ≤ r.edge_weight := by
  induction heap generalizing q with
  | nil => simp [top] at h
  | cons p rest ih =>
    simp only [top] at h
    cases ht : top rest with
    | none =>
      rw [ht] at h
      have hrest := (top_eq_none rest).mp ht
      subst hrest
      simp only [Option.some.injEq] at h
      subst h
      simp
    | some q' =>
      rw [ht] at h
      obtain ⟨h1, h2⟩ := ih q' ht
      dsimp only at h
      split_ifs at h with hlt
      · simp only [Option.some.injEq] at h
        subst h
        refine ⟨List.mem_cons_of_mem _ h1, ?_⟩
        intro r hr
        rcases List.mem_cons.mp hr with hr | hr
        · subst hr; exact le_of_lt hlt
        · exact h2 r hr
      · simp only [Option.some.injEq] at h
        subst h
        refine ⟨List.mem_cons_self _ _, ?_⟩
        intro r hr
        rcases List.mem_cons.mp hr with hr | hr
        · subst hr; exact le_refl _
        · exact le_trans (not_lt.mp hlt) (h2 r hr)

/-- Popping removes one pair, the top, and keeps the others. -/
theorem pop_spec (heap : List (Pair W)) (q : Pair W) (h : top heap = some q) :
    (pop heap).length + 1 = heap.length
    ∧ (∀ r ∈ pop heap, r ∈ heap)
    ∧ (∀ r ∈ heap, r = q ∨ r ∈ pop heap) := by
  induction heap generalizing q with
  | nil => simp [top] at h
  | cons p rest ih =>
    simp only [top] at h
    simp only [pop]
    cases ht : top rest with
    | none =>
      rw [ht] at h
      have hrest := (top_eq_none rest).mp ht
      subst hrest
      simp only [Option.some.injEq] at h
      subst h
      simp
    | some q' =>
      rw [ht] at h
      obtain ⟨h1, h2, h3⟩ := ih q' ht
      dsimp only at h ⊢
      split_ifs at h ⊢ with hlt
      · simp only [Option.some.injEq] at h
        subst h
        refine ⟨by simp only [List.length_cons]; omega, ?_, ?_⟩
        · intro r hr
          rcases List.mem_cons.mp hr with hr | hr
          · subst hr; exact List.mem_cons_self _ _
          · exact List.mem_cons_of_mem _ (h2 r hr)
        · intro r hr
          rcases List.mem_cons.mp hr with hr | hr
          · subst hr; exact Or.inr (List.mem_cons_self _ _)
          · rcases h3 r hr with h4 | h4
            · exact Or.inl h4
            · exact Or.inr (List.mem_cons_of_mem _ h4)
      · simp only [Option.some.injEq] at h
        subst h
        refine ⟨rfl, fun r hr => List.mem_cons_of_mem _ hr, ?_⟩
        intro r hr
        rcases List.mem_cons.mp hr with hr | hr
        · exact Or.inl hr
        · exact Or.inr hr

/-- The weight of the edge between `a` and `b` is that between `b` and `a`. -/
theorem edge_comm (g : Weighted_graph W) (a b : Nat) : edge g a b = edge g b a := by
  unfold edge
  rcases Nat.lt_trichotomy a b with h | h | h
  · simp [h, Nat.lt_asymm h]
  · subst h; simp
  · simp [h, Nat.lt_asymm h]

/-- The edges are read from the matrix alone. -/
theorem edge_congr (g g' : Weighted_graph W) (h : g'.matrix = g.matrix) (a b : Nat) :
    edge g' a b = edge g a b := by
  unfold edge
  rw [h]

/-- The weight of a sequence of vertices is read from the matrix alone. -/
theorem walk_weight_congr (g g' : Weighted_graph W) (h : g'.matrix = g.matrix) :
    ∀ p : List Nat, walk_weight g' p = walk_weight g p := by
  intro p
  induction p with
  | nil => rfl
  | cons a rest ih =>
    cases rest with
    | nil => rfl
    | cons b rest => simp only [walk_weight, ih, edge_congr g g' h]

/-- No sequence of vertices has negative weight. -/
theorem walk_weight_nonneg (g : Weighted_graph W) (hE : ∀ a b : Nat, 0 ≤ edge g a b) :
    ∀ p : List Nat, 0 ≤ walk_weight g p := by
  intro p
  induction p with
  | nil => exact le_refl _
  | cons a rest ih =>
    cases rest with
    | nil => exact le_refl _
    | cons b rest => exact add_nonneg (hE a b) ih

/-- No edge of a well-shaped graph has negative weight. -/
theorem edge_nonneg (g : Weighted_graph W) (N : Nat) (hs : Shaped g N) (a b : Nat) :
    0 ≤ edge g a b := by
  have hcell : ∀ i j : Nat, 0 ≤ (g.matrix.getD i []).getD j ⊤ := by
    intro i j
    rw [List.getD_eq_getElem?_getD, List.getD_eq_getElem?_getD]
    cases hrow : g.matrix[i]? with
    | none => simp
    | some row =>
      cases hv : row[j]? with
      | none => simp [hv]
      | some v =>
        simp only [Option.getD_some, hv]
        exact hs.2.2.2.2.2.2.2 row (List.getElem?_mem hrow) v (List.getElem?_mem hv)
  unfold edge
  split_ifs
  · exact hcell a b
  · exact hcell b a
  · exact le_top

/-- Reading `matrix[a][b]` below the diagonal of a well-shaped graph. -/
theorem cell_eq (g : Weighted_graph W) (N a b : Nat) (hs : Shaped g N) (hab : b < a)
    (ha : a < N) : g.cell (a : Int) (b : Int) = .ok (edge g a b) := by
  obtain ⟨_, hlen, hrow, _⟩ := hs
  have h1 : g.matrix[a]? = some g.matrix[a] := List.getElem?_eq_getElem (by omega)
  have h2 := hrow a _ h1
  have h3 : (g.matrix[a])[b]? = some (g.matrix[a])[b] := List.getElem?_eq_getElem (by omega)
  simp only [cell, fetch_cast _ _ _ h1, fetch_cast _ _ _ h3, bind, Except.bind]
  simp [edge, hab, List.getD_eq_getElem?_getD, h1, h3]

/-- Reading `vertex_distances[x]`. -/
theorem fetch_dist (g : Weighted_graph W) (x : Nat) (hx : x < g.vertex_distances.length) :
    fetch g.vertex_distances (x : Int) = .ok (dist_at g x) := by
  have h1 : g.vertex_distances[x]? = some g.vertex_distances[x] := List.getElem?_eq_getElem hx
  rw [fetch_cast _ _ _ h1]
  simp [dist_at, h1]


/-- Reading a list after one of its cells was assigned. -/
theorem getD_set {α : Type} (l : List α) (i x : Nat) (v d : α) (hi : i < l.length) :
    ((l.set i v)[x]?).getD d = if x = i then v else (l[x]?).getD d := by
  rw [List.getElem?_set]
  by_cases h : i = x
  · subst h; simp [hi]
  · rw [if_neg h, if_neg (fun h' : x = i => h h'.symm)]

/-- A graph with the matrix and the array lengths of a well-shaped graph is
well shaped. -/
theorem shaped_of_eq (g g' : Weighted_graph W) (N : Nat) (hs : Shaped g N)
    (h1 : g'.graph_size = g.graph_size) (h2 : g'.matrix = g.matrix)
    (h3 : g'.vertex_distances.length = g.vertex_distances.length)
    (h4 : g'.vertex_visited.length = g.vertex_visited.length)
    (h5 : g'.previous_vertex.length = g.previous_vertex.length)
    (h6 : g'.vertex_degree.length = g.vertex_degree.length) : Shaped g' N := by
  obtain ⟨a1, a2, a3, a4, a5, a6, a7, a8⟩ := hs
  exact ⟨h1.trans a1, by rw [h2]; exact a2, by rw [h2]; exact a3, h3.trans a4, h4.trans a5,
    h5.trans a6, h6.trans a7, by rw [h2]; exact a8⟩

/-- The first loop of `distance` marks the vertices from `i` on as not visited
and at distance `INF`. -/
theorem init_loop_spec (N : Nat) :
    ∀ (n i fuel : Nat) (g : Weighted_graph W), i + n = N → n < fuel → Shaped g N →
      ∃ g', init_loop fuel g (i : Int) = .ok g' ∧ Shaped g' N ∧ g'.matrix = g.matrix
        ∧ g'.vertex_degree = g.vertex_degree ∧ g'.edges = g.edges
        ∧ (∀ x, x < i → dist_at g' x = dist_at g x ∧ visited_at g' x = visited_at g x)
        ∧ (∀ x, i ≤ x → x < N → dist_at g' x = ⊤ ∧ visited_at g' x = false) := by
  intro n
  induction n with
  | zero =>
    intro i fuel g hi hf hs
    obtain ⟨f, rfl⟩ : ∃ f, fuel = f + 1 := ⟨fuel - 1, by omega⟩
    have : ¬ ((i : Int) < g.graph_size) := by rw [hs.1]; omega
    exact ⟨g, by simp [init_loop, this, pure, Except.pure], hs, rfl, rfl, rfl,
      fun _ _ => ⟨rfl, rfl⟩, fun x h1 h2 => by omega⟩
  | succ n ih =>
    intro i fuel g hi hf hs
    obtain ⟨f, rfl⟩ : ∃ f, fuel = f + 1 := ⟨fuel - 1, by omega⟩
    have hlt : (i : Int) < g.graph_size := by rw [hs.1]; omega
    obtain ⟨a1, a2, a3, a4, a5, a6, a7, a8⟩ := id hs
    obtain ⟨g', h1, h2, h3, h4, h5, h6, h7⟩ :=
      ih (i + 1) f { g with vertex_visited := g.vertex_visited.set i false,
                            vertex_distances := g.vertex_distances.set i ⊤,
                            previous_vertex := g.previous_vertex.set i (-1) }
        (by omega) (by omega)
        (shaped_of_eq g _ N hs rfl rfl (by simp) (by simp) (by simp) rfl)
    refine ⟨g', ?_, h2, h3, h4, h5, ?_, ?_⟩
    · simp only [init_loop, hlt, if_true,
        store_cast _ _ _ (show i < g.vertex_visited.length by omega),
        store_cast _ _ _ (show i < g.vertex_distances.length by omega),
        store_cast _ _ _ (show i < g.previous_vertex.length by omega), bind, Except.bind]
      simpa using h1
    · intro x hx
      obtain ⟨b1, b2⟩ := h6 x (by omega)
      refine ⟨b1.trans ?_, b2.trans ?_⟩
      · simp only [dist_at]
        rw [getD_set _ _ _ _ _ (by omega), if_neg (by omega)]
      · simp only [visited_at]
        rw [getD_set _ _ _ _ _ (by omega), if_neg (by omega)]
    · intro x hx1 hx2
      rcases Nat.lt_or_eq_of_le hx1 with h | h
      · exact h7 x (by omega) hx2
      · subst h
        obtain ⟨b1, b2⟩ := h6 i (by omega)
        refine ⟨b1.trans ?_, b2.trans ?_⟩
        · simp only [dist_at]
          rw [getD_set _ _ _ _ _ (by omega), if_pos rfl]
        · simp only [visited_at]
          rw [getD_set _ _ _ _ _ (by omega), if_pos rfl]

/-- The test of one edge in the inner loop of `distance`: the distance of `i`
becomes the lesser of what it was and the distance of the current vertex plus
the weight of the edge, and a pair is pushed when it has become less. -/
theorem relax_spec (g : Weighted_graph W) (heap : List (Pair W)) (N cur i : Nat)
    (hs : Shaped g N) (hcur : cur < N) (hi : i < N) :
    ∃ g1 heap1, relax g heap (cur : Int) (i : Int) (edge g cur i) = .ok (g1, heap1)
      ∧ Shaped g1 N ∧ g1.matrix = g.matrix ∧ g1.vertex_visited = g.vertex_visited
      ∧ g1.vertex_degree = g.vertex_degree ∧ g1.edges = g.edges
      ∧ (∀ x, x ≠ i → dist_at g1 x = dist_at g x)
      ∧ dist_at g1 i = min (dist_at g i) (dist_at g cur + edge g cur i)
      ∧ ((dist_at g1 i < dist_at g i ∧ heap1 = heap ++ [⟨dist_at g1 i, (i : Int)⟩])
          ∨ (dist_at g1 i = dist_at g i ∧ heap1 = heap)) := by
  obtain ⟨a1, a2, a3, a4, a5, a6, a7, a8⟩ := id hs
  by_cases hlt : dist_at g cur + edge g cur i < dist_at g i
  · have hne : edge g cur i ≠ ⊤ := by
      intro h
      rw [h, add_top] at hlt
      exact not_top_lt hlt
    refine ⟨{ g with vertex_distances := g.vertex_distances.set i (dist_at g cur + edge g cur i),
                     previous_vertex := g.previous_vertex.set i (cur : Int) },
      heap ++ [⟨dist_at g cur + edge g cur i, (i : Int)⟩], ?_, ?_, rfl, rfl, rfl, rfl, ?_, ?_, ?_⟩
    · have hset : fetch (g.vertex_distances.set i (dist_at g cur + edge g cur i)) (i : Int)
          = .ok (dist_at g cur + edge g cur i) :=
        fetch_cast _ _ _ (List.getElem?_set_self (by omega))
      simp only [relax, ne_eq, hne, not_false_eq_true, if_true,
        fetch_dist g cur (by omega), fetch_dist g i (by omega), hlt,
        store_cast _ _ _ (show i < g.vertex_distances.length by omega),
        store_cast _ _ _ (show i < g.previous_vertex.length by omega), hset, bind, Except.bind,
        pure, Except.pure, push]
    · exact shaped_of_eq g _ N hs rfl rfl (by simp) rfl (by simp) rfl
    · intro x hx
      simp only [dist_at]
      rw [getD_set _ _ _ _ _ (by omega), if_neg hx]
    · simp only [dist_at]
      rw [getD_set _ _ _ _ _ (by omega), if_pos rfl]
      exact (min_eq_right (le_of_lt hlt)).symm
    · left
      have : dist_at ({ g with
          vertex_distances := g.vertex_distances.set i (dist_at g cur + edge g cur i),
          previous_vertex := g.previous_vertex.set i (cur : Int) } : Weighted_graph W) i
          = dist_at g cur + edge g cur i := by
        simp only [dist_at]
        rw [getD_set _ _ _ _ _ (by omega), if_pos rfl]
      rw [this]
      exact ⟨hlt, rfl⟩
  · refine ⟨g, heap, ?_, hs, rfl, rfl, rfl, rfl, fun _ _ => rfl,
      (min_eq_left (not_lt.mp hlt)).symm, Or.inr ⟨rfl, rfl⟩⟩
    by_cases hne : edge g cur i = ⊤
    · simp [relax, hne, pure, Except.pure]
    · simp only [relax, ne_eq, hne, not_false_eq_true, if_true,
        fetch_dist g cur (by omega), fetch_dist g i (by omega), hlt, if_false, bind, Except.bind,
        pure, Except.pure]


/-- The inner loop of `distance`, run for a current vertex that is marked as
visited: the distance of every vertex from `i` on that is not visited becomes
the lesser of what it was and the distance of the current vertex plus the
weight of the edge; a pair is pushed for every vertex whose distance has become
less, and nothing else is pushed. -/
theorem relax_loop_spec (N cur : Nat) (hcur : cur < N) :
    ∀ (n i fuel : Nat) (g : Weighted_graph W) (heap : List (Pair W)), i + n = N → n < fuel →
      Shaped g N → visited_at g cur = true →
      ∃ g' heap', relax_loop fuel g heap (cur : Int) (i : Int) = .ok (g', heap')
        ∧ Shaped g' N ∧ g'.matrix = g.matrix ∧ g'.vertex_visited = g.vertex_visited
        ∧ g'.vertex_degree = g.vertex_degree ∧ g'.edges = g.edges
        ∧ (∀ x, x < i ∨ visited_at g x = true → dist_at g' x = dist_at g x)
        ∧ (∀ x, i ≤ x → x < N → visited_at g x = false →
            dist_at g' x = min (dist_at g x) (dist_at g cur + edge g cur x))
        ∧ (∀ q ∈ heap', q ∈ heap ∨ ∃ x, x < N ∧ visited_at g x = false
            ∧ q = ⟨dist_at g' x, (x : Int)⟩ ∧ dist_at g' x < dist_at g x)
        ∧ (∀ q ∈ heap, q ∈ heap')
        ∧ (∀ x, x < N → dist_at g' x < dist_at g x →
            (⟨dist_at g' x, (x : Int)⟩ : Pair W) ∈ heap')
        ∧ heap'.length ≤ heap.length + n := by
  intro n
  induction n with
  | zero =>
    intro i fuel g heap hi hf hs hv
    obtain ⟨f, rfl⟩ : ∃ f, fuel = f + 1 := ⟨fuel - 1, by omega⟩
    have : ¬ ((i : Int) < g.graph_size) := by rw [hs.1]; omega
    refine ⟨g, heap, by simp [relax_loop, this, pure, Except.pure], hs, rfl, rfl, rfl, rfl,
      fun _ _ => rfl, fun x h1 h2 => by omega, fun q hq => Or.inl hq, fun q hq => hq,
      fun x _ h => absurd h (lt_irrefl _), le_refl _⟩
  | succ n ih =>
    intro i fuel g heap hi hf hs hv
    obtain ⟨f, rfl⟩ : ∃ f, fuel = f + 1 := ⟨fuel - 1, by omega⟩
    have hlt : (i : Int) < g.graph_size := by rw [hs.1]; omega
    have hiN : i < N := by omega
    -- the round for `i`
    have hround : ∃ g1 heap1,
        (∀ r, relax_loop f g1 heap1 (cur : Int) ((i : Int) + 1) = r →
          relax_loop (f + 1) g heap (cur : Int) (i : Int) = r)
        ∧ Shaped g1 N ∧ g1.matrix = g.matrix ∧ g1.vertex_visited = g.vertex_visited
        ∧ g1.vertex_degree = g.vertex_degree ∧ g1.edges = g.edges
        ∧ (∀ x, x ≠ i → dist_at g1 x = dist_at g x)
        ∧ (visited_at g i = true → dist_at g1 i = dist_at g i)
        ∧ (visited_at g i = false →
            dist_at g1 i = min (dist_at g i) (dist_at g cur + edge g cur i))
        ∧ ((visited_at g i = false ∧ dist_at g1 i < dist_at g i
              ∧ heap1 = heap ++ [⟨dist_at g1 i, (i : Int)⟩])
            ∨ (dist_at g1 i = dist_at g i ∧ heap1 = heap)) := by
      cases hvi : visited_at g i with
      | true =>
        refine ⟨g, heap, ?_, hs, rfl, rfl, rfl, rfl, fun _ _ => rfl, fun _ => rfl,
          (fun h => by cases h), Or.inr ⟨rfl, rfl⟩⟩
        intro r hr
        simp only [relax_loop, hlt, if_true, fetch_visited g i (by rw [hs.2.2.2.2.1]; exact hiN),
          hvi, bind, Except.bind]
        simpa using hr
      | false =>
        have hne : i ≠ cur := by
          intro h; subst h; rw [hv] at hvi; cases hvi
        obtain ⟨g1, heap1, h1, h2, h3, h4, h5, h6, h7, h8, h9⟩ :=
          relax_spec g heap N cur i hs hcur hiN
        refine ⟨g1, heap1, ?_, h2, h3, h4, h5, h6, h7, (fun h => by cases h), fun _ => h8, ?_⟩
        · intro r hr
          rcases Nat.lt_or_gt_of_ne hne with hic | hic
          · have c1 : (i : Int) < (cur : Int) := by omega
            simp only [relax_loop, hlt, if_true,
              fetch_visited g i (by rw [hs.2.2.2.2.1]; exact hiN), hvi, bind, Except.bind,
              c1, cell_eq g N cur i hs hic hcur, h1]
            simpa using hr
          · have c1 : ¬ (i : Int) < (cur : Int) := by omega
            have c2 : (i : Int) > (cur : Int) := by omega
            have hcell := cell_eq g N i cur hs hic hiN
            rw [edge_comm] at hcell
            simp only [relax_loop, hlt, if_true,
              fetch_visited g i (by rw [hs.2.2.2.2.1]; exact hiN), hvi, bind, Except.bind,
              c1, c2, if_false, hcell, h1]
            simpa using hr
        · rcases h9 with ⟨h10, h11⟩ | h10
          · exact Or.inl ⟨rfl, h10, h11⟩
          · exact Or.inr h10
    obtain ⟨g1, heap1, hrun, b1, b2, b3, b4, b5, b6, b7, b8, b9⟩ := hround
    have hvis1 : ∀ x, visited_at g1 x = visited_at g x := by
      intro x; simp only [visited_at, b3]
    have hedge1 : ∀ a b, edge g1 a b = edge g a b := edge_congr g g1 b2
    obtain ⟨g', heap', c0, c1, c2, c3, c4, c5, c6, c7, c8, c9, c10, c11⟩ :=
      ih (i + 1) f g1 heap1 (by omega) (by omega) b1 (by rw [hvis1]; exact hv)
    have hcur1 : dist_at g1 cur = dist_at g cur := by
      by_cases h : cur = i
      · subst h; exact b7 hv
      · exact b6 cur h
    have hle1 : ∀ x, dist_at g1 x ≤ dist_at g x := by
      intro x
      by_cases h : x = i
      · subst h
        cases hvi : visited_at g x with
        | true => exact le_of_eq (b7 hvi)
        | false => rw [b8 hvi]; exact min_le_left _ _
      · exact le_of_eq (b6 x h)
    have hi' : dist_at g' i = dist_at g1 i := c6 i (Or.inl (by omega))
    refine ⟨g', heap', hrun _ (by simpa using c0), c1, c2.trans b2, c3.trans b3, c4.trans b4,
      c5.trans b5, ?_, ?_, ?_, ?_, ?_, ?_⟩
    · rintro x (hx | hx)
      · rw [c6 x (Or.inl (by omega)), b6 x (by omega)]
      · rw [c6 x (Or.inr (by rw [hvis1]; exact hx))]
        by_cases h : x = i
        · subst h; exact b7 hx
        · exact b6 x h
    · intro x hx1 hx2 hx3
      rcases Nat.lt_or_eq_of_le hx1 with h | h
      · rw [c7 x (by omega) hx2 (by rw [hvis1]; exact hx3), b6 x (by omega), hcur1, hedge1]
      · subst h
        rw [hi', b8 hx3]
    · intro q hq
      rcases c8 q hq with h | ⟨x, h1, h2, h3, h4⟩
      · rcases b9 with ⟨d1, d2, d3⟩ | ⟨d1, d2⟩
        · rw [d3] at h
          rcases List.mem_append.mp h with h | h
          · exact Or.inl h
          · simp only [List.mem_singleton] at h
            exact Or.inr ⟨i, hiN, d1, by rw [hi']; exact h, by rw [hi']; exact d2⟩
        · rw [d2] at h; exact Or.inl h
      · exact Or.inr ⟨x, h1, by rw [← hvis1]; exact h2, h3, lt_of_lt_of_le h4 (hle1 x)⟩
    · intro q hq
      apply c9
      rcases b9 with ⟨_, _, d3⟩ | ⟨_, d2⟩
      · rw [d3]; exact List.mem_append_left _ hq
      · rw [d2]; exact hq
    · intro x hx hlt'
      by_cases h : x = i
      · subst h
        rw [hi'] at hlt' ⊢
        apply c9
        rcases b9 with ⟨_, _, d3⟩ | ⟨d1, _⟩
        · rw [d3]; exact List.mem_append_right _ (List.mem_singleton_self _)
        · rw [d1] at hlt'; exact absurd hlt' (lt_irrefl _)
      · rw [← b6 x h] at hlt'
        exact c10 x hx hlt'
    · rcases b9 with ⟨_, _, d3⟩ | ⟨_, d2⟩
      · rw [d3] at c11; simp only [List.length_append, List.length_singleton] at c11; omega
      · rw [d2] at c11; omega


/-- When `0` is `INF` every weight is `INF`. -/
theorem eq_top_of_zero_eq_top (h : (0 : W) = ⊤) (a : W) : a = ⊤ := by
  have : a + 0 = ⊤ := by rw [h, add_top]
  simpa using this

/-- The sequence of one vertex is a walk from it to itself. -/
theorem walk_single (N a : Nat) (ha : a < N) : Walk N a a [a] :=
  ⟨rfl, rfl, by simpa using ha⟩

/-- A walk is extended at its start by one vertex. -/
theorem walk_cons (N a b y : Nat) (p : List Nat) (h : Walk N a b p) (hy : y < N) :
    Walk N y b (y :: p) := by
  obtain ⟨h1, h2, h3⟩ := h
  cases p with
  | nil => simp at h1
  | cons c rest =>
    refine ⟨rfl, by rw [List.getLast?_cons_cons]; exact h2, ?_⟩
    intro v hv
    rcases List.mem_cons.mp hv with hv | hv
    · subst hv; exact hy
    · exact h3 v hv

/-- The weight of a walk extended at its start by one vertex. -/
theorem walk_weight_cons (g : Weighted_graph W) (N a b y : Nat) (p : List Nat)
    (h : Walk N a b p) : walk_weight g (y :: p) = edge g y a + walk_weight g p := by
  obtain ⟨h1, _, _⟩ := h
  cases p with
  | nil => simp at h1
  | cons c rest =>
    simp only [List.head?_cons, Option.some.injEq] at h1
    subst h1
    rfl

/-- A walk is a single vertex or a vertex followed by a walk. -/
theorem walk_cases (N y m : Nat) (p : List Nat) (h : Walk N y m p) :
    (p = [y] ∧ y = m) ∨ ∃ b rest, p = y :: b :: rest ∧ Walk N b m (b :: rest) ∧ y < N := by
  obtain ⟨h1, h2, h3⟩ := h
  cases p with
  | nil => simp at h1
  | cons a rest =>
    simp only [List.head?_cons, Option.some.injEq] at h1
    subst h1
    cases rest with
    | nil =>
      simp only [List.getLast?_singleton, Option.some.injEq] at h2
      exact Or.inl ⟨rfl, h2⟩
    | cons b rest =>
      rw [List.getLast?_cons_cons] at h2
      exact Or.inr ⟨b, rest, rfl, ⟨rfl, h2, fun v hv => h3 v (List.mem_cons_of_mem _ hv)⟩,
        h3 a (List.mem_cons_self _ _)⟩

/-- At the head of the loop, no walk from the source to a vertex that is not
visited weighs less than the least weight in the queue. -/
theorem lower_bound (g : Weighted_graph W) (heap : List (Pair W)) (N m n : Nat)
    (hI : Searching g heap N m n) (w : W) (hw : ∀ q ∈ heap, w ≤ q.edge_weight) :
    ∀ (p : List Nat) (y : Nat), Walk N y m p → visited_at g y = false →
      w ≤ walk_weight g p := by
  by_cases h0 : (0 : W) = ⊤
  · intro p y _ _
    rw [eq_top_of_zero_eq_top h0 (walk_weight g p)]
    exact le_top
  intro p
  induction p with
  | nil => intro y h; simp [Walk] at h
  | cons a rest ih =>
    intro y hwalk hvy
    have hyN : y < N := hwalk.2.2 y (by
      have := hwalk.1
      simp only [List.head?_cons, Option.some.injEq] at this
      subst this
      exact List.mem_cons_self _ _)
    have hnonneg : ∀ a b : Nat, 0 ≤ edge g a b := edge_nonneg g N hI.shaped
    rcases walk_cases N y m _ hwalk with ⟨h1, h2⟩ | ⟨b, rest', h1, h2, _⟩
    · subst h2
      rw [h1]
      have hq := hI.queued y hyN hvy (by rw [hI.source]; exact h0)
      have := hw _ hq
      rw [hI.source] at this
      exact this
    · have ha : a = y := by
        have := congrArg List.head? h1
        simpa using this
      subst ha
      have hrest : rest = b :: rest' := by
        have := congrArg List.tail h1
        simpa using this
      subst hrest
      have hbN : b < N := h2.2.2 b (List.mem_cons_self _ _)
      show w ≤ edge g a b + walk_weight g (b :: rest')
      cases hvb : visited_at g b with
      | true =>
        have h3 := hI.optimal b hbN hvb _ h2
        have h4 := hI.relaxed b a hbN hyN hvb
        have h5 : dist_at g a ≤ edge g a b + walk_weight g (b :: rest') := by
          rw [edge_comm g a b, add_comm]
          exact le_trans h4 (add_le_add_right h3 _)
        by_cases htop : dist_at g a = ⊤
        · rw [htop, top_le_iff] at h5
          rw [h5]; exact le_top
        · exact le_trans (hw _ (hI.queued a hyN hvy htop)) h5
      | false =>
        exact le_trans (ih b h2 hvb) (le_add_of_nonneg_left (hnonneg a b))

/-- Popping a pair whose vertex is already visited keeps what holds at the head
of the loop. -/
theorem searching_skip (g : Weighted_graph W) (heap : List (Pair W)) (N m n x : Nat)
    (q : Pair W) (hI : Searching g heap N m n) (htop : top heap = some q)
    (hq : q.adjacent_vertex = (x : Int)) (hvx : visited_at g x = true) :
    Searching g (pop heap) N m n := by
  obtain ⟨p1, p2, p3⟩ := pop_spec heap q htop
  refine { hI with queued := ?_, heap_ok := ?_, order := ?_ }
  · intro y hy hvy hdy
    rcases p3 _ (hI.queued y hy hvy hdy) with h | h
    · exfalso
      have : (y : Int) = (x : Int) := by
        have := congrArg Pair.adjacent_vertex h
        simpa [hq] using this
      have hyx : y = x := by exact_mod_cast this
      subst hyx
      rw [hvx] at hvy
      cases hvy
    · exact h
  · intro r hr
    exact hI.heap_ok r (p2 r hr)
  · intro u hu hvu r hr
    exact hI.order u hu hvu r (p2 r hr)


/-- Visiting the vertex `x` of the pair popped from the top, which was not
visited, and running the inner loop for it keeps what holds at the head of the
loop: `g1` is the graph with `x` marked as visited and `g2`, `heap2` are what
the inner loop leaves. -/
theorem searching_visit (g g1 g2 : Weighted_graph W) (heap heap2 : List (Pair W))
    (N m n x : Nat) (q : Pair W)
    (hI : Searching g heap N m n) (htop : top heap = some q)
    (hq : q.adjacent_vertex = (x : Int)) (hx : x < N) (hvx : visited_at g x = false)
    (hxn : x ≠ n)
    (hv1 : ∀ y, visited_at g1 y = if y = x then true else visited_at g y)
    (hd1 : ∀ y, dist_at g1 y = dist_at g y) (hm1 : g1.matrix = g.matrix)
    (c1 : Shaped g2 N) (c2 : g2.matrix = g1.matrix)
    (c3 : g2.vertex_visited = g1.vertex_visited)
    (c6 : ∀ y, y < 0 ∨ visited_at g1 y = true → dist_at g2 y = dist_at g1 y)
    (c7 : ∀ y, 0 ≤ y → y < N → visited_at g1 y = false →
      dist_at g2 y = min (dist_at g1 y) (dist_at g1 x + edge g1 x y))
    (c8 : ∀ r ∈ heap2, r ∈ pop heap ∨ ∃ y, y < N ∧ visited_at g1 y = false
      ∧ r = ⟨dist_at g2 y, (y : Int)⟩ ∧ dist_at g2 y < dist_at g1 y)
    (c9 : ∀ r ∈ pop heap, r ∈ heap2)
    (c10 : ∀ y, y < N → dist_at g2 y < dist_at g1 y →
      (⟨dist_at g2 y, (y : Int)⟩ : Pair W) ∈ heap2) :
    Searching g2 heap2 N m n := by
  obtain ⟨p1, p2, p3⟩ := pop_spec heap q htop
  obtain ⟨t1, t2⟩ := top_spec heap q htop
  have hE : ∀ a b, edge g2 a b = edge g a b := edge_congr g g2 (c2.trans hm1)
  have hWW : ∀ p, walk_weight g2 p = walk_weight g p := walk_weight_congr g g2 (c2.trans hm1)
  have hnonneg : ∀ a b : Nat, 0 ≤ edge g a b := edge_nonneg g N hI.shaped
  have hV2 : ∀ y, visited_at g2 y = if y = x then true else visited_at g y := by
    intro y
    rw [← hv1]
    simp only [visited_at, c3]
  have hDv : ∀ y, (y = x ∨ visited_at g y = true) → dist_at g2 y = dist_at g y := by
    intro y hy
    rw [c6 y (Or.inr (by
      rw [hv1]
      rcases hy with hy | hy
      · rw [if_pos hy]
      · split_ifs <;> simp [hy])), hd1]
  have hDu : ∀ y, y < N → y ≠ x → visited_at g y = false →
      dist_at g2 y = min (dist_at g y) (dist_at g x + edge g x y) := by
    intro y hy hyx hvy
    rw [c7 y (Nat.zero_le _) hy (by rw [hv1, if_neg hyx]; exact hvy), hd1, hd1,
      edge_congr g g1 hm1]
  have hDle : ∀ y, y < N → dist_at g2 y ≤ dist_at g y := by
    intro y hy
    by_cases h : y = x ∨ visited_at g y = true
    · exact le_of_eq (hDv y h)
    · push_neg at h
      rw [hDu y hy h.1 (by simpa using h.2)]
      exact min_le_left _ _
  have hDx : dist_at g x ≤ q.edge_weight := by
    obtain ⟨x', _, h2, h3⟩ := hI.heap_ok q t1
    have : x' = x := by
      have : (x' : Int) = (x : Int) := h2.symm.trans hq
      exact_mod_cast this
    subst this
    exact h3
  have hopt : ∀ p, Walk N x m p → dist_at g x ≤ walk_weight g p := by
    intro p hp
    exact le_trans hDx (lower_bound g heap N m n hI q.edge_weight t2 p x hp hvx)
  have hvis : ∀ u, u < N → visited_at g u = true → dist_at g u ≤ dist_at g x := by
    intro u hu hvu
    by_cases htop' : dist_at g x = ⊤
    · rw [htop']; exact le_top
    · exact hI.order u hu hvu _ (hI.queued x hx hvx htop')
  refine ⟨c1, hI.source_lt, ?_, ?_, ?_, ?_, ?_, ?_, ?_, ?_, ?_⟩
  · -- source
    by_cases h : m = x ∨ visited_at g m = true
    · rw [hDv m h, hI.source]
    · push_neg at h
      rw [hDu m hI.source_lt h.1 (by simpa using h.2), hI.source]
      exact min_eq_left (add_nonneg (hI.nonneg x hx) (hnonneg x m))
  · -- nonneg
    intro y hy
    by_cases h : y = x ∨ visited_at g y = true
    · rw [hDv y h]; exact hI.nonneg y hy
    · push_neg at h
      rw [hDu y hy h.1 (by simpa using h.2)]
      exact le_min (hI.nonneg y hy) (add_nonneg (hI.nonneg x hx) (hnonneg x y))
  · -- realised
    intro y hy hne
    have hold : dist_at g2 y = dist_at g y →
        ∃ p, Walk N y m p ∧ walk_weight g2 p = dist_at g2 y := by
      intro he
      obtain ⟨p, hp1, hp2⟩ := hI.realised y hy (by rw [← he]; exact hne)
      exact ⟨p, hp1, by rw [hWW, hp2, he]⟩
    by_cases h : y = x ∨ visited_at g y = true
    · exact hold (hDv y h)
    · push_neg at h
      have hmin := hDu y hy h.1 (by simpa using h.2)
      by_cases hlt : dist_at g x + edge g x y < dist_at g y
      · rw [min_eq_right (le_of_lt hlt)] at hmin
        have hxtop : dist_at g x ≠ ⊤ := by
          intro ht
          rw [ht, top_add] at hmin
          exact hne hmin
        obtain ⟨p, hp1, hp2⟩ := hI.realised x hx hxtop
        refine ⟨y :: p, walk_cons N x m y p hp1 hy, ?_⟩
        rw [hWW, walk_weight_cons g N x m y p hp1, hp2, hmin, edge_comm g y x, add_comm]
      · rw [min_eq_left (not_lt.mp hlt)] at hmin
        exact hold hmin
  · -- relaxed
    intro u y hu hy hvu
    rw [hV2] at hvu
    rw [hE]
    by_cases hux : u = x
    · subst hux
      rw [hDv u (Or.inl rfl)]
      by_cases h : y = u ∨ visited_at g y = true
      · rw [hDv y h]
        rcases h with h | h
        · subst h; exact le_add_of_nonneg_right (hnonneg _ _)
        · exact le_trans (hvis y hy h) (le_add_of_nonneg_right (hnonneg _ _))
      · push_neg at h
        rw [hDu y hy h.1 (by simpa using h.2)]
        exact min_le_right _ _
    · rw [if_neg hux] at hvu
      rw [hDv u (Or.inr hvu)]
      exact le_trans (hDle y hy) (hI.relaxed u y hu hy hvu)
  · -- queued
    intro y hy hvy hne
    rw [hV2] at hvy
    have hyx : y ≠ x := by
      intro h; rw [if_pos h] at hvy; cases hvy
    rw [if_neg hyx] at hvy
    by_cases hlt : dist_at g2 y < dist_at g1 y
    · exact c10 y hy hlt
    · rw [hd1] at hlt
      have he : dist_at g2 y = dist_at g y := le_antisymm (hDle y hy) (not_lt.mp hlt)
      rw [he]
      rcases p3 _ (hI.queued y hy hvy (by rw [← he]; exact hne)) with h | h
      · exfalso
        have : (y : Int) = (x : Int) := by
          have := congrArg Pair.adjacent_vertex h
          simpa [hq] using this
        exact hyx (by exact_mod_cast this)
      · exact c9 _ h
  · -- heap_ok
    intro r hr
    rcases c8 r hr with h | ⟨y, hy, _, h2, _⟩
    · obtain ⟨y, hy, h2, h3⟩ := hI.heap_ok r (p2 r h)
      exact ⟨y, hy, h2, le_trans (hDle y hy) h3⟩
    · exact ⟨y, hy, by rw [h2], by rw [h2]⟩
  · -- order
    intro u hu hvu r hr
    rw [hV2] at hvu
    have hux : dist_at g2 u = dist_at g u := by
      apply hDv
      by_cases h : u = x
      · exact Or.inl h
      · rw [if_neg h] at hvu; exact Or.inr hvu
    have hule : dist_at g u ≤ dist_at g x := by
      by_cases h : u = x
      · rw [h]
      · rw [if_neg h] at hvu; exact hvis u hu hvu
    rw [hux]
    rcases c8 r hr with h | ⟨y, hy, hvy, h2, h3⟩
    · exact le_trans hule (le_trans hDx (t2 r (p2 r h)))
    · rw [h2]
      show dist_at g u ≤ dist_at g2 y
      rw [hv1] at hvy
      have hyx : y ≠ x := by
        intro h; rw [if_pos h] at hvy; cases hvy
      rw [if_neg hyx] at hvy
      rw [hd1] at h3
      have hmin := hDu y hy hyx hvy
      have hlt : dist_at g x + edge g x y < dist_at g y := by
        by_contra hc
        rw [min_eq_left (not_lt.mp hc)] at hmin
        rw [hmin] at h3
        exact lt_irrefl _ h3
      rw [min_eq_right (le_of_lt hlt)] at hmin
      rw [hmin]
      exact le_trans hule (le_add_of_nonneg_right (hnonneg _ _))
  · -- optimal
    intro u hu hvu p hp
    rw [hV2] at hvu
    rw [hWW]
    by_cases h : u = x
    · subst h
      rw [hDv u (Or.inl rfl)]
      exact hopt p hp
    · rw [if_neg h] at hvu
      rw [hDv u (Or.inr hvu)]
      exact hI.optimal u hu hvu p hp
  · -- target
    rw [hV2, if_neg (fun h => hxn h.symm)]
    exact hI.target


/-- Marking a vertex that was not visited as visited takes one from the number
of vertices that are not visited. -/
theorem count_false_set_true (l : List Bool) (x : Nat) (h : l[x]? = some false) :
    (l.set x true).count false + 1 = l.count false := by
  induction l generalizing x with
  | nil => simp at h
  | cons a l ih =>
    cases x with
    | zero =>
      simp only [List.getElem?_cons_zero, Option.some.injEq] at h
      subst h
      simp [List.set, List.count_cons]
    | succ x =>
      simp only [List.getElem?_cons_succ] at h
      have := ih x h
      simp only [List.set, List.count_cons]
      omega

/-- The loop `while(!min_heap.empty())` of `distance(m, n)` returns, leaving the
matrix as it was; the value returned is at most the weight of every walk from
the source to `n`, and when it is not `INF` it is the weight of one. -/
theorem visit_loop_spec (N m n : Nat) :
    ∀ (fuel : Nat) (g : Weighted_graph W) (heap : List (Pair W)), Searching g heap N m n →
      heap.length + (N + 1) * g.vertex_visited.count false < fuel →
      ∃ r g', visit_loop fuel g heap (n : Int) = .ok (r, g') ∧ Shaped g' N
        ∧ g'.matrix = g.matrix ∧ g'.vertex_degree = g.vertex_degree ∧ g'.edges = g.edges
        ∧ (∀ p, Walk N n m p → r ≤ walk_weight g p)
        ∧ (r ≠ ⊤ → ∃ p, Walk N n m p ∧ walk_weight g p = r) := by
  intro fuel
  induction fuel with
  | zero => intro g heap _ h; omega
  | succ f ih =>
    intro g heap hI hμ
    obtain ⟨a1, a2, a3, a4, a5, a6, a7, a8⟩ := id hI.shaped
    cases htop : top heap with
    | none =>
      have hnil := (top_eq_none heap).mp htop
      refine ⟨⊤, g, by simp [visit_loop, htop, pure, Except.pure], hI.shaped, rfl, rfl, rfl,
        ?_, fun h => absurd rfl h⟩
      intro p hp
      exact lower_bound g heap N m n hI ⊤ (by rw [hnil]; simp) p n hp hI.target
    | some q =>
      obtain ⟨t1, t2⟩ := top_spec heap q htop
      obtain ⟨p1, p2, p3⟩ := pop_spec heap q htop
      obtain ⟨x, hx, hqx, hdx⟩ := hI.heap_ok q t1
      have hq : q.vertex = (x : Int) := hqx
      cases hvx : visited_at g x with
      | true =>
        obtain ⟨r, g', h1, h2⟩ :=
          ih g (pop heap) (searching_skip g heap N m n x q hI htop hqx hvx) (by omega)
        refine ⟨r, g', ?_, h2⟩
        simp only [visit_loop, htop, hq, fetch_visited g x (by omega), hvx, bind, Except.bind]
        simpa using h1
      | false =>
        by_cases hxn : x = n
        · subst hxn
          refine ⟨dist_at g x, g, ?_, hI.shaped, rfl, rfl, rfl, ?_, ?_⟩
          · simp [visit_loop, htop, hq, fetch_visited g x (by omega), hvx, bind, Except.bind,
              fetch_dist g x (by omega), pure, Except.pure]
          · intro p hp
            exact le_trans hdx (lower_bound g heap N m x hI q.edge_weight t2 p x hp hvx)
          · intro hne
            exact hI.realised x hx hne
        · have hxn' : ¬ ((x : Int) = (n : Int)) := by exact_mod_cast hxn
          have hget : g.vertex_visited[x]? = some false := by
            have h1 : g.vertex_visited[x]? = some g.vertex_visited[x] :=
              List.getElem?_eq_getElem (by omega)
            have h2 : visited_at g x = g.vertex_visited[x] := by
              simp [visited_at, h1]
            rw [h1, ← h2, hvx]
          obtain ⟨g1, hg1⟩ : ∃ g1 : Weighted_graph W,
              g1 = { g with vertex_visited := g.vertex_visited.set x true } := ⟨_, rfl⟩
          have hs1 : Shaped g1 N := by
            rw [hg1]
            exact shaped_of_eq g _ N hI.shaped rfl rfl rfl (by simp) rfl rfl
          have hv1 : ∀ y, visited_at g1 y = if y = x then true else visited_at g y := by
            intro y
            rw [hg1]
            simp only [visited_at]
            exact getD_set _ _ _ _ _ (by omega)
          have hd1 : ∀ y, dist_at g1 y = dist_at g y := by
            intro y; rw [hg1]; rfl
          have hm1 : g1.matrix = g.matrix := by rw [hg1]
          have hfuel1 : g1.fuel = N + 1 := by
            simp [fuel, hs1.1]
          obtain ⟨g2, heap2, c0, c1, c2, c3, c4, c5, c6, c7, c8, c9, c10, c11⟩ :=
            relax_loop_spec N x hx N 0 g1.fuel g1 (pop heap) (by omega) (by omega) hs1
              (by rw [hv1, if_pos rfl])
          have hI2 := searching_visit g g1 g2 heap heap2 N m n x q hI htop hqx hx hvx hxn
            hv1 hd1 hm1 c1 c2 c3 c6 c7 c8 c9 c10
          have hcount : g2.vertex_visited.count false + 1 = g.vertex_visited.count false := by
            rw [c3, hg1]
            exact count_false_set_true _ _ hget
          have hμ2 : heap2.length + (N + 1) * g2.vertex_visited.count false < f := by
            have e1 : (N + 1) * g.vertex_visited.count false
                = (N + 1) * g2.vertex_visited.count false + (N + 1) := by
              rw [← hcount]; ring
            rw [e1] at hμ
            omega
          obtain ⟨r, g', h1, h2, h3, h4, h5, h6, h7⟩ := ih g2 heap2 hI2 hμ2
          have hWW : ∀ p, walk_weight g2 p = walk_weight g p :=
            walk_weight_congr g g2 (c2.trans hm1)
          refine ⟨r, g', ?_, h2, h3.trans (c2.trans hm1), ?_, ?_, ?_, ?_⟩
          · simp only [Nat.cast_zero] at c0
            simp only [visit_loop, htop, hq, fetch_visited g x (by omega), hvx, bind,
              Except.bind, hxn', if_false,
              store_cast _ _ _ (show x < g.vertex_visited.length by omega), ← hg1, c0]
            simpa using h1
          · rw [h4, c4, hg1]
          · rw [h5, c5, hg1]
          · intro p hp; rw [← hWW]; exact h6 p hp
          · intro hne
            obtain ⟨p, hp1, hp2⟩ := h7 hne
            exact ⟨p, hp1, by rw [← hWW]; exact hp2⟩


/-- The weight of a sequence of vertices extended at its end by one vertex. -/
theorem walk_weight_append (g : Weighted_graph W) (a : Nat) :
    ∀ p : List Nat, walk_weight g (p ++ [a])
      = walk_weight g p + (match p.getLast? with | some l => edge g l a | none => 0) := by
  intro p
  induction p with
  | nil => simp [walk_weight]
  | cons x rest ih =>
    cases rest with
    | nil => simp [walk_weight]
    | cons y rest =>
      have : walk_weight g (x :: y :: rest ++ [a])
          = edge g x y + walk_weight g (y :: rest ++ [a]) := rfl
      rw [this, ih, List.getLast?_cons_cons]
      simp only [walk_weight, add_assoc]

/-- A sequence of vertices read backwards has the same weight. -/
theorem walk_weight_reverse (g : Weighted_graph W) :
    ∀ p : List Nat, walk_weight g p.reverse = walk_weight g p := by
  intro p
  induction p with
  | nil => rfl
  | cons x rest ih =>
    rw [List.reverse_cons, walk_weight_append, ih, List.getLast?_reverse]
    cases rest with
    | nil => simp [walk_weight]
    | cons y rest =>
      simp only [List.head?_cons, walk_weight]
      rw [edge_comm g y x, add_comm]

/-- A walk read backwards is a walk between the same vertices. -/
theorem walk_reverse (N a b : Nat) (p : List Nat) (h : Walk N a b p) :
    Walk N b a p.reverse := by
  obtain ⟨h1, h2, h3⟩ := h
  exact ⟨by rw [List.head?_reverse]; exact h2, by rw [List.getLast?_reverse]; exact h1,
    fun v hv => h3 v (List.mem_reverse.mp hv)⟩

/-- What holds at the head of the loop holds when the loop is entered: every
vertex is at distance `INF` and not visited, except the source, which is at
distance 0 and in the queue. -/
theorem searching_init (g : Weighted_graph W) (N m n : Nat) (hs : Shaped g N) (hm : m < N)
    (hd : ∀ x, x < N → x ≠ m → dist_at g x = ⊤) (hdm : dist_at g m = 0)
    (hv : ∀ x, visited_at g x = false) :
    Searching g [⟨0, (m : Int)⟩] N m n := by
  refine ⟨hs, hm, hdm, ?_, ?_, ?_, ?_, ?_, ?_, ?_, hv n⟩
  · intro x hx
    by_cases h : x = m
    · rw [h, hdm]
    · rw [hd x hx h]; exact le_top
  · intro x hx hne
    have h : x = m := by
      by_contra h
      exact hne (hd x hx h)
    subst h
    exact ⟨[x], walk_single N x hx, by rw [hdm]; rfl⟩
  · intro u x _ _ hvu
    rw [hv u] at hvu; cases hvu
  · intro x hx _ hne
    have h : x = m := by
      by_contra h
      exact hne (hd x hx h)
    subst h
    rw [hdm]
    exact List.mem_singleton_self _
  · intro q hq
    rw [List.mem_singleton] at hq
    subst hq
    exact ⟨m, hm, rfl, le_of_eq hdm⟩
  · intro u _ hvu
    rw [hv u] at hvu; cases hvu
  · intro u _ hvu
    rw [hv u] at hvu; cases hvu

/-- On a well-shaped graph `distance(m, n)` returns for every vertex `m` and
every `n` up to `graph_size`, leaving the matrix, the degrees and the number of
edges as they were; the value returned is at most the weight of every walk from
`m` to `n`, it is the weight of one when it is not `INF`, and it is 0 when `m`
is `n`. -/
theorem distance_spec (g : Weighted_graph W) (N m n : Nat) (hs : Shaped g N) (hm : m < N)
    (hn : n ≤ N) :
    ∃ r g', g.distance (m : Int) (n : Int) = .ok (r, g') ∧ Shaped g' N
      ∧ g'.matrix = g.matrix ∧ g'.vertex_degree = g.vertex_degree ∧ g'.edges = g.edges
      ∧ (m = n → r = 0)
      ∧ (∀ p, Walk N m n p → r ≤ walk_weight g p)
      ∧ (r ≠ ⊤ → ∃ p, Walk N m n p ∧ walk_weight g p = r) := by
  obtain ⟨a1, a2, a3, a4, a5, a6, a7, a8⟩ := id hs
  have hguard : ¬ ((m : Int) < 0 ∨ (n : Int) < 0 ∨ (m : Int) > g.graph_size
      ∨ (n : Int) > g.graph_size) := by
    rw [a1]; omega
  by_cases hmn : m = n
  · subst hmn
    refine ⟨0, g, by rw [distance, if_neg hguard, if_pos rfl]; rfl, hs, rfl, rfl, rfl,
      fun _ => rfl, fun p _ => walk_weight_nonneg g (edge_nonneg g N hs) p,
      fun _ => ⟨[m], walk_single N m hm, rfl⟩⟩
  · have hmn' : ¬ ((m : Int) = (n : Int)) := by exact_mod_cast hmn
    have hfuel : g.fuel = N + 1 := by simp [fuel, a1]
    obtain ⟨g0, b1, b2, b3, b4, b5, b6, b7⟩ :=
      init_loop_spec N N 0 g.fuel g (by omega) (by omega) hs
    simp only [Nat.cast_zero] at b1
    obtain ⟨g1, hg1⟩ : ∃ g1 : Weighted_graph W,
        g1 = { g0 with vertex_distances := g0.vertex_distances.set m 0 } := ⟨_, rfl⟩
    have hs1 : Shaped g1 N := by
      rw [hg1]
      exact shaped_of_eq g0 _ N b2 rfl rfl (by simp) rfl rfl rfl
    have hd1 : ∀ x, dist_at g1 x = if x = m then 0 else dist_at g0 x := by
      intro x
      rw [hg1]
      simp only [dist_at]
      exact getD_set _ _ _ _ _ (by rw [b2.2.2.2.1]; exact hm)
    have hv1 : ∀ x, visited_at g1 x = false := by
      intro x
      have : visited_at g1 x = visited_at g0 x := by rw [hg1]; rfl
      rw [this]
      by_cases hx : x < N
      · exact (b7 x (Nat.zero_le _) hx).2
      · simp only [visited_at]
        rw [List.getElem?_eq_none (by rw [b2.2.2.2.2.1]; omega)]
        rfl
    have hI : Searching g1 [⟨0, (m : Int)⟩] N m n :=
      searching_init g1 N m n hs1 hm
        (fun x hx hxm => by rw [hd1, if_neg hxm]; exact (b7 x (Nat.zero_le _) hx).1)
        (by rw [hd1, if_pos rfl]) hv1
    have hcount : g1.vertex_visited.count false = N := by
      rw [← hs1.2.2.2.2.1]
      apply List.count_eq_length.mpr
      intro b hb
      obtain ⟨x, hx⟩ := List.mem_iff_getElem?.mp hb
      have := hv1 x
      simp only [visited_at, hx, Option.getD_some] at this
      exact this.symm
    have hvf : g1.visit_fuel = N * (N + 1) + 2 := by simp [visit_fuel, hs1.1]
    obtain ⟨r, g', c1, c2, c3, c4, c5, c6, c7⟩ :=
      visit_loop_spec N m n g1.visit_fuel g1 [⟨0, (m : Int)⟩] hI (by
        rw [hcount, hvf]
        simp only [List.length_singleton]
        have : (N + 1) * N = N * (N + 1) := Nat.mul_comm _ _
        omega)
    have hWW : ∀ p, walk_weight g1 p = walk_weight g p :=
      walk_weight_congr g g1 (by rw [hg1]; exact b3)
    refine ⟨r, g', ?_, c2, c3.trans (by rw [hg1]; exact b3), ?_, ?_, fun h => absurd h hmn, ?_, ?_⟩
    · simp only [distance, hguard, if_false, hmn', b1, bind, Except.bind,
        store_cast _ _ _ (show m < g0.vertex_distances.length by rw [b2.2.2.2.1]; exact hm),
        ← hg1, push, List.nil_append]
      exact c1
    · rw [c4, hg1]; exact b4
    · rw [c5, hg1]; exact b5
    · intro p hp
      have := c6 p.reverse (walk_reverse N m n p hp)
      rw [hWW, walk_weight_reverse] at this
      exact this
    · intro hne
      obtain ⟨p, hp1, hp2⟩ := c7 hne
      refine ⟨p.reverse, walk_reverse N n m p hp1, ?_⟩
      rw [walk_weight_reverse, ← hWW]
      exact hp2


/-- The constructor, when it returns, yields a well-shaped graph of at least two
vertices without edges. -/
theorem new_shaped (k : Int) (g : Weighted_graph W) (h : new k = .ok g) :
    ∃ N, 2 ≤ N ∧ Shaped g N ∧ ∀ a b, edge g a b = ⊤ := by
  unfold new at h
  dsimp only at h
  generalize (if k > 0 then k else 1) = s at h
  split_ifs at h with h1
  cases h
  have hcell : ∀ row ∈ (List.range s.toNat).map (fun i => List.replicate i (⊤ : W)),
      ∀ v ∈ row, v = ⊤ := by
    intro row hrow v hv
    obtain ⟨i, _, rfl⟩ := List.mem_map.mp hrow
    exact (List.mem_replicate.mp hv).2
  refine ⟨s.toNat, by omega, ⟨by simp; omega, by simp, ?_, by simp, by simp, by simp, by simp,
    ?_⟩, ?_⟩
  · intro i row hrow
    simp only [List.getElem?_map, Option.map_eq_some'] at hrow
    obtain ⟨j, hj, rfl⟩ := hrow
    obtain ⟨_, e⟩ := List.getElem?_eq_some.mp hj
    have : j = i := by simpa using e.symm
    subst this
    simp
  · intro row hrow v hv
    rw [hcell row hrow v hv]
    exact le_top
  · intro a b
    have hD : ∀ i j : Nat,
        (((List.range s.toNat).map (fun i => List.replicate i (⊤ : W))).getD i []).getD j ⊤
          = ⊤ := by
      intro i j
      rw [List.getD_eq_getElem?_getD, List.getD_eq_getElem?_getD]
      cases hrow : ((List.range s.toNat).map (fun i => List.replicate i (⊤ : W)))[i]? with
      | none => simp
      | some row =>
        cases hv : row[j]? with
        | none => simp [hv]
        | some v =>
          simp only [Option.getD_some, hv]
          exact hcell row (List.getElem?_mem hrow) v (List.getElem?_mem hv)
    unfold edge
    split_ifs
    · exact hD a b
    · exact hD b a
    · rfl

/-- An assignment to a cell of the matrix that returns keeps the graph well
shaped, when the value assigned is not negative. -/
theorem set_cell_shaped (g g1 : Weighted_graph W) (N : Nat) (i j : Int) (w : W)
    (hs : Shaped g N) (hw : 0 ≤ w) (h : g.set_cell i j w = .ok g1) : Shaped g1 N := by
  obtain ⟨a1, a2, a3, a4, a5, a6, a7, a8⟩ := hs
  unfold set_cell at h
  obtain ⟨row, h1, h⟩ := bind_eq_ok _ _ _ h
  obtain ⟨row', h2, h⟩ := bind_eq_ok _ _ _ h
  obtain ⟨matrix', h3, h⟩ := bind_eq_ok _ _ _ h
  cases h
  obtain ⟨a, rfl, ha⟩ := fetch_eq_ok _ _ _ h1
  obtain ⟨b, rfl, hb, rfl⟩ := store_eq_ok _ _ _ _ h2
  obtain ⟨a', ha', hlt, rfl⟩ := store_eq_ok _ _ _ _ h3
  have : a' = a := by exact_mod_cast ha'.symm
  subst this
  refine ⟨a1, by simp [a2], ?_, a4, a5, a6, a7, ?_⟩
  · intro i r hr
    simp only [List.getElem?_set] at hr
    split_ifs at hr with e1
    · cases hr
      subst e1
      simp only [List.length_set]
      exact a3 _ _ ha
    · exact a3 i r hr
  · intro r hr v hv
    rcases List.mem_or_eq_of_mem_set hr with h4 | h4
    · exact a8 r h4 v hv
    · subst h4
      rcases List.mem_or_eq_of_mem_set hv with h5 | h5
      · exact a8 row (List.getElem?_mem ha) v h5
      · subst h5; exact hw

/-- A call of `insert` that returns keeps the graph well shaped. -/
theorem insert_shaped (g g' : Weighted_graph W) (N : Nat) (m n : Int) (w : W)
    (hs : Shaped g N) (h : g.insert m n w = .ok g') : Shaped g' N := by
  unfold insert at h
  split_ifs at h with h1 h2 h3
  all_goals
    have hw : 0 ≤ w := by
      push_neg at h1
      exact le_of_lt h1.1
    obtain ⟨⟨newEdge, g1⟩, h4, h⟩ := bind_eq_ok _ _ _ h
    obtain ⟨c, _, h4⟩ := bind_eq_ok _ _ _ h4
    obtain ⟨g2, h5, h4⟩ := bind_eq_ok _ _ _ h4
    cases h4
    have hs1 : Shaped g1 N := set_cell_shaped g _ N _ _ w hs hw h5
    dsimp only at h
    by_cases hne : (if c ≠ ⊤ then false else true) = true
    · rw [if_pos hne] at h
      obtain ⟨d, _, h⟩ := bind_eq_ok _ _ _ h
      obtain ⟨vd, h6, h⟩ := bind_eq_ok _ _ _ h
      obtain ⟨d', _, h⟩ := bind_eq_ok _ _ _ h
      obtain ⟨vd', h7, h⟩ := bind_eq_ok _ _ _ h
      cases h
      obtain ⟨_, _, _, rfl⟩ := store_eq_ok _ _ _ _ h6
      obtain ⟨_, _, _, rfl⟩ := store_eq_ok _ _ _ _ h7
      exact shaped_of_eq g1 _ N hs1 rfl rfl rfl rfl rfl (by simp)
    · rw [if_neg hne] at h
      cases h
      exact hs1

/-- A call of `distance` that returns leaves a well-shaped graph, whatever its
arguments. -/
theorem distance_shaped (g g' : Weighted_graph W) (N : Nat) (m n : Int) (r : W)
    (hs : Shaped g N) (h : g.distance m n = .ok (r, g')) : Shaped g' N := by
  by_cases hguard : m < 0 ∨ n < 0 ∨ m > g.graph_size ∨ n > g.graph_size
  · rw [distance, if_pos hguard] at h
    cases h
  · by_cases hmn : m = n
    · rw [distance, if_neg hguard, if_pos hmn] at h
      cases h
      exact hs
    · push_neg at hguard
      obtain ⟨h1, h2, h3, h4⟩ := hguard
      obtain ⟨M, rfl⟩ := Int.eq_ofNat_of_zero_le h1
      obtain ⟨K, rfl⟩ := Int.eq_ofNat_of_zero_le h2
      rw [hs.1] at h3 h4
      by_cases hM : M < N
      · obtain ⟨r0, g0, e1, e3, _⟩ := distance_spec g N M K hs hM (by omega)
        rw [e1] at h
        cases h
        exact e3
      · exfalso
        have hfuel : g.fuel = N + 1 := by simp [fuel, hs.1]
        obtain ⟨g0, b1, b2, _⟩ := init_loop_spec N N 0 g.fuel g (by omega) (by omega) hs
        simp only [Nat.cast_zero] at b1
        have hstore : store g0.vertex_distances (M : Int) (0 : W) = .error .out_of_bounds := by
          have : ¬ (0 ≤ (M : Int) ∧ (M : Int).toNat < g0.vertex_distances.length) := by
            rw [b2.2.2.2.1]
            simp only [Int.toNat_ofNat]
            omega
          rw [store, if_neg this]
        have hguard' : ¬ ((M : Int) < 0 ∨ (K : Int) < 0 ∨ (M : Int) > g.graph_size
            ∨ (K : Int) > g.graph_size) := by
          rw [hs.1]; omega
        rw [distance, if_neg hguard', if_neg hmn] at h
        simp only [b1, hstore, bind, Except.bind] at h
        cases h

/-- Every series of calls that returns, made on a well-shaped graph, leaves a
well-shaped graph. -/
theorem run_shaped (N : Nat) (ops : List (Op W)) : ∀ (g g' : Weighted_graph W), Shaped g N →
    run g ops = .ok g' → Shaped g' N := by
  induction ops with
  | nil =>
    intro g g' hs h
    cases h
    exact hs
  | cons op ops ih =>
    intro g g' hs h
    obtain ⟨g1, h1, h2⟩ := bind_eq_ok _ _ _ h
    refine ih g1 g' ?_ h2
    cases op with
    | insert m n w =>
      simp only [step] at h1
      cases hi : g.insert m n w with
      | error e =>
        rw [hi] at h1
        cases e <;> first | (cases h1; exact hs) | cases h1
      | ok g2 =>
        rw [hi] at h1
        cases h1
        exact insert_shaped g _ N m n w hs hi
    | distance m n =>
      simp only [step] at h1
      cases hd : g.distance m n with
      | error e =>
        rw [hd] at h1
        cases e <;> first | (cases h1; exact hs) | cases h1
      | ok v =>
        obtain ⟨r, g2⟩ := v
        rw [hd] at h1
        cases h1
        exact distance_shaped g _ N m n r hs hd

/-- On a well-shaped graph `adjacent` returns the weight of the edge between two
different vertices. -/
theorem adjacent_eq (g : Weighted_graph W) (N a b : Nat) (hs : Shaped g N) (ha : a < N)
    (hb : b < N) (hab : a ≠ b) : g.adjacent (a : Int) (b : Int) = .ok (edge g a b) := by
  have hguard : ¬ ((a : Int) < 0 ∨ (b : Int) < 0 ∨ (a : Int) ≥ g.graph_size
      ∨ (b : Int) ≥ g.graph_size) := by
    rw [hs.1]; omega
  have hab' : ¬ ((a : Int) = (b : Int)) := by exact_mod_cast hab
  rw [adjacent, if_neg hguard, if_neg hab']
  rcases Nat.lt_or_gt_of_ne hab with h | h
  · have : ¬ ((a : Int) > (b : Int)) := by omega
    rw [if_neg this, cell_eq g N b a hs h hb, edge_comm]
  · have : (a : Int) > (b : Int) := by omega
    rw [if_pos this, cell_eq g N a b hs h ha]


/-- A graph reached from the constructor by calls of `insert` and `distance` is
well shaped and has at least two vertices. -/
theorem shaped_of_reachable (g : Weighted_graph W)
    (hr : ∃ k ops g0, new k = .ok g0 ∧ run g0 ops = .ok g) :
    ∃ N, 2 ≤ N ∧ Shaped g N := by
  obtain ⟨k, ops, g0, h1, h2⟩ := hr
  obtain ⟨N, hN, hs, _⟩ := new_shaped k g0 h1
  exact ⟨N, hN, run_shaped N ops g0 g hs h2⟩

/-- C27, evaluated on the code.  On the graph of 3 vertices that the
constructor returns, `adjacent(3, 0)` throws `illegal_argument`, but
`insert(3, 0, 1)` and `insert(0, 3, 1)` pass the test `m > graph_size ||
n > graph_size` and index the matrix at row 3, outside its 3 rows;
`distance(3, 0)` passes the same test and assigns to `vertex_distances[3]`,
outside the array; `distance(0, 3)` returns `INF` and `distance(3, 3)` returns 0.
None of the four calls throws `illegal_argument`. -/
theorem insert_and_distance_accept_graph_size :
    ∃ g : Weighted_graph (WithTop Int), new 3 = .ok g
      ∧ g.graph_size = 3
      ∧ g.adjacent 3 0 = .error .illegal_argument
      ∧ g.insert 3 0 1 = .error .out_of_bounds
      ∧ g.insert 0 3 1 = .error .out_of_bounds
      ∧ g.distance 3 0 = .error .out_of_bounds
      ∧ (∃ g', g.distance 0 3 = .ok (⊤, g'))
      ∧ g.distance 3 3 = .ok (0, g) :=
  ⟨_, rfl, rfl, rfl, rfl, rfl, rfl, ⟨_, rfl⟩, rfl⟩

/-- C28.  For every graph `g` reached from the constructor by calls of `insert`
and `distance`, over any exact weights, and all vertices `m`, `n` of it: the
graph has at least 2 vertices; `adjacent` returns the weight `edge g a b` of
the edge between two different vertices; `distance(m, n)` returns, leaving the
matrix as it was; the value returned is 0 when `m` is `n`; it is at most the
weight of every walk from `m` to `n`; when it is not `INF` it is the weight of
such a walk; and it is `INF` when every walk from `m` to `n` has weight `INF`,
that is, when `n` is not reachable from `m`. -/
theorem distance_is_least_walk_weight (g : Weighted_graph W) (m n : Nat)
    (hr : ∃ k ops g0, new k = .ok g0 ∧ run g0 ops = .ok g)
    (hm : (m : Int) < g.graph_size) (hn : (n : Int) < g.graph_size) :
    2 ≤ g.graph_size
    ∧ (∀ a b : Nat, (a : Int) < g.graph_size → (b : Int) < g.graph_size → a ≠ b →
        g.adjacent a b = .ok (edge g a b))
    ∧ ∃ r g', g.distance m n = .ok (r, g') ∧ g'.matrix = g.matrix
      ∧ (m = n → r = 0)
      ∧ (∀ p, Walk g.graph_size.toNat m n p → r ≤ walk_weight g p)
      ∧ (r ≠ ⊤ → ∃ p, Walk g.graph_size.toNat m n p ∧ walk_weight g p = r)
      ∧ ((∀ p, Walk g.graph_size.toNat m n p → walk_weight g p = ⊤) → r = ⊤) := by
  obtain ⟨N, hN, hs⟩ := shaped_of_reachable g hr
  have hsz := hs.1
  rw [hsz] at hm hn ⊢
  simp only [Int.toNat_ofNat]
  refine ⟨by omega, ?_, ?_⟩
  · intro a b ha hb hab
    exact adjacent_eq g N a b hs (by omega) (by omega) hab
  · obtain ⟨r, g', h1, _, h3, _, _, h6, h7, h8⟩ :=
      distance_spec g N m n hs (by omega) (by omega)
    refine ⟨r, g', h1, h3, h6, h7, h8, ?_⟩
    intro hall
    by_contra hne
    obtain ⟨p, hp1, hp2⟩ := h8 hne
    exact hne (hp2.symm.trans (hall p hp1))

/-- C28 at a concrete input: on the graph of 4 vertices with the edges 0-1 of
weight 5, 1-2 of weight 1 and 0-2 of weight 3, over the integers, the theorem
applies to the vertices 0 and 1; `distance(0, 1)` returns 4. -/
theorem distance_is_least_walk_weight_witness :
    ∃ g0 g : Weighted_graph (WithTop Int), new 4 = .ok g0
      ∧ run g0 [.insert 0 1 5, .insert 1 2 1, .insert 0 2 3] = .ok g
      ∧ ((0 : Nat) : Int) < g.graph_size ∧ ((1 : Nat) : Int) < g.graph_size
      ∧ (∃ g', g.distance 0 1 = .ok (4, g'))
      ∧ 2 ≤ g.graph_size
      ∧ (∀ a b : Nat, (a : Int) < g.graph_size → (b : Int) < g.graph_size → a ≠ b →
          g.adjacent a b = .ok (edge g a b))
      ∧ ∃ r g', g.distance ((0 : Nat) : Int) ((1 : Nat) : Int) = .ok (r, g')
        ∧ g'.matrix = g.matrix
        ∧ ((0 : Nat) = 1 → r = 0)
        ∧ (∀ p, Walk g.graph_size.toNat 0 1 p → r ≤ walk_weight g p)
        ∧ (r ≠ ⊤ → ∃ p, Walk g.graph_size.toNat 0 1 p ∧ walk_weight g p = r)
        ∧ ((∀ p, Walk g.graph_size.toNat 0 1 p → walk_weight g p = ⊤) → r = ⊤) :=
  ⟨_, _, rfl, rfl, by decide, by decide, ⟨_, rfl⟩,
    distance_is_least_walk_weight _ 0 1
      ⟨4, [.insert 0 1 5, .insert 1 2 1, .insert 0 2 3], _, rfl, rfl⟩ (by decide) (by decide)⟩

end Weighted_graph

/-! ### Weighted_graph: degrees and the edge count -/

namespace Weighted_graph
open Array_fault (fetch store fetch_cast store_cast bind_eq_ok fetch_eq_ok store_eq_ok)

/-- The statements of `insert` after the assignment to the matrix: the two
degrees and the edge count go up by one when the edge is new. -/
theorem count_new_edge {W : Type} (g1 : Weighted_graph W) (N a b : Nat) (newEdge : Bool)
    (hlen : g1.vertex_degree.length = N) (ha : a < N) (hb : b < N) (hab : a ≠ b) :
    ∃ g', (if newEdge = true then (do
        let d : Int ← fetch g1.vertex_degree (a : Int)
        let vertex_degree ← store g1.vertex_degree (a : Int) (d + 1)
        let g := { g1 with vertex_degree := vertex_degree }
        let d : Int ← fetch g.vertex_degree (b : Int)
        let vertex_degree ← store g.vertex_degree (b : Int) (d + 1)
        pure { g with vertex_degree := vertex_degree, edges := g.edges + 1 })
      else pure g1 : Except Array_fault (Weighted_graph W)) = .ok g'
      ∧ g'.matrix = g1.matrix ∧ g'.graph_size = g1.graph_size
      ∧ (newEdge = false → g' = g1)
      ∧ (newEdge = true → g'.edges = g1.edges + 1
          ∧ ∀ v, degree_at g' v
              = degree_at g1 v + (if v = a then 1 else 0) + (if v = b then 1 else 0)) := by
  cases newEdge with
  | false =>
    refine ⟨g1, by simp only [Bool.false_eq_true, if_false]; rfl, rfl, rfl,
      fun _ => rfl, fun h => ?_⟩
    cases h
  | true =>
    have ha1 : g1.vertex_degree[a]? = some (degree_at g1 a) := by
      have h1 : g1.vertex_degree[a]? = some g1.vertex_degree[a] :=
        List.getElem?_eq_getElem (by omega)
      simp [degree_at, h1]
    have hfa := fetch_cast _ _ _ ha1
    have hsa := store_cast g1.vertex_degree a (degree_at g1 a + 1) (by omega)
    have hb1 : ((g1.vertex_degree.set a (degree_at g1 a + 1))[b]?) = some (degree_at g1 b) := by
      rw [List.getElem?_set_ne hab]
      have h1 : g1.vertex_degree[b]? = some g1.vertex_degree[b] :=
        List.getElem?_eq_getElem (by omega)
      simp [degree_at, h1]
    have hfb := fetch_cast _ _ _ hb1
    have hsb := store_cast (g1.vertex_degree.set a (degree_at g1 a + 1)) b (degree_at g1 b + 1)
      (by simp; omega)
    refine ⟨{ g1 with
        vertex_degree := (g1.vertex_degree.set a (degree_at g1 a + 1)).set b (degree_at g1 b + 1),
        edges := g1.edges + 1 }, ?_, rfl, rfl, fun h => ?_, fun _ => ⟨rfl, ?_⟩⟩
    · simp only [if_true, hfa, hsa, hfb, hsb, bind, Except.bind, pure, Except.pure]
    · cases h
    · intro v
      simp only [degree_at]
      rw [getD_set _ _ _ _ _ (by simp; omega), getD_set _ _ _ _ _ (by omega)]
      by_cases hvb : v = b
      · subst hvb
        have : v ≠ a := fun e => hab e.symm
        simp [this, degree_at]
      · by_cases hva : v = a
        · subst hva
          simp [hvb, degree_at]
        · simp [hva, hvb]

/-- The sum of the degrees after a new edge between two vertices. -/
theorem degree_sum_new_edge {W : Type} (g g' : Weighted_graph W) (N a b : Nat) (ha : a < N) (hb : b < N)
    (h : ∀ v, degree_at g' v
      = degree_at g v + (if v = a then 1 else 0) + (if v = b then 1 else 0)) :
    degree_sum g' N = degree_sum g N + 2 := by
  unfold degree_sum
  simp only [h, Finset.sum_add_distrib, Finset.sum_ite_eq', Finset.mem_range, ha, hb, if_true]
  ring

variable {W : Type} [LinearOrderedAddCommMonoidWithTop W]


/-- The assignment `matrix[a][b] = w` below the diagonal of a well-shaped graph:
it returns, and it changes the edge between `a` and `b` and nothing else. -/
theorem set_cell_edge (g : Weighted_graph W) (N a b : Nat) (w : W) (hs : Shaped g N)
    (hab : b < a) (ha : a < N) :
    ∃ g1, g.set_cell (a : Int) (b : Int) w = .ok g1
      ∧ g1 = { g with matrix := g1.matrix }
      ∧ (∀ x y, edge g1 x y = if (x = a ∧ y = b) ∨ (x = b ∧ y = a) then w else edge g x y) := by
  obtain ⟨_, hlen, hrow, _⟩ := hs
  obtain ⟨row, h1⟩ : ∃ row, g.matrix[a]? = some row :=
    ⟨_, List.getElem?_eq_getElem (by omega)⟩
  have h2 : row.length = a := hrow a _ h1
  refine ⟨{ g with matrix := g.matrix.set a (row.set b w) }, ?_, rfl, ?_⟩
  · simp only [set_cell, fetch_cast _ _ _ h1, store_cast row b w (by omega),
      store_cast g.matrix a _ (by omega), bind, Except.bind, pure, Except.pure]
  · have hcell : ∀ i j : Nat, (((g.matrix.set a (row.set b w)).getD i []).getD j ⊤)
        = if i = a ∧ j = b then w else ((g.matrix.getD i []).getD j ⊤) := by
      intro i j
      rw [List.getD_eq_getElem?_getD, List.getD_eq_getElem?_getD, List.getD_eq_getElem?_getD,
        List.getD_eq_getElem?_getD, getD_set _ _ _ _ _ (by omega)]
      by_cases hi : i = a
      · subst hi
        rw [if_pos rfl, getD_set _ _ _ _ _ (by omega), h1]
        by_cases hj : j = b
        · simp [hj]
        · simp [hj]
      · simp [hi]
    intro x y
    unfold edge
    dsimp only
    rw [hcell, hcell]
    by_cases hyx : y < x
    · simp only [hyx, if_true]
      by_cases h : x = a ∧ y = b
      · simp [h]
      · rw [if_neg h, if_neg]
        rintro (h' | h')
        · exact h h'
        · omega
    · simp only [hyx, if_false]
      by_cases hxy : x < y
      · simp only [hxy, if_true]
        by_cases h : y = a ∧ x = b
        · simp [h]
        · rw [if_neg h, if_neg]
          rintro (h' | h')
          · omega
          · exact h ⟨h'.2, h'.1⟩
      · simp only [hxy, if_false]
        rw [if_neg]
        rintro (h' | h') <;> omega

/-- A call of `insert` for two distinct vertices of a well-shaped graph and a
weight that is positive and not `INF`: it returns; the edge between the two
vertices has the weight, and no other edge has changed; if the edge existed the
degrees and the edge count are as before, otherwise the two degrees and the edge
count are one more. -/
theorem insert_edge (g : Weighted_graph W) (N a b : Nat) (w : W) (hs : Shaped g N)
    (ha : a < N) (hb : b < N) (hab : a ≠ b) (hw : 0 < w) (hwt : w ≠ ⊤) :
    ∃ g', g.insert (a : Int) (b : Int) w = .ok g' ∧ Shaped g' N
      ∧ (∀ x y, edge g' x y = if (x = a ∧ y = b) ∨ (x = b ∧ y = a) then w else edge g x y)
      ∧ (edge g a b ≠ ⊤ → g' = { g with matrix := g'.matrix })
      ∧ (edge g a b = ⊤ → g'.edges = g.edges + 1
          ∧ ∀ v, degree_at g' v
              = degree_at g v + (if v = a then 1 else 0) + (if v = b then 1 else 0)) := by
  have hsz : g.graph_size = (N : Int) := hs.1
  have h1 : ¬(w ≤ 0 ∨ w = ⊤) := by
    rintro (h | h)
    · exact absurd hw (not_lt.mpr h)
    · exact hwt h
  have h2 : ¬((a : Int) < 0 ∨ (b : Int) < 0 ∨ (a : Int) > g.graph_size
      ∨ (b : Int) > g.graph_size ∨ (a : Int) = (b : Int)) := by
    rw [hsz]
    rintro (h | h | h | h | h)
    · omega
    · omega
    · omega
    · omega
    · exact hab (by exact_mod_cast h)
  have key : ∀ (x y : Nat), y < x → x < N → ((x = a ∧ y = b) ∨ (x = b ∧ y = a)) →
      ∃ g', (do
        let (newEdge, g) ← (do
            let c ← g.cell (x : Int) (y : Int)
            let newEdge := if c ≠ ⊤ then false else true
            let g ← g.set_cell (x : Int) (y : Int) w
            pure (newEdge, g) : Except Array_fault (Bool × Weighted_graph W))
        if newEdge then do
          let d : Int ← fetch g.vertex_degree (a : Int)
          let vertex_degree ← store g.vertex_degree (a : Int) (d + 1)
          let g := { g with vertex_degree := vertex_degree }
          let d : Int ← fetch g.vertex_degree (b : Int)
          let vertex_degree ← store g.vertex_degree (b : Int) (d + 1)
          pure { g with vertex_degree := vertex_degree, edges := g.edges + 1 }
        else pure g : Except Array_fault (Weighted_graph W)) = .ok g'
      ∧ (∀ p q, edge g' p q = if (p = a ∧ q = b) ∨ (p = b ∧ q = a) then w else edge g p q)
      ∧ (edge g a b ≠ ⊤ → g' = { g with matrix := g'.matrix })
      ∧ (edge g a b = ⊤ → g'.edges = g.edges + 1
          ∧ ∀ v, degree_at g' v
              = degree_at g v + (if v = a then 1 else 0) + (if v = b then 1 else 0)) := by
    intro x y hyx hx hxy
    have hexy : edge g x y = edge g a b := by
      rcases hxy with ⟨e1, e2⟩ | ⟨e1, e2⟩
      · rw [e1, e2]
      · rw [e1, e2, edge_comm]
    obtain ⟨g1, hset, hg1, hg4⟩ := set_cell_edge g N x y w hs hyx hx
    have hg2 : g1.edges = g.edges := by rw [hg1]
    have hg3 : g1.vertex_degree = g.vertex_degree := by rw [hg1]
    have hlen1 : g1.vertex_degree.length = N := by rw [hg3]; exact hs.2.2.2.2.2.2.1
    obtain ⟨g', hg', k1, k2, k3, k4⟩ := count_new_edge g1 N a b
      (if edge g a b ≠ ⊤ then false else true) hlen1 ha hb hab
    refine ⟨g', ?_, ?_, ?_, ?_⟩
    · simp only [cell_eq g N x y hs hyx hx, hset, bind, Except.bind, pure, Except.pure, hexy]
      exact hg'
    · intro p q
      rw [edge_congr g1 g' k1, hg4]
      have : ((p = x ∧ q = y) ∨ (p = y ∧ q = x)) ↔ ((p = a ∧ q = b) ∨ (p = b ∧ q = a)) := by
        rcases hxy with ⟨e1, e2⟩ | ⟨e1, e2⟩
        · rw [e1, e2]
        · rw [e1, e2, or_comm]
      simp only [this]
    · intro he
      have := k3 (by simp [he])
      rw [this]
      exact hg1
    · intro he
      obtain ⟨k5, k6⟩ := k4 (by simp [he])
      refine ⟨by rw [k5, hg2], ?_⟩
      intro v
      rw [k6 v]
      simp only [degree_at, hg3]
  have hins : ∀ g', (g.insert (a : Int) (b : Int) w = .ok g' ↔
      (if (b : Int) < (a : Int) then (do
        let (newEdge, g) ← (do
            let c ← g.cell (a : Int) (b : Int)
            let newEdge := if c ≠ ⊤ then false else true
            let g ← g.set_cell (a : Int) (b : Int) w
            pure (newEdge, g) : Except Array_fault (Bool × Weighted_graph W))
        if newEdge then do
          let d : Int ← fetch g.vertex_degree (a : Int)
          let vertex_degree ← store g.vertex_degree (a : Int) (d + 1)
          let g := { g with vertex_degree := vertex_degree }
          let d : Int ← fetch g.vertex_degree (b : Int)
          let vertex_degree ← store g.vertex_degree (b : Int) (d + 1)
          pure { g with vertex_degree := vertex_degree, edges := g.edges + 1 }
        else pure g : Except Array_fault (Weighted_graph W))
      else (do
        let (newEdge, g) ← (do
            let c ← g.cell (b : Int) (a : Int)
            let newEdge := if c ≠ ⊤ then false else true
            let g ← g.set_cell (b : Int) (a : Int) w
            pure (newEdge, g) : Except Array_fault (Bool × Weighted_graph W))
        if newEdge then do
          let d : Int ← fetch g.vertex_degree (a : Int)
          let vertex_degree ← store g.vertex_degree (a : Int) (d + 1)
          let g := { g with vertex_degree := vertex_degree }
          let d : Int ← fetch g.vertex_degree (b : Int)
          let vertex_degree ← store g.vertex_degree (b : Int) (d + 1)
          pure { g with vertex_degree := vertex_degree, edges := g.edges + 1 }
        else pure g : Except Array_fault (Weighted_graph W))) = .ok g') := by
    intro g'
    unfold insert
    rw [if_neg h1, if_neg h2]
    by_cases hlt : (b : Int) < (a : Int)
    · simp only [hlt, if_true]
    · simp only [hlt, if_false]
  by_cases hlt : b < a
  · obtain ⟨g', hg', k1, k2, k3⟩ := key a b hlt ha (Or.inl ⟨rfl, rfl⟩)
    have hi : g.insert (a : Int) (b : Int) w = .ok g' := by
      rw [hins, if_pos (by exact_mod_cast hlt)]
      exact hg'
    exact ⟨g', hi, insert_shaped g g' N _ _ w hs hi, k1, k2, k3⟩
  · have hlt' : a < b := by omega
    obtain ⟨g', hg', k1, k2, k3⟩ := key b a hlt' hb (Or.inr ⟨rfl, rfl⟩)
    have hi : g.insert (a : Int) (b : Int) w = .ok g' := by
      rw [hins, if_neg (by omega)]
      exact hg'
    exact ⟨g', hi, insert_shaped g g' N _ _ w hs hi, k1, k2, k3⟩

/-- The pairs joined by an edge after `insert` has set the edge between `a` and
`b`: the pair of `a` and `b` is added to those before. -/
theorem edge_pairs_insert (g g' : Weighted_graph W) (N a b : Nat) (w : W) (ha : a < N)
    (hb : b < N) (hab : a ≠ b) (hwt : w ≠ ⊤)
    (hedge : ∀ x y, edge g' x y
      = if (x = a ∧ y = b) ∨ (x = b ∧ y = a) then w else edge g x y) :
    edge_pairs g' N = Insert.insert (if b < a then (a, b) else (b, a)) (edge_pairs g N)
    ∧ ((if b < a then (a, b) else (b, a)) ∈ edge_pairs g N ↔ edge g a b ≠ ⊤) := by
  constructor
  · ext p
    obtain ⟨p1, p2⟩ := p
    simp only [edge_pairs, Finset.mem_filter, Finset.mem_product, Finset.mem_range,
      Finset.mem_insert, hedge]
    constructor
    · rintro ⟨⟨h1, h2⟩, h3, h4⟩
      by_cases hP : (p1 = a ∧ p2 = b) ∨ (p1 = b ∧ p2 = a)
      · left
        rcases hP with ⟨e1, e2⟩ | ⟨e1, e2⟩
        · subst e1 e2
          rw [if_pos h3]
        · subst e1 e2
          rw [if_neg (by omega)]
      · right
        rw [if_neg hP] at h4
        exact ⟨⟨h1, h2⟩, h3, h4⟩
    · rintro (h | ⟨⟨h1, h2⟩, h3, h4⟩)
      · by_cases hlt : b < a
        · rw [if_pos hlt] at h
          cases h
          exact ⟨⟨ha, hb⟩, hlt, by simp [hwt]⟩
        · rw [if_neg hlt] at h
          cases h
          exact ⟨⟨hb, ha⟩, by omega, by simp [hwt]⟩
      · refine ⟨⟨h1, h2⟩, h3, ?_⟩
        split_ifs
        · exact hwt
        · exact h4
  · by_cases hlt : b < a
    · rw [if_pos hlt]
      simp only [edge_pairs, Finset.mem_filter, Finset.mem_product, Finset.mem_range, ha, hb,
        hlt, true_and, and_self]
    · have hlt' : a < b := by omega
      rw [if_neg hlt]
      simp only [edge_pairs, Finset.mem_filter, Finset.mem_product, Finset.mem_range, ha, hb,
        hlt', true_and, and_self, edge_comm g b a]

/-- The number of pairs joined by an edge after `insert`. -/
theorem card_edge_pairs_insert (g g' : Weighted_graph W) (N a b : Nat) (w : W) (ha : a < N)
    (hb : b < N) (hab : a ≠ b) (hwt : w ≠ ⊤)
    (hedge : ∀ x y, edge g' x y
      = if (x = a ∧ y = b) ∨ (x = b ∧ y = a) then w else edge g x y) :
    ((edge_pairs g' N).card : Int)
      = ((edge_pairs g N).card : Int) + (if edge g a b = ⊤ then 1 else 0) := by
  obtain ⟨h1, h2⟩ := edge_pairs_insert g g' N a b w ha hb hab hwt hedge
  rw [h1]
  by_cases he : edge g a b = ⊤
  · rw [if_pos he, Finset.card_insert_of_not_mem (fun hm => (h2.mp hm) he)]
    push_cast
    ring
  · rw [if_neg he, Finset.insert_eq_of_mem (h2.mpr he)]
    ring

/-- The constructor yields a graph without edges, with an edge count of 0 and
all degrees 0. -/
theorem new_counted (k : Int) (g : Weighted_graph W) (h : new k = .ok g) :
    ∃ N, 2 ≤ N ∧ Shaped g N ∧ (∀ a b, edge g a b = ⊤) ∧ g.edges = 0
      ∧ ∀ v, degree_at g v = 0 := by
  obtain ⟨N, hN, hs, he⟩ := new_shaped k g h
  refine ⟨N, hN, hs, he, ?_, ?_⟩
  · unfold new at h
    dsimp only at h
    generalize (if k > 0 then k else 1) = s at h
    split_ifs at h
    cases h
    rfl
  · intro v
    unfold new at h
    dsimp only at h
    generalize (if k > 0 then k else 1) = s at h
    split_ifs at h
    cases h
    simp only [degree_at, List.getElem?_replicate]
    split_ifs <;> rfl

/-- A valid call names two distinct vertices. -/
theorem valid_call_vertices (N : Nat) (c : Int × Int × W) (h : Valid_call N c) :
    ∃ x y : Nat, c.1 = (x : Int) ∧ c.2.1 = (y : Int) ∧ x < N ∧ y < N ∧ x ≠ y
      ∧ 0 < c.2.2 ∧ c.2.2 ≠ ⊤ := by
  obtain ⟨h1, h2, h3, h4, h5, h6, h7⟩ := h
  refine ⟨c.1.toNat, c.2.1.toNat, by omega, by omega, by omega, by omega, ?_, h6, h7⟩
  intro e
  apply h5
  omega

/-- Valid calls of `insert` made in order on a well-shaped graph whose degrees and
edge count are consistent: every call returns, the graph stays consistent, and
every edge has the weight of the last call for its pair of vertices. -/
theorem insert_all_spec (N : Nat) (calls : List (Int × Int × W)) :
    ∀ g : Weighted_graph W, Shaped g N → degree_sum g N = 2 * g.edges →
      g.edges = ((edge_pairs g N).card : Int) → (∀ c ∈ calls, Valid_call N c) →
      ∃ g', insert_all g calls = .ok g' ∧ Shaped g' N ∧ degree_sum g' N = 2 * g'.edges
        ∧ g'.edges = ((edge_pairs g' N).card : Int)
        ∧ ∀ a b : Nat, edge g' a b = calls.foldl
            (fun acc c => if (c.1 = (a : Int) ∧ c.2.1 = (b : Int))
                ∨ (c.1 = (b : Int) ∧ c.2.1 = (a : Int)) then c.2.2 else acc) (edge g a b) := by
  induction calls with
  | nil =>
    intro g hs hd he _
    exact ⟨g, rfl, hs, hd, he, fun a b => rfl⟩
  | cons c calls ih =>
    intro g hs hd he hv
    obtain ⟨x, y, hx, hy, hxN, hyN, hxy, hw, hwt⟩ :=
      valid_call_vertices N c (hv c (List.mem_cons_self _ _))
    obtain ⟨m, n, w⟩ := c
    dsimp only at hx hy hw hwt
    subst hx hy
    obtain ⟨g1, hins, hs1, hedge, hold, hnew⟩ := insert_edge g N x y w hs hxN hyN hxy hw hwt
    have hcard := card_edge_pairs_insert g g1 N x y w hxN hyN hxy hwt hedge
    have hcount : degree_sum g1 N = 2 * g1.edges ∧ g1.edges = ((edge_pairs g1 N).card : Int) := by
      by_cases hex : edge g x y = ⊤
      · obtain ⟨k1, k2⟩ := hnew hex
        rw [if_pos hex] at hcard
        rw [degree_sum_new_edge g g1 N x y hxN hyN k2, hcard, k1, hd, ← he]
        exact ⟨by ring, rfl⟩
      · have k := hold hex
        rw [if_neg hex] at hcard
        have k1 : g1.edges = g.edges := by rw [k]
        have k2 : degree_sum g1 N = degree_sum g N := by
          unfold degree_sum degree_at
          rw [k]
        rw [k2, hcard, k1, hd, ← he]
        exact ⟨rfl, by ring⟩
    obtain ⟨g', hall, hs', hd', he', hlast⟩ := ih g1 hs1 hcount.1 hcount.2
      (fun c hc => hv c (List.mem_cons_of_mem _ hc))
    refine ⟨g', ?_, hs', hd', he', ?_⟩
    · simp only [insert_all, hins, bind, Except.bind]
      exact hall
    · intro a b
      rw [hlast a b, List.foldl_cons, hedge a b]
      congr 1
      have hiff : ((a = x ∧ b = y) ∨ (a = y ∧ b = x))
          ↔ (((x : Int) = (a : Int) ∧ (y : Int) = (b : Int))
            ∨ ((x : Int) = (b : Int) ∧ (y : Int) = (a : Int))) := by
        omega
      by_cases hc : (a = x ∧ b = y) ∨ (a = y ∧ b = x)
      · rw [if_pos hc, if_pos (hiff.mp hc)]
      · rw [if_neg hc, if_neg (fun h => hc (hiff.mpr h))]

/-- C40.  For every graph the constructor returns (N vertices) and every list of
calls `insert(m, n, w)` with distinct vertices below N and weights that are
positive and not `INF`: all calls return, and in the graph they leave `degree(v)`
reads `vertex_degree[v]` for every vertex, the sum of the degrees is twice
`edge_count()`, `edge_count()` is the number of pairs of vertices whose adjacency
entry is not `INF`, and for every two distinct vertices `adjacent(m, n)` and
`adjacent(n, m)` both return the weight of the last call for this pair (`INF`
when there was none).  A further valid call for a pair that has an edge returns a
graph that differs in the matrix only: `adjacent` returns the new weight for this
pair, in both orders, and what it returned before for every other pair. -/
theorem inserts_keep_degrees_and_edge_count (k : Int) (g0 : Weighted_graph W) (N : Nat)
    (calls : List (Int × Int × W)) (h0 : new k = .ok g0) (hN : g0.graph_size = (N : Int))
    (hv : ∀ c ∈ calls, Valid_call N c) :
    ∃ g, insert_all g0 calls = .ok g ∧ g.graph_size = (N : Int)
      ∧ (∀ v : Nat, v < N → g.degree (v : Int) = .ok (degree_at g v))
      ∧ degree_sum g N = 2 * g.edge_count
      ∧ g.edge_count = ((edge_pairs g N).card : Int)
      ∧ (∀ m n : Nat, m < N → n < N → m ≠ n →
          g.adjacent (m : Int) (n : Int) = .ok (last_weight calls (m : Int) (n : Int))
          ∧ g.adjacent (n : Int) (m : Int) = .ok (last_weight calls (m : Int) (n : Int)))
      ∧ (∀ (m n : Nat) (w : W), m < N → n < N → m ≠ n → 0 < w → w ≠ ⊤ →
          last_weight calls (m : Int) (n : Int) ≠ ⊤ →
          ∃ g', g.insert (m : Int) (n : Int) w = .ok g' ∧ g' = { g with matrix := g'.matrix }
            ∧ g'.adjacent (m : Int) (n : Int) = .ok w ∧ g'.adjacent (n : Int) (m : Int) = .ok w
            ∧ ∀ x y : Nat, x < N → y < N → x ≠ y → ¬((x = m ∧ y = n) ∨ (x = n ∧ y = m)) →
                g'.adjacent (x : Int) (y : Int) = g.adjacent (x : Int) (y : Int)) := by
  obtain ⟨N', -, hs0, he0, hz0, hd0⟩ := new_counted k g0 h0
  have hNN : N' = N := by
    have := hs0.1
    rw [hN] at this
    exact_mod_cast this.symm
  subst hNN
  have hdeg0 : degree_sum g0 N' = 2 * g0.edges := by
    simp [degree_sum, hd0, hz0]
  have hpairs0 : g0.edges = ((edge_pairs g0 N').card : Int) := by
    have : edge_pairs g0 N' = ∅ := by
      ext p
      simp [edge_pairs, he0]
    rw [this, hz0]
    rfl
  obtain ⟨g, hall, hs, hd, he, hlast⟩ := insert_all_spec N' calls g0 hs0 hdeg0 hpairs0 hv
  have hlw : ∀ m n : Nat, edge g m n = last_weight calls (m : Int) (n : Int) := by
    intro m n
    rw [hlast m n, he0 m n]
    rfl
  refine ⟨g, hall, hs.1, ?_, hd, he, ?_, ?_⟩
  · intro v hv'
    obtain ⟨d, h1⟩ : ∃ d, g.vertex_degree[v]? = some d :=
      ⟨_, List.getElem?_eq_getElem (by rw [hs.2.2.2.2.2.2.1]; exact hv')⟩
    simp only [degree, fetch_cast _ _ _ h1, degree_at, h1, Option.getD_some]
  · intro m n hm hn hmn
    constructor
    · rw [adjacent_eq g N' m n hs hm hn hmn, hlw]
    · rw [adjacent_eq g N' n m hs hn hm (Ne.symm hmn), edge_comm, hlw]
  · intro m n w hm hn hmn hw hwt hex
    rw [← hlw] at hex
    obtain ⟨g', hins, hs', hedge, hold, -⟩ := insert_edge g N' m n w hs hm hn hmn hw hwt
    refine ⟨g', hins, hold hex, ?_, ?_, ?_⟩
    · rw [adjacent_eq g' N' m n hs' hm hn hmn, hedge, if_pos (Or.inl ⟨rfl, rfl⟩)]
    · rw [adjacent_eq g' N' n m hs' hn hm (Ne.symm hmn), hedge, if_pos (Or.inr ⟨rfl, rfl⟩)]
    · intro x y hx hy hxy hne
      rw [adjacent_eq g' N' x y hs' hx hy hxy, adjacent_eq g N' x y hs hx hy hxy, hedge,
        if_neg hne]

/-- C40 on the graph of 3 vertices with weights in the integers with `INF`, after
`insert(0, 1, 5)`, `insert(1, 2, 7)` and `insert(1, 0, 3)`. -/
theorem inserts_keep_degrees_and_edge_count_witness :
    ∃ g0 g : Weighted_graph (WithTop Int), new 3 = .ok g0
      ∧ insert_all g0 [(0, 1, 5), (1, 2, 7), (1, 0, 3)] = .ok g
      ∧ g.graph_size = 3
      ∧ degree_sum g 3 = 2 * g.edge_count
      ∧ g.edge_count = ((edge_pairs g 3).card : Int)
      ∧ g.edge_count = 2
      ∧ g.adjacent 0 1 = .ok 3 ∧ g.adjacent 1 0 = .ok 3 := by
  have hv : ∀ c ∈ [((0 : Int), (1 : Int), (5 : WithTop Int)), (1, 2, 7), (1, 0, 3)],
      Valid_call 3 c := by
    intro c hc
    simp only [List.mem_cons, List.mem_singleton, List.not_mem_nil, or_false] at hc
    rcases hc with rfl | rfl | rfl <;>
      exact ⟨by decide, by decide, by decide, by decide, by decide, by decide, by decide⟩
  have h0 : new 3 = .ok (show Weighted_graph (WithTop Int) from
      { graph_size := 3, matrix := [[], [⊤], [⊤, ⊤]], edges := 0,
        vertex_distances := [0, 0, 0], vertex_visited := [false, false, false],
        previous_vertex := [0, 0, 0], vertex_degree := [0, 0, 0] }) := rfl
  obtain ⟨g, h1, h2, -, h4, h5, h6, -⟩ := inserts_keep_degrees_and_edge_count 3 _ 3
    [(0, 1, 5), (1, 2, 7), (1, 0, 3)] h0 rfl hv
  have h7 := h6 0 1 (by decide) (by decide) (by decide)
  refine ⟨_, g, h0, h1, h2, h4, h5, ?_, h7.1, h7.2⟩
  cases h1
  rfl

end Weighted_graph
